import Mathlib

/-!
Obfuscation passes: string encryption, indirect branches, inter-procedural secrets.

A verification development over a shallow embedding of
`llvm/lib/Transforms/Obfuscation/{StringEncryption,IndirectBranch,IPObfuscationContext}.cpp`.

Conventions.
* Bytes, 32-bit words and addresses are natural numbers; every operation that the
  source performs in a fixed width reduces its result modulo `2 ^ width` explicitly.
* `std::vector<uint8_t>` is `List Nat`.
* IR objects that the source holds by pointer (globals, functions, blocks, instructions)
  are identified by a natural-number handle.

Part I holds the definitions, Part II the theorems.
-/

namespace Obfuscator

/-! ## Part I. Definitions -/

/-! ### 32-bit machine arithmetic -/

/-- Width of `uint32_t`, `unsigned` and of the IR type `i32`. -/
def W32 : Nat := 2 ^ 32

/-- Addition of two `uint32_t` (or `i32`) values: wraps modulo `2 ^ 32`. -/
def add32 (a b : Nat) : Nat := (a + b) % W32

/-- Subtraction of two `uint32_t` (or `i32`) values: wraps modulo `2 ^ 32`. -/
def sub32 (a b : Nat) : Nat := (a % W32 + (W32 - b % W32)) % W32

/-- The conversion `static_cast<unsigned>(n)` of a `size_t`. -/
def toUnsigned (n : Nat) : Nat := n % W32

/-! ### The random engine -/

/-- Modelled from the spec: the `CryptoUtils` random engine (`IPO->RandomEngine`), whose
source is not part of the development. The spec asks only for a seeded, deterministic
state producing 32-bit words and byte buffers, so the engine is an arbitrary infinite
stream together with a read position: every draw consumes stream cells. -/
structure CryptoUtils where
  stream : Nat → Nat
  pos : Nat

/-- Modelled from the spec: `get_uint32_t()` returns the next 32-bit word. -/
def CryptoUtils.get_uint32_t (R : CryptoUtils) : Nat × CryptoUtils :=
  (R.stream R.pos % W32, { R with pos := R.pos + 1 })

/-- Modelled from the spec: `get_bytes(buf, n)` fills `n` bytes. -/
def CryptoUtils.get_bytes (R : CryptoUtils) (n : Nat) : List Nat × CryptoUtils :=
  ((List.range n).map (fun i => R.stream (R.pos + i) % 256), { R with pos := R.pos + n })

/-! ### String encryption: keys, in-place encryption and the pool -/

/-- The length `Len` that `StringEncryption::getRandomBytes` computes from the PRNG word `N`:
`MinSize` when the bounds coincide, else `MinSize + N % (MaxSize - MinSize)`, all in
`uint32_t`. -/
def getRandomBytesLen (N MinSize MaxSize : Nat) : Nat :=
  if MinSize = MaxSize then MinSize
  else add32 MinSize (N % sub32 MaxSize MinSize)

/-- `StringEncryption::getRandomBytes(Bytes, MinSize, MaxSize)`: draws a word `N`, computes
`Len`, draws `Len` bytes and pushes them onto `Bytes`. Returns the extended vector and the
advanced engine. -/
def getRandomBytes (R : CryptoUtils) (Bytes : List Nat) (MinSize MaxSize : Nat) :
    List Nat × CryptoUtils :=
  let r := R.get_uint32_t
  let N := r.1
  let Len := getRandomBytesLen N MinSize MaxSize
  let b := r.2.get_bytes Len
  (Bytes ++ b.1, b.2)

/-- `StringEncryption::CSPEntry`. `DecGV` and `DecStatus` are the handles of the two
companion globals and `DecFunc` the handle of the generated decrypt routine (0 until it is
built). -/
structure CSPEntry where
  ID : Nat
  Offset : Nat
  Data : List Nat
  EncKey : List Nat
  DecGV : Nat
  DecStatus : Nat
  DecFunc : Nat := 0
deriving Repr, DecidableEq

/-- The loop `for (unsigned i = 0; i < Data.size(); ++i) Data[i] ^= EncKey[i % EncKey.size()];`
with `n` iterations left and counter value `i`. The counter is an `unsigned`; the model
agrees with it for vectors shorter than `2 ^ 32` bytes. -/
def xorLoop (EncKey : List Nat) : Nat → Nat → List Nat → List Nat
  | 0, _, Data => Data
  | n + 1, i, Data =>
    xorLoop EncKey n (i + 1) (Data.set i (Data.getD i 0 ^^^ EncKey.getD (i % EncKey.length) 0))

/-- The in-place encryption of one entry's `Data` (the loop runs `Data.size()` times). -/
def encryptData (EncKey Data : List Nat) : List Nat :=
  xorLoop EncKey Data.length 0 Data

/-- The first loop of `StringEncryption::run` over `ConstantStringPool`: each entry draws its
key with `getRandomBytes(Entry->EncKey, 16, 32)` and is encrypted in place. -/
def encryptPool (R : CryptoUtils) : List CSPEntry → List CSPEntry × CryptoUtils
  | [] => ([], R)
  | Entry :: rest =>
    let k := getRandomBytes R Entry.EncKey 16 32
    let Entry1 := { Entry with EncKey := k.1, Data := encryptData k.1 Entry.Data }
    let r := encryptPool k.2 rest
    (Entry1 :: r.1, r.2)

/-- The state of the pool-emitting loop: the entries processed so far (with `Offset` set),
the byte vector `Data`, the junk runs drawn so far, and the engine. The junk runs are
recorded only so that the layout can be stated; the source keeps them in `JunkBytes`. -/
structure PoolState where
  Entries : List CSPEntry
  Data : List Nat
  Junk : List (List Nat)
  Engine : CryptoUtils

/-- The pool-emitting loop of `StringEncryption::run`: for each entry, clear `JunkBytes`,
draw junk, append it, record `Entry->Offset = static_cast<unsigned>(Data.size())`, append
the key and the ciphertext. -/
def emitPool (R : CryptoUtils) (Data : List Nat) : List CSPEntry → PoolState
  | [] => { Entries := [], Data := Data, Junk := [], Engine := R }
  | Entry :: rest =>
    let j := getRandomBytes R [] 16 32
    let Data1 := Data ++ j.1
    let Entry1 := { Entry with Offset := toUnsigned Data1.length }
    let Data2 := (Data1 ++ Entry1.EncKey) ++ Entry1.Data
    let s := emitPool j.2 Data2 rest
    { s with Entries := Entry1 :: s.Entries, Junk := j.1 :: s.Junk }

/-- The two pool phases of `StringEncryption::run` in sequence: encrypt every entry in
place, then emit `EncryptedStringTable` (the `Data` component of the result). The phases in
between (decrypt and init function construction) draw nothing from the engine and leave
`Data`, `EncKey` and `Offset` alone. -/
def runPool (R : CryptoUtils) (ConstantStringPool : List CSPEntry) : PoolState :=
  let e := encryptPool R ConstantStringPool
  emitPool e.2 [] e.1

/-- What a reader of the pool recovers for an entry at `Offset` with key size `keySize` and
data length `dataLen`: byte `i` is `pool[Offset + keySize + i] XOR pool[Offset + i % keySize]`. -/
def recover (pool : List Nat) (Offset keySize dataLen : Nat) : List Nat :=
  (List.range dataLen).map
    (fun i => pool.getD (Offset + keySize + i) 0 ^^^ pool.getD (Offset + i % keySize) 0)

/-- One pool record as the spec lays it out: junk, then the key, then the ciphertext. -/
def chunk (j : List Nat) (Entry : CSPEntry) : List Nat :=
  (j ++ Entry.EncKey) ++ Entry.Data

/-- The pool as the spec lays it out: the concatenation, in pool order, of the records
`junk_k ++ EncKey_k ++ ciphertext_k`. -/
def layout (Junk : List (List Nat)) (Entries : List CSPEntry) : List Nat :=
  (List.zipWith chunk Junk Entries).flatten

/-- Total length of everything emitted before the key of entry `k`: the `k` earlier
records and the junk run of record `k`. -/
def keyStart (Junk : List (List Nat)) (Entries : List CSPEntry) (k : Nat) : Nat :=
  ((List.zipWith chunk Junk Entries).take k).flatten.length + (Junk.getD k []).length

/-- A sample engine: the stream `3, 10, 17, ...`. -/
def sampleEngine : CryptoUtils := { stream := fun i => 7 * i + 3, pos := 0 }

/-- A sample pool of two collected strings, `"hi"` and `"ok"`, keys still empty. -/
def samplePool : List CSPEntry :=
  [ { ID := 0, Offset := 0, Data := [104, 105, 0], EncKey := [], DecGV := 10, DecStatus := 11 },
    { ID := 1, Offset := 0, Data := [111, 107, 0], EncKey := [], DecGV := 12, DecStatus := 13 } ]

/-! ### The host IR

Only what the passes read or write is modelled. Handles stand for object identity. -/

/-- IR types, as far as the passes tell them apart. -/
inductive Ty
  | Void
  | Int (bits : Nat)
  | Pointer (elt : Ty)
  | Array (n : Nat) (elt : Ty)
  | Named (name : String)
deriving DecidableEq, Repr

/-- Operands. `Argument i` is the `i`-th formal of the enclosing function, `Inst id` the
result of the instruction with handle `id`; the rest are constants. `ConstGEP elt base idxs`
is `ConstantExpr::getGetElementPtr(elt, base, idxs)` with constant `i32` indices given by
value, `ConstBitCast` a constant bitcast and `AggregateZero` a `ConstantAggregateZero`. -/
inductive Value
  | ConstantInt (bits : Nat) (v : Nat)
  | Argument (i : Nat)
  | Inst (id : Nat)
  | Global (g : Nat)
  | Func (f : Nat)
  | BlockAddress (bb : Nat)
  | ConstGEP (elt : Ty) (base : Value) (idxs : List Nat)
  | ConstBitCast (v : Value)
  | AggregateZero (ty : Ty)
  | Undef
deriving DecidableEq, Repr

/-- An `AttributeSet`: the attribute kinds it holds. -/
abbrev AttributeSet := List Nat

/-- An `AttributeList`: function, return and per-parameter attribute sets. -/
structure AttributeList where
  FnAttrs : AttributeSet
  RetAttrs : AttributeSet
  ParamAttrs : List AttributeSet
deriving DecidableEq, Repr

/-- `AttributeList::getParamAttrs(i)`: the empty set beyond the recorded parameters. -/
def AttributeList.getParamAttrs (PAL : AttributeList) (i : Nat) : AttributeSet :=
  PAL.ParamAttrs.getD i []

/-- The part of a call or invoke that `CallBase` holds. -/
structure CallBase where
  Callee : Value
  Args : List Value
  Attrs : AttributeList
  CallingConv : Nat
deriving DecidableEq, Repr

/-- Instruction kinds. A subtraction carries its type, which the builder takes from the
left operand without asking for an integer type; the other integer operations carry their
bit width, a store the type of the stored value, a GEP its source element type; GEP indices
are `i32` values, as everywhere in the passes. -/
inductive Inst
  | Alloca (ty : Ty) (align : Nat)
  | Load (ty : Ty) (ptr : Value)
  | Store (ty : Ty) (val ptr : Value)
  | Sub (ty : Ty) (lhs rhs : Value)
  | Add (bits : Nat) (lhs rhs : Value) (nuw nsw : Bool)
  | Xor (bits : Nat) (lhs rhs : Value)
  | URem (bits : Nat) (lhs rhs : Value)
  | ICmpEQ (lhs rhs : Value)
  | Select (cond t f : Value)
  | GEP (inbounds : Bool) (elt : Ty) (base : Value) (idxs : List Value)
  | PHI (incoming : List (Value × Nat))
  | Call (cb : CallBase) (TailCall : Bool)
  | Invoke (cb : CallBase) (NormalDest UnwindDest : Nat)
  | Br (dest : Nat)
  | CondBr (cond : Value) (ifTrue ifFalse : Nat)
  | IndirectBr (addr : Value) (dests : List Nat)
  | Ret
  | Other (opcode : Nat) (operands : List Value)
deriving DecidableEq, Repr

/-- An instruction: its handle, name, debug location and kind. -/
structure Instruction where
  id : Nat
  Name : String
  DebugLoc : Nat
  I : Inst
deriving DecidableEq, Repr

/-- A basic block: its handle and instructions, the terminator last. -/
structure BasicBlock where
  id : Nat
  Name : String
  Insts : List Instruction
deriving DecidableEq, Repr

/-- Linkage kinds. -/
inductive Linkage
  | External | Internal | Private | LinkOnceAny | LinkOnceODR | Weak
deriving DecidableEq, Repr

/-- A formal argument: its type and name. -/
structure Argument where
  Ty : Ty
  Name : String
deriving DecidableEq, Repr

/-- A function. The function type is `RetTy (Args.map Ty, ...)`; an empty `Blocks` is a
declaration. -/
structure Function where
  id : Nat
  Name : String
  Linkage : Linkage
  RetTy : Ty
  Args : List Argument
  isVarArg : Bool
  Attrs : AttributeList
  CallingConv : Nat
  Comdat : Nat
  Subprogram : Nat
  Section : String
  Blocks : List BasicBlock
deriving DecidableEq, Repr

/-- A `ConstantDataSequential`: whether its type is an array type (else it is a vector
type), its element type, and its elements as `getElementAsInteger` reads them. -/
structure ConstantDataSequential where
  isArrayTy : Bool
  EltTy : Ty
  Elts : List Nat
deriving DecidableEq, Repr

mutual
/-- A constant initializer, as `lowerGlobalConstant` tells the cases apart: a
`ConstantAggregateZero`, a `ConstantArray` (with its element type), a `ConstantStruct`
(with the name of its struct type), or any other constant. -/
inductive Constant
  | AggregateZero (ty : Ty)
  | Array (elt : Ty) (ops : ConstantList)
  | Struct (name : String) (ops : ConstantList)
  | Scalar (ty : Ty) (v : Value)
deriving DecidableEq, Repr
/-- The operands of an aggregate constant. -/
inductive ConstantList
  | nil
  | cons (c : Constant) (rest : ConstantList)
deriving DecidableEq, Repr
end

/-- A global variable; `Init` lists the scalar constants of its initializer in layout
order. The further fields are what string encryption reads: linkage, whether there is an
initializer, `isExternallyInitialized()`, the alignment, the value type, the initializer as
a `ConstantDataSequential` when it is one (it has no operands, so `Init` is empty then), and
the initializer as a tree where it is an aggregate (`none`: it is the single constant of
`Init`, or the `CDS`). -/
structure GlobalVariable where
  id : Nat
  Name : String
  isConstant : Bool
  Init : List Value
  Linkage : Linkage := Linkage.External
  hasInitializer : Bool := true
  isExternallyInitialized : Bool := false
  Alignment : Nat := 0
  ValueTy : Ty := Ty.Void
  CDS : Option ConstantDataSequential := none
  Initializer : Option Constant := none
deriving DecidableEq, Repr

/-- A module: functions and globals in list order, and the next unused handle. -/
structure Module where
  Functions : List Function
  Globals : List GlobalVariable
  NextHandle : Nat
deriving DecidableEq, Repr

/-- `FunctionType::params()`. -/
def Function.Params (F : Function) : List Ty := F.Args.map Argument.Ty

/-- `GlobalValue::hasLocalLinkage()`: internal or private. -/
def Function.hasLocalLinkage (F : Function) : Bool :=
  F.Linkage == Linkage.Internal || F.Linkage == Linkage.Private

/-- `Function::isDeclaration()`: no body. -/
def Function.isDeclaration (F : Function) : Bool := F.Blocks.isEmpty

/-- The operands of an instruction kind, the called operand of a call last. -/
def Inst.operands : Inst → List Value
  | .Alloca _ _ => []
  | .Load _ p => [p]
  | .Store _ v p => [v, p]
  | .Sub _ a b => [a, b]
  | .Add _ a b _ _ => [a, b]
  | .Xor _ a b => [a, b]
  | .URem _ a b => [a, b]
  | .ICmpEQ a b => [a, b]
  | .Select c t f => [c, t, f]
  | .GEP _ _ b is => b :: is
  | .PHI inc => inc.map Prod.fst
  | .Call cb _ => cb.Args ++ [cb.Callee]
  | .Invoke cb _ _ => cb.Args ++ [cb.Callee]
  | .Br _ => []
  | .CondBr c _ _ => [c]
  | .IndirectBr a _ => [a]
  | .Ret => []
  | .Other _ ops => ops

/-- Does the value mention function `f` (directly or inside a constant expression)? -/
def Value.mentionsFunc (f : Nat) : Value → Bool
  | .Func g => g == f
  | .ConstGEP _ b _ => b.mentionsFunc f
  | .ConstBitCast v => v.mentionsFunc f
  | _ => false

/-! ### Use lists -/

/-- One entry of the use-list of a function `f`: the called operand of a call or invoke
(`Callee`, with the handle of the enclosing function and the call), another operand of an
instruction (`Operand`), an operand of a constant expression (`ConstantExpr`), or the
initializer of a global (`Initializer`). -/
inductive Use
  | Callee (Caller : Nat) (Call : Instruction)
  | Operand (Caller : Nat) (User : Instruction)
  | ConstantExpr
  | Initializer (g : Nat)
deriving DecidableEq, Repr

/-- The use that operand `v` of instruction `I` makes of `f`, if any. -/
def operandUse (f Caller : Nat) (I : Instruction) (v : Value) : Option Use :=
  if v = Value.Func f then some (Use.Operand Caller I)
  else if v.mentionsFunc f then some Use.ConstantExpr
  else none

/-- The uses of `f` made by one instruction of function `Caller`. -/
def Instruction.usesOfFunc (f Caller : Nat) (I : Instruction) : List Use :=
  match I.I with
  | .Call cb _ =>
    (if cb.Callee = Value.Func f then [Use.Callee Caller I]
     else if cb.Callee.mentionsFunc f then [Use.ConstantExpr] else [])
      ++ cb.Args.filterMap (operandUse f Caller I)
  | .Invoke cb _ _ =>
    (if cb.Callee = Value.Func f then [Use.Callee Caller I]
     else if cb.Callee.mentionsFunc f then [Use.ConstantExpr] else [])
      ++ cb.Args.filterMap (operandUse f Caller I)
  | k => k.operands.filterMap (operandUse f Caller I)

/-- The uses of `f` inside the body of `G`. -/
def Function.usesOfFunc (f : Nat) (G : Function) : List Use :=
  G.Blocks.flatMap (fun BB => BB.Insts.flatMap (Instruction.usesOfFunc f G.id))

/-- The uses of `f` made by the initializer of `GV`. -/
def GlobalVariable.usesOfFunc (f : Nat) (GV : GlobalVariable) : List Use :=
  GV.Init.filterMap (fun v => if v.mentionsFunc f then some (Use.Initializer GV.id) else none)

/-- `F.uses()`: the use-list of the function with handle `f`, instructions in module order
first, then global initializers. (The host keeps no particular order.) -/
def usesOf (M : Module) (f : Nat) : List Use :=
  M.Functions.flatMap (Function.usesOfFunc f) ++ M.Globals.flatMap (GlobalVariable.usesOfFunc f)

/-- Modelled from the spec: `AbstractCallSite CS(&U); CS && CS.isCallee(&U)`. The class is
host code outside the development; the spec reads the test as "the use is the callee
operand of a call or invoke". -/
def AbstractCallSite.isCallee : Use → Bool
  | .Callee _ _ => true
  | _ => false

/-- Modelled from the spec: `CS.getInstruction()`, the call or invoke of a callee use, null
for any other use. -/
def AbstractCallSite.getInstruction : Use → Option Instruction
  | .Callee _ Call => some Call
  | _ => none

/-- The function enclosing the user of a use (`Call->getParent()->getParent()`). -/
def Use.Caller? : Use → Option Nat
  | .Callee c _ => some c
  | .Operand c _ => some c
  | _ => none

/-! ### Inter-procedural context -/

/-- `IPObfuscationContext::IPOInfo`: handles of the two stack slots and of the load of the
secret, and the secret constant. -/
structure IPOInfo where
  CallerSlot : Nat
  CalleeSlot : Nat
  SecretLI : Nat
  SecretCI : Nat
deriving DecidableEq, Repr

/-- The state of `IPObfuscationContext`. `IPOInfoMap` maps a function handle to its info,
`none` standing for an absent key and for a null pointer alike (`operator[]` reads both as
null). `IPOInfoList` only owns the infos and is left out. -/
structure IPObfuscationContext where
  RandomEngine : CryptoUtils
  LocalFunctions : List Nat
  IPOInfoMap : Nat → Option IPOInfo
  DeadSlots : List Nat

/-- `IPObfuscationContext::getIPOInfo(F)`: `IPOInfoMap[F]`. -/
def IPObfuscationContext.getIPOInfo (C : IPObfuscationContext) (F : Nat) : Option IPOInfo :=
  C.IPOInfoMap F

/-- The loop of `SurveyFunction` over `F.uses()`: false as soon as a use is not a callee
use or has no call instruction. -/
def surveyUses : List Use → Bool
  | [] => true
  | U :: rest =>
    if !AbstractCallSite.isCallee U then false
    else match AbstractCallSite.getInstruction U with
      | none => false
      | some _ => surveyUses rest

/-- `IPObfuscationContext::SurveyFunction(F)`. -/
def SurveyFunction (M : Module) (C : IPObfuscationContext) (F : Function) :
    IPObfuscationContext :=
  if !F.hasLocalLinkage || F.isDeclaration then C
  else if surveyUses (usesOf M F.id) then
    { C with LocalFunctions :=
        if F.id ∈ C.LocalFunctions then C.LocalFunctions else C.LocalFunctions ++ [F.id] }
  else C

/-- Insert instructions at the first position of the entry block (the insertion point
`&F.getEntryBlock().front()`). -/
def Function.insertAtEntry (F : Function) (News : List Instruction) : Function :=
  match F.Blocks with
  | [] => F
  | BB :: rest => { F with Blocks := { BB with Insts := News ++ BB.Insts } :: rest }

/-- Debug location of the first instruction of the entry block, which an `IRBuilder`
positioned there gives to what it creates. -/
def Function.entryDebugLoc (F : Function) : Nat :=
  match F.Blocks with
  | [] => 0
  | BB :: _ => match BB.Insts with
    | [] => 0
    | I :: _ => I.DebugLoc

/-- `IPObfuscationContext::AllocaSecretSlot(F)`: two `i32` stack slots, a random secret
stored to `CallerSlot` and loaded back as `MySecret`. `h` is the next unused handle; four
handles are taken. -/
def AllocaSecretSlot (h : Nat) (R : CryptoUtils) (F : Function) :
    Function × IPOInfo × CryptoUtils :=
  let d := F.entryDebugLoc
  let CallerSlot : Instruction :=
    { id := h, Name := "CallerSlot", DebugLoc := d, I := Inst.Alloca (Ty.Int 32) 4 }
  let CalleeSlot : Instruction :=
    { id := h + 1, Name := "CalleeSlot", DebugLoc := d, I := Inst.Alloca (Ty.Int 32) 4 }
  let r := R.get_uint32_t
  let V := r.1
  let St : Instruction :=
    { id := h + 2, Name := "", DebugLoc := d,
      I := Inst.Store (Ty.Int 32) (Value.ConstantInt 32 V) (Value.Inst CallerSlot.id) }
  let MySecret : Instruction :=
    { id := h + 3, Name := "MySecret", DebugLoc := d,
      I := Inst.Load (Ty.Int 32) (Value.Inst CallerSlot.id) }
  (F.insertAtEntry [CallerSlot, CalleeSlot, St, MySecret],
   { CallerSlot := CallerSlot.id, CalleeSlot := CalleeSlot.id, SecretLI := MySecret.id,
     SecretCI := V },
   r.2)

/-- The loop of `InsertSecretArgument` over the arguments of `F`, from argument `i` on:
pushes each argument type onto `Params` and `PAL.getParamAttrs(i)` onto `ArgAttrVec`. -/
def pushParams (PAL : AttributeList) :
    Nat → List Argument → List Ty × List AttributeSet → List Ty × List AttributeSet
  | _, [], acc => acc
  | i, A :: rest, acc => pushParams PAL (i + 1) rest (acc.1 ++ [A.Ty], acc.2 ++ [PAL.getParamAttrs i])

/-- The function `NF` as `InsertSecretArgument` creates it, before any call site is
rewritten: the new type and attribute list, linkage and the attributes that
`copyAttributesFrom` carries, comdat, the name and subprogram of `F`; unnamed arguments; no
body yet. `h` is its handle. -/
def createNF (h : Nat) (F : Function) : Function :=
  let PAL := F.Attrs
  let p := pushParams PAL 0 F.Args ([Ty.Pointer (Ty.Int 32)], [[]])
  let Params := p.1
  let ArgAttrVec := p.2
  let NewPAL : AttributeList :=
    { FnAttrs := PAL.FnAttrs, RetAttrs := PAL.RetAttrs, ParamAttrs := ArgAttrVec }
  { id := h, Name := F.Name, Linkage := F.Linkage, RetTy := F.RetTy,
    Args := Params.map (fun T => { Ty := T, Name := "" }), isVarArg := F.isVarArg,
    Attrs := NewPAL, CallingConv := F.CallingConv, Comdat := F.Comdat,
    Subprogram := F.Subprogram, Section := F.Section, Blocks := [] }

/-- The first argument loop at a call site: the `n` operands matching the fixed
parameters, each with its call-site attributes; `none` when the call has fewer operands
(the source would read past `arg_end`). Returns the operands not yet consumed and the next
index. -/
def pushFixedArgs (CallPAL : AttributeList) :
    Nat → Nat → List Value → List Value × List AttributeSet →
      Option (List Value × Nat × List Value × List AttributeSet)
  | 0, i, rest, acc => some (rest, i, acc)
  | _ + 1, _, [], _ => none
  | n + 1, i, v :: rest, acc =>
    pushFixedArgs CallPAL n (i + 1) rest (acc.1 ++ [v], acc.2 ++ [CallPAL.getParamAttrs i])

/-- The second argument loop at a call site: the variadic operands up to `arg_end`. -/
def pushVarArgs (CallPAL : AttributeList) :
    Nat → List Value → List Value × List AttributeSet → List Value × List AttributeSet
  | _, [], acc => acc
  | i, v :: rest, acc =>
    pushVarArgs CallPAL (i + 1) rest (acc.1 ++ [v], acc.2 ++ [CallPAL.getParamAttrs i])

/-- The argument vector and attribute list of the new call: `CalleeSlot`, the fixed
operands, the variadic operands. -/
def newCallBase (NF CalleeSlot NumParams : Nat) (cb : CallBase) : Option CallBase :=
  match pushFixedArgs cb.Attrs NumParams 0 cb.Args ([Value.Inst CalleeSlot], [[]]) with
  | none => none
  | some (rest, i, acc) =>
    let a := pushVarArgs cb.Attrs i rest acc
    some { Callee := Value.Func NF, Args := a.1,
           Attrs := { FnAttrs := cb.Attrs.FnAttrs, RetAttrs := cb.Attrs.RetAttrs,
                      ParamAttrs := a.2 },
           CallingConv := cb.CallingConv }

/-- Is the result of instruction `id` used in `G` (`!Call->use_empty()`)? -/
def Function.instUsed (G : Function) (id : Nat) : Bool :=
  G.Blocks.any (fun BB => BB.Insts.any (fun I => I.I.operands.contains (Value.Inst id)))

/-- The instruction that replaces `Call`: an invoke with the same destinations, or a call
with the same tail flag; same calling convention and debug location; the name of `Call`
when `Call` had uses. The new instruction stands where `Call` stood and every use of
`Call` now refers to it (`replaceAllUsesWith` then `eraseFromParent`): the model lets it
keep the handle. `none` when `Call` is no call or invoke. -/
def newCall (NF CalleeSlot NumParams : Nat) (used : Bool) (Call : Instruction) :
    Option Instruction :=
  match Call.I with
  | .Invoke cb n u =>
    match newCallBase NF CalleeSlot NumParams cb with
    | none => none
    | some ncb =>
      some { id := Call.id, Name := if used then Call.Name else "", DebugLoc := Call.DebugLoc,
             I := Inst.Invoke ncb n u }
  | .Call cb t =>
    match newCallBase NF CalleeSlot NumParams cb with
    | none => none
    | some ncb =>
      some { id := Call.id, Name := if used then Call.Name else "", DebugLoc := Call.DebugLoc,
             I := Inst.Call ncb t }
  | _ => none

/-- Replace the instruction with handle `id` inside `G`. -/
def Function.replaceInst (G : Function) (id : Nat) (New : Instruction) : Function :=
  { G with Blocks := G.Blocks.map (fun BB =>
      { BB with Insts := BB.Insts.map (fun I => if I.id = id then New else I) }) }

/-- Apply `g` to the function with handle `f`. -/
def Module.updateFunction (M : Module) (f : Nat) (g : Function → Function) : Module :=
  { M with Functions := M.Functions.map (fun G => if G.id = f then g G else G) }

/-- The function with handle `f`. -/
def Module.getFunction (M : Module) (f : Nat) : Option Function :=
  M.Functions.find? (fun G => G.id = f)

/-- One round of `while (!F->use_empty())`: take the first use, build the new call from
the caller's `CalleeSlot`, put it in place of the old one. `none` when the source would
dereference a null pointer (the use is no call site, or the caller has no `IPOInfo`). -/
def rewriteFirstUse (C : IPObfuscationContext) (NF NumParams : Nat) (M : Module) (U : Use) :
    Option Module :=
  match AbstractCallSite.getInstruction U, U.Caller? with
  | some Call, some Caller =>
    match C.IPOInfoMap Caller, M.getFunction Caller with
    | some SecretInfo, some G =>
      match newCall NF SecretInfo.CalleeSlot NumParams (G.instUsed Call.id) Call with
      | none => none
      | some New => some (M.updateFunction Caller (fun G => G.replaceInst Call.id New))
    | _, _ => none
  | _, _ => none

/-- The loop `while (!F->use_empty())` of `InsertSecretArgument`, with a bound on the number
of rounds: `none` when the bound is reached with uses left, or a round fails. -/
def rewriteUses (C : IPObfuscationContext) (F NF NumParams : Nat) : Nat → Module → Option Module
  | 0, M => if usesOf M F = [] then some M else none
  | fuel + 1, M =>
    match usesOf M F with
    | [] => some M
    | U :: _ =>
      match rewriteFirstUse C NF NumParams M U with
      | none => none
      | some M1 => rewriteUses C F NF NumParams fuel M1

/-- Apply `g` to every operand of an instruction kind. -/
def Inst.mapOperands (g : Value → Value) : Inst → Inst
  | .Alloca t a => .Alloca t a
  | .Load t p => .Load t (g p)
  | .Store T v p => .Store T (g v) (g p)
  | .Sub w a b => .Sub w (g a) (g b)
  | .Add w a b u s => .Add w (g a) (g b) u s
  | .Xor w a b => .Xor w (g a) (g b)
  | .URem w a b => .URem w (g a) (g b)
  | .ICmpEQ a b => .ICmpEQ (g a) (g b)
  | .Select c t f => .Select (g c) (g t) (g f)
  | .GEP ib T b is => .GEP ib T (g b) (is.map g)
  | .PHI inc => .PHI (inc.map (fun x => (g x.1, x.2)))
  | .Call cb t => .Call { cb with Callee := g cb.Callee, Args := cb.Args.map g } t
  | .Invoke cb n u => .Invoke { cb with Callee := g cb.Callee, Args := cb.Args.map g } n u
  | .Br d => .Br d
  | .CondBr c t f => .CondBr (g c) t f
  | .IndirectBr a ds => .IndirectBr (g a) ds
  | .Ret => .Ret
  | .Other o ops => .Other o (ops.map g)

/-- The argument transfer `I->replaceAllUsesWith(I2)`: old argument `i` becomes new
argument `i + 1`. -/
def shiftArgument : Value → Value
  | .Argument i => .Argument (i + 1)
  | v => v

/-- The argument transfer applied to a spliced body. -/
def shiftArguments (Blocks : List BasicBlock) : List BasicBlock :=
  Blocks.map (fun BB =>
    { BB with Insts := BB.Insts.map (fun I => { I with I := I.I.mapOperands shiftArgument }) })

/-- The naming loop over the arguments of `NF`: the first is named `SecretArg`, the others
take the names of the arguments of `F` in order. -/
def nameArguments (NFArgs FArgs : List Argument) : List Argument :=
  match NFArgs with
  | [] => []
  | A0 :: rest =>
    { A0 with Name := "SecretArg" }
      :: List.zipWith (fun (A O : Argument) => { A with Name := O.Name }) rest FArgs

/-- Erase the instruction with handle `id` from `G`. -/
def Function.eraseInst (G : Function) (id : Nat) : Function :=
  { G with Blocks := G.Blocks.map (fun BB =>
      { BB with Insts := BB.Insts.filter (fun I => I.id != id) }) }

/-- `IPObfuscationContext::InsertSecretArgument(F)` on the function with handle `f`.
`fuel` bounds the rounds of the call-site loop. The result is the new module, the new
context and the handle of `NF`; `none` when the source would dereference a null pointer or
the bound is reached. -/
def InsertSecretArgument (fuel : Nat) (M : Module) (C : IPObfuscationContext) (f : Nat) :
    Option (Module × IPObfuscationContext × Nat) :=
  match M.getFunction f with
  | none => none
  | some F =>
    let NF := createNF M.NextHandle F
    let M1 : Module :=
      { M with
        Functions := M.Functions.flatMap (fun G =>
          if G.id = f then [NF, { G with Name := "" }] else [G]),
        NextHandle := M.NextHandle + 1 }
    match rewriteUses C f NF.id F.Params.length fuel M1 with
    | none => none
    | some M2 =>
      match M2.getFunction f, C.IPOInfoMap f with
      | some F2, some Info =>
        let NF1 : Function :=
          { NF with Blocks := shiftArguments F2.Blocks, Args := nameArguments NF.Args F2.Args }
        let MySecret : Instruction :=
          { id := M2.NextHandle, Name := "", DebugLoc := NF1.entryDebugLoc,
            I := Inst.Load (Ty.Pointer (Ty.Int 32)) (Value.Argument 0) }
        let NF2 := (NF1.insertAtEntry [MySecret]).eraseInst Info.SecretLI
        let Info1 : IPOInfo := { Info with SecretLI := MySecret.id }
        let C1 : IPObfuscationContext :=
          { C with
            DeadSlots := C.DeadSlots ++ [Info.CallerSlot],
            IPOInfoMap := fun g =>
              if g = f then none else if g = NF.id then some Info1 else C.IPOInfoMap g }
        let M3 : Module :=
          { M2 with
            Functions := M2.Functions.flatMap (fun G =>
              if G.id = f then [] else if G.id = NF.id then [NF2] else [G]),
            NextHandle := M2.NextHandle + 1 }
        some (M3, C1, NF.id)
      | _, _ => none

/-- Insert `News` right before the instruction with handle `id` inside `G`. -/
def Function.insertBefore (G : Function) (id : Nat) (News : List Instruction) : Function :=
  { G with Blocks := G.Blocks.map (fun BB =>
      { BB with Insts := BB.Insts.flatMap (fun I => if I.id = id then News ++ [I] else [I]) }) }

/-- The type of the value of the instruction with handle `id` in `G`, for the one kind the
context keeps a pointer to: the loaded type of a load. `Ty.Void` for any other instruction
and for a handle that names none. -/
def Function.loadedTy (G : Function) (id : Nat) : Ty :=
  match (G.Blocks.flatMap BasicBlock.Insts).find? (fun I => I.id = id) with
  | some I =>
    match I.I with
    | .Load ty _ => ty
    | _ => Ty.Void
  | none => Ty.Void

/-- `CallerIPOInfo->SecretLI->getType()`: the loaded type of the secret load, read off the
function `Caller` that holds it. -/
def secretTy (M : Module) (Caller : Nat) (CallerIPOInfo : IPOInfo) : Ty :=
  match M.getFunction Caller with
  | some G => G.loadedTy CallerIPOInfo.SecretLI
  | none => Ty.Void

/-- The two instructions that `computeCallSiteSecretArgument` emits before a call:
`CalleeSecret = CallerSecret - X` with the folded constant `X = CallerSecretInt -
CalleeSecretInt` (an `i32`), and the store of `CalleeSecret` to the caller's `CalleeSlot`.
`CreateSub` gives the subtraction the type of its left operand `CallerSecret`, the secret
load, and `CreateStore` stores a value of that type: `SecretTy` is that type. `h` is the
next unused handle. -/
def callSiteSecret (h : Nat) (d : Nat) (SecretTy : Ty) (CallerIPOInfo CalleeIPOInfo : IPOInfo) :
    List Instruction :=
  let X := Value.ConstantInt 32 (sub32 CallerIPOInfo.SecretCI CalleeIPOInfo.SecretCI)
  let CalleeSecret : Instruction :=
    { id := h, Name := "", DebugLoc := d,
      I := Inst.Sub SecretTy (Value.Inst CallerIPOInfo.SecretLI) X }
  let St : Instruction :=
    { id := h + 1, Name := "", DebugLoc := d,
      I := Inst.Store SecretTy (Value.Inst CalleeSecret.id)
        (Value.Inst CallerIPOInfo.CalleeSlot) }
  [CalleeSecret, St]

/-- The loop of `computeCallSiteSecretArgument` over the uses of `F`. -/
def computeCallSiteLoop (C : IPObfuscationContext) (F : Nat) : List Use → Module → Option Module
  | [], M => some M
  | U :: rest, M =>
    match AbstractCallSite.getInstruction U, U.Caller? with
    | some Call, some Caller =>
      match C.IPOInfoMap Caller, C.IPOInfoMap F with
      | some CallerIPOInfo, some CalleeIPOInfo =>
        let News := callSiteSecret M.NextHandle Call.DebugLoc
          (secretTy M Caller CallerIPOInfo) CallerIPOInfo CalleeIPOInfo
        computeCallSiteLoop C F rest
          { (M.updateFunction Caller (fun G => G.insertBefore Call.id News)) with
            NextHandle := M.NextHandle + 2 }
      | _, _ => none
    | _, _ => none

/-- `IPObfuscationContext::computeCallSiteSecretArgument(F)`. -/
def computeCallSiteSecretArgument (M : Module) (C : IPObfuscationContext) (F : Nat) :
    Option Module :=
  computeCallSiteLoop C F (usesOf M F) M

/-- The first loop of `IPObfuscationContext::run`: survey every function. -/
def surveyAll (M : Module) (C : IPObfuscationContext) : IPObfuscationContext :=
  M.Functions.foldl (SurveyFunction M) C

/-- The second loop of `run`, over the functions still to visit: every function with a
body gets its slots and its `IPOInfoMap` entry. Returns the visited functions, the next
unused handle and the context. -/
def allocAll : List Function → Nat → IPObfuscationContext →
    List Function × Nat × IPObfuscationContext
  | [], h, C => ([], h, C)
  | F :: rest, h, C =>
    if F.isDeclaration then
      let r := allocAll rest h C
      (F :: r.1, r.2)
    else
      let a := AllocaSecretSlot h C.RandomEngine F
      let C1 : IPObfuscationContext :=
        { C with RandomEngine := a.2.2,
                 IPOInfoMap := fun g => if g = F.id then some a.2.1 else C.IPOInfoMap g }
      let r := allocAll rest (h + 4) C1
      (a.1 :: r.1, r.2)

/-- The third loop of `run`: replace each local function, collecting the new ones. -/
def insertAll (fuel : Nat) : List Nat → Module → IPObfuscationContext →
    Option (Module × IPObfuscationContext × List Nat)
  | [], M, C => some (M, C, [])
  | f :: rest, M, C =>
    match InsertSecretArgument fuel M C f with
    | none => none
    | some (M1, C1, NF) =>
      match insertAll fuel rest M1 C1 with
      | none => none
      | some (M2, C2, NewFuncs) => some (M2, C2, NF :: NewFuncs)

/-- The fourth loop of `run`: the call-site secrets of every new function. -/
def computeAll (C : IPObfuscationContext) : List Nat → Module → Option Module
  | [], M => some M
  | F :: rest, M =>
    match computeCallSiteSecretArgument M C F with
    | none => none
    | some M1 => computeAll C rest M1

/-- Does the instruction use the slot with handle `Slot`? -/
def Instruction.usesInst (Slot : Nat) (I : Instruction) : Bool :=
  I.I.operands.contains (Value.Inst Slot)

/-- The last loop of `run`: erase every user of each dead slot, and the slot. -/
def removeDeadSlots (DeadSlots : List Nat) (M : Module) : Module :=
  { M with Functions := M.Functions.map (fun G =>
      { G with Blocks := G.Blocks.map (fun BB =>
          { BB with Insts := BB.Insts.filter (fun I =>
              !(DeadSlots.any (fun Slot => I.usesInst Slot || I.id == Slot))) }) }) }

/-- `IPObfuscationContext::run(M)`. `fuel` bounds each call-site loop. -/
def IPObfuscationContext.run (fuel : Nat) (M : Module) (C : IPObfuscationContext) :
    Option (Module × IPObfuscationContext) :=
  let C1 := surveyAll M C
  let a := allocAll M.Functions M.NextHandle C1
  let M1 : Module := { M with Functions := a.1, NextHandle := a.2.1 }
  match insertAll fuel a.2.2.LocalFunctions M1 a.2.2 with
  | none => none
  | some (M2, C2, NewFuncs) =>
    match computeAll C2 NewFuncs M2 with
    | none => none
    | some M3 => some (removeDeadSlots C2.DeadSlots M3, C2)

/-! ### Execution of the emitted IR

A small machine for the instructions that the passes emit, so that claims about the
run-time behaviour of emitted code can be stated. Memory is byte-addressed and
little-endian. A poison result (an `nuw`/`nsw` overflow) and any undefined behaviour end
the execution without a result. -/

/-- What the machine needs to know of the target and the link: pointer width, the addresses
of globals, functions, blocks and stack slots, the layout of named struct types, and the
result of calls to external functions. -/
structure Target where
  PtrBits : Nat
  GlobalAddr : Nat → Nat
  FuncAddr : Nat → Nat
  BlockAddr : Nat → Nat
  StackAddr : Nat → Nat
  StructSize : String → Nat
  FieldOffset : String → Nat → Nat
  FieldTy : String → Nat → Ty
  External : Nat → List Nat → Nat

/-- Store size of a type in bytes. -/
def Target.sizeOf (T : Target) : Ty → Nat
  | .Void => 0
  | .Int bits => (bits + 7) / 8
  | .Pointer _ => T.PtrBits / 8
  | .Array n E => n * T.sizeOf E
  | .Named s => T.StructSize s

/-- Width in bits of a loaded value. -/
def Target.bitsOf (T : Target) : Ty → Nat
  | .Int bits => bits
  | .Pointer _ => T.PtrBits
  | t => 8 * T.sizeOf t

/-- The signed reading of a `bits`-wide value. -/
def signed (bits v : Nat) : Int :=
  if v % 2 ^ bits < 2 ^ (bits - 1) then ((v % 2 ^ bits : Nat) : Int)
  else ((v % 2 ^ bits : Nat) : Int) - ((2 ^ bits : Nat) : Int)

/-- Pointer arithmetic: `base` plus a signed byte offset, wrapped to the pointer width. -/
def Target.ptrAdd (T : Target) (base : Nat) (off : Int) : Nat :=
  Int.toNat (((base : Int) + off) % ((2 ^ T.PtrBits : Nat) : Int))

/-- Byte offset of a GEP below its first index: array elements and struct fields. -/
def Target.descend (T : Target) : Ty → List Int → Int
  | _, [] => 0
  | .Array _ E, i :: rest => i * (T.sizeOf E : Int) + T.descend E rest
  | .Named s, i :: rest =>
    (T.FieldOffset s i.toNat : Int) + T.descend (T.FieldTy s i.toNat) rest
  | _, _ :: _ => 0

/-- Byte offset of a GEP with source element type `elt` and the given (signed) indices. -/
def Target.gepOffset (T : Target) (elt : Ty) : List Int → Int
  | [] => 0
  | i :: rest => i * (T.sizeOf elt : Int) + T.descend elt rest

/-- Read `n` bytes at `a`, little-endian. -/
def loadBytes (Mem : Nat → Nat) (a : Nat) : Nat → Nat
  | 0 => 0
  | n + 1 => Mem a % 256 + 256 * loadBytes Mem (a + 1) n

/-- Write the low `n` bytes of `v` at `a`, little-endian. -/
def storeBytes (Mem : Nat → Nat) (a v : Nat) : Nat → (Nat → Nat)
  | 0 => Mem
  | n + 1 => storeBytes (fun x => if x = a then v % 256 else Mem x) (a + 1) (v / 256) n

/-- The state of an activation: the values of the instructions executed so far (by
handle), the actual arguments, and memory. -/
structure State where
  Regs : Nat → Nat
  Args : List Nat
  Mem : Nat → Nat

/-- Record the result `v` of the instruction with handle `id`. -/
def State.setReg (S : State) (id v : Nat) : State :=
  { S with Regs := fun r => if r = id then v else S.Regs r }

/-- The value of an operand. -/
def Target.eval (T : Target) (S : State) : Value → Nat
  | .ConstantInt bits v => v % 2 ^ bits
  | .Argument i => S.Args.getD i 0
  | .Inst id => S.Regs id
  | .Global g => T.GlobalAddr g % 2 ^ T.PtrBits
  | .Func f => T.FuncAddr f % 2 ^ T.PtrBits
  | .BlockAddress bb => T.BlockAddr bb % 2 ^ T.PtrBits
  | .ConstGEP elt base idxs =>
    T.ptrAdd (T.eval S base) (T.gepOffset elt (idxs.map (signed 32)))
  | .ConstBitCast v => T.eval S v
  | .AggregateZero _ => 0
  | .Undef => 0

/-- Does `a + b` overflow as unsigned `bits`-wide values? -/
def addOverflowsUnsigned (bits a b : Nat) : Bool :=
  decide (2 ^ bits ≤ a % 2 ^ bits + b % 2 ^ bits)

/-- Does `a + b` overflow as signed `bits`-wide values? -/
def addOverflowsSigned (bits a b : Nat) : Bool :=
  decide (signed bits a + signed bits b < -((2 ^ (bits - 1) : Nat) : Int))
    || decide (((2 ^ (bits - 1) : Nat) : Int) ≤ signed bits a + signed bits b)

/-- Execute one non-terminator instruction; `prev` is the block control came from (for
PHI nodes). -/
def Target.execInst (T : Target) (prev : Nat) (S : State) (I : Instruction) : Option State :=
  match I.I with
  | .Alloca _ _ => some (S.setReg I.id (T.StackAddr I.id % 2 ^ T.PtrBits))
  | .Load ty p =>
    some (S.setReg I.id (loadBytes S.Mem (T.eval S p) (T.sizeOf ty) % 2 ^ T.bitsOf ty))
  | .Store ty v p =>
    some { S with Mem := storeBytes S.Mem (T.eval S p) (T.eval S v) (T.sizeOf ty) }
  | .Sub ty a b =>
    some (S.setReg I.id
      ((T.eval S a % 2 ^ T.bitsOf ty + (2 ^ T.bitsOf ty - T.eval S b % 2 ^ T.bitsOf ty))
        % 2 ^ T.bitsOf ty))
  | .Add bits a b nuw nsw =>
    if (nuw && addOverflowsUnsigned bits (T.eval S a) (T.eval S b))
        || (nsw && addOverflowsSigned bits (T.eval S a) (T.eval S b)) then none
    else some (S.setReg I.id ((T.eval S a + T.eval S b) % 2 ^ bits))
  | .Xor bits a b => some (S.setReg I.id ((T.eval S a ^^^ T.eval S b) % 2 ^ bits))
  | .URem bits a b =>
    if T.eval S b % 2 ^ bits = 0 then none
    else some (S.setReg I.id ((T.eval S a % 2 ^ bits) % (T.eval S b % 2 ^ bits)))
  | .ICmpEQ a b => some (S.setReg I.id (if T.eval S a = T.eval S b then 1 else 0))
  | .Select c t f =>
    some (S.setReg I.id (if T.eval S c % 2 = 1 then T.eval S t else T.eval S f))
  | .GEP _ elt base idxs =>
    some (S.setReg I.id
      (T.ptrAdd (T.eval S base) (T.gepOffset elt (idxs.map (fun i => signed 32 (T.eval S i))))))
  | .PHI inc =>
    match inc.find? (fun x => x.2 = prev) with
    | none => none
    | some x => some (S.setReg I.id (T.eval S x.1))
  | .Call cb _ =>
    match cb.Callee with
    | .Func f => some (S.setReg I.id (T.External f (cb.Args.map (T.eval S))))
    | _ => none
  | _ => none

/-- Where control goes after a block. -/
inductive Step
  | Goto (bb : Nat)
  | Return
deriving DecidableEq, Repr

/-- Execute a terminator; `none` for a non-terminator. -/
def Target.execTerminator (T : Target) (S : State) (I : Instruction) : Option Step :=
  match I.I with
  | .Br d => some (Step.Goto d)
  | .CondBr c t f => some (Step.Goto (if T.eval S c % 2 = 1 then t else f))
  | .IndirectBr a dests =>
    match dests.find? (fun d => T.BlockAddr d % 2 ^ T.PtrBits = T.eval S a) with
    | none => none
    | some d => some (Step.Goto d)
  | .Ret => some Step.Return
  | _ => none

/-- Is the instruction a terminator of the kinds above? -/
def Inst.isTerminator : Inst → Bool
  | .Br _ => true
  | .CondBr _ _ _ => true
  | .IndirectBr _ _ => true
  | .Ret => true
  | _ => false

/-- Execute the instructions of a block up to and including its terminator. -/
def Target.execInsts (T : Target) (prev : Nat) : List Instruction → State → Option (State × Step)
  | [], _ => none
  | I :: rest, S =>
    if I.I.isTerminator then
      match T.execTerminator S I with
      | none => none
      | some st => some (S, st)
    else
      match T.execInst prev S I with
      | none => none
      | some S1 => T.execInsts prev rest S1

/-- Run a function body from block `cur` (entered from `prev`), executing at most `fuel`
blocks; the state at the return. -/
def Target.runBlocks (T : Target) (Blocks : List BasicBlock) :
    Nat → Nat → Nat → State → Option State
  | 0, _, _, _ => none
  | fuel + 1, cur, prev, S =>
    match Blocks.find? (fun BB => BB.id = cur) with
    | none => none
    | some BB =>
      match T.execInsts prev BB.Insts S with
      | none => none
      | some (S1, Step.Return) => some S1
      | some (S1, Step.Goto next) => T.runBlocks Blocks fuel next cur S1

/-- Call a function on the given arguments and memory; the memory at the return. -/
def Target.call (T : Target) (F : Function) (fuel : Nat) (Args : List Nat) (Mem : Nat → Nat) :
    Option (Nat → Nat) :=
  match F.Blocks with
  | [] => none
  | Entry :: _ =>
    (T.runBlocks F.Blocks fuel Entry.id Entry.id
      { Regs := fun _ => 0, Args := Args, Mem := Mem }).map State.Mem

/-- Execute a straight-line sequence of non-terminator instructions. -/
def Target.execSeq (T : Target) (prev : Nat) : List Instruction → State → Option State
  | [], S => some S
  | I :: rest, S =>
    match T.execInst prev S I with
    | none => none
    | some S1 => T.execSeq prev rest S1

/-- A sample target: 64-bit pointers, globals, functions, blocks and slots spread over
distinct addresses, no named structs, external calls returning 0. -/
def sampleTarget : Target :=
  { PtrBits := 64,
    GlobalAddr := fun g => 4096 + 256 * g,
    FuncAddr := fun f => 1048576 + 4096 * f,
    BlockAddr := fun b => 2097152 + 16 * b,
    StackAddr := fun i => 8388608 + 8 * i,
    StructSize := fun _ => 0,
    FieldOffset := fun _ _ => 0,
    FieldTy := fun _ _ => Ty.Void,
    External := fun _ _ => 0 }

/-- A function without its body: handle, name, linkage, type, arguments, attributes. -/
def Function.header (G : Function) : Function := { G with Blocks := [] }

/-- A caller state for the sample module: the secret load `1007` holds 10 and the callee
slot `1005` holds its stack address. -/
def sampleCallerState : State :=
  { Regs := fun r => if r = 1007 then 10 else if r = 1005 then 8396648 else 0,
    Args := [], Mem := fun _ => 0 }

/-- Scenario S1, the callee: `static int add(int a, int b)`. -/
def sampleAdd : Function :=
  { id := 1, Name := "add", Linkage := Linkage.Internal, RetTy := Ty.Int 32,
    Args := [⟨Ty.Int 32, "a"⟩, ⟨Ty.Int 32, "b"⟩], isVarArg := false,
    Attrs := { FnAttrs := [7], RetAttrs := [], ParamAttrs := [[1], [2]] },
    CallingConv := 0, Comdat := 0, Subprogram := 0, Section := "",
    Blocks := [ { id := 100, Name := "entry", Insts :=
      [ { id := 101, Name := "s", DebugLoc := 5,
          I := Inst.Add 32 (Value.Argument 0) (Value.Argument 1) false true },
        { id := 102, Name := "", DebugLoc := 6, I := Inst.Ret } ] } ] }

/-- Scenario S1, the caller: `int main()` calling `add(2, 3)` as a tail call. -/
def sampleMain : Function :=
  { id := 2, Name := "main", Linkage := Linkage.External, RetTy := Ty.Int 32,
    Args := [], isVarArg := false,
    Attrs := { FnAttrs := [], RetAttrs := [], ParamAttrs := [] },
    CallingConv := 0, Comdat := 0, Subprogram := 0, Section := "",
    Blocks := [ { id := 200, Name := "entry", Insts :=
      [ { id := 201, Name := "r", DebugLoc := 8,
          I := Inst.Call
            { Callee := Value.Func 1,
              Args := [Value.ConstantInt 32 2, Value.ConstantInt 32 3],
              Attrs := { FnAttrs := [], RetAttrs := [], ParamAttrs := [[9], [8]] },
              CallingConv := 3 } true },
        { id := 202, Name := "", DebugLoc := 9, I := Inst.Ret } ] } ] }

/-- Scenario S1 as a module. -/
def sampleS1 : Module :=
  { Functions := [sampleAdd, sampleMain], Globals := [], NextHandle := 1000 }

/-- Scenario S5: `static int g(int x)` whose address initializes the global `p`. -/
def sampleS5 : Module :=
  { Functions :=
      [ { id := 1, Name := "g", Linkage := Linkage.Internal, RetTy := Ty.Int 32,
          Args := [⟨Ty.Int 32, "x"⟩], isVarArg := false,
          Attrs := { FnAttrs := [], RetAttrs := [], ParamAttrs := [] },
          CallingConv := 0, Comdat := 0, Subprogram := 0, Section := "",
          Blocks := [ { id := 100, Name := "entry", Insts :=
            [ { id := 101, Name := "", DebugLoc := 5, I := Inst.Ret } ] } ] } ],
    Globals := [ { id := 50, Name := "p", isConstant := false, Init := [Value.Func 1] } ],
    NextHandle := 1000 }

/-- A freshly constructed context around the sample engine. -/
def sampleContext : IPObfuscationContext :=
  { RandomEngine := sampleEngine, LocalFunctions := [], IPOInfoMap := fun _ => none,
    DeadSlots := [] }

/-- The sample module S1 and context after the survey and the slot allocation of `run`. -/
def sampleAllocated : Module × IPObfuscationContext :=
  let a := allocAll sampleS1.Functions sampleS1.NextHandle (surveyAll sampleS1 sampleContext)
  ({ sampleS1 with Functions := a.1, NextHandle := a.2.1 }, a.2.2)

/-! ### Indirect branches -/

/-- The member fields of `IndirectBranch`: `BBNumbering` (a `std::map` from blocks to
numbers, as its list of entries) and `BBTargets`. -/
structure IndirectBranch where
  BBNumbering : List (Nat × Nat)
  BBTargets : List Nat
deriving DecidableEq, Repr

/-- `BBNumbering.count(BB)`. -/
def IndirectBranch.count (P : IndirectBranch) (BB : Nat) : Nat :=
  if (P.BBNumbering.lookup BB).isSome then 1 else 0

/-- `BBNumbering[BB]` read through `operator[]`: 0 for an absent key. -/
def IndirectBranch.number (P : IndirectBranch) (BB : Nat) : Nat :=
  (P.BBNumbering.lookup BB).getD 0

/-- `Numbering[BB] = N`: the entry of `BB` is overwritten, or added. -/
def setNumber (Numbering : List (Nat × Nat)) (BB N : Nat) : List (Nat × Nat) :=
  if (Numbering.lookup BB).isSome then
    Numbering.map (fun e => if e.1 = BB then (BB, N) else e)
  else Numbering ++ [(BB, N)]

/-- The inner loop of `NumberBasicBlock` over the successors of a conditional branch: a
successor not yet counted is pushed onto `BBTargets` and entered in `BBNumbering`. -/
def addSuccessors (P : IndirectBranch) : List Nat → IndirectBranch
  | [] => P
  | Succ :: rest =>
    if P.count Succ = 0 then
      addSuccessors
        { BBNumbering := setNumber P.BBNumbering Succ 0, BBTargets := P.BBTargets ++ [Succ] } rest
    else addSuccessors P rest

/-- The successors of the terminator of a block when it is a conditional branch. -/
def BasicBlock.condSuccessors (BB : BasicBlock) : Option (Value × Nat × Nat) :=
  match BB.Insts.getLast? with
  | some I => match I.I with
    | .CondBr c t f => some (c, t, f)
    | _ => none
  | none => none

/-- The first loop of `NumberBasicBlock`, over the blocks of `F`. -/
def collectTargets (P : IndirectBranch) : List BasicBlock → IndirectBranch
  | [] => P
  | BB :: rest =>
    match BB.condSuccessors with
    | some (_, t, f) => collectTargets (addSuccessors P [t, f]) rest
    | none => collectTargets P rest

/-- The last loop of `NumberBasicBlock`: `BBNumbering[BB] = N++` over `BBTargets`. -/
def assignNumbers (Numbering : List (Nat × Nat)) : Nat → List Nat → List (Nat × Nat)
  | _, [] => Numbering
  | N, BB :: rest => assignNumbers (setNumber Numbering BB N) (N + 1) rest

/-- `IndirectBranch::NumberBasicBlock(F)`. `shuffle seed` stands for `std::shuffle` driven by
`std::default_random_engine(seed)`, a permutation that the standard library chooses. -/
def NumberBasicBlock (shuffle : Nat → List Nat → List Nat) (R : CryptoUtils)
    (P : IndirectBranch) (F : Function) : IndirectBranch × CryptoUtils :=
  let P1 := collectTargets P F.Blocks
  let r := R.get_uint32_t
  let seed := r.1
  let Targets := shuffle seed P1.BBTargets
  ({ BBNumbering := assignNumbers P1.BBNumbering 0 Targets, BBTargets := Targets }, r.2)

/-- The encrypted table elements of `getIndirectTargets`: for each target the constant
`getelementptr i8, bitcast(blockaddress(BB)), i32 EncKey`. -/
def encryptTargets (BBTargets : List Nat) (EncKey : Nat) : List Value :=
  BBTargets.map (fun BB =>
    Value.ConstGEP (Ty.Int 8) (Value.ConstBitCast (Value.BlockAddress BB)) [EncKey % W32])

/-- `IndirectBranch::getIndirectTargets(F, EncKey)`: the global `<F>_IndirectBrTargets` if
the module has one already, else a new private global holding the encrypted targets. The
result is the module and the table global. -/
def getIndirectTargets (P : IndirectBranch) (M : Module) (F : Function) (EncKey : Nat) :
    Module × GlobalVariable :=
  let GVName := F.Name ++ "_IndirectBrTargets"
  match M.Globals.find? (fun G => G.Name = GVName) with
  | some GV => (M, GV)
  | none =>
    let GV : GlobalVariable :=
      { id := M.NextHandle, Name := GVName, isConstant := false,
        Init := encryptTargets P.BBTargets EncKey }
    ({ M with Globals := M.Globals ++ [GV], NextHandle := M.NextHandle + 1 }, GV)

/-- The instructions that `run` puts in place of one conditional branch `BI`
(`br Cond, T, F`), with handles from `h` on: the select of the index (folded by the builder
when `Cond` is a constant), the address of the table slot, the load of the encrypted
address, the decryption key `X - MySecret` with the folded constant `X = FuncSecret -
EncKey` (itself folded to a constant when there is no secret), the decrypted address, and
the indirect branch. -/
def rewriteBranch (P : IndirectBranch) (SecretInfo : Option IPOInfo) (EncKey : Nat)
    (DestBBs : GlobalVariable) (h : Nat) (BI : Instruction) (Cond : Value) (T F : Nat) :
    List Instruction :=
  let d := BI.DebugLoc
  let TIdx := Value.ConstantInt 32 (P.number T)
  let FIdx := Value.ConstantInt 32 (P.number F)
  let IdxInsts : List Instruction × Value :=
    match Cond with
    | .ConstantInt _ c => ([], if c % 2 = 1 then TIdx else FIdx)
    | _ => ([{ id := h, Name := "", DebugLoc := d, I := Inst.Select Cond TIdx FIdx }],
            Value.Inst h)
  let GEP : Instruction :=
    { id := h + 1, Name := "", DebugLoc := d,
      I := Inst.GEP false (Ty.Array DestBBs.Init.length (Ty.Pointer (Ty.Int 8)))
            (Value.Global DestBBs.id) [Value.ConstantInt 32 0, IdxInsts.2] }
  let EncDestAddr : Instruction :=
    { id := h + 2, Name := "EncDestAddr", DebugLoc := d,
      I := Inst.Load (Ty.Pointer (Ty.Int 8)) (Value.Inst GEP.id) }
  let DecKeyInsts : List Instruction × Value :=
    match SecretInfo with
    | some Info =>
      ([{ id := h + 3, Name := "", DebugLoc := d,
          I := Inst.Sub (Ty.Int 32) (Value.ConstantInt 32 (sub32 Info.SecretCI EncKey))
                (Value.Inst Info.SecretLI) }],
       Value.Inst (h + 3))
    | none => ([], Value.ConstantInt 32 (sub32 (sub32 0 EncKey) 0))
  let DestAddr : Instruction :=
    { id := h + 4, Name := "", DebugLoc := d,
      I := Inst.GEP false (Ty.Int 8) (Value.Inst EncDestAddr.id) [DecKeyInsts.2] }
  let IBI : Instruction :=
    { id := h + 5, Name := "", DebugLoc := d,
      I := Inst.IndirectBr (Value.Inst DestAddr.id) [T, F] }
  IdxInsts.1 ++ [GEP, EncDestAddr] ++ DecKeyInsts.1 ++ [DestAddr, IBI]

/-- The rewriting loop of `run` over the blocks of `F`; six handles per block. -/
def rewriteBlocks (P : IndirectBranch) (SecretInfo : Option IPOInfo) (EncKey : Nat)
    (DestBBs : GlobalVariable) : Nat → List BasicBlock → List BasicBlock × Nat
  | h, [] => ([], h)
  | h, BB :: rest =>
    match BB.Insts.getLast?, BB.condSuccessors with
    | some BI, some (Cond, T, F) =>
      let r := rewriteBlocks P SecretInfo EncKey DestBBs (h + 6) rest
      ({ BB with Insts := BB.Insts.dropLast
            ++ rewriteBranch P SecretInfo EncKey DestBBs h BI Cond T F } :: r.1, r.2)
    | _, _ =>
      let r := rewriteBlocks P SecretInfo EncKey DestBBs h rest
      (BB :: r.1, r.2)

/-- What `IndirectBranch::run` returns besides the rewritten IR. -/
inductive PreservedAnalyses
  | all
  | none
deriving DecidableEq, Repr

/-- `IndirectBranch::run(F)`. `toObfuscate` and `skipFunction` are the answers of the
options collaborators for `F`; `split` stands for the host utility `SplitAllCriticalEdges`.
`IPO` is dereferenced by `NumberBasicBlock` and so is always present. The result is the
module with `F` replaced and the table added, the engine, the pass fields and the
preserved analyses. -/
def IndirectBranch.run (shuffle : Nat → List Nat → List Nat) (split : Function → Function)
    (toObfuscate skipFunction : Bool) (IPO : IPObfuscationContext) (M : Module) (F : Function) :
    Module × CryptoUtils × IndirectBranch × PreservedAnalyses :=
  let P0 : IndirectBranch := { BBNumbering := [], BBTargets := [] }
  if !toObfuscate then (M, IPO.RandomEngine, P0, PreservedAnalyses.all)
  else if skipFunction then (M, IPO.RandomEngine, P0, PreservedAnalyses.all)
  else if F.Blocks.isEmpty || F.Linkage == Linkage.LinkOnceAny
      || F.Linkage == Linkage.LinkOnceODR || F.Section == ".text.startup" then
    (M, IPO.RandomEngine, P0, PreservedAnalyses.all)
  else
    let F1 := split F
    let n := NumberBasicBlock shuffle IPO.RandomEngine P0 F1
    let P := n.1
    if P.BBNumbering.isEmpty then
      (M.updateFunction F.id (fun _ => F1), n.2, P, PreservedAnalyses.none)
    else
      let r := n.2.get_uint32_t
      let V := r.1 / 4 * 4
      let SecretInfo := IPO.getIPOInfo F.id
      let t := getIndirectTargets P M F1 V
      let b := rewriteBlocks P SecretInfo V t.2 t.1.NextHandle F1.Blocks
      ({ (t.1.updateFunction F.id (fun _ => { F1 with Blocks := b.1 })) with NextHandle := b.2 },
       r.2, P, PreservedAnalyses.none)

/-- Lay the elements of a table of pointers out in memory from address `a` on. -/
def Target.storeTable (T : Target) (S : State) (Mem : Nat → Nat) : Nat → List Value → (Nat → Nat)
  | _, [] => Mem
  | a, v :: rest =>
    T.storeTable S (storeBytes Mem a (T.eval S v) (T.PtrBits / 8)) (a + T.PtrBits / 8) rest

/-- Scenario S2 after the secret argument is in place: `f(SecretArg, c)` loads its secret
and branches on `c` to one of two returning blocks. -/
def sampleBranchy : Function :=
  { id := 3, Name := "f", Linkage := Linkage.Internal, RetTy := Ty.Int 32,
    Args := [⟨Ty.Pointer (Ty.Int 32), "SecretArg"⟩, ⟨Ty.Int 1, "c"⟩], isVarArg := false,
    Attrs := { FnAttrs := [], RetAttrs := [], ParamAttrs := [] },
    CallingConv := 0, Comdat := 0, Subprogram := 0, Section := "",
    Blocks :=
      [ { id := 300, Name := "entry", Insts :=
            [ { id := 310, Name := "MySecret", DebugLoc := 0,
                I := Inst.Load (Ty.Int 32) (Value.Argument 0) },
              { id := 311, Name := "", DebugLoc := 0,
                I := Inst.CondBr (Value.Argument 1) 301 302 } ] },
        { id := 301, Name := "then", Insts :=
            [ { id := 312, Name := "", DebugLoc := 0, I := Inst.Ret } ] },
        { id := 302, Name := "else", Insts :=
            [ { id := 313, Name := "", DebugLoc := 0, I := Inst.Ret } ] } ] }

/-- The module of `sampleBranchy`. -/
def sampleBranchyModule : Module :=
  { Functions := [sampleBranchy], Globals := [], NextHandle := 1000 }

/-- A context whose engine yields the word `0x80000000` at every draw, and in which
`sampleBranchy` has the secret 5, loaded by instruction 310. -/
def minKeyContext : IPObfuscationContext :=
  { RandomEngine := { stream := fun _ => 2147483648, pos := 0 }, LocalFunctions := [],
    IPOInfoMap := fun g => if g = 3 then some ⟨308, 309, 310, 5⟩ else none, DeadSlots := [] }

/-- `IndirectBranch::run` on `sampleBranchy` with that context (the shuffle reverses). -/
def minKeyRun : Module × CryptoUtils × IndirectBranch × PreservedAnalyses :=
  IndirectBranch.run (fun _ l => l.reverse) id true false minKeyContext sampleBranchyModule
    sampleBranchy

/-- The entry block of `sampleBranchy` after the pass. -/
def minKeyEntry : List Instruction :=
  match minKeyRun.1.Functions with
  | F :: _ => match F.Blocks with
    | BB :: _ => BB.Insts
    | [] => []
  | [] => []

/-- The table that the pass emitted for `sampleBranchy`. -/
def minKeyTable : List Value :=
  match minKeyRun.1.Globals with
  | GV :: _ => GV.Init
  | [] => []

/-- A state entering `sampleBranchy` on the sample target: the secret 5 sits at address
9000, which is passed as `SecretArg`, the table is laid out at the address of its global
(handle 1000), and the condition is `c`. -/
def minKeyState (c : Nat) : State :=
  { Regs := fun _ => 0, Args := [9000, c],
    Mem := sampleTarget.storeTable { Regs := fun _ => 0, Args := [], Mem := fun _ => 0 }
      (storeBytes (fun _ => 0) 9000 5 4) (sampleTarget.GlobalAddr 1000) minKeyTable }

/-! ### String encryption: the generated routines -/

/-- `StringEncryption::buildDecryptFunction(M, Entry)`: the routine
`goron_decrypt_string_<ID>(plain_string, data)` with its four blocks. `h` is the handle of
the function; blocks and instructions take the handles after it. Attribute kinds:
0 is `NoCapture`, 1 is `ReadOnly`. -/
def buildDecryptFunction (h : Nat) (Entry : CSPEntry) : Function :=
  let Enter := h + 1
  let LoopBody := h + 2
  let UpdateDecStatus := h + 3
  let Exit := h + 4
  let PlainString := Value.Argument 0
  let Data := Value.Argument 1
  let KeySize := Value.ConstantInt 32 Entry.EncKey.length
  let I (id : Nat) (k : Inst) : Instruction := { id := id, Name := "", DebugLoc := 0, I := k }
  let EncPtr := h + 5
  let DecStatus := h + 6
  let IsDecrypted := h + 7
  let LoopCounter := h + 9
  let EncCharPtr := h + 10
  let EncChar := h + 11
  let KeyIdx := h + 12
  let KeyCharPtr := h + 13
  let KeyChar := h + 14
  let DecChar := h + 15
  let DecCharPtr := h + 16
  let NewCounter := h + 18
  let Cond := h + 19
  { id := h,
    Name := "goron_decrypt_string_"
      ++ String.mk ((Nat.toDigits 16 Entry.ID).map Char.toUpper),
    Linkage := Linkage.Private, RetTy := Ty.Void,
    Args := [⟨Ty.Pointer (Ty.Int 8), "plain_string"⟩, ⟨Ty.Pointer (Ty.Int 8), "data"⟩],
    isVarArg := false,
    Attrs := { FnAttrs := [], RetAttrs := [], ParamAttrs := [[0], [0, 1]] },
    CallingConv := 0, Comdat := 0, Subprogram := 0, Section := "",
    Blocks :=
      [ { id := Enter, Name := "Enter", Insts :=
            [ I EncPtr (Inst.GEP true (Ty.Int 8) Data [KeySize]),
              I DecStatus (Inst.Load (Ty.Int 32) (Value.Global Entry.DecStatus)),
              I IsDecrypted (Inst.ICmpEQ (Value.Inst DecStatus) (Value.ConstantInt 32 1)),
              I (h + 8) (Inst.CondBr (Value.Inst IsDecrypted) Exit LoopBody) ] },
        { id := LoopBody, Name := "LoopBody", Insts :=
            [ I LoopCounter
                (Inst.PHI [(Value.ConstantInt 32 0, Enter), (Value.Inst NewCounter, LoopBody)]),
              I EncCharPtr (Inst.GEP true (Ty.Int 8) (Value.Inst EncPtr) [Value.Inst LoopCounter]),
              I EncChar (Inst.Load (Ty.Int 8) (Value.Inst EncCharPtr)),
              I KeyIdx (Inst.URem 32 (Value.Inst LoopCounter) KeySize),
              I KeyCharPtr (Inst.GEP true (Ty.Int 8) Data [Value.Inst KeyIdx]),
              I KeyChar (Inst.Load (Ty.Int 8) (Value.Inst KeyCharPtr)),
              I DecChar (Inst.Xor 8 (Value.Inst EncChar) (Value.Inst KeyChar)),
              I DecCharPtr (Inst.GEP true (Ty.Int 8) PlainString [Value.Inst LoopCounter]),
              I (h + 17) (Inst.Store (Ty.Int 8) (Value.Inst DecChar) (Value.Inst DecCharPtr)),
              I NewCounter (Inst.Add 32 (Value.Inst LoopCounter) (Value.ConstantInt 32 1) true true),
              I Cond (Inst.ICmpEQ (Value.Inst NewCounter)
                (Value.ConstantInt 32 (toUnsigned Entry.Data.length))),
              I (h + 20) (Inst.CondBr (Value.Inst Cond) UpdateDecStatus LoopBody) ] },
        { id := UpdateDecStatus, Name := "UpdateDecStatus", Insts :=
            [ I (h + 21) (Inst.Store (Ty.Int 32) (Value.ConstantInt 32 1)
                (Value.Global Entry.DecStatus)),
              I (h + 22) (Inst.Br Exit) ] },
        { id := Exit, Name := "Exit", Insts := [ I (h + 23) Inst.Ret ] } ] }

/-- Number of operands. -/
def ConstantList.length : ConstantList → Nat
  | .nil => 0
  | .cons _ rest => rest.length + 1

/-- Type of a constant. -/
def Constant.ty : Constant → Ty
  | .AggregateZero ty => ty
  | .Array elt ops => Ty.Array ops.length elt
  | .Struct name _ => Ty.Named name
  | .Scalar ty _ => ty

/-- The constant as a stored operand. -/
def Constant.value : Constant → Value
  | .AggregateZero ty => Value.AggregateZero ty
  | .Scalar _ v => v
  | _ => Value.Undef

mutual
/-- `StringEncryption::lowerGlobalConstant(CV, IRB, Ptr)`: the stores that write `CV`
through `Ptr`, with handles from `h` on. The builder folds each `CreateGEP(Ptr, {0, i})`
into a constant expression, `Ptr` being a constant. -/
def lowerGlobalConstant (CV : Constant) (Ptr : Value) (h : Nat) : List Instruction × Nat :=
  match CV with
  | .AggregateZero ty =>
    ([{ id := h, Name := "", DebugLoc := 0, I := Inst.Store ty (Value.AggregateZero ty) Ptr }],
     h + 1)
  | .Array elt ops => lowerOperands ops (Ty.Array ops.length elt) Ptr 0 h
  | .Struct name ops => lowerOperands ops (Ty.Named name) Ptr 0 h
  | .Scalar ty v => ([{ id := h, Name := "", DebugLoc := 0, I := Inst.Store ty v Ptr }], h + 1)
/-- The loops of `lowerGlobalConstantArray` and `lowerGlobalConstantStruct` from operand
`i` on; `aggTy` is the type that `Ptr` points to. -/
def lowerOperands (ops : ConstantList) (aggTy : Ty) (Ptr : Value) (i h : Nat) :
    List Instruction × Nat :=
  match ops with
  | .nil => ([], h)
  | .cons CV rest =>
    let GEP := Value.ConstGEP aggTy Ptr [0, i]
    let a := lowerGlobalConstant CV GEP h
    let b := lowerOperands rest aggTy Ptr (i + 1) a.2
    (a.1 ++ b.1, b.2)
end

/-- `StringEncryption::CSUser`, with what `buildInitFunction` reads of the original global
`GV`: its name, its initializer, and whether `isObjCSelectorPtr(GV)` holds; `InitFunc` is
the handle of the generated init routine (0 until it is built). -/
structure CSUser where
  GV : Nat
  GVName : String
  Initializer : Constant
  isObjCSelectorPtr : Bool
  DecGV : Nat
  DecStatus : Nat
  InitFunc : Nat := 0
deriving DecidableEq, Repr

/-- `StringEncryption::buildInitFunction(M, User)`: the routine
`global_variable_init_<name>(this)` with its three blocks. `h` is the handle of the
function and `sel_registerName` the handle of the external function of that name. -/
def buildInitFunction (h sel_registerName : Nat) (User : CSUser) : Function :=
  let Enter := h + 1
  let InitBlock := h + 2
  let Exit := h + 3
  let I (id : Nat) (k : Inst) : Instruction := { id := id, Name := "", DebugLoc := 0, I := k }
  let DecStatus := h + 4
  let IsDecrypted := h + 5
  let lowered := lowerGlobalConstant User.Initializer (Value.Global User.DecGV) (h + 11)
  let selector : List Instruction :=
    if User.isObjCSelectorPtr then
      [ I (h + 7) (Inst.Call
          { Callee := Value.Func sel_registerName, Args := [User.Initializer.value],
            Attrs := { FnAttrs := [], RetAttrs := [], ParamAttrs := [] }, CallingConv := 0 }
          false),
        I (h + 8) (Inst.Store (Ty.Pointer (Ty.Int 8)) (Value.Inst (h + 7))
          (Value.Global User.DecGV)) ]
    else []
  { id := h, Name := "global_variable_init_" ++ User.GVName,
    Linkage := Linkage.Private, RetTy := Ty.Void,
    Args := [⟨Ty.Pointer User.Initializer.ty, "this"⟩], isVarArg := false,
    Attrs := { FnAttrs := [], RetAttrs := [], ParamAttrs := [[0]] },
    CallingConv := 0, Comdat := 0, Subprogram := 0, Section := "",
    Blocks :=
      [ { id := Enter, Name := "Enter", Insts :=
            [ I DecStatus (Inst.Load (Ty.Int 32) (Value.Global User.DecStatus)),
              I IsDecrypted (Inst.ICmpEQ (Value.Inst DecStatus) (Value.ConstantInt 32 1)),
              I (h + 6) (Inst.CondBr (Value.Inst IsDecrypted) Exit InitBlock) ] },
        { id := InitBlock, Name := "InitBlock", Insts :=
            lowered.1 ++ selector ++
            [ I (h + 9) (Inst.Store (Ty.Int 32) (Value.ConstantInt 32 1)
                (Value.Global User.DecStatus)),
              I (h + 10) (Inst.Br Exit) ] },
        { id := Exit, Name := "Exit", Insts := [ I lowered.2 Inst.Ret ] } ] }

/-- A sample encrypted entry: three bytes of data under a two-byte key. -/
def sampleEntry : CSPEntry :=
  { ID := 0, Offset := 16, Data := [1, 2, 0], EncKey := [7, 9], DecGV := 10, DecStatus := 11 }

/-- A sample string user: a global `u` holding one scalar. -/
def sampleUser : CSUser :=
  { GV := 20, GVName := "u", Initializer := Constant.Scalar (Ty.Int 32) (Value.ConstantInt 32 4),
    isObjCSelectorPtr := false, DecGV := 21, DecStatus := 22 }

/-! ### The call-site rewrite as the spec words it -/

/-- The instructions of a function, block after block. -/
def Function.insts (G : Function) : List Instruction :=
  G.Blocks.flatMap BasicBlock.Insts

/-- Is the instruction a direct call or invoke of the function with handle `f`? -/
def Instruction.isCallTo (f : Nat) (I : Instruction) : Bool :=
  match I.I with
  | .Call cb _ => cb.Callee == Value.Func f
  | .Invoke cb _ _ => cb.Callee == Value.Func f
  | _ => false

/-- The call base that the spec asks for at a rewritten call site: callee `NF`, argument
list `[caller.CalleeSlot, original args...]`, the call attributes shifted by one (none on
the secret argument), the calling convention preserved. -/
def specCallBase (NF CalleeSlot : Nat) (cb : CallBase) : CallBase :=
  { Callee := Value.Func NF,
    Args := Value.Inst CalleeSlot :: cb.Args,
    Attrs := { FnAttrs := cb.Attrs.FnAttrs, RetAttrs := cb.Attrs.RetAttrs,
               ParamAttrs := [] :: (List.range cb.Args.length).map cb.Attrs.getParamAttrs },
    CallingConv := cb.CallingConv }

/-- The instruction that the spec asks for in place of a call or invoke: the same kind of
instruction with the tail-call flag (calls) or the destinations (invokes) preserved, the
debug location preserved, and the name of the old call when its value was used. -/
def specCall (NF CalleeSlot : Nat) (used : Bool) (Call : Instruction) : Instruction :=
  match Call.I with
  | .Call cb t =>
    { id := Call.id, Name := if used then Call.Name else "", DebugLoc := Call.DebugLoc,
      I := Inst.Call (specCallBase NF CalleeSlot cb) t }
  | .Invoke cb n u =>
    { id := Call.id, Name := if used then Call.Name else "", DebugLoc := Call.DebugLoc,
      I := Inst.Invoke (specCallBase NF CalleeSlot cb) n u }
  | _ => Call

/-- The spec applied to one instruction of caller `G`: a direct call or invoke of `f` is
replaced using the `CalleeSlot` of `G`; anything else stays. -/
def specRewriteInst (C : IPObfuscationContext) (f NF : Nat) (G : Function) (I : Instruction) :
    Instruction :=
  if I.isCallTo f then
    match C.IPOInfoMap G.id with
    | some Info => specCall NF Info.CalleeSlot (G.instUsed I.id) I
    | none => I
  else I

/-- The spec applied to every instruction of a function. -/
def specRewriteFunction (C : IPObfuscationContext) (f NF : Nat) (G : Function) : Function :=
  { G with Blocks := G.Blocks.map (fun BB =>
      { BB with Insts := BB.Insts.map (specRewriteInst C f NF G) }) }

/-- Number of direct calls and invokes of `f` in the module. -/
def pendingCalls (f : Nat) (M : Module) : Nat :=
  (M.Functions.map (fun G => G.insts.countP (fun I => I.isCallTo f))).sum

/-- The argument operands of a call or invoke (none for other instructions). -/
def Instruction.callArgs (I : Instruction) : List Value :=
  match I.I with
  | .Call cb _ => cb.Args
  | .Invoke cb _ _ => cb.Args
  | _ => []

/-- The instruction touches `f` at most as the called operand of a direct call: a call or
invoke of `f` whose arguments do not mention `f`, or an instruction no operand of which
mentions `f`. -/
def Instruction.siteClean (f : Nat) (I : Instruction) : Bool :=
  if I.isCallTo f then I.callArgs.all (fun v => !v.mentionsFunc f)
  else I.I.operands.all (fun v => !v.mentionsFunc f)

/-- Is the instruction an `alloca`? -/
def Instruction.isAlloca (I : Instruction) : Bool :=
  match I.I with
  | .Alloca _ _ => true
  | _ => false

/-- The replacement that `replaceInst` makes on each instruction. -/
def replaceAt (id : Nat) (New : Instruction) (I : Instruction) : Instruction :=
  if I.id = id then New else I

/-- What the call-site loop of `InsertSecretArgument` needs of the module, and keeps:
distinct function handles, distinct instruction handles inside each function, `f` used
only as the called operand of direct calls, each such call carrying at least `n` arguments
and standing in a function that has an `IPOInfo` whose `CalleeSlot` is not the handle of
one of these calls. -/
structure LoopInv (C : IPObfuscationContext) (f n : Nat) (M : Module) : Prop where
  nodupF : (M.Functions.map Function.id).Nodup
  nodupI : ∀ G ∈ M.Functions, (G.insts.map Instruction.id).Nodup
  clean : ∀ G ∈ M.Functions, ∀ I ∈ G.insts, I.siteClean f = true
  globals : ∀ GV ∈ M.Globals, ∀ v ∈ GV.Init, v.mentionsFunc f = false
  sites : ∀ G ∈ M.Functions, ∀ I ∈ G.insts, I.isCallTo f = true →
    n ≤ I.callArgs.length ∧ ∃ Info, C.IPOInfoMap G.id = some Info
      ∧ ∀ J ∈ G.insts, J.isCallTo f = true → J.id ≠ Info.CalleeSlot

/-! ### String encryption: collecting the C strings -/

/-- `Type::isIntegerTy(Bitwidth)`. -/
def Ty.isIntegerTy (t : Ty) (Bitwidth : Nat) : Bool := t == Ty.Int Bitwidth

/-- The loop of `isCString` with `n` rounds to go at index `i`; `e` is the element count.
The test `i == (e - 1)` is made in `unsigned`. -/
def isCStringLoop (CDS : ConstantDataSequential) (e : Nat) : Nat → Nat → Bool
  | 0, _ => false
  | n + 1, i =>
    if CDS.Elts.getD i 0 = 0 then i == sub32 e 1
    else isCStringLoop CDS e n (i + 1)

/-- `StringEncryption::isCString(CDS)`. `getNumElements()` is an `unsigned`. -/
def isCString (CDS : ConstantDataSequential) : Bool :=
  if !CDS.isArrayTy then false
  else if !CDS.EltTy.isIntegerTy 8 && !CDS.EltTy.isIntegerTy 16
      && !CDS.EltTy.isIntegerTy 32 then false
  else
    let e := toUnsigned CDS.Elts.length
    isCStringLoop CDS e e 0

/-- The kinds of the instructions of `F` that carry the handle `id`. -/
def Function.instKinds (F : Function) (id : Nat) : List Inst :=
  (F.insts.filter (fun I => I.id = id)).map Instruction.I

/-- What a context records as the secret load of function `f` in module `M`: the kinds of
the instructions of `f` with the handle `SecretLI`. -/
def secretLoadKinds (M : Module) (C : IPObfuscationContext) (f : Nat) : Option (List Inst) :=
  match C.IPOInfoMap f, M.getFunction f with
  | some Info, some F => some (F.instKinds Info.SecretLI)
  | _, _ => none

/-- Scenario S1 after the survey, the slot allocation and `InsertSecretArgument(add)`. -/
def sampleInserted : Option (Module × IPObfuscationContext × Nat) :=
  InsertSecretArgument 1 sampleAllocated.1 sampleAllocated.2 1

/-- A state entering the resignatured `add` on the sample target: `SecretArg` is 9000, the
four bytes there hold the secret 3 and the four bytes after them hold 1. -/
def sampleReloadState : State :=
  { Regs := fun _ => 0, Args := [9000, 2, 3],
    Mem := storeBytes (storeBytes (fun _ => 0) 9000 3 4) 9004 1 4 }

/-- What the first loop of `NumberBasicBlock` keeps: `BBTargets` has no repetition and the
keys of `BBNumbering` are the elements of `BBTargets`. -/
structure TargetsInv (P : IndirectBranch) : Prop where
  nodup : P.BBTargets.Nodup
  keys : ∀ BB, (P.BBNumbering.lookup BB).isSome = true ↔ BB ∈ P.BBTargets

/-! ### String encryption: what the decrypt routine leaves in memory -/

/-- Memory after `k` rounds of the decrypt loop on `(out, data)` with key size `keySize`:
byte `i < k` of `out` holds `data[i % keySize] XOR data[keySize + i]`, every other byte is
as in `Mem`. -/
def decryptedMem (Mem : Nat → Nat) (out data keySize k : Nat) : Nat → Nat :=
  fun a =>
    if out ≤ a ∧ a < out + k then
      Mem (data + (a - out) % keySize) % 256 ^^^ Mem (data + keySize + (a - out)) % 256
    else Mem a

/-- Run a function body like `runBlocks` and list the blocks executed, each with the value
that register `watch` holds when the block ends. -/
def Target.traceBlocks (T : Target) (Blocks : List BasicBlock) (watch : Nat) :
    Nat → Nat → Nat → State → Option (List (Nat × Nat))
  | 0, _, _, _ => none
  | fuel + 1, cur, prev, S =>
    match Blocks.find? (fun BB => BB.id = cur) with
    | none => none
    | some BB =>
      match T.execInsts prev BB.Insts S with
      | none => none
      | some (S1, Step.Return) => some [(cur, S1.Regs watch)]
      | some (S1, Step.Goto next) =>
        (T.traceBlocks Blocks watch fuel next cur S1).map (fun l => (cur, S1.Regs watch) :: l)

/-- Call a function like `Target.call` and list the blocks executed. -/
def Target.callTrace (T : Target) (F : Function) (watch fuel : Nat) (Args : List Nat)
    (Mem : Nat → Nat) : Option (List (Nat × Nat)) :=
  match F.Blocks with
  | [] => none
  | Entry :: _ =>
    T.traceBlocks F.Blocks watch fuel Entry.id Entry.id
      { Regs := fun _ => 0, Args := Args, Mem := Mem }

/-- A memory that holds the byte table `pool` from address `tbl` on, and zero elsewhere. -/
def poolMem (pool : List Nat) (tbl : Nat) : Nat → Nat :=
  fun a => if tbl ≤ a then pool.getD (a - tbl) 0 else 0

/-! ### String encryption: the pass

`StringEncryption::run` and what it calls. Handles of the objects that the pass creates are
taken from the `NextHandle` of the module. The containers that the source keys by pointer
(`std::set`, `std::map`) are lists in insertion order. -/

/-- `Twine::utohexstr(n)`: upper-case hexadecimal digits. -/
def utohexstr (n : Nat) : String := String.mk ((Nat.toDigits 16 n).map Char.toUpper)

/-- `CDS->getRawDataValues()` as bytes: each element in `EltTy` bytes, low byte first (the
raw data are in host byte order; the host is taken little-endian). -/
def rawDataValues (CDS : ConstantDataSequential) : List Nat :=
  match CDS.EltTy with
  | .Int bits => CDS.Elts.flatMap (fun e => (List.range (bits / 8)).map (fun b => e / 256 ^ b % 256))
  | _ => []

/-- Does the value mention the global `g` (directly or inside a constant expression)? -/
def Value.mentionsGlobal (g : Nat) : Value → Bool
  | .Global x => x == g
  | .ConstGEP _ b _ => b.mentionsGlobal g
  | .ConstBitCast v => v.mentionsGlobal g
  | _ => false

/-- `GlobalValue::hasLocalLinkage()` of a global variable. -/
def GlobalVariable.hasLocalLinkage (GV : GlobalVariable) : Bool :=
  GV.Linkage == Linkage.Internal || GV.Linkage == Linkage.Private

/-- `GV->getInitializer()` as `lowerGlobalConstant` takes it. -/
def GlobalVariable.getInitializer (GV : GlobalVariable) : Constant :=
  match GV.Initializer with
  | some c => c
  | none => Constant.Scalar GV.ValueTy (GV.Init.headD Value.Undef)

/-- Insertion into a set kept as a list. -/
def setInsert (s : List Nat) (x : Nat) : List Nat := if x ∈ s then s else s ++ [x]

/-- `StringEncryption::collectConstantStringUser(CString, Users)`. The walk over `users()`
goes from the string through constant expressions and aggregates and stops at global
variables, so it adds exactly the globals whose initializer mentions the string (the
instructions it also visits have no global among their transitive users). -/
def collectConstantStringUser (M : Module) (CString : Nat) (Users : List Nat) : List Nat :=
  M.Globals.foldl
    (fun U G => if G.Init.any (Value.mentionsGlobal CString) then setInsert U G.id else U) Users

/-- The fields and locals of `run` during its first loop: the module, the pool, the map
from a string global to (the index in the pool of) its entry, and the candidate users. -/
structure Collected where
  M : Module
  ConstantStringPool : List CSPEntry
  CSPEntryMap : List (Nat × Nat)
  ConstantStringUsers : List Nat
deriving DecidableEq, Repr

/-- The first loop of `StringEncryption::run`, over the globals of the module: a constant
global with a `ConstantDataSequential` initializer that `isCString` accepts gets an entry
with the raw bytes as `Data`, and the two private companions `DecGV` and `DecStatus`, which
are appended to the module. (The loop also meets the companions it has just appended; they
are not constant and are skipped.) -/
def collectStrings : List GlobalVariable → Collected → Collected
  | [], c => c
  | GV :: rest, c =>
    if !GV.isConstant || !GV.hasInitializer then collectStrings rest c
    else
      match GV.CDS with
      | none => collectStrings rest c
      | some CDS =>
        if isCString CDS then
          let ID := toUnsigned c.ConstantStringPool.length
          let h := c.M.NextHandle
          let DecGV : GlobalVariable :=
            { id := h, Name := "dec" ++ utohexstr ID ++ GV.Name, isConstant := false,
              Init := [Value.AggregateZero GV.ValueTy], Linkage := Linkage.Private,
              Alignment := GV.Alignment, ValueTy := GV.ValueTy }
          let DecStatus : GlobalVariable :=
            { id := h + 1, Name := "dec_status_" ++ utohexstr ID ++ GV.Name,
              isConstant := false, Init := [Value.ConstantInt 32 0],
              Linkage := Linkage.Private, ValueTy := Ty.Int 32 }
          let Entry : CSPEntry :=
            { ID := ID, Offset := 0, Data := rawDataValues CDS, EncKey := [], DecGV := h,
              DecStatus := h + 1 }
          let M1 : Module :=
            { c.M with Globals := c.M.Globals ++ [DecGV, DecStatus], NextHandle := h + 2 }
          collectStrings rest
            { M := M1,
              ConstantStringPool := c.ConstantStringPool ++ [Entry],
              CSPEntryMap := c.CSPEntryMap ++ [(GV.id, c.ConstantStringPool.length)],
              ConstantStringUsers := collectConstantStringUser M1 GV.id c.ConstantStringUsers }
        else collectStrings rest c

/-- The part of the second loop of `run` that builds the decrypt routines: entry by entry,
`Entry->DecFunc = buildDecryptFunction(&M, Entry)`; each routine takes 24 handles. The keys
are drawn and the data encrypted by `encryptPool`; the two do not interfere. -/
def buildDecryptFunctions : List CSPEntry → Nat → List CSPEntry × List Function × Nat
  | [], h => ([], [], h)
  | Entry :: rest, h =>
    let r := buildDecryptFunctions rest (h + 24)
    ({ Entry with DecFunc := h } :: r.1, buildDecryptFunction h Entry :: r.2.1, r.2.2)

/-- `StringEncryption::isObjCSelectorPtr(GV)`. -/
def isObjCSelectorPtr (GV : GlobalVariable) : Bool :=
  GV.isExternallyInitialized && GV.hasLocalLinkage
    && GV.Name.startsWith "OBJC_SELECTOR_REFERENCES_"

/-- `StringEncryption::isCFConstantStringTag(GV)`. -/
def isCFConstantStringTag (GV : GlobalVariable) : Bool :=
  GV.ValueTy == Ty.Named "struct.__NSConstantString_tag"

/-- `StringEncryption::isValidToEncrypt(GV)`. -/
def isValidToEncrypt (GV : GlobalVariable) : Bool :=
  if !GV.hasInitializer then false
  else if GV.isConstant then true
  else if isCFConstantStringTag GV || isObjCSelectorPtr GV then true
  else false

/-- `M->getOrInsertFunction("sel_registerName", i8* (i8*))`: the handle of the function of
that name, and the declaration to append (with handle `h`) when the module has none. -/
def getOrInsertSelRegisterName (M : Module) (h : Nat) : Nat × List Function :=
  match M.Functions.find? (fun F => F.Name = "sel_registerName") with
  | some F => (F.id, [])
  | none =>
    (h, [{ id := h, Name := "sel_registerName", Linkage := Linkage.External,
           RetTy := Ty.Pointer (Ty.Int 8), Args := [⟨Ty.Pointer (Ty.Int 8), ""⟩],
           isVarArg := false, Attrs := ⟨[], [], []⟩, CallingConv := 0, Comdat := 0,
           Subprogram := 0, Section := "", Blocks := [] }])

/-- The third loop of `run`, over `ConstantStringUsers`: a user that `isValidToEncrypt`
accepts gets its private `DecGV` and `DecStatus` and its init routine, and is entered in
`CSUserMap` (the candidate users are a set, so no key comes twice). The init routine takes
the handles from `h + 2` up to that of its `ret`. -/
def buildUsers : List Nat → Module → List (Nat × CSUser) → Module × List (Nat × CSUser)
  | [], M, Map => (M, Map)
  | g :: rest, M, Map =>
    match M.Globals.find? (fun G => G.id = g) with
    | none => buildUsers rest M Map
    | some GV =>
      if isValidToEncrypt GV then
        let h := M.NextHandle
        let DecGV : GlobalVariable :=
          { id := h, Name := "dec_" ++ GV.Name, isConstant := false,
            Init := [Value.AggregateZero GV.ValueTy], Linkage := Linkage.Private,
            Alignment := GV.Alignment, ValueTy := GV.ValueTy }
        let DecStatus : GlobalVariable :=
          { id := h + 1, Name := "dec_status_" ++ GV.Name, isConstant := false,
            Init := [Value.ConstantInt 32 0], Linkage := Linkage.Private, ValueTy := Ty.Int 32 }
        let User : CSUser :=
          { GV := GV.id, GVName := GV.Name, Initializer := GV.getInitializer,
            isObjCSelectorPtr := isObjCSelectorPtr GV, DecGV := h, DecStatus := h + 1,
            InitFunc := h + 2 }
        let last := (lowerGlobalConstant User.Initializer (Value.Global User.DecGV) (h + 13)).2
        let s := if User.isObjCSelectorPtr then getOrInsertSelRegisterName M (last + 1)
          else (0, [])
        let InitFunc := buildInitFunction (h + 2) s.1 User
        let M1 : Module :=
          { Functions := M.Functions ++ [InitFunc] ++ s.2,
            Globals := M.Globals ++ [DecGV, DecStatus],
            NextHandle := last + 1 + s.2.length }
        buildUsers rest M1 (Map ++ [(GV.id, User)])
      else buildUsers rest M Map

/-- The fields of the pass that `processConstantStringUse` and the clean-up use;
`EncryptedStringTable` is the handle of the table and `TableTy` its value type. -/
structure StringEncryption where
  ConstantStringPool : List CSPEntry
  CSPEntryMap : List (Nat × Nat)
  CSUserMap : List (Nat × CSUser)
  MaybeDeadGlobalVars : List Nat
  EncryptedStringTable : Nat
  TableTy : Ty
deriving DecidableEq, Repr

/-- `CSPEntryMap.find(GV)`: the entry of a string global. -/
def StringEncryption.entryOf (P : StringEncryption) (g : Nat) : Option CSPEntry :=
  match P.CSPEntryMap.lookup g with
  | some k => P.ConstantStringPool[k]?
  | none => none

/-- `IRB.CreateCall(User->InitFunc, {User->DecGV})` with handle `h` and debug location
`d`. -/
def initCall (User : CSUser) (h d : Nat) : Instruction :=
  { id := h, Name := "", DebugLoc := d,
    I := Inst.Call
      { Callee := Value.Func User.InitFunc, Args := [Value.Global User.DecGV],
        Attrs := ⟨[], [], []⟩, CallingConv := 0 } false }

/-- `IRB.CreateCall(Entry->DecFunc, {OutBuf, Data})`: `OutBuf` is the bitcast of `DecGV` and
`Data` the GEP `EncryptedStringTable[0][Offset]`, both folded by the builder into constant
expressions. -/
def decryptCall (P : StringEncryption) (Entry : CSPEntry) (h d : Nat) : Instruction :=
  { id := h, Name := "", DebugLoc := d,
    I := Inst.Call
      { Callee := Value.Func Entry.DecFunc,
        Args := [Value.ConstBitCast (Value.Global Entry.DecGV),
                 Value.ConstGEP P.TableTy (Value.Global P.EncryptedStringTable)
                   [0, Entry.Offset]],
        Attrs := ⟨[], [], []⟩, CallingConv := 0 } false }

/-- What the two symmetric branches of `processConstantStringUse` need of a global `g`:
the call to insert (its handle and debug location still open) and the replacement `DecGV`.
`CSUserMap` is asked first, then `CSPEntryMap`; `none` when `g` is in neither. -/
def useCall (P : StringEncryption) (g : Nat) : Option ((Nat → Nat → Instruction) × Nat) :=
  match P.CSUserMap.lookup g with
  | some User => some (initCall User, User.DecGV)
  | none =>
    match P.entryOf g with
    | some Entry => some (decryptCall P Entry, Entry.DecGV)
    | none => none

/-- `Inst.replaceUsesOfWith(From, To)`: every operand equal to `From` becomes `To`. -/
def Instruction.replaceUsesOfWith (I : Instruction) (From To : Value) : Instruction :=
  { I with I := I.I.mapOperands (fun v => if v = From then To else v) }

/-- The locals of `processConstantStringUse` during its walk: the blocks of the function,
`DecryptedGV`, `MaybeDeadGlobalVars`, `Changed`, and the next unused handle. -/
structure UseWalk where
  Blocks : List BasicBlock
  DecryptedGV : List Nat
  MaybeDeadGlobalVars : List Nat
  Changed : Bool
  NextHandle : Nat
deriving DecidableEq, Repr

/-- The instructions of the block with handle `bb`. -/
def blockInsts (Blocks : List BasicBlock) (bb : Nat) : Option (List Instruction) :=
  (Blocks.find? (fun B => B.id = bb)).map BasicBlock.Insts

/-- Give the block with handle `bb` the instructions `Insts`. -/
def setBlockInsts (Blocks : List BasicBlock) (bb : Nat) (Insts : List Instruction) :
    List BasicBlock :=
  Blocks.map (fun B => if B.id = bb then { B with Insts := Insts } else B)

/-- `Inst.replaceUsesOfWith(GV, DecGV)` on the instruction at position `p` of block `bb`. -/
def replaceUse (Blocks : List BasicBlock) (bb p g DecGV : Nat) : Option (List BasicBlock) :=
  match blockInsts Blocks bb with
  | none => none
  | some Insts =>
    match Insts[p]? with
    | none => none
    | some Inst =>
      some (setBlockInsts Blocks bb
        (Insts.set p (Inst.replaceUsesOfWith (Value.Global g) (Value.Global DecGV))))

/-- The body of the operand loop for an operand that is the global `g`, the instruction
standing at position `p` of block `bb`: if `g` is in `DecryptedGV` only the operand is
replaced; else the call is inserted right before the instruction (`IRBuilder<> IRB(&Inst)`),
the operand replaced, and `g` entered in `MaybeDeadGlobalVars` and `DecryptedGV`. The result
carries the new position of the instruction. -/
def visitOperand (P : StringEncryption) (bb p g : Nat) (W : UseWalk) : Option (UseWalk × Nat) :=
  match useCall P g with
  | none => some (W, p)
  | some (mk, DecGV) =>
    if g ∈ W.DecryptedGV then
      match replaceUse W.Blocks bb p g DecGV with
      | none => none
      | some Blocks1 => some ({ W with Blocks := Blocks1 }, p)
    else
      match blockInsts W.Blocks bb with
      | none => none
      | some Insts =>
        match Insts[p]? with
        | none => none
        | some Inst =>
          let Call := mk W.NextHandle Inst.DebugLoc
          let Blocks1 := setBlockInsts W.Blocks bb (Insts.take p ++ Call :: Insts.drop p)
          match replaceUse Blocks1 bb (p + 1) g DecGV with
          | none => none
          | some Blocks2 =>
            some ({ Blocks := Blocks2, DecryptedGV := setInsert W.DecryptedGV g,
                    MaybeDeadGlobalVars := setInsert W.MaybeDeadGlobalVars g, Changed := true,
                    NextHandle := W.NextHandle + 1 }, p + 1)

/-- The body of the loop over the incoming values of the PHI node at position `p` of block
`bb`, for an incoming value that is the global `g` coming from block `pred`: as
`visitOperand`, but the call is inserted before the terminator of the incoming block
(`PHI->getIncomingBlock(i)->getTerminator()`). `none` stands for the null dereference when
that block has no terminator. -/
def visitIncoming (P : StringEncryption) (bb p g pred : Nat) (W : UseWalk) : Option UseWalk :=
  match useCall P g with
  | none => some W
  | some (mk, DecGV) =>
    if g ∈ W.DecryptedGV then
      match replaceUse W.Blocks bb p g DecGV with
      | none => none
      | some Blocks1 => some { W with Blocks := Blocks1 }
    else
      match blockInsts W.Blocks pred with
      | none => none
      | some PredInsts =>
        match PredInsts.getLast? with
        | none => none
        | some InsertPoint =>
          if InsertPoint.I.isTerminator then
            let Call := mk W.NextHandle InsertPoint.DebugLoc
            let Blocks1 :=
              setBlockInsts W.Blocks pred (PredInsts.dropLast ++ [Call, InsertPoint])
            match replaceUse Blocks1 bb p g DecGV with
            | none => none
            | some Blocks2 =>
              some { Blocks := Blocks2, DecryptedGV := setInsert W.DecryptedGV g,
                     MaybeDeadGlobalVars := setInsert W.MaybeDeadGlobalVars g,
                     Changed := true, NextHandle := W.NextHandle + 1 }
          else none

/-- The loop `for (i = 0; i < PHI->getNumIncomingValues(); ++i)` with `n` rounds to go; the
incoming value is read from the PHI node as it stands. -/
def phiLoop (P : StringEncryption) (bb p : Nat) : Nat → Nat → UseWalk → Option UseWalk
  | 0, _, W => some W
  | n + 1, i, W =>
    match blockInsts W.Blocks bb with
    | none => none
    | some Insts =>
      match Insts[p]? with
      | none => none
      | some Inst =>
        match Inst.I with
        | .PHI inc =>
          match inc[i]? with
          | some (Value.Global g, pred) =>
            match visitIncoming P bb p g pred W with
            | none => none
            | some W1 => phiLoop P bb p n (i + 1) W1
          | _ => phiLoop P bb p n (i + 1) W
        | _ => none

/-- The loop `for (op = Inst.op_begin(); op != Inst.op_end(); ++op)` with `n` rounds to go
at operand `k`; the operand is read from the instruction as it stands, at its current
position `p`. The result carries the final position of the instruction. -/
def operandLoop (P : StringEncryption) (bb : Nat) : Nat → Nat → Nat → UseWalk →
    Option (UseWalk × Nat)
  | 0, _, p, W => some (W, p)
  | n + 1, k, p, W =>
    match blockInsts W.Blocks bb with
    | none => none
    | some Insts =>
      match Insts[p]? with
      | none => none
      | some Inst =>
        match Inst.I.operands[k]? with
        | some (Value.Global g) =>
          match visitOperand P bb p g W with
          | none => none
          | some (W1, p1) => operandLoop P bb n (k + 1) p1 W1
        | _ => operandLoop P bb n (k + 1) p W

/-- The loop `for (Instruction &Inst : BB)` from position `p` on. The block can grow while
it is walked (calls inserted before the current instruction or before the terminator), so
the walk is bounded by `fuel`; `none` when the bound is reached. -/
def instLoop (P : StringEncryption) (bb : Nat) : Nat → Nat → UseWalk → Option UseWalk
  | 0, _, _ => none
  | fuel + 1, p, W =>
    match blockInsts W.Blocks bb with
    | none => none
    | some Insts =>
      match Insts[p]? with
      | none => some W
      | some Inst =>
        match Inst.I with
        | .PHI inc =>
          match phiLoop P bb p inc.length 0 W with
          | none => none
          | some W1 => instLoop P bb fuel (p + 1) W1
        | k =>
          match operandLoop P bb k.operands.length 0 p W with
          | none => none
          | some (W1, p1) => instLoop P bb fuel (p1 + 1) W1

/-- The loop `for (BasicBlock &BB : *F)`: `DecryptedGV` is cleared at each block. -/
def blockLoop (P : StringEncryption) (fuel : Nat) : List Nat → UseWalk → Option UseWalk
  | [], W => some W
  | bb :: rest, W =>
    match instLoop P bb fuel 0 { W with DecryptedGV := [] } with
    | none => none
    | some W1 => blockLoop P fuel rest W1

/-- `StringEncryption::processConstantStringUse(F)`. `toObfuscate` and `Options` are the
options collaborators, `LowerConstantExpr` the helper that turns constant-expression
operands into instructions (it is handed the next unused handle and returns the new one);
`fuel` bounds the walk of each block. The result is the function, the pass fields, the next
unused handle and `Changed`. -/
def processConstantStringUse (toObfuscate : Function → Bool) (Options : Option (String → Bool))
    (LowerConstantExpr : Nat → Function → Function × Nat) (fuel : Nat)
    (P : StringEncryption) (h : Nat) (F : Function) :
    Option (Function × StringEncryption × Nat × Bool) :=
  if !toObfuscate F then some (F, P, h, false)
  else if (match Options with
      | some skipFunction => skipFunction F.Name
      | none => false) then some (F, P, h, false)
  else
    let l := LowerConstantExpr h F
    match blockLoop P fuel (l.1.Blocks.map BasicBlock.id)
        { Blocks := l.1.Blocks, DecryptedGV := [],
          MaybeDeadGlobalVars := P.MaybeDeadGlobalVars, Changed := false, NextHandle := l.2 } with
    | none => none
    | some W =>
      some ({ l.1 with Blocks := W.Blocks },
            { P with MaybeDeadGlobalVars := W.MaybeDeadGlobalVars }, W.NextHandle, W.Changed)

/-- Is the global `g` used: by an operand of an instruction or by the initializer of a
global, directly or through a constant expression? This is `!GV->use_empty()` once
`removeDeadConstantUsers()` has dropped the constant expressions that nothing uses. -/
def globalUsed (M : Module) (g : Nat) : Bool :=
  M.Functions.any (fun F => F.Blocks.any (fun BB => BB.Insts.any (fun I =>
    I.I.operands.any (Value.mentionsGlobal g))))
  || M.Globals.any (fun G => G.Init.any (Value.mentionsGlobal g))

/-- One pass of the inner loop of `deleteUnusedGlobalVariable` over `MaybeDeadGlobalVars`:
a global with local linkage and no use is erased from the set and from the module. The
result is the module, the globals kept in the set, and `Changed`. -/
def deleteSweep : List Nat → Module → List Nat → Bool → Module × List Nat × Bool
  | [], M, kept, Changed => (M, kept, Changed)
  | g :: rest, M, kept, Changed =>
    match M.Globals.find? (fun G => G.id = g) with
    | none => deleteSweep rest M (kept ++ [g]) Changed
    | some GV =>
      if !GV.hasLocalLinkage then deleteSweep rest M (kept ++ [g]) Changed
      else if !globalUsed M g then
        deleteSweep rest { M with Globals := M.Globals.filter (fun G => G.id != g) } kept true
      else deleteSweep rest M (kept ++ [g]) Changed

/-- The loop `while (Changed)` of `deleteUnusedGlobalVariable` with `n` rounds to go. -/
def deleteLoop : Nat → Module → List Nat → Module × List Nat
  | 0, M, D => (M, D)
  | n + 1, M, D =>
    let r := deleteSweep D M [] false
    if r.2.2 then deleteLoop n r.1 r.2.1 else (r.1, r.2.1)

/-- `StringEncryption::deleteUnusedGlobalVariable()`. Every round but the last erases a
global from the set, so one round more than the set has elements is enough. -/
def deleteUnusedGlobalVariable (M : Module) (MaybeDeadGlobalVars : List Nat) :
    Module × List Nat :=
  deleteLoop (MaybeDeadGlobalVars.length + 1) M MaybeDeadGlobalVars

/-- The last loop of `run`: an entry whose decrypt routine has no use loses the routine
and its two companion globals. -/
def eraseUnusedEntries : List CSPEntry → Module → Module
  | [], M => M
  | Entry :: rest, M =>
    if (usesOf M Entry.DecFunc).isEmpty then
      eraseUnusedEntries rest
        { M with
          Functions := M.Functions.filter (fun F => F.id != Entry.DecFunc),
          Globals := M.Globals.filter
            (fun G => G.id != Entry.DecGV && G.id != Entry.DecStatus) }
    else eraseUnusedEntries rest M

/-- `Changed |= processConstantStringUse(F)` for the functions with the handles in the
list, in order. -/
def processFunctions (toObfuscate : Function → Bool) (Options : Option (String → Bool))
    (LowerConstantExpr : Nat → Function → Function × Nat) (fuel : Nat) :
    List Nat → Module → StringEncryption → Bool → Option (Module × StringEncryption × Bool)
  | [], M, P, Changed => some (M, P, Changed)
  | f :: rest, M, P, Changed =>
    match M.getFunction f with
    | none => none
    | some F =>
      match processConstantStringUse toObfuscate Options LowerConstantExpr fuel P
          M.NextHandle F with
      | none => none
      | some (F1, P1, h1, c) =>
        processFunctions toObfuscate Options LowerConstantExpr fuel rest
          { (M.updateFunction f (fun _ => F1)) with NextHandle := h1 } P1 (Changed || c)

/-- The global `EncryptedStringTable` with handle `h`: a private constant holding `Data`.
`ConstantDataArray::get` gives a `ConstantAggregateZero` for bytes that are all zero (and
for no bytes at all). -/
def encryptedStringTable (h : Nat) (Data : List Nat) : GlobalVariable :=
  if Data.all (fun b => b == 0) then
    { id := h, Name := "EncryptedStringTable", isConstant := true,
      Init := [Value.AggregateZero (Ty.Array Data.length (Ty.Int 8))],
      Linkage := Linkage.Private, ValueTy := Ty.Array Data.length (Ty.Int 8) }
  else
    { id := h, Name := "EncryptedStringTable", isConstant := true, Init := [],
      Linkage := Linkage.Private, ValueTy := Ty.Array Data.length (Ty.Int 8),
      CDS := some ⟨true, Ty.Int 8, Data⟩ }

/-- `StringEncryption::run(M)` on a freshly constructed pass (its containers empty). The
collaborators are those of `processConstantStringUse`; `IPO` is dereferenced by
`getRandomBytes`. The functions are processed in module order (the routines that the pass
has just built among them), then the init routines once more in the order of `CSUserMap`.
The result is the module, the engine, the pass fields and the preserved analyses; `none`
when a walk runs out of `fuel` or dereferences a null pointer. -/
def StringEncryption.run (toObfuscate : Function → Bool) (Options : Option (String → Bool))
    (LowerConstantExpr : Nat → Function → Function × Nat) (fuel : Nat)
    (IPO : IPObfuscationContext) (M : Module) :
    Option (Module × CryptoUtils × StringEncryption × PreservedAnalyses) :=
  let c := collectStrings M.Globals
    { M := M, ConstantStringPool := [], CSPEntryMap := [], ConstantStringUsers := [] }
  let e := encryptPool IPO.RandomEngine c.ConstantStringPool
  let d := buildDecryptFunctions e.1 c.M.NextHandle
  let M1 : Module := { c.M with Functions := c.M.Functions ++ d.2.1, NextHandle := d.2.2 }
  let u := buildUsers c.ConstantStringUsers M1 []
  let s := emitPool e.2 [] d.1
  let Table := encryptedStringTable u.1.NextHandle s.Data
  let M2 : Module :=
    { u.1 with Globals := u.1.Globals ++ [Table], NextHandle := u.1.NextHandle + 1 }
  let P : StringEncryption :=
    { ConstantStringPool := s.Entries, CSPEntryMap := c.CSPEntryMap, CSUserMap := u.2,
      MaybeDeadGlobalVars := [], EncryptedStringTable := Table.id, TableTy := Table.ValueTy }
  match processFunctions toObfuscate Options LowerConstantExpr fuel
      ((M2.Functions.filter (fun F => !F.isDeclaration)).map Function.id) M2 P false with
  | none => none
  | some (M3, P3, Changed3) =>
    match processFunctions toObfuscate Options LowerConstantExpr fuel
        (P3.CSUserMap.map (fun I => I.2.InitFunc)) M3 P3 Changed3 with
    | none => none
    | some (M4, P4, Changed) =>
      let del := deleteUnusedGlobalVariable M4 P4.MaybeDeadGlobalVars
      let M5 := eraseUnusedEntries P4.ConstantStringPool del.1
      some (M5, s.Engine, { P4 with MaybeDeadGlobalVars := del.2 },
        if Changed then PreservedAnalyses.none else PreservedAnalyses.all)

/-- Sample pass fields: the string global `s` (handle 30) has the entry with `DecGV` 31,
`DecStatus` 32 and decrypt routine 33; the table has handle 60. -/
def samplePass : StringEncryption :=
  { ConstantStringPool :=
      [{ ID := 0, Offset := 16, Data := [1, 2, 0], EncKey := [7, 9], DecGV := 31,
         DecStatus := 32, DecFunc := 33 }],
    CSPEntryMap := [(30, 0)], CSUserMap := [], MaybeDeadGlobalVars := [],
    EncryptedStringTable := 60, TableTy := Ty.Array 21 (Ty.Int 8) }

/-- A diamond `entry -> (left | right) -> join` whose join block holds `Join`. -/
def sampleDiamond (Join : List Instruction) : Function :=
  { id := 3, Name := "pick", Linkage := Linkage.External, RetTy := Ty.Void,
    Args := [⟨Ty.Int 1, "c"⟩, ⟨Ty.Pointer (Ty.Int 8), "x"⟩], isVarArg := false,
    Attrs := { FnAttrs := [], RetAttrs := [], ParamAttrs := [] },
    CallingConv := 0, Comdat := 0, Subprogram := 0, Section := "",
    Blocks :=
      [ { id := 100, Name := "entry", Insts :=
            [ { id := 110, Name := "", DebugLoc := 1,
                I := Inst.CondBr (Value.Argument 0) 101 102 } ] },
        { id := 101, Name := "left", Insts :=
            [ { id := 111, Name := "", DebugLoc := 2, I := Inst.Br 103 } ] },
        { id := 102, Name := "right", Insts :=
            [ { id := 112, Name := "", DebugLoc := 3, I := Inst.Br 103 } ] },
        { id := 103, Name := "join", Insts := Join } ] }

/-- The join block `p = phi [s, left], [s, right]; puts(p); ret`: the PHI node receives the
string `s` from both predecessors. -/
def samplePhiTwice : Function :=
  sampleDiamond
    [ { id := 113, Name := "p", DebugLoc := 4,
        I := Inst.PHI [(Value.Global 30, 101), (Value.Global 30, 102)] },
      { id := 114, Name := "", DebugLoc := 5, I := Inst.Other 0 [Value.Inst 113] },
      { id := 115, Name := "", DebugLoc := 6, I := Inst.Ret } ]

/-- The join block `p = phi [s, left], [x, right]; puts(p); c = load i8, s; ret`: the PHI
node receives the string `s` from `left` only, and a later instruction of the block uses
`s` itself. -/
def samplePhiThenUse : Function :=
  sampleDiamond
    [ { id := 113, Name := "p", DebugLoc := 4,
        I := Inst.PHI [(Value.Global 30, 101), (Value.Argument 1, 102)] },
      { id := 114, Name := "", DebugLoc := 5, I := Inst.Other 0 [Value.Inst 113] },
      { id := 115, Name := "c", DebugLoc := 6, I := Inst.Load (Ty.Int 8) (Value.Global 30) },
      { id := 116, Name := "", DebugLoc := 7, I := Inst.Ret } ]

/-- A module with one C string `s = "hi"` (private, constant) that `main` loads from. -/
def sampleStringModule : Module :=
  { Functions :=
      [ { id := 2, Name := "main", Linkage := Linkage.External, RetTy := Ty.Int 32,
          Args := [], isVarArg := false,
          Attrs := { FnAttrs := [], RetAttrs := [], ParamAttrs := [] },
          CallingConv := 0, Comdat := 0, Subprogram := 0, Section := "",
          Blocks := [ { id := 200, Name := "entry", Insts :=
            [ { id := 201, Name := "c", DebugLoc := 8,
                I := Inst.Load (Ty.Int 8) (Value.Global 30) },
              { id := 202, Name := "", DebugLoc := 9, I := Inst.Ret } ] } ] } ],
    Globals :=
      [ { id := 30, Name := "s", isConstant := true, Init := [], Linkage := Linkage.Private,
          Alignment := 1, ValueTy := Ty.Array 3 (Ty.Int 8),
          CDS := some ⟨true, Ty.Int 8, [104, 105, 0]⟩ } ],
    NextHandle := 1000 }

/-- The entry that `run` leaves in the pool for the string of `sampleStringModule` under
the sample engine. -/
def sampleStringEntry : CSPEntry :=
  { ID := 0, Offset := 31, Data := [98, 120, 24],
    EncKey := [10, 17, 24, 31, 38, 45, 52, 59, 66, 73, 80, 87, 94, 101, 108, 115, 122, 129, 136],
    DecGV := 1000, DecStatus := 1001, DecFunc := 1002 }

/-! ### Inter-procedural context: the caller lookups

Every rewritten call site and every visited use reads `IPOInfoMap[Caller]`. The definitions
below list these reads in the order in which `run` makes them, each with the module and the
context at that time, so that a property of all of them can be stated. -/

/-- One read of `IPOInfoMap[Caller]`: the module and the context when it is made, the
handle of the function that encloses the call (`Call->getParent()->getParent()`), and the
call. -/
structure CallerLookup where
  M : Module
  C : IPObfuscationContext
  Caller : Nat
  Call : Instruction

/-- The read yields a non-null `IPOInfo`, the function with handle `Caller` holds `Call`,
and the `CalleeSlot` of the info is an `alloca` of that function. -/
def CallerLookup.present (L : CallerLookup) : Bool :=
  match L.C.IPOInfoMap L.Caller, L.M.getFunction L.Caller with
  | some Info, some G =>
    G.insts.contains L.Call && G.insts.any (fun A => A.id == Info.CalleeSlot && A.isAlloca)
  | _, _ => false

/-- The reads of the loop `while (!F->use_empty())` of `InsertSecretArgument`, one per
round, the rounds being those of `rewriteUses`. -/
def rewriteUsesLookups (C : IPObfuscationContext) (F NF NumParams : Nat) :
    Nat → Module → List CallerLookup
  | 0, _ => []
  | fuel + 1, M =>
    match usesOf M F with
    | [] => []
    | U :: _ =>
      match AbstractCallSite.getInstruction U, U.Caller? with
      | some Call, some Caller =>
        { M := M, C := C, Caller := Caller, Call := Call } ::
          (match rewriteFirstUse C NF NumParams M U with
           | none => []
           | some M1 => rewriteUsesLookups C F NF NumParams fuel M1)
      | _, _ => []

/-- The reads of `InsertSecretArgument(F)`: those of its call-site loop, which starts in
the module that holds the new function before `F`. -/
def InsertSecretArgumentLookups (fuel : Nat) (M : Module) (C : IPObfuscationContext)
    (f : Nat) : List CallerLookup :=
  match M.getFunction f with
  | none => []
  | some F =>
    let NF := createNF M.NextHandle F
    rewriteUsesLookups C f NF.id F.Params.length fuel
      { M with
        Functions := M.Functions.flatMap (fun G =>
          if G.id = f then [NF, { G with Name := "" }] else [G]),
        NextHandle := M.NextHandle + 1 }

/-- The reads of the third loop of `run`. -/
def insertAllLookups (fuel : Nat) :
    List Nat → Module → IPObfuscationContext → List CallerLookup
  | [], _, _ => []
  | f :: rest, M, C =>
    InsertSecretArgumentLookups fuel M C f ++
      (match InsertSecretArgument fuel M C f with
       | none => []
       | some (M1, C1, _) => insertAllLookups fuel rest M1 C1)

/-- The reads of the loop of `computeCallSiteSecretArgument` over the uses of `F`, one per
use visited. -/
def computeCallSiteLookups (C : IPObfuscationContext) (F : Nat) :
    List Use → Module → List CallerLookup
  | [], _ => []
  | U :: rest, M =>
    match AbstractCallSite.getInstruction U, U.Caller? with
    | some Call, some Caller =>
      { M := M, C := C, Caller := Caller, Call := Call } ::
        (match C.IPOInfoMap Caller, C.IPOInfoMap F with
         | some CallerIPOInfo, some CalleeIPOInfo =>
           computeCallSiteLookups C F rest
             { (M.updateFunction Caller (fun G => G.insertBefore Call.id
                  (callSiteSecret M.NextHandle Call.DebugLoc
                    (secretTy M Caller CallerIPOInfo) CallerIPOInfo CalleeIPOInfo))) with
               NextHandle := M.NextHandle + 2 }
         | _, _ => [])
    | _, _ => []

/-- The reads of the fourth loop of `run`. -/
def computeAllLookups (C : IPObfuscationContext) : List Nat → Module → List CallerLookup
  | [], _ => []
  | F :: rest, M =>
    computeCallSiteLookups C F (usesOf M F) M ++
      (match computeCallSiteSecretArgument M C F with
       | none => []
       | some M1 => computeAllLookups C rest M1)

/-- The reads of `IPObfuscationContext::run(M)`. `LocalFunctions` is a set of pointers
whose iteration order the source does not fix: `order` arranges it (the identity gives the
order of `IPObfuscationContext.run`). -/
def IPObfuscationContext.runLookups (fuel : Nat) (order : List Nat → List Nat) (M : Module)
    (C : IPObfuscationContext) : List CallerLookup :=
  let C1 := surveyAll M C
  let a := allocAll M.Functions M.NextHandle C1
  let M1 : Module := { M with Functions := a.1, NextHandle := a.2.1 }
  insertAllLookups fuel (order a.2.2.LocalFunctions) M1 a.2.2 ++
    (match insertAll fuel (order a.2.2.LocalFunctions) M1 a.2.2 with
     | none => []
     | some (M2, C2, NewFuncs) => computeAllLookups C2 NewFuncs M2)

/-- What `run` keeps true from the slot allocation on: function handles are distinct and
below the next unused handle, and every function with a body has an `IPOInfo` whose
`CalleeSlot` is the handle of an instruction of that function, of `alloca`s only, and is
neither the secret load nor an unused handle. -/
structure SlotInv (M : Module) (C : IPObfuscationContext) : Prop where
  nodupF : (M.Functions.map Function.id).Nodup
  freshF : ∀ G ∈ M.Functions, G.id < M.NextHandle
  slots : ∀ G ∈ M.Functions, G.isDeclaration = false →
    ∃ Info, C.IPOInfoMap G.id = some Info ∧ Info.CalleeSlot < M.NextHandle
      ∧ Info.SecretLI ≠ Info.CalleeSlot
      ∧ (∃ A ∈ G.insts, A.id = Info.CalleeSlot)
      ∧ ∀ J ∈ G.insts, J.id = Info.CalleeSlot → J.isAlloca = true

/-- A module with direct recursion: `static fact` calls itself and `static leaf`; `main`
calls `fact`. Both `fact` and `leaf` pass the survey. -/
def sampleRecursive : Module :=
  { Functions :=
      [ { id := 1, Name := "fact", Linkage := Linkage.Internal, RetTy := Ty.Void,
          Args := [⟨Ty.Int 32, "n"⟩], isVarArg := false,
          Attrs := { FnAttrs := [], RetAttrs := [], ParamAttrs := [] },
          CallingConv := 0, Comdat := 0, Subprogram := 0, Section := "",
          Blocks := [ { id := 100, Name := "entry", Insts :=
            [ { id := 101, Name := "", DebugLoc := 1,
                I := Inst.Call
                  { Callee := Value.Func 1, Args := [Value.Argument 0],
                    Attrs := { FnAttrs := [], RetAttrs := [], ParamAttrs := [] },
                    CallingConv := 0 } false },
              { id := 102, Name := "", DebugLoc := 2,
                I := Inst.Call
                  { Callee := Value.Func 2, Args := [],
                    Attrs := { FnAttrs := [], RetAttrs := [], ParamAttrs := [] },
                    CallingConv := 0 } false },
              { id := 103, Name := "", DebugLoc := 3, I := Inst.Ret } ] } ] },
        { id := 2, Name := "leaf", Linkage := Linkage.Internal, RetTy := Ty.Void,
          Args := [], isVarArg := false,
          Attrs := { FnAttrs := [], RetAttrs := [], ParamAttrs := [] },
          CallingConv := 0, Comdat := 0, Subprogram := 0, Section := "",
          Blocks := [ { id := 200, Name := "entry", Insts :=
            [ { id := 201, Name := "", DebugLoc := 4, I := Inst.Ret } ] } ] },
        { id := 3, Name := "main", Linkage := Linkage.External, RetTy := Ty.Int 32,
          Args := [], isVarArg := false,
          Attrs := { FnAttrs := [], RetAttrs := [], ParamAttrs := [] },
          CallingConv := 0, Comdat := 0, Subprogram := 0, Section := "",
          Blocks := [ { id := 300, Name := "entry", Insts :=
            [ { id := 301, Name := "", DebugLoc := 5,
                I := Inst.Call
                  { Callee := Value.Func 1, Args := [Value.ConstantInt 32 4],
                    Attrs := { FnAttrs := [], RetAttrs := [], ParamAttrs := [] },
                    CallingConv := 0 } false },
              { id := 302, Name := "", DebugLoc := 6, I := Inst.Ret } ] } ] } ],
    Globals := [], NextHandle := 1000 }

/-- The bytes that the initializer of a byte-array global holds: the elements of a
`ConstantDataSequential` of `i8`, or as many zero bytes as the type `[n x i8]` has elements
for a `ConstantAggregateZero`; no bytes for any other initializer. -/
def GlobalVariable.bytes (GV : GlobalVariable) : List Nat :=
  match GV.CDS with
  | some CDS => if CDS.EltTy = Ty.Int 8 then CDS.Elts else []
  | none =>
    match GV.Init with
    | [Value.AggregateZero (Ty.Array n (Ty.Int 8))] => List.replicate n 0
    | _ => []

/-! ## Part II. Theorems -/

/-! ### Machine arithmetic -/

theorem W32_pos : 0 < W32 := by decide

/-! ### Key and junk lengths -/

theorem getRandomBytesLen_16_32 (N : Nat) : getRandomBytesLen N 16 32 = 16 + N % 16 := by
  have h : N % 16 < 16 := Nat.mod_lt _ (by decide)
  simp only [getRandomBytesLen, add32, sub32, W32]
  norm_num
  omega

theorem getRandomBytes_length (R : CryptoUtils) (Bytes : List Nat) (MinSize MaxSize : Nat) :
    (getRandomBytes R Bytes MinSize MaxSize).1.length
      = Bytes.length + getRandomBytesLen (R.get_uint32_t).1 MinSize MaxSize := by
  simp [getRandomBytes, CryptoUtils.get_bytes]

/-- Lengths produced by `getRandomBytes(_, 16, 32)` are `16 + N % 16`. -/
theorem getRandomBytes_16_32_length (R : CryptoUtils) (Bytes : List Nat) :
    (getRandomBytes R Bytes 16 32).1.length
      = Bytes.length + (16 + (R.get_uint32_t).1 % 16) := by
  rw [getRandomBytes_length, getRandomBytesLen_16_32]

/-- C10 (key and junk lengths, as the code computes them). Over all engines, the set of
lengths that `getRandomBytes(Bytes, 16, 32)` appends to `Bytes` is exactly the integers 16
through 31: the modulus `MaxSize - MinSize` is 16, so the length 32 is never appended. -/
theorem getRandomBytes_16_32_lengths :
    (∀ L : Nat,
      (∃ (R : CryptoUtils) (Bytes : List Nat),
          (getRandomBytes R Bytes 16 32).1.length = Bytes.length + L) ↔ (16 ≤ L ∧ L ≤ 31))
    ∧ ¬ ∃ (R : CryptoUtils) (Bytes : List Nat),
          (getRandomBytes R Bytes 16 32).1.length = Bytes.length + 32 := by
  have key : ∀ L : Nat,
      (∃ (R : CryptoUtils) (Bytes : List Nat),
          (getRandomBytes R Bytes 16 32).1.length = Bytes.length + L) ↔ (16 ≤ L ∧ L ≤ 31) := by
    intro L
    constructor
    · rintro ⟨R, Bytes, h⟩
      rw [getRandomBytes_16_32_length] at h
      have h2 : (R.get_uint32_t).1 % 16 < 16 := Nat.mod_lt _ (by decide)
      omega
    · rintro ⟨h1, h2⟩
      refine ⟨{ stream := fun _ => L - 16, pos := 0 }, [], ?_⟩
      rw [getRandomBytes_16_32_length]
      simp only [CryptoUtils.get_uint32_t, W32, List.length_nil]
      omega
  refine ⟨key, ?_⟩
  intro h
  have := (key 32).mp h
  omega

/-! ### In-place encryption -/

theorem xorLoop_length (K : List Nat) (n i : Nat) (D : List Nat) :
    (xorLoop K n i D).length = D.length := by
  induction n generalizing i D with
  | zero => rfl
  | succ n ih => simp [xorLoop, ih]

theorem xorLoop_getD (K : List Nat) (n i : Nat) (D : List Nat) (h : i + n = D.length)
    (j : Nat) :
    (xorLoop K n i D).getD j 0
      = if i ≤ j ∧ j < D.length then D.getD j 0 ^^^ K.getD (j % K.length) 0
        else D.getD j 0 := by
  induction n generalizing i D with
  | zero =>
    have : ¬ (i ≤ j ∧ j < D.length) := by omega
    simp [xorLoop, this]
  | succ n ih =>
    have hi : i < D.length := by omega
    rw [xorLoop, ih (i + 1) _ (by simp; omega)]
    simp only [List.length_set]
    by_cases hj : j < D.length
    · by_cases hij : i = j
      · subst hij
        have h1 : ¬ (i + 1 ≤ i ∧ i < D.length) := by omega
        have h2 : (i ≤ i ∧ i < D.length) := ⟨le_refl _, hi⟩
        simp [h1, h2, List.getD_eq_getElem?_getD, List.getElem?_set, hi]
      · by_cases hlt : i + 1 ≤ j
        · have h1 : (i + 1 ≤ j ∧ j < D.length) := ⟨hlt, hj⟩
          have h2 : (i ≤ j ∧ j < D.length) := ⟨by omega, hj⟩
          simp [h1, h2, List.getD_eq_getElem?_getD, List.getElem?_set, hij]
        · have h1 : ¬ (i + 1 ≤ j ∧ j < D.length) := by omega
          have h2 : ¬ (i ≤ j ∧ j < D.length) := by omega
          simp [h1, h2, List.getD_eq_getElem?_getD, List.getElem?_set, hij]
    · have h1 : ¬ (i + 1 ≤ j ∧ j < D.length) := by omega
      have h2 : ¬ (i ≤ j ∧ j < D.length) := by omega
      have hij : i ≠ j := by omega
      simp [h1, h2, List.getD_eq_getElem?_getD, List.getElem?_set, hij]

theorem encryptData_length (K D : List Nat) : (encryptData K D).length = D.length :=
  xorLoop_length K _ _ D

theorem encryptData_getD (K D : List Nat) (j : Nat) (hj : j < D.length) :
    (encryptData K D).getD j 0 = D.getD j 0 ^^^ K.getD (j % K.length) 0 := by
  have h := xorLoop_getD K D.length 0 D (by simp) j
  have h2 : (0 ≤ j ∧ j < D.length) := ⟨Nat.zero_le _, hj⟩
  simpa [encryptData, h2] using h

/-! ### The encryption loop over the pool -/

theorem encryptPool_length (R : CryptoUtils) (es : List CSPEntry) :
    (encryptPool R es).1.length = es.length := by
  induction es generalizing R with
  | nil => rfl
  | cons e es ih => simp [encryptPool, ih]

/-- Entry `k` after the encryption loop: a key of at least 16 bytes, and `Data` encrypted
under that key; the other fields are untouched. -/
theorem encryptPool_entry (R : CryptoUtils) (es : List CSPEntry) (k : Nat) (e : CSPEntry)
    (h : es[k]? = some e) :
    ∃ e1, (encryptPool R es).1[k]? = some e1 ∧ 16 ≤ e1.EncKey.length
      ∧ e1.Data = encryptData e1.EncKey e.Data
      ∧ e1.ID = e.ID ∧ e1.DecGV = e.DecGV ∧ e1.DecStatus = e.DecStatus := by
  induction es generalizing R k with
  | nil => simp at h
  | cons a es ih =>
    cases k with
    | zero =>
      simp only [List.getElem?_cons_zero, Option.some.injEq] at h
      subst h
      refine ⟨{ a with EncKey := (getRandomBytes R a.EncKey 16 32).1,
                       Data := encryptData (getRandomBytes R a.EncKey 16 32).1 a.Data },
        by simp [encryptPool], ?_, rfl, rfl, rfl, rfl⟩
      simp only [getRandomBytes_16_32_length]
      omega
    | succ k =>
      simp only [List.getElem?_cons_succ] at h
      obtain ⟨e1, h1, h2⟩ := ih (getRandomBytes R a.EncKey 16 32).2 k h
      exact ⟨e1, by simpa [encryptPool] using h1, h2⟩

/-! ### The pool-emitting loop -/

theorem emitPool_lengths (R : CryptoUtils) (D : List Nat) (es : List CSPEntry) :
    (emitPool R D es).Entries.length = es.length ∧ (emitPool R D es).Junk.length = es.length := by
  induction es generalizing R D with
  | nil => simp [emitPool]
  | cons e es ih => simp [emitPool, ih]

/-- The emitted bytes are the bytes present at the start followed by the spec layout. -/
theorem emitPool_data (R : CryptoUtils) (D : List Nat) (es : List CSPEntry) :
    (emitPool R D es).Data = D ++ layout (emitPool R D es).Junk (emitPool R D es).Entries := by
  induction es generalizing R D with
  | nil => simp [emitPool, layout]
  | cons e es ih =>
    simp only [emitPool]
    rw [ih]
    simp [layout, chunk, List.append_assoc]

theorem emitPool_junk (R : CryptoUtils) (D : List Nat) (es : List CSPEntry) (j : List Nat)
    (h : j ∈ (emitPool R D es).Junk) : 16 ≤ j.length ∧ j.length ≤ 31 := by
  induction es generalizing R D with
  | nil => simp [emitPool] at h
  | cons e es ih =>
    simp only [emitPool, List.mem_cons] at h
    rcases h with h | h
    · subst h
      have := getRandomBytes_16_32_length R []
      have h2 : (R.get_uint32_t).1 % 16 < 16 := Nat.mod_lt _ (by decide)
      simp only [List.length_nil] at this
      omega
    · exact ih _ _ h

theorem keyStart_zero (j : List Nat) (J : List (List Nat)) (E : List CSPEntry) :
    keyStart (j :: J) E 0 = j.length := by
  simp [keyStart]

theorem keyStart_succ (j : List Nat) (J : List (List Nat)) (e : CSPEntry) (E : List CSPEntry)
    (k : Nat) :
    keyStart (j :: J) (e :: E) (k + 1) = (chunk j e).length + keyStart J E k := by
  simp [keyStart]
  omega

/-- Entry `k` after the emitting loop keeps its fields and has for `Offset` the (32-bit)
number of bytes emitted before its key. -/
theorem emitPool_entry (R : CryptoUtils) (D : List Nat) (es : List CSPEntry) (k : Nat)
    (e : CSPEntry) (h : es[k]? = some e) :
    (emitPool R D es).Entries[k]? = some { e with
      Offset := toUnsigned (D.length + keyStart (emitPool R D es).Junk (emitPool R D es).Entries k) } := by
  induction es generalizing R D k with
  | nil => simp at h
  | cons a es ih =>
    cases k with
    | zero =>
      simp only [List.getElem?_cons_zero, Option.some.injEq] at h
      subst h
      simp [emitPool, keyStart_zero]
    | succ k =>
      simp only [List.getElem?_cons_succ] at h
      have := ih (getRandomBytes R [] 16 32).2
        (((D ++ (getRandomBytes R [] 16 32).1) ++ a.EncKey) ++ a.Data) k h
      simp only [emitPool, List.getElem?_cons_succ, keyStart_succ]
      rw [this]
      simp [chunk]
      congr 1
      omega

/-! ### Shape of the spec layout -/

/-- The layout splits around record `k`: a prefix of `keyStart` bytes, the key, the
ciphertext, and the rest. -/
theorem layout_split (J : List (List Nat)) (E : List CSPEntry) (hJE : J.length = E.length)
    (k : Nat) (e : CSPEntry) (h : E[k]? = some e) :
    ∃ pre post, layout J E = pre ++ (e.EncKey ++ (e.Data ++ post))
      ∧ pre.length = keyStart J E k := by
  induction E generalizing J k with
  | nil => simp at h
  | cons a E ih =>
    cases J with
    | nil => simp at hJE
    | cons j J =>
      have hJE2 : J.length = E.length := by simpa using hJE
      cases k with
      | zero =>
        simp only [List.getElem?_cons_zero, Option.some.injEq] at h
        subst h
        refine ⟨j, layout J E, ?_, by simp [keyStart_zero]⟩
        simp [layout, chunk, List.append_assoc]
      | succ k =>
        simp only [List.getElem?_cons_succ] at h
        obtain ⟨pre, post, h1, h2⟩ := ih J hJE2 k h
        refine ⟨chunk j a ++ pre, post, ?_, ?_⟩
        · have : layout (j :: J) (a :: E) = chunk j a ++ layout J E := by simp [layout]
          rw [this, h1, List.append_assoc]
        · rw [keyStart_succ, List.length_append, h2]

/-- Records are laid out in pool order: record `k` ends before the key of a later record
`l` starts. -/
theorem keyStart_ordered (J : List (List Nat)) (E : List CSPEntry) (hJE : J.length = E.length)
    (k l : Nat) (e : CSPEntry) (h : E[k]? = some e) (hkl : k < l) (hl : l < E.length) :
    keyStart J E k + e.EncKey.length + e.Data.length ≤ keyStart J E l := by
  induction E generalizing J k l with
  | nil => simp at h
  | cons a E ih =>
    cases J with
    | nil => simp at hJE
    | cons j J =>
      have hJE2 : J.length = E.length := by simpa using hJE
      cases l with
      | zero => omega
      | succ l =>
        have hl2 : l < E.length := by simpa using hl
        cases k with
        | zero =>
          simp only [List.getElem?_cons_zero, Option.some.injEq] at h
          subst h
          rw [keyStart_zero, keyStart_succ]
          simp only [chunk, List.length_append]
          omega
        | succ k =>
          simp only [List.getElem?_cons_succ] at h
          have := ih J hJE2 k l h (by omega) hl2
          rw [keyStart_succ, keyStart_succ]
          omega

/-! ### Reading an entry back from the pool -/

/-- XOR-ing a ciphertext that sits right after its (non-empty) key with the cyclically
repeated key gives the plaintext back. -/
theorem recover_split (pre K D post : List Nat) (hK : 0 < K.length) :
    recover (pre ++ (K ++ (encryptData K D ++ post))) pre.length K.length
      (encryptData K D).length = D := by
  apply List.ext_getElem
  · simp [recover, encryptData_length]
  · intro i h1 h2
    have hi : i < D.length := h2
    have hm : i % K.length < K.length := Nat.mod_lt _ hK
    simp only [recover, List.getElem_map, List.getElem_range]
    rw [List.getD_append_right _ _ _ _ (by omega),
        List.getD_append_right _ _ _ _ (by omega),
        List.getD_append _ _ _ _ (by rw [encryptData_length]; omega),
        List.getD_append_right _ _ _ _ (by omega),
        List.getD_append _ _ _ _ (by omega)]
    have e1 : pre.length + K.length + i - pre.length - K.length = i := by omega
    have e2 : pre.length + i % K.length - pre.length = i % K.length := by omega
    rw [e1, e2, encryptData_getD K D i hi, Nat.xor_cancel_right]
    simp [List.getD_eq_getElem?_getD, hi]

/-! ### The two pool phases together -/

theorem runPool_lengths (R : CryptoUtils) (P : List CSPEntry) :
    (runPool R P).Entries.length = P.length ∧ (runPool R P).Junk.length = P.length := by
  have h := emitPool_lengths (encryptPool R P).2 [] (encryptPool R P).1
  simpa [runPool, encryptPool_length] using h

theorem runPool_data (R : CryptoUtils) (P : List CSPEntry) :
    (runPool R P).Data = layout (runPool R P).Junk (runPool R P).Entries := by
  have h := emitPool_data (encryptPool R P).2 [] (encryptPool R P).1
  simpa [runPool] using h

/-- Entry `k` at the end of the two phases, in terms of the collected entry `e`. -/
theorem runPool_entry (R : CryptoUtils) (P : List CSPEntry) (k : Nat) (e : CSPEntry)
    (h : P[k]? = some e) :
    ∃ e1, (runPool R P).Entries[k]? = some e1 ∧ 16 ≤ e1.EncKey.length
      ∧ e1.Data = encryptData e1.EncKey e.Data
      ∧ e1.Offset = toUnsigned (keyStart (runPool R P).Junk (runPool R P).Entries k)
      ∧ e1.ID = e.ID ∧ e1.DecGV = e.DecGV ∧ e1.DecStatus = e.DecStatus := by
  obtain ⟨e0, h0, hk, hd, hid, hgv, hst⟩ := encryptPool_entry R P k e h
  have h1 := emitPool_entry (encryptPool R P).2 [] (encryptPool R P).1 k e0 h0
  refine ⟨_, by simpa [runPool] using h1, ?_, ?_, ?_, ?_, ?_, ?_⟩
  · exact hk
  · exact hd
  · simp [runPool]
  · exact hid
  · exact hgv
  · exact hst

/-- Below `2 ^ 32` bytes of pool the stored `Offset` is the true start of the key, and the
record lies inside the pool. -/
theorem runPool_offset (R : CryptoUtils) (P : List CSPEntry)
    (hfit : (runPool R P).Data.length < W32) (k : Nat) (e1 : CSPEntry)
    (h : (runPool R P).Entries[k]? = some e1) :
    e1.Offset = keyStart (runPool R P).Junk (runPool R P).Entries k
      ∧ ∃ pre post, (runPool R P).Data = pre ++ (e1.EncKey ++ (e1.Data ++ post))
          ∧ pre.length = e1.Offset := by
  have hl := runPool_lengths R P
  have hk : k < P.length := by
    have := (List.getElem?_eq_some_iff.mp h).1
    omega
  obtain ⟨e2, h2, -, -, hoff, -⟩ := runPool_entry R P k P[k] (List.getElem?_eq_getElem hk)
  have he : e2 = e1 := by rw [h] at h2; exact (Option.some.inj h2).symm
  subst he
  obtain ⟨pre, post, hs, hp⟩ :=
    layout_split (runPool R P).Junk (runPool R P).Entries (by omega) k e2 h
  have hd := runPool_data R P
  have hlen : keyStart (runPool R P).Junk (runPool R P).Entries k < W32 := by
    have : (runPool R P).Data.length = (pre ++ (e2.EncKey ++ (e2.Data ++ post))).length := by
      rw [hd, hs]
    simp only [List.length_append] at this
    omega
  have hoff2 : e2.Offset = keyStart (runPool R P).Junk (runPool R P).Entries k := by
    rw [hoff, toUnsigned, Nat.mod_eq_of_lt hlen]
  exact ⟨hoff2, pre, post, by rw [hd, hs], by rw [hp, hoff2]⟩

/-! ### Claims on the pool -/

/-- C1 (pool recoverability). For every pool of collected entries and every engine, once
`run` has encrypted the entries in place and emitted the pool (of fewer than `2 ^ 32`
bytes, the range of the `unsigned` field `Offset`), entry `k` satisfies: XOR-ing the pool
bytes at `[Offset + keySize, Offset + keySize + dataLen)` with the key bytes
`pool[Offset, Offset + keySize)` repeated cyclically gives the entry's original plaintext,
where `keySize = |EncKey|` and `dataLen = |Data|`. -/
theorem pool_recoverability (R : CryptoUtils) (ConstantStringPool : List CSPEntry)
    (hfit : (runPool R ConstantStringPool).Data.length < W32)
    (k : Nat) (plain : CSPEntry) (hk : ConstantStringPool[k]? = some plain) :
    ∃ Entry, (runPool R ConstantStringPool).Entries[k]? = some Entry
      ∧ recover (runPool R ConstantStringPool).Data Entry.Offset Entry.EncKey.length
          Entry.Data.length = plain.Data := by
  obtain ⟨e1, h1, hkey, hdata, -⟩ := runPool_entry R ConstantStringPool k plain hk
  obtain ⟨-, pre, post, hs, hp⟩ := runPool_offset R ConstantStringPool hfit k e1 h1
  refine ⟨e1, h1, ?_⟩
  rw [hs, ← hp, hdata]
  exact recover_split pre e1.EncKey plain.Data post (by omega)

theorem pool_recoverability_witness :
    (runPool sampleEngine samplePool).Data.length < W32
      ∧ samplePool[1]? = some
          { ID := 1, Offset := 0, Data := [111, 107, 0], EncKey := [], DecGV := 12,
            DecStatus := 13 }
      ∧ ∃ Entry, (runPool sampleEngine samplePool).Entries[1]? = some Entry
          ∧ recover (runPool sampleEngine samplePool).Data Entry.Offset Entry.EncKey.length
              Entry.Data.length = [111, 107, 0] :=
  ⟨by decide, rfl, pool_recoverability sampleEngine samplePool (by decide) 1 _ rfl⟩

/-! ### Memory -/

theorem storeBytes_below (Mem : Nat → Nat) (a v n x : Nat) (h : x < a) :
    storeBytes Mem a v n x = Mem x := by
  induction n generalizing Mem a v with
  | zero => rfl
  | succ n ih =>
    rw [storeBytes, ih _ _ _ (by omega)]
    have : x ≠ a := by omega
    simp [this]

/-- Reading back what was just written gives the low `n` bytes of the value. -/
theorem loadBytes_storeBytes (Mem : Nat → Nat) (a v n : Nat) :
    loadBytes (storeBytes Mem a v n) a n = v % 256 ^ n := by
  induction n generalizing Mem a v with
  | zero => simp [loadBytes, Nat.mod_one]
  | succ n ih =>
    rw [loadBytes, storeBytes, ih, storeBytes_below _ _ _ _ _ (by omega)]
    simp only [if_true, Nat.mod_mod]
    rw [pow_succ, Nat.mul_comm (256 ^ n) 256, Nat.mod_mul]

theorem loadBytes_storeBytes_four (Mem : Nat → Nat) (a v : Nat) :
    loadBytes (storeBytes Mem a v 4) a 4 = v % W32 := by
  rw [loadBytes_storeBytes]
  rfl

/-! ### Secret diffusion -/

theorem sub32_lt (a b : Nat) : sub32 a b < W32 := Nat.mod_lt _ W32_pos

theorem sub32_sub32_self (c e : Nat) (he : e < W32) :
    sub32 c (sub32 c e) = e := by
  simp only [sub32, W32] at *
  omega

/-- In a caller whose secret load is an `i32` load (a function that was not resignatured),
the two instructions that `computeCallSiteSecretArgument` emits before the call store into
the caller's `CalleeSlot` the value `CallerSecretSSA - (C.SecretCI - E.SecretCI)` in 32-bit
wrap-around arithmetic, and that value is `E.SecretCI` whenever the caller's run-time secret
(the value of its `SecretLI`) equals `C.SecretCI`. `h` is the fresh handle of the
subtraction. -/
theorem callSiteSecret_i32 (T : Target) (prev h d : Nat) (Caller Callee : IPOInfo) (S : State)
    (hE : Callee.SecretCI < W32)
    (hfresh : h ≠ Caller.CalleeSlot)
    (hrun : S.Regs Caller.SecretLI = Caller.SecretCI) :
    ∃ S2, T.execSeq prev (callSiteSecret h d (Ty.Int 32) Caller Callee) S = some S2
      ∧ loadBytes S2.Mem (S.Regs Caller.CalleeSlot) 4
          = sub32 (S.Regs Caller.SecretLI) (sub32 Caller.SecretCI Callee.SecretCI)
      ∧ loadBytes S2.Mem (S.Regs Caller.CalleeSlot) 4 = Callee.SecretCI := by
  have hX : sub32 Caller.SecretCI Callee.SecretCI % 2 ^ 32
      = sub32 Caller.SecretCI Callee.SecretCI :=
    Nat.mod_eq_of_lt (sub32_lt _ _)
  have hne : Caller.CalleeSlot ≠ h := fun e => hfresh e.symm
  have hstored : loadBytes
      (storeBytes S.Mem (S.Regs Caller.CalleeSlot)
        (sub32 (S.Regs Caller.SecretLI) (sub32 Caller.SecretCI Callee.SecretCI)) 4)
      (S.Regs Caller.CalleeSlot) 4
      = sub32 (S.Regs Caller.SecretLI) (sub32 Caller.SecretCI Callee.SecretCI) := by
    rw [loadBytes_storeBytes_four, Nat.mod_eq_of_lt (sub32_lt _ _)]
  have hexec : T.execSeq prev (callSiteSecret h d (Ty.Int 32) Caller Callee) S
      = some { Regs := fun r => if r = h then
                  sub32 (S.Regs Caller.SecretLI) (sub32 Caller.SecretCI Callee.SecretCI)
                else S.Regs r,
               Args := S.Args,
               Mem := storeBytes S.Mem (S.Regs Caller.CalleeSlot)
                  (sub32 (S.Regs Caller.SecretLI) (sub32 Caller.SecretCI Callee.SecretCI)) 4 } := by
    simp [callSiteSecret, Target.execSeq, Target.execInst, Target.eval, State.setReg,
      Target.sizeOf, Target.bitsOf, hX, hne, sub32, W32]
  refine ⟨_, hexec, hstored, ?_⟩
  rw [hstored, hrun, sub32_sub32_self _ _ hE]

theorem surveyUses_iff (l : List Use) :
    surveyUses l = true ↔ ∀ U ∈ l, ∃ Caller Call, U = Use.Callee Caller Call := by
  induction l with
  | nil => simp [surveyUses]
  | cons U rest ih =>
    cases U with
    | Callee c I =>
      simp only [surveyUses, AbstractCallSite.isCallee, AbstractCallSite.getInstruction,
        Bool.not_true, Bool.false_eq_true, if_false, ih, List.mem_cons, forall_eq_or_imp]
      constructor
      · intro h
        exact ⟨⟨c, I, rfl⟩, h⟩
      · intro h
        exact h.2
    | Operand c I => simp [surveyUses, AbstractCallSite.isCallee]
    | ConstantExpr => simp [surveyUses, AbstractCallSite.isCallee]
    | Initializer g => simp [surveyUses, AbstractCallSite.isCallee]

theorem operandUse_ne_Callee (f c : Nat) (I : Instruction) (v : Value) (c2 : Nat)
    (J : Instruction) : operandUse f c I v ≠ some (Use.Callee c2 J) := by
  unfold operandUse
  split
  · simp
  · split <;> simp

/-- A callee use recorded for an instruction is the called operand of that very call or
invoke, and the callee is `f`. -/
theorem Instruction.callee_use (f c : Nat) (I : Instruction) (c2 : Nat) (J : Instruction)
    (h : Use.Callee c2 J ∈ I.usesOfFunc f c) :
    c2 = c ∧ J = I ∧ ∃ cb, cb.Callee = Value.Func f
      ∧ ((∃ t, I.I = Inst.Call cb t) ∨ (∃ n u, I.I = Inst.Invoke cb n u)) := by
  unfold Instruction.usesOfFunc at h
  split at h
  · rename_i cb t heq
    simp only [List.mem_append, List.mem_filterMap] at h
    rcases h with h | ⟨v, -, hv⟩
    · split at h
      · rename_i hc
        simp only [List.mem_singleton, Use.Callee.injEq] at h
        exact ⟨h.1, h.2, cb, hc, Or.inl ⟨t, heq⟩⟩
      · split at h <;> simp at h
    · exact absurd hv (operandUse_ne_Callee _ _ _ _ _ _)
  · rename_i cb n u heq
    simp only [List.mem_append, List.mem_filterMap] at h
    rcases h with h | ⟨v, -, hv⟩
    · split at h
      · rename_i hc
        simp only [List.mem_singleton, Use.Callee.injEq] at h
        exact ⟨h.1, h.2, cb, hc, Or.inr ⟨n, u, heq⟩⟩
      · split at h <;> simp at h
    · exact absurd hv (operandUse_ne_Callee _ _ _ _ _ _)
  · simp only [List.mem_filterMap] at h
    obtain ⟨v, -, hv⟩ := h
    exact absurd hv (operandUse_ne_Callee _ _ _ _ _ _)

/-- Every callee use in the use-list of `f` belongs to a call or invoke, inside a function
of the module, whose called operand is `f`. -/
theorem usesOf_callee (M : Module) (f c : Nat) (I : Instruction)
    (h : Use.Callee c I ∈ usesOf M f) :
    ∃ G ∈ M.Functions, G.id = c ∧ (∃ BB ∈ G.Blocks, I ∈ BB.Insts)
      ∧ ∃ cb, cb.Callee = Value.Func f
          ∧ ((∃ t, I.I = Inst.Call cb t) ∨ (∃ n u, I.I = Inst.Invoke cb n u)) := by
  simp only [usesOf, List.mem_append, List.mem_flatMap, Function.usesOfFunc,
    GlobalVariable.usesOfFunc, List.mem_filterMap] at h
  rcases h with ⟨G, hG, BB, hBB, J, hJ, hU⟩ | ⟨GV, -, v, -, hv⟩
  · obtain ⟨h1, h2, h3⟩ := Instruction.callee_use f G.id J c I hU
    subst h2
    exact ⟨G, hG, h1.symm, ⟨BB, hBB, hJ⟩, h3⟩
  · split at hv <;> simp at hv

/-- C7 (survey eligibility). `SurveyFunction` adds `F` to `LocalFunctions` if and only if
`F` has local linkage, has a body, and every use of `F` is the called operand of a call or
invoke (of `F`); it adds nothing else. A function with any other use is not added and is
therefore never resignatured: in scenario S5, where the address of `g` initializes the
global `p`, the survey selects nothing and `run` leaves the header of `g` and the global
`p` as they were. -/
theorem survey_eligibility :
    (∀ (M : Module) (C : IPObfuscationContext) (F : Function),
      (F.id ∈ (SurveyFunction M C F).LocalFunctions ↔
        F.id ∈ C.LocalFunctions ∨
          (F.hasLocalLinkage = true ∧ F.isDeclaration = false ∧
            ∀ U ∈ usesOf M F.id, ∃ (Caller : Nat) (Call : Instruction) (cb : CallBase),
              U = Use.Callee Caller Call ∧ cb.Callee = Value.Func F.id
                ∧ ((∃ t, Call.I = Inst.Call cb t) ∨ (∃ n u, Call.I = Inst.Invoke cb n u))))
      ∧ (∀ g, g ≠ F.id → (g ∈ (SurveyFunction M C F).LocalFunctions ↔ g ∈ C.LocalFunctions)))
    ∧ (surveyAll sampleS5 sampleContext).LocalFunctions = []
    ∧ (∃ M1 C1, IPObfuscationContext.run 10 sampleS5 sampleContext = some (M1, C1)
         ∧ M1.Functions.map Function.header = sampleS5.Functions.map Function.header
         ∧ M1.Globals = sampleS5.Globals) := by
  refine ⟨?_, by decide, ⟨_, _, rfl, by decide, by decide⟩⟩
  intro M C F
  have hcallee : (∀ U ∈ usesOf M F.id, ∃ Caller Call, U = Use.Callee Caller Call) ↔
      (∀ U ∈ usesOf M F.id, ∃ (Caller : Nat) (Call : Instruction) (cb : CallBase),
              U = Use.Callee Caller Call ∧ cb.Callee = Value.Func F.id
                ∧ ((∃ t, Call.I = Inst.Call cb t) ∨ (∃ n u, Call.I = Inst.Invoke cb n u))) := by
    constructor
    · intro h U hU
      obtain ⟨c, I, rfl⟩ := h U hU
      obtain ⟨-, -, -, -, cb, h1, h2⟩ := usesOf_callee M F.id c I hU
      exact ⟨c, I, cb, rfl, h1, h2⟩
    · intro h U hU
      obtain ⟨c, I, -, h1, -⟩ := h U hU
      exact ⟨c, I, h1⟩
  rw [← hcallee, ← surveyUses_iff]
  unfold SurveyFunction
  constructor
  · by_cases h1 : (!F.hasLocalLinkage || F.isDeclaration) = true
    · rw [if_pos h1]
      simp only [Bool.or_eq_true, Bool.not_eq_true', Bool.not_eq_eq_eq_not, Bool.not_true]
        at h1
      constructor
      · intro h; exact Or.inl h
      · rintro (h | ⟨h2, h3, -⟩)
        · exact h
        · rcases h1 with h1 | h1
          · rw [h1] at h2; cases h2
          · rw [h1] at h3; cases h3
    · rw [if_neg h1]
      simp only [Bool.or_eq_true, Bool.not_eq_true', not_or, Bool.not_eq_false,
        Bool.not_eq_true] at h1
      by_cases h2 : surveyUses (usesOf M F.id) = true
      · rw [if_pos h2]
        by_cases h3 : F.id ∈ C.LocalFunctions
        · simp [h3]
        · simp [h3, h1.1, h1.2, h2]
      · rw [if_neg h2]
        simp [h2]
  · intro g hg
    by_cases h1 : (!F.hasLocalLinkage || F.isDeclaration) = true
    · rw [if_pos h1]
    · rw [if_neg h1]
      by_cases h2 : surveyUses (usesOf M F.id) = true
      · rw [if_pos h2]
        by_cases h3 : F.id ∈ C.LocalFunctions
        · simp [h3]
        · simp [h3, hg]
      · rw [if_neg h2]

/-! ### The call-site loop keeps every function header -/

theorem find_header (f : Nat) (l1 l2 : List Function)
    (h : l1.map Function.header = l2.map Function.header) :
    (l1.find? (fun G => G.id = f)).map Function.header
      = (l2.find? (fun G => G.id = f)).map Function.header := by
  induction l1 generalizing l2 with
  | nil =>
    cases l2 with
    | nil => rfl
    | cons b l2 => simp at h
  | cons a l1 ih =>
    cases l2 with
    | nil => simp at h
    | cons b l2 =>
      simp only [List.map_cons, List.cons.injEq] at h
      have hid : a.id = b.id := by
        have := congrArg Function.id h.1
        exact this
      simp only [List.find?_cons, hid]
      by_cases hb : b.id = f
      · simp [hb, h.1]
      · simp [hb, ih l2 h.2]

theorem updateFunction_header (M : Module) (f : Nat) (g : Function → Function)
    (hg : ∀ G, (g G).header = G.header) :
    (M.updateFunction f g).Functions.map Function.header = M.Functions.map Function.header := by
  simp only [Module.updateFunction, List.map_map]
  apply List.map_congr_left
  intro G _
  simp only [Function.comp]
  split
  · exact hg G
  · rfl

theorem rewriteFirstUse_header (C : IPObfuscationContext) (NF n : Nat) (M M1 : Module) (U : Use)
    (h : rewriteFirstUse C NF n M U = some M1) :
    M1.Functions.map Function.header = M.Functions.map Function.header
      ∧ M1.NextHandle = M.NextHandle ∧ M1.Globals = M.Globals := by
  unfold rewriteFirstUse at h
  split at h
  · split at h
    · split at h
      · cases h
      · simp only [Option.some.injEq] at h
        subst h
        exact ⟨updateFunction_header _ _ _ (fun G => rfl), rfl, rfl⟩
    · cases h
  · cases h

theorem rewriteUses_header (C : IPObfuscationContext) (F NF n fuel : Nat) (M M2 : Module)
    (h : rewriteUses C F NF n fuel M = some M2) :
    M2.Functions.map Function.header = M.Functions.map Function.header
      ∧ M2.NextHandle = M.NextHandle ∧ M2.Globals = M.Globals := by
  induction fuel generalizing M with
  | zero =>
    unfold rewriteUses at h
    split at h
    · cases h; exact ⟨rfl, rfl, rfl⟩
    · cases h
  | succ fuel ih =>
    unfold rewriteUses at h
    split at h
    · cases h; exact ⟨rfl, rfl, rfl⟩
    · split at h
      · cases h
      · rename_i M1 h1
        obtain ⟨a1, a2, a3⟩ := rewriteFirstUse_header _ _ _ _ _ _ h1
        obtain ⟨b1, b2, b3⟩ := ih M1 h
        exact ⟨b1.trans a1, b2.trans a2, b3.trans a3⟩

/-! ### The new signature -/

theorem pushParams_eq (PAL : AttributeList) (i : Nat) (Args : List Argument)
    (acc : List Ty × List AttributeSet) :
    pushParams PAL i Args acc
      = (acc.1 ++ Args.map Argument.Ty,
         acc.2 ++ (List.range Args.length).map (fun j => PAL.getParamAttrs (i + j))) := by
  induction Args generalizing i acc with
  | nil => simp [pushParams]
  | cons A rest ih =>
    rw [pushParams, ih]
    simp only [List.append_assoc, List.map_cons, List.length_cons, List.range_succ_eq_map,
      List.map_map, Prod.mk.injEq, List.singleton_append, List.cons_append, List.nil_append,
      Nat.add_zero, true_and]
    congr 2
    apply List.map_congr_left
    intro j _
    simp only [Function.comp]
    congr 1
    omega

theorem zipWith_takeName (Args : List Argument) :
    List.zipWith (fun (A O : Argument) => ({ A with Name := O.Name } : Argument))
      (Args.map (fun A => ({ Ty := A.Ty, Name := "" } : Argument))) Args = Args := by
  induction Args with
  | nil => rfl
  | cons A rest ih => simp [ih]

/-- The arguments of `NF` after the naming loop. -/
theorem createNF_nameArguments (h : Nat) (F : Function) :
    nameArguments (createNF h F).Args F.Args
      = { Ty := Ty.Pointer (Ty.Int 32), Name := "SecretArg" } :: F.Args := by
  simp only [createNF, pushParams_eq, List.map_append, List.map_cons, List.map_nil,
    List.singleton_append, nameArguments, List.map_map]
  congr 1
  exact zipWith_takeName F.Args

theorem createNF_paramAttrs (h : Nat) (F : Function) :
    (createNF h F).Attrs.getParamAttrs 0 = []
      ∧ ∀ i, i < F.Args.length →
          (createNF h F).Attrs.getParamAttrs (i + 1) = F.Attrs.getParamAttrs i := by
  simp only [createNF, pushParams_eq, AttributeList.getParamAttrs, List.singleton_append,
    List.getD_cons_zero, List.getD_cons_succ, true_and]
  intro i hi
  rw [List.getD_eq_getElem _ _ (by simpa using hi)]
  simp

theorem insertAtEntry_header (G : Function) (News : List Instruction) :
    (G.insertAtEntry News).header = G.header := by
  unfold Function.insertAtEntry
  split <;> rfl

theorem find_insertNF (L : List Function) (X F : Function) (f : Nat) (hX : X.id ≠ f)
    (h : L.find? (fun G => G.id = f) = some F) :
    (L.flatMap (fun G => if G.id = f then [X, { G with Name := "" }] else [G])).find?
        (fun G => G.id = f) = some { F with Name := "" } := by
  induction L with
  | nil => simp at h
  | cons a L ih =>
    simp only [List.find?_cons] at h
    by_cases ha : a.id = f
    · simp only [ha, decide_True] at h
      cases h
      simp [List.flatMap_cons, ha, List.find?_cons, hX]
    · simp only [ha, decide_False] at h
      simp [List.flatMap_cons, ha, List.find?_cons, ih h]

theorem mem_insertNF (L : List Function) (X F : Function) (f : Nat)
    (h : L.find? (fun G => G.id = f) = some F) :
    X ∈ L.flatMap (fun G => if G.id = f then [X, { G with Name := "" }] else [G]) := by
  have hm := List.mem_of_find?_eq_some h
  have hid : F.id = f := by simpa using List.find?_some h
  simp only [List.mem_flatMap]
  exact ⟨F, hm, by simp [hid]⟩

theorem find_replaceNF (L : List Function) (X : Function) (f n : Nat) (hn : n ≠ f)
    (hX : X.id = n) (h : ∃ G ∈ L, G.id = n) :
    (L.flatMap (fun G => if G.id = f then [] else if G.id = n then [X] else [G])).find?
        (fun G => G.id = n) = some X := by
  induction L with
  | nil => simp at h
  | cons a L ih =>
    by_cases haf : a.id = f
    · have han : a.id ≠ n := by rw [haf]; exact fun e => hn e.symm
      have h2 : ∃ G ∈ L, G.id = n := by
        obtain ⟨G, hG, hGn⟩ := h
        rcases List.mem_cons.mp hG with e | e
        · subst e; exact absurd hGn han
        · exact ⟨G, e, hGn⟩
      simp [List.flatMap_cons, haf, ih h2]
    · by_cases han : a.id = n
      · simp [List.flatMap_cons, haf, han, List.find?_cons, hX, hn]
      · have h2 : ∃ G ∈ L, G.id = n := by
          obtain ⟨G, hG, hGn⟩ := h
          rcases List.mem_cons.mp hG with e | e
          · subst e; exact absurd hGn han
          · exact ⟨G, e, hGn⟩
        simp [List.flatMap_cons, haf, han, List.find?_cons, ih h2]

/-- What `InsertSecretArgument` returns, spelled out: the module after the call-site loop,
the rewritten old function `F2`, and the new function put in its place. -/
theorem InsertSecretArgument_some (fuel : Nat) (M : Module) (C : IPObfuscationContext)
    (f : Nat) (F : Function) (M3 : Module) (C1 : IPObfuscationContext) (nf : Nat)
    (hF : M.getFunction f = some F) (hfresh : f < M.NextHandle)
    (h : InsertSecretArgument fuel M C f = some (M3, C1, nf)) :
    ∃ (M2 : Module) (F2 : Function) (Info : IPOInfo) (NF2 : Function),
      nf = M.NextHandle
      ∧ rewriteUses C f M.NextHandle F.Params.length fuel
          { M with
            Functions := M.Functions.flatMap (fun G =>
              if G.id = f then [createNF M.NextHandle F, { G with Name := "" }] else [G]),
            NextHandle := M.NextHandle + 1 } = some M2
      ∧ M2.getFunction f = some F2 ∧ F2.header = { F.header with Name := "" }
      ∧ C.IPOInfoMap f = some Info
      ∧ NF2 = (({ createNF M.NextHandle F with
                    Blocks := shiftArguments F2.Blocks,
                    Args := nameArguments (createNF M.NextHandle F).Args F2.Args } :
                  Function).insertAtEntry
                [{ id := M2.NextHandle, Name := "",
                   DebugLoc := ({ createNF M.NextHandle F with
                      Blocks := shiftArguments F2.Blocks,
                      Args := nameArguments (createNF M.NextHandle F).Args F2.Args } :
                        Function).entryDebugLoc,
                   I := Inst.Load (Ty.Pointer (Ty.Int 32)) (Value.Argument 0) }]).eraseInst
              Info.SecretLI
      ∧ M3.getFunction nf = some NF2
      ∧ M3.Functions = M2.Functions.flatMap (fun G =>
              if G.id = f then [] else if G.id = M.NextHandle then [NF2] else [G])
      ∧ C1.IPOInfoMap = (fun g =>
              if g = f then none
              else if g = M.NextHandle then some { Info with SecretLI := M2.NextHandle }
              else C.IPOInfoMap g)
      ∧ C1.DeadSlots = C.DeadSlots ++ [Info.CallerSlot]
      ∧ C1.LocalFunctions = C.LocalFunctions
      ∧ M3.NextHandle = M.NextHandle + 2 ∧ M3.Globals = M.Globals := by
  unfold InsertSecretArgument at h
  rw [hF] at h
  simp only at h
  split at h
  · cases h
  · rename_i M2 hM2
    split at h
    · rename_i F2 Info hF2 hInfo
      simp only [Option.some.injEq, Prod.mk.injEq] at h
      obtain ⟨h1, h2, h3⟩ := h
      have hne : M.NextHandle ≠ f := by omega
      obtain ⟨hh, hnext, hglob⟩ := rewriteUses_header _ _ _ _ _ _ _ hM2
      have hF1 := find_insertNF M.Functions (createNF M.NextHandle F) F f hne hF
      have hF2h : F2.header = { F.header with Name := "" } := by
        have := find_header f _ _ hh
        simp only [Module.getFunction] at hF2
        rw [hF2, hF1] at this
        simpa [Function.header] using this
      have hex : ∃ G ∈ M2.Functions, G.id = M.NextHandle := by
        have hmem := mem_insertNF M.Functions (createNF M.NextHandle F) F f hF
        have : (createNF M.NextHandle F).header ∈ M2.Functions.map Function.header := by
          rw [hh]
          exact List.mem_map_of_mem _ hmem
        obtain ⟨G, hG, hGh⟩ := List.mem_map.mp this
        exact ⟨G, hG, congrArg Function.id hGh⟩
      subst h1 h2 h3
      refine ⟨M2, F2, Info, _, rfl, hM2, hF2, hF2h, hInfo, rfl, ?_, rfl, rfl, rfl, rfl, ?_, ?_⟩
      · refine find_replaceNF M2.Functions _ f M.NextHandle hne ?_ hex
        exact congrArg Function.id (insertAtEntry_header _ _)
      · simp only [hnext]
      · exact hglob
    · cases h

/-- C5 (resignature signature). The function `NF` that `InsertSecretArgument(F)` returns
has as parameter type list pointer-to-`i32` followed by the parameter types of `F` in their
original order (indeed the old arguments with their names), the same return type and
vararg flag as `F`, its first parameter named `SecretArg`, and parameter `i + 1` of `NF`
carries the parameter attributes that parameter `i` of `F` had, the secret parameter
carrying none; function and return attributes are those of `F`. `f` is the handle of `F`,
below the next unused handle of the module. -/
theorem resignature_signature (fuel : Nat) (M : Module) (C : IPObfuscationContext)
    (f : Nat) (F : Function) (M3 : Module) (C1 : IPObfuscationContext) (nf : Nat)
    (hF : M.getFunction f = some F) (hfresh : f < M.NextHandle)
    (h : InsertSecretArgument fuel M C f = some (M3, C1, nf)) :
    ∃ NF, M3.getFunction nf = some NF
      ∧ NF.Params = Ty.Pointer (Ty.Int 32) :: F.Params
      ∧ NF.Args = { Ty := Ty.Pointer (Ty.Int 32), Name := "SecretArg" } :: F.Args
      ∧ NF.RetTy = F.RetTy ∧ NF.isVarArg = F.isVarArg
      ∧ NF.Attrs.getParamAttrs 0 = []
      ∧ (∀ i, i < F.Args.length → NF.Attrs.getParamAttrs (i + 1) = F.Attrs.getParamAttrs i)
      ∧ NF.Attrs.FnAttrs = F.Attrs.FnAttrs ∧ NF.Attrs.RetAttrs = F.Attrs.RetAttrs := by
  obtain ⟨M2, F2, Info, NF2, -, -, -, hF2h, -, hNF2, hget, -⟩ :=
    InsertSecretArgument_some fuel M C f F M3 C1 nf hF hfresh h
  have hArgs2 : F2.Args = F.Args := by
    have := congrArg Function.Args hF2h
    exact this
  have hhead : NF2.header
      = ({ createNF M.NextHandle F with
            Blocks := shiftArguments F2.Blocks,
            Args := nameArguments (createNF M.NextHandle F).Args F2.Args } : Function).header := by
    rw [hNF2]
    exact insertAtEntry_header _ _
  have hArgs : NF2.Args
      = { Ty := Ty.Pointer (Ty.Int 32), Name := "SecretArg" } :: F.Args := by
    have := congrArg Function.Args hhead
    rw [hArgs2, createNF_nameArguments] at this
    exact this
  have hAttrs : NF2.Attrs = (createNF M.NextHandle F).Attrs := by
    have := congrArg Function.Attrs hhead
    exact this
  have hRet : NF2.RetTy = F.RetTy := by
    have := congrArg Function.RetTy hhead
    exact this
  have hVar : NF2.isVarArg = F.isVarArg := by
    have := congrArg Function.isVarArg hhead
    exact this
  refine ⟨NF2, hget, ?_, hArgs, hRet, hVar, ?_, ?_, ?_, ?_⟩
  · simp [Function.Params, hArgs]
  · rw [hAttrs]; exact (createNF_paramAttrs _ F).1
  · rw [hAttrs]; exact (createNF_paramAttrs _ F).2
  · rw [hAttrs]; rfl
  · rw [hAttrs]; rfl

theorem resignature_signature_witness :
    ∃ F M3 C1 nf, sampleAllocated.1.getFunction 1 = some F
      ∧ 1 < sampleAllocated.1.NextHandle
      ∧ InsertSecretArgument 10 sampleAllocated.1 sampleAllocated.2 1 = some (M3, C1, nf)
      ∧ ∃ NF, M3.getFunction nf = some NF
          ∧ NF.Params = Ty.Pointer (Ty.Int 32) :: F.Params
          ∧ NF.Args = { Ty := Ty.Pointer (Ty.Int 32), Name := "SecretArg" } :: F.Args
          ∧ NF.RetTy = F.RetTy ∧ NF.isVarArg = F.isVarArg
          ∧ NF.Attrs.getParamAttrs 0 = []
          ∧ (∀ i, i < F.Args.length →
              NF.Attrs.getParamAttrs (i + 1) = F.Attrs.getParamAttrs i)
          ∧ NF.Attrs.FnAttrs = F.Attrs.FnAttrs ∧ NF.Attrs.RetAttrs = F.Attrs.RetAttrs :=
  ⟨_, _, _, _, rfl, by decide, rfl,
    resignature_signature 10 sampleAllocated.1 sampleAllocated.2 1 _ _ _ _ rfl (by decide) rfl⟩

/-! ### Which functions have an `IPOInfo` after `run` -/

theorem SurveyFunction_map (M : Module) (C : IPObfuscationContext) (F : Function) :
    (SurveyFunction M C F).IPOInfoMap = C.IPOInfoMap := by
  unfold SurveyFunction
  split
  · rfl
  · split <;> rfl

theorem surveyAll_map (M : Module) (C : IPObfuscationContext) :
    (surveyAll M C).IPOInfoMap = C.IPOInfoMap := by
  unfold surveyAll
  generalize M.Functions = Fs
  induction Fs generalizing C with
  | nil => rfl
  | cons F Fs ih => rw [List.foldl_cons, ih, SurveyFunction_map]

theorem AllocaSecretSlot_header (h : Nat) (R : CryptoUtils) (F : Function) :
    (AllocaSecretSlot h R F).1.header = F.header := by
  simp only [AllocaSecretSlot]
  exact insertAtEntry_header _ _

theorem allocAll_header (Fs : List Function) (h : Nat) (C : IPObfuscationContext) :
    (allocAll Fs h C).1.map Function.header = Fs.map Function.header
      ∧ h ≤ (allocAll Fs h C).2.1
      ∧ (allocAll Fs h C).2.2.LocalFunctions = C.LocalFunctions := by
  induction Fs generalizing h C with
  | nil => simp [allocAll]
  | cons F Fs ih =>
    by_cases hd : F.isDeclaration = true
    · rw [allocAll, if_pos hd]
      obtain ⟨h1, h2, h3⟩ := ih h C
      exact ⟨by simp [h1], h2, h3⟩
    · rw [allocAll, if_neg hd]
      obtain ⟨h1, h2, h3⟩ := ih (h + 4)
        { C with RandomEngine := (AllocaSecretSlot h C.RandomEngine F).2.2,
                 IPOInfoMap := fun g => if g = F.id then some (AllocaSecretSlot h C.RandomEngine F).2.1
                    else C.IPOInfoMap g }
      dsimp only
      refine ⟨?_, by omega, h3⟩
      simp only [List.map_cons, h1, AllocaSecretSlot_header]

/-- The slot-allocation loop leaves the entry of `g` alone when no function with a body has
handle `g`. -/
theorem allocAll_map_unchanged (Fs : List Function) (h : Nat) (C : IPObfuscationContext)
    (g : Nat) (hg : ∀ F ∈ Fs, F.id = g → F.isDeclaration = true) :
    (allocAll Fs h C).2.2.IPOInfoMap g = C.IPOInfoMap g := by
  induction Fs generalizing h C with
  | nil => rfl
  | cons F Fs ih =>
    have hrest : ∀ F1 ∈ Fs, F1.id = g → F1.isDeclaration = true :=
      fun F1 h1 => hg F1 (List.mem_cons_of_mem _ h1)
    unfold allocAll
    split
    · exact ih h C hrest
    · rename_i hdecl
      have hne : g ≠ F.id := by
        intro e
        exact hdecl (hg F (List.mem_cons_self _ _) e.symm)
      simp only
      rw [ih _ _ hrest]
      simp [hne]

/-- The slot-allocation loop gives an entry to every function with a body. -/
theorem allocAll_map_some (Fs : List Function) (h : Nat) (C : IPObfuscationContext)
    (g : Nat) (hg : ∃ F ∈ Fs, F.id = g ∧ F.isDeclaration = false) :
    (allocAll Fs h C).2.2.IPOInfoMap g ≠ none := by
  induction Fs generalizing h C with
  | nil => simp at hg
  | cons F Fs ih =>
    by_cases hrest : ∃ F1 ∈ Fs, F1.id = g ∧ F1.isDeclaration = false
    · unfold allocAll
      split
      · exact ih h C hrest
      · exact ih _ _ hrest
    · have hF : F.id = g ∧ F.isDeclaration = false := by
        obtain ⟨F1, h1, h2⟩ := hg
        rcases List.mem_cons.mp h1 with e | e
        · subst e; exact h2
        · exact absurd ⟨F1, e, h2⟩ hrest
      have hun : ∀ F1 ∈ Fs, F1.id = g → F1.isDeclaration = true := by
        intro F1 h1 h2
        by_contra h3
        exact hrest ⟨F1, h1, h2, by simpa using h3⟩
      unfold allocAll
      rw [if_neg (by simp [hF.2])]
      simp only
      rw [allocAll_map_unchanged _ _ _ g hun]
      simp [hF.1]

theorem InsertSecretArgument_getFunction (fuel : Nat) (M : Module) (C : IPObfuscationContext)
    (f : Nat) (r : Module × IPObfuscationContext × Nat)
    (h : InsertSecretArgument fuel M C f = some r) : ∃ F, M.getFunction f = some F := by
  unfold InsertSecretArgument at h
  split at h
  · cases h
  · rename_i F hF
    exact ⟨F, hF⟩

theorem getFunction_mem (M : Module) (f : Nat) (F : Function) (h : M.getFunction f = some F) :
    F ∈ M.Functions ∧ F.id = f := by
  unfold Module.getFunction at h
  exact ⟨List.mem_of_find?_eq_some h, by simpa using List.find?_some h⟩

/-- Handles stay below the next unused handle across `InsertSecretArgument`. -/
theorem InsertSecretArgument_fresh (fuel : Nat) (M : Module) (C : IPObfuscationContext)
    (f : Nat) (M3 : Module) (C1 : IPObfuscationContext) (nf : Nat)
    (hfresh : ∀ G ∈ M.Functions, G.id < M.NextHandle)
    (h : InsertSecretArgument fuel M C f = some (M3, C1, nf)) :
    (∀ G ∈ M3.Functions, G.id < M3.NextHandle) ∧ M.NextHandle ≤ M3.NextHandle
      ∧ (∀ g, g ≠ f → g < M.NextHandle → C1.IPOInfoMap g = C.IPOInfoMap g) := by
  obtain ⟨F, hF⟩ := InsertSecretArgument_getFunction fuel M C f _ h
  obtain ⟨hFm, hFid⟩ := getFunction_mem M f F hF
  have hf : f < M.NextHandle := by rw [← hFid]; exact hfresh F hFm
  obtain ⟨M2, F2, Info, NF2, -, hM2, -, -, -, hNF2, hget, hfun, hmap, -, -, hnext, -⟩ :=
    InsertSecretArgument_some fuel M C f F M3 C1 nf hF hf h
  obtain ⟨hh, -, -⟩ := rewriteUses_header _ _ _ _ _ _ _ hM2
  have hNFid : NF2.id = M.NextHandle := by
    have := congrArg Function.id (insertAtEntry_header
      ({ createNF M.NextHandle F with
            Blocks := shiftArguments F2.Blocks,
            Args := nameArguments (createNF M.NextHandle F).Args F2.Args } : Function)
      [{ id := M2.NextHandle, Name := "",
         DebugLoc := ({ createNF M.NextHandle F with
            Blocks := shiftArguments F2.Blocks,
            Args := nameArguments (createNF M.NextHandle F).Args F2.Args } :
              Function).entryDebugLoc,
         I := Inst.Load (Ty.Pointer (Ty.Int 32)) (Value.Argument 0) }])
    rw [hNF2]
    exact this
  have hM2ids : ∀ G ∈ M2.Functions, G.id ≤ M.NextHandle := by
    intro G hG
    have : G.header ∈ M2.Functions.map Function.header := List.mem_map_of_mem _ hG
    rw [hh] at this
    obtain ⟨G1, hG1, hG1h⟩ := List.mem_map.mp this
    have hid : G1.id = G.id := by
      have := congrArg Function.id hG1h
      exact this
    simp only [List.mem_flatMap] at hG1
    obtain ⟨G0, hG0, hG0m⟩ := hG1
    have hlt := hfresh G0 hG0
    split at hG0m
    · simp only [List.mem_cons, List.mem_singleton, List.not_mem_nil, or_false] at hG0m
      rcases hG0m with e | e
      · rw [← hid, e]; exact le_refl _
      · rw [← hid, e]; exact Nat.le_of_lt hlt
    · simp only [List.mem_singleton] at hG0m
      rw [← hid, hG0m]; exact Nat.le_of_lt hlt
  refine ⟨?_, by omega, ?_⟩
  · intro G hG
    rw [hfun] at hG
    simp only [List.mem_flatMap] at hG
    obtain ⟨G0, hG0, hG0m⟩ := hG
    split at hG0m
    · simp at hG0m
    · split at hG0m
      · simp only [List.mem_singleton] at hG0m
        rw [hG0m, hNFid, hnext]; omega
      · simp only [List.mem_singleton] at hG0m
        rw [hG0m, hnext]
        have := hM2ids G0 hG0
        omega
  · intro g hgf hg
    rw [hmap]
    have : g ≠ M.NextHandle := by omega
    simp [hgf, this]

/-- The resignature loop leaves the entry of every function that it does not process. -/
theorem insertAll_map_stable (fuel : Nat) (L : List Nat) (M : Module)
    (C : IPObfuscationContext) (M2 : Module) (C2 : IPObfuscationContext) (NewFuncs : List Nat)
    (hfresh : ∀ G ∈ M.Functions, G.id < M.NextHandle)
    (h : insertAll fuel L M C = some (M2, C2, NewFuncs))
    (g : Nat) (hg : g ∉ L) (hlt : g < M.NextHandle) :
    C2.IPOInfoMap g = C.IPOInfoMap g := by
  induction L generalizing M C NewFuncs with
  | nil =>
    simp only [insertAll, Option.some.injEq, Prod.mk.injEq] at h
    rw [← h.2.1]
  | cons f rest ih =>
    unfold insertAll at h
    split at h
    · cases h
    · rename_i M1 C1 NF h1
      split at h
      · cases h
      · rename_i M2a C2a NFs h2
        simp only [Option.some.injEq, Prod.mk.injEq] at h
        obtain ⟨e1, e2, -⟩ := h
        subst e1 e2
        obtain ⟨hf1, hf2, hf3⟩ := InsertSecretArgument_fresh fuel M C f M1 C1 NF hfresh h1
        have hgf : g ≠ f := fun e => hg (by simp [e])
        have hgr : g ∉ rest := fun e => hg (by simp [e])
        rw [ih M1 C1 NFs hf1 h2 hgr (by omega), hf3 g hgf hlt]

/-- C8, as stated, fails: in scenario S1 the externally visible `main` (handle 2) has a
body, fails the survey and is not resignatured, yet after `run` its `IPOInfo` is not
null. -/
theorem getIPOInfo_unsurveyed_not_null :
    ∃ M1 C1, IPObfuscationContext.run 10 sampleS1 sampleContext = some (M1, C1)
      ∧ 2 ∉ (surveyAll sampleS1 sampleContext).LocalFunctions
      ∧ (∃ G ∈ sampleS1.Functions, G.id = 2 ∧ G.Linkage = Linkage.External
            ∧ G.isDeclaration = false)
      ∧ C1.getIPOInfo 2 ≠ none :=
  ⟨_, _, rfl, by decide, by decide, by decide⟩

/-- C8, amended. After `run` on a freshly constructed context, for every function `F` of
the module that was not resignatured (not in `LocalFunctions`), `getIPOInfo(F)` returns
null if and only if `F` is a declaration: a function that has a body has an `IPOInfo`
whether or not it passed the survey. Function handles are distinct and below the next
unused handle. -/
theorem getIPOInfo_after_run (fuel : Nat) (M : Module) (C : IPObfuscationContext)
    (M1 : Module) (C1 : IPObfuscationContext)
    (hC : ∀ g, C.IPOInfoMap g = none)
    (hids : (M.Functions.map Function.id).Nodup)
    (hfresh : ∀ G ∈ M.Functions, G.id < M.NextHandle)
    (hrun : IPObfuscationContext.run fuel M C = some (M1, C1))
    (F : Function) (hF : F ∈ M.Functions) (hnot : F.id ∉ (surveyAll M C).LocalFunctions) :
    C1.getIPOInfo F.id = none ↔ F.isDeclaration = true := by
  unfold IPObfuscationContext.run at hrun
  simp only at hrun
  split at hrun
  · cases hrun
  · rename_i M2 C2 NewFuncs hins
    split at hrun
    · cases hrun
    · rename_i M3 hcomp
      simp only [Option.some.injEq, Prod.mk.injEq] at hrun
      obtain ⟨-, e2⟩ := hrun
      subst e2
      obtain ⟨hh, hle, hlf⟩ := allocAll_header M.Functions M.NextHandle (surveyAll M C)
      have hfresh1 : ∀ G ∈ ({ M with
            Functions := (allocAll M.Functions M.NextHandle (surveyAll M C)).1,
            NextHandle := (allocAll M.Functions M.NextHandle (surveyAll M C)).2.1 } :
              Module).Functions,
          G.id < (allocAll M.Functions M.NextHandle (surveyAll M C)).2.1 := by
        intro G hG
        have : G.header ∈ (allocAll M.Functions M.NextHandle (surveyAll M C)).1.map
            Function.header := List.mem_map_of_mem _ hG
        rw [hh] at this
        obtain ⟨G0, hG0, hG0h⟩ := List.mem_map.mp this
        have hid : G0.id = G.id := by
          have := congrArg Function.id hG0h
          exact this
        have := hfresh G0 hG0
        omega
      have hstable := insertAll_map_stable fuel _ _ _ M2 C2 NewFuncs hfresh1 hins F.id
        (by rw [hlf]; exact hnot) (Nat.lt_of_lt_of_le (hfresh F hF) hle)
      unfold IPObfuscationContext.getIPOInfo
      rw [hstable]
      constructor
      · intro hnone
        by_contra hbody
        exact allocAll_map_some M.Functions M.NextHandle (surveyAll M C) F.id
          ⟨F, hF, rfl, by simpa using hbody⟩ hnone
      · intro hdecl
        rw [allocAll_map_unchanged M.Functions M.NextHandle (surveyAll M C) F.id, surveyAll_map,
          hC]
        intro G hG hGid
        have : G = F := List.inj_on_of_nodup_map hids hG hF hGid
        rw [this]
        exact hdecl

theorem getIPOInfo_after_run_witness :
    ∃ M1 C1, (∀ g, sampleContext.IPOInfoMap g = none)
      ∧ (sampleS1.Functions.map Function.id).Nodup
      ∧ (∀ G ∈ sampleS1.Functions, G.id < sampleS1.NextHandle)
      ∧ IPObfuscationContext.run 10 sampleS1 sampleContext = some (M1, C1)
      ∧ (∃ F, F ∈ sampleS1.Functions ∧ F.id = 2
          ∧ F.id ∉ (surveyAll sampleS1 sampleContext).LocalFunctions
          ∧ (C1.getIPOInfo F.id = none ↔ F.isDeclaration = true)) :=
  ⟨_, _, fun _ => rfl, by decide, by decide, rfl,
    ⟨sampleMain, by decide, rfl, by decide,
      getIPOInfo_after_run 10 sampleS1 sampleContext _ _ (fun _ => rfl) (by decide) (by decide)
        rfl _ (by decide) (by decide)⟩⟩

/-! ### Indirect branches: the address round trip -/

/-- C2 at a failing input. On a 64-bit target, when the engine hands out `0x80000000` the
pass picks `EncKey = 0x80000000` for `sampleBranchy`. Both `EncKey` and the emitted
`DecKey = 0x80000000` are sign-extended by the byte GEPs to `-2^31`, so with the run-time
secret equal to `SecretCI` and the condition true the decrypted address (instruction 1005)
is `BlockAddress(then) - 2^32`, not `BlockAddress(then)`, and the indirect branch has no
destination at that address. -/
theorem indirectbr_roundtrip_fails_at_min_key :
    minKeyRun.2.2.1.BBTargets = [302, 301]
      ∧ minKeyTable = encryptTargets [302, 301] 2147483648
      ∧ (sampleTarget.execSeq 0 minKeyEntry.dropLast (minKeyState 1)).map
          (fun S => (S.Regs 310, S.Regs 1004, S.Regs 1005))
          = some (5, 2147483648, 18446744069416686288)
      ∧ sampleTarget.BlockAddr 301 % 2 ^ sampleTarget.PtrBits = 2101968
      ∧ sampleTarget.execInsts 0 minKeyEntry (minKeyState 1) = none := by
  refine ⟨by decide, by decide, ?_, by decide, ?_⟩
  · rfl
  · rfl

/-- Away from `0x80000000` the two sign-extended offsets cancel on a 64-bit target: adding
`EncKey` and then `DecKey = (FuncSecretCI - EncKey) - FuncSecretCI` to a block address
gives the block address back. -/
theorem roundtrip_other_keys (T : Target) (hP : T.PtrBits = 64) (BA EncKey CI : Nat)
    (hBA : BA < 2 ^ 64) (hE : EncKey < W32) (hne : EncKey ≠ 2147483648) :
    T.ptrAdd (T.ptrAdd BA (signed 32 EncKey)) (signed 32 (sub32 (sub32 CI EncKey) CI)) = BA := by
  have hkey : sub32 (sub32 CI EncKey) CI = (W32 - EncKey) % W32 := by
    simp only [sub32, W32] at *
    omega
  rw [hkey]
  simp only [Target.ptrAdd, signed, hP, W32] at *
  norm_num
  split <;> split <;> omega

/-- On a 32-bit target the offsets cancel for every key. -/
theorem roundtrip_32bit (T : Target) (hP : T.PtrBits = 32) (BA EncKey CI : Nat)
    (hBA : BA < 2 ^ 32) (hE : EncKey < W32) :
    T.ptrAdd (T.ptrAdd BA (signed 32 EncKey)) (signed 32 (sub32 (sub32 CI EncKey) CI)) = BA := by
  have hkey : sub32 (sub32 CI EncKey) CI = (W32 - EncKey) % W32 := by
    simp only [sub32, W32] at *
    omega
  rw [hkey]
  simp only [Target.ptrAdd, signed, hP, W32] at *
  norm_num
  split <;> split <;> omega

/-! ### The generated routines run once -/

mutual
theorem lowerGlobalConstant_stores (CV : Constant) (Ptr : Value) (h : Nat) :
    ∀ I ∈ (lowerGlobalConstant CV Ptr h).1, ∃ ty v p, I.I = Inst.Store ty v p := by
  cases CV with
  | AggregateZero ty =>
    intro I hI
    simp only [lowerGlobalConstant, List.mem_singleton] at hI
    exact ⟨_, _, _, by rw [hI]⟩
  | Array elt ops =>
    rw [lowerGlobalConstant]
    exact lowerOperands_stores ops _ Ptr 0 h
  | Struct name ops =>
    rw [lowerGlobalConstant]
    exact lowerOperands_stores ops _ Ptr 0 h
  | Scalar ty v =>
    intro I hI
    simp only [lowerGlobalConstant, List.mem_singleton] at hI
    exact ⟨_, _, _, by rw [hI]⟩
theorem lowerOperands_stores (ops : ConstantList) (aggTy : Ty) (Ptr : Value) (i h : Nat) :
    ∀ I ∈ (lowerOperands ops aggTy Ptr i h).1, ∃ ty v p, I.I = Inst.Store ty v p := by
  cases ops with
  | nil =>
    intro I hI
    simp [lowerOperands] at hI
  | cons CV rest =>
    intro I hI
    simp only [lowerOperands, List.mem_append] at hI
    rcases hI with hI | hI
    · exact lowerGlobalConstant_stores CV _ h I hI
    · exact lowerOperands_stores rest aggTy Ptr (i + 1) _ I hI
end

/-- A run of stores in front of a block executes and leaves registers and arguments
alone. -/
theorem execInsts_stores (T : Target) (prev : Nat) (l rest : List Instruction) (S : State)
    (hl : ∀ I ∈ l, ∃ ty v p, I.I = Inst.Store ty v p) :
    ∃ S1, T.execInsts prev (l ++ rest) S = T.execInsts prev rest S1
      ∧ S1.Regs = S.Regs ∧ S1.Args = S.Args := by
  induction l generalizing S with
  | nil => exact ⟨S, rfl, rfl, rfl⟩
  | cons I l ih =>
    obtain ⟨ty, v, p, hI⟩ := hl I (List.mem_cons_self _ _)
    obtain ⟨S1, h1, h2, h3⟩ := ih
      { S with Mem := storeBytes S.Mem (T.eval S p) (T.eval S v) (T.sizeOf ty) }
      (fun J hJ => hl J (List.mem_cons_of_mem _ hJ))
    refine ⟨S1, ?_, h2, h3⟩
    rw [← h1]
    simp [Target.execInsts, Target.execInst, hI, Inst.isTerminator]

theorem loadBytes_lt (Mem : Nat → Nat) (a n : Nat) : loadBytes Mem a n < 256 ^ n := by
  induction n generalizing a with
  | zero => simp [loadBytes]
  | succ n ih =>
    rw [loadBytes, pow_succ]
    have h1 := ih (a + 1)
    have h2 : Mem a % 256 < 256 := Nat.mod_lt _ (by decide)
    nlinarith

theorem loadBytes_four_mod (Mem : Nat → Nat) (a : Nat) :
    loadBytes Mem a 4 % 2 ^ 32 = loadBytes Mem a 4 :=
  Nat.mod_eq_of_lt (loadBytes_lt Mem a 4)

/-- Once `DecStatus` is 1 the init routine returns without writing. -/
theorem initFunction_noop (T : Target) (h sel : Nat) (User : CSUser) (Args : List Nat)
    (Mem : Nat → Nat)
    (hst : loadBytes Mem (T.GlobalAddr User.DecStatus % 2 ^ T.PtrBits) 4 = 1) :
    T.call (buildInitFunction h sel User) 3 Args Mem = some Mem := by
  simp [Target.call, buildInitFunction, Target.runBlocks, Target.execInsts, Target.execInst,
    Target.execTerminator, Inst.isTerminator, Target.eval, State.setReg, Target.sizeOf,
    Target.bitsOf, hst]

/-- The block `InitBlock` runs to its branch and leaves `DecStatus` at 1. -/
theorem initBlock_exec (T : Target) (h sel : Nat) (User : CSUser) (prev : Nat) (S : State) :
    ∃ S1, T.execInsts prev
        ((lowerGlobalConstant User.Initializer (Value.Global User.DecGV) (h + 11)).1 ++
          (if User.isObjCSelectorPtr then
            [ ({ id := h + 7, Name := "", DebugLoc := 0,
                 I := Inst.Call
                  { Callee := Value.Func sel, Args := [User.Initializer.value],
                    Attrs := { FnAttrs := [], RetAttrs := [], ParamAttrs := [] },
                    CallingConv := 0 } false } : Instruction),
              { id := h + 8, Name := "", DebugLoc := 0,
                I := Inst.Store (Ty.Pointer (Ty.Int 8)) (Value.Inst (h + 7))
                  (Value.Global User.DecGV) } ]
           else []) ++
          [ { id := h + 9, Name := "", DebugLoc := 0,
              I := Inst.Store (Ty.Int 32) (Value.ConstantInt 32 1)
                (Value.Global User.DecStatus) },
            { id := h + 10, Name := "", DebugLoc := 0, I := Inst.Br (h + 3) } ]) S
        = some (S1, Step.Goto (h + 3))
      ∧ loadBytes S1.Mem (T.GlobalAddr User.DecStatus % 2 ^ T.PtrBits) 4 = 1 := by
  obtain ⟨S0, h0, -, -⟩ := execInsts_stores T prev
    (lowerGlobalConstant User.Initializer (Value.Global User.DecGV) (h + 11)).1
    ((if User.isObjCSelectorPtr then
            [ ({ id := h + 7, Name := "", DebugLoc := 0,
                 I := Inst.Call
                  { Callee := Value.Func sel, Args := [User.Initializer.value],
                    Attrs := { FnAttrs := [], RetAttrs := [], ParamAttrs := [] },
                    CallingConv := 0 } false } : Instruction),
              { id := h + 8, Name := "", DebugLoc := 0,
                I := Inst.Store (Ty.Pointer (Ty.Int 8)) (Value.Inst (h + 7))
                  (Value.Global User.DecGV) } ]
           else []) ++
          [ { id := h + 9, Name := "", DebugLoc := 0,
              I := Inst.Store (Ty.Int 32) (Value.ConstantInt 32 1)
                (Value.Global User.DecStatus) },
            { id := h + 10, Name := "", DebugLoc := 0, I := Inst.Br (h + 3) } ]) S
    (lowerGlobalConstant_stores _ _ _)
  rw [List.append_assoc, h0]
  cases hsel : User.isObjCSelectorPtr
  · exact ⟨_, rfl, loadBytes_storeBytes_four _ _ 1⟩
  · exact ⟨_, rfl, loadBytes_storeBytes_four _ _ 1⟩

theorem runBlocks_goto (T : Target) (Blocks : List BasicBlock) (fuel cur prev : Nat)
    (S S1 : State) (BB : BasicBlock) (next : Nat)
    (hfind : Blocks.find? (fun B => B.id = cur) = some BB)
    (hexec : T.execInsts prev BB.Insts S = some (S1, Step.Goto next)) :
    T.runBlocks Blocks (fuel + 1) cur prev S = T.runBlocks Blocks fuel next cur S1 := by
  rw [Target.runBlocks, hfind]
  simp only [hexec]

theorem runBlocks_return (T : Target) (Blocks : List BasicBlock) (fuel cur prev : Nat)
    (S S1 : State) (BB : BasicBlock)
    (hfind : Blocks.find? (fun B => B.id = cur) = some BB)
    (hexec : T.execInsts prev BB.Insts S = some (S1, Step.Return)) :
    T.runBlocks Blocks (fuel + 1) cur prev S = some S1 := by
  rw [Target.runBlocks, hfind]
  simp only [hexec]

/-- The block `Enter` of either routine: load `DecStatus`, compare with 1, branch. -/
theorem enter_exec (T : Target) (prev a b c DecStatus Exit Next : Nat) (pre : List Instruction)
    (S S0 : State) (hab : a ≠ b)
    (hpre : T.execSeq prev pre S = some S0) (hterm : ∀ I ∈ pre, I.I.isTerminator = false) :
    ∃ S1, T.execInsts prev
        (pre ++
          [ ({ id := a, Name := "", DebugLoc := 0,
               I := Inst.Load (Ty.Int 32) (Value.Global DecStatus) } : Instruction),
            { id := b, Name := "", DebugLoc := 0,
              I := Inst.ICmpEQ (Value.Inst a) (Value.ConstantInt 32 1) },
            { id := c, Name := "", DebugLoc := 0,
              I := Inst.CondBr (Value.Inst b) Exit Next } ]) S
        = some (S1, Step.Goto
            (if loadBytes S0.Mem (T.GlobalAddr DecStatus % 2 ^ T.PtrBits) 4 = 1 then Exit
             else Next))
      ∧ S1.Mem = S0.Mem ∧ S1.Args = S0.Args
      ∧ (∀ r, r ≠ a → r ≠ b → S1.Regs r = S0.Regs r) := by
  induction pre generalizing S with
  | nil =>
    simp only [Target.execSeq, Option.some.injEq] at hpre
    subst hpre
    refine ⟨(S.setReg a (loadBytes S.Mem (T.GlobalAddr DecStatus % 2 ^ T.PtrBits) 4)).setReg b
      (if loadBytes S.Mem (T.GlobalAddr DecStatus % 2 ^ T.PtrBits) 4 = 1 then 1 else 0),
      ?_, rfl, rfl, ?_⟩
    · have hm := loadBytes_four_mod S.Mem (T.GlobalAddr DecStatus % 2 ^ T.PtrBits)
      have hba : b ≠ a := fun e => hab e.symm
      simp only [List.nil_append, Target.execInsts, Inst.isTerminator, Target.execInst,
        Target.eval, Target.sizeOf, Target.bitsOf, Target.execTerminator, State.setReg, hm,
        Bool.false_eq_true, if_false, if_true, hba]
      by_cases h1 : loadBytes S.Mem (T.GlobalAddr DecStatus % 2 ^ T.PtrBits) 4 = 1
      · simp [h1]
      · have h2 : ¬ loadBytes S.Mem (T.GlobalAddr DecStatus % 2 ^ T.PtrBits) 4 = 1 % 2 ^ 32 := by
          simpa using h1
        simp [h1, h2]
    · intro r hra hrb
      simp [State.setReg, hra, hrb]
  | cons I pre ih =>
    have hI : I.I.isTerminator = false := hterm I (List.mem_cons_self _ _)
    simp only [Target.execSeq] at hpre
    cases hx : T.execInst prev S I with
    | none => rw [hx] at hpre; cases hpre
    | some Sx =>
      rw [hx] at hpre
      obtain ⟨S1, h1, h2⟩ := ih Sx hpre (fun J hJ => hterm J (List.mem_cons_of_mem _ hJ))
      refine ⟨S1, ?_, h2⟩
      rw [← h1]
      simp [Target.execInsts, hI, hx]

theorem ret_exec (T : Target) (prev id : Nat) (S : State) :
    T.execInsts prev [({ id := id, Name := "", DebugLoc := 0, I := Inst.Ret } : Instruction)] S
      = some (S, Step.Return) := rfl

/-- The init routine always returns, with `DecStatus` at 1. -/
theorem initFunction_runs (T : Target) (h sel : Nat) (User : CSUser) (Args : List Nat)
    (Mem : Nat → Nat) :
    ∃ M1, T.call (buildInitFunction h sel User) 3 Args Mem = some M1
      ∧ loadBytes M1 (T.GlobalAddr User.DecStatus % 2 ^ T.PtrBits) 4 = 1 := by
  by_cases hst : loadBytes Mem (T.GlobalAddr User.DecStatus % 2 ^ T.PtrBits) 4 = 1
  · exact ⟨Mem, initFunction_noop T h sel User Args Mem hst, hst⟩
  · obtain ⟨S1, h1, hm1, -, -⟩ := enter_exec T (h + 1) (h + 4) (h + 5) (h + 6) User.DecStatus
      (h + 3) (h + 2) [] { Regs := fun _ => 0, Args := Args, Mem := Mem } _ (by omega) rfl
      (by simp)
    simp only [hst, if_false] at h1
    obtain ⟨S2, h2, hm2⟩ := initBlock_exec T h sel User (h + 1) S1
    refine ⟨S2.Mem, ?_, hm2⟩
    have hr := runBlocks_return T (buildInitFunction h sel User).Blocks 0 (h + 3) (h + 2) S2 S2
      _ (by simp [buildInitFunction]; rfl) (ret_exec _ _ _ _)
    have hg2 := runBlocks_goto T (buildInitFunction h sel User).Blocks 1 (h + 2) (h + 1) S1 S2
      _ (h + 3) (by simp [buildInitFunction]; rfl) (by simpa [List.append_assoc] using h2)
    have hg1 := runBlocks_goto T (buildInitFunction h sel User).Blocks 2 (h + 1) (h + 1)
      { Regs := fun _ => 0, Args := Args, Mem := Mem } S1
      _ (h + 2) (by simp [buildInitFunction]; rfl) (by simpa using h1)
    simp only [Target.call, buildInitFunction] at *
    rw [hg1, hg2, hr]
    rfl

/-! ### The decrypt routine -/

/-- One round of `LoopBody` with counter value `i`: no poison arises while `i + 1` stays
below `2 ^ 31` and the key is not empty; the counter becomes `i + 1`, and control leaves
through `UpdateDecStatus` exactly when `i + 1` is the data length. -/
theorem loopBody_exec (T : Target) (h : Nat) (Entry : CSPEntry) (prev i : Nat) (S : State)
    (BB : BasicBlock)
    (hBB : (buildDecryptFunction h Entry).Blocks.find? (fun B => B.id = h + 2) = some BB)
    (hphi : (prev = h + 1 ∧ i = 0) ∨ (prev = h + 2 ∧ S.Regs (h + 18) = i))
    (hi : i + 1 < 2 ^ 31) (hkey : Entry.EncKey.length % 2 ^ 32 ≠ 0) :
    ∃ S1, T.execInsts prev BB.Insts S
        = some (S1, Step.Goto
            (if i + 1 = toUnsigned Entry.Data.length then h + 3 else h + 2))
      ∧ S1.Regs (h + 18) = i + 1 ∧ S1.Args = S.Args ∧ S1.Regs (h + 5) = S.Regs (h + 5)
      ∧ S1.Mem = storeBytes S.Mem
          (T.ptrAdd (S.Args.getD 0 0) (T.gepOffset (Ty.Int 8) [signed 32 i]))
          ((loadBytes S.Mem
                (T.ptrAdd (S.Regs (h + 5)) (T.gepOffset (Ty.Int 8) [signed 32 i])) 1 % 256
              ^^^ loadBytes S.Mem
                (T.ptrAdd (S.Args.getD 1 0)
                  (T.gepOffset (Ty.Int 8) [signed 32 (i % (Entry.EncKey.length % 2 ^ 32))])) 1
                % 256) % 256) 1
      ∧ S1.Regs (h + 9) = i := by
  have hBB2 : BB = ((buildDecryptFunction h Entry).Blocks.getD 1 BB) := by
    simp [buildDecryptFunction] at hBB
    simp [buildDecryptFunction, ← hBB]
  have h1 : (i + 1) % 4294967296 = i + 1 := Nat.mod_eq_of_lt (by omega)
  have h0 : i % 4294967296 = i := Nat.mod_eq_of_lt (by omega)
  have hu : toUnsigned Entry.Data.length % 4294967296 = toUnsigned Entry.Data.length := by
    simp [toUnsigned, W32]
  have hov1 : addOverflowsUnsigned 32 i 1 = false := by
    simp only [addOverflowsUnsigned, decide_eq_false_iff_not]
    norm_num
    omega
  have hov2 : addOverflowsSigned 32 i 1 = false := by
    simp only [addOverflowsSigned, signed, Bool.or_eq_false_iff, decide_eq_false_iff_not]
    norm_num
    have : i % 4294967296 < 2147483648 := by omega
    simp only [this, if_true, h0]
    constructor <;> omega
  have hkey2 : ¬ Entry.EncKey.length % 4294967296 = 0 := by
    intro e
    apply hkey
    norm_num
    exact e
  rw [hBB2]
  rcases hphi with ⟨hp, hi0⟩ | ⟨hp, hr⟩
  · subst hp hi0
    simp [buildDecryptFunction, Target.execInsts, Target.execInst, Target.execTerminator,
      Inst.isTerminator, Target.eval, State.setReg, Target.sizeOf, Target.bitsOf, hkey2,
      hov1, hov2, hu]
    refine ⟨_, ⟨rfl, ?_⟩, ?_, ?_, ?_⟩
    · split <;> simp
    · simp
    · simp
    · simp
  · subst hp
    simp [buildDecryptFunction, Target.execInsts, Target.execInst, Target.execTerminator,
      Inst.isTerminator, Target.eval, State.setReg, Target.sizeOf, Target.bitsOf, hkey2,
      hov1, hov2, hu, hr, h1, h0]
    refine ⟨_, ⟨rfl, ?_⟩, ?_, ?_, ?_⟩
    · split <;> simp
    · simp
    · simp
    · simp

theorem decrypt_find (h : Nat) (Entry : CSPEntry) :
    (∃ BB, (buildDecryptFunction h Entry).Blocks.find? (fun B => B.id = h + 2) = some BB)
      ∧ (buildDecryptFunction h Entry).Blocks.find? (fun B => B.id = h + 3)
          = some { id := h + 3, Name := "UpdateDecStatus", Insts :=
              [ { id := h + 21, Name := "", DebugLoc := 0,
                  I := Inst.Store (Ty.Int 32) (Value.ConstantInt 32 1)
                    (Value.Global Entry.DecStatus) },
                { id := h + 22, Name := "", DebugLoc := 0, I := Inst.Br (h + 4) } ] }
      ∧ (buildDecryptFunction h Entry).Blocks.find? (fun B => B.id = h + 4)
          = some { id := h + 4, Name := "Exit", Insts :=
              [ { id := h + 23, Name := "", DebugLoc := 0, I := Inst.Ret } ] } := by
  refine ⟨?_, ?_, ?_⟩
  · simp [buildDecryptFunction]
  · simp [buildDecryptFunction]
  · simp [buildDecryptFunction]

/-- From `UpdateDecStatus` the routine stores 1 to `DecStatus` and returns. -/
theorem decrypt_update (T : Target) (h : Nat) (Entry : CSPEntry) (fuel prev : Nat) (S : State) :
    ∃ S1, T.runBlocks (buildDecryptFunction h Entry).Blocks (fuel + 2) (h + 3) prev S = some S1
      ∧ loadBytes S1.Mem (T.GlobalAddr Entry.DecStatus % 2 ^ T.PtrBits) 4 = 1 := by
  obtain ⟨-, h3, h4⟩ := decrypt_find h Entry
  let D := T.GlobalAddr Entry.DecStatus % 2 ^ T.PtrBits
  refine ⟨{ S with Mem := storeBytes S.Mem D (1 % 2 ^ 32) 4 }, ?_, ?_⟩
  · rw [runBlocks_goto T _ (fuel + 1) (h + 3) prev S _ _ (h + 4) h3 rfl,
      runBlocks_return T _ fuel (h + 4) (h + 3) _ _ _ h4 rfl]
    rfl
  · rw [loadBytes_storeBytes_four]
    rfl

/-- The loop of the decrypt routine, entered with counter `i` and `n + 1` rounds to go,
runs to the return and leaves `DecStatus` at 1. -/
theorem decrypt_loop (T : Target) (h : Nat) (Entry : CSPEntry)
    (hlen : Entry.Data.length < 2 ^ 31) (hkey : Entry.EncKey.length % 2 ^ 32 ≠ 0)
    (n i prev : Nat) (S : State)
    (hphi : (prev = h + 1 ∧ i = 0) ∨ (prev = h + 2 ∧ S.Regs (h + 18) = i))
    (hin : i + (n + 1) = Entry.Data.length) :
    ∃ S1, T.runBlocks (buildDecryptFunction h Entry).Blocks (n + 3) (h + 2) prev S = some S1
      ∧ loadBytes S1.Mem (T.GlobalAddr Entry.DecStatus % 2 ^ T.PtrBits) 4 = 1 := by
  obtain ⟨⟨BB, hBB⟩, -, -⟩ := decrypt_find h Entry
  have hun : toUnsigned Entry.Data.length = Entry.Data.length := by
    simp only [toUnsigned, W32]
    omega
  induction n generalizing i prev S with
  | zero =>
    obtain ⟨S1, h1, -⟩ := loopBody_exec T h Entry prev i S BB hBB hphi (by omega) hkey
    rw [hun, if_pos (by omega)] at h1
    obtain ⟨S2, h2, h3⟩ := decrypt_update T h Entry 0 (h + 2) S1
    exact ⟨S2, by rw [runBlocks_goto T _ 2 (h + 2) prev S S1 BB (h + 3) hBB h1]; exact h2, h3⟩
  | succ n ih =>
    obtain ⟨S1, h1, hr, -⟩ := loopBody_exec T h Entry prev i S BB hBB hphi (by omega) hkey
    rw [hun, if_neg (by omega)] at h1
    obtain ⟨S2, h2, h3⟩ := ih (i + 1) (h + 2) S1 (Or.inr ⟨rfl, hr⟩) (by omega)
    exact ⟨S2, by rw [runBlocks_goto T _ (n + 3) (h + 2) prev S S1 BB (h + 2) hBB h1]; exact h2,
      h3⟩

/-- Once `DecStatus` is 1 the decrypt routine returns without writing. -/
theorem decryptFunction_noop (T : Target) (h : Nat) (Entry : CSPEntry) (fuel : Nat)
    (Args : List Nat) (Mem : Nat → Nat)
    (hst : loadBytes Mem (T.GlobalAddr Entry.DecStatus % 2 ^ T.PtrBits) 4 = 1) :
    T.call (buildDecryptFunction h Entry) (fuel + 2) Args Mem = some Mem := by
  obtain ⟨-, -, h4⟩ := decrypt_find h Entry
  obtain ⟨S1, h1, hm, -, -⟩ := enter_exec T (h + 1) (h + 6) (h + 7) (h + 8) Entry.DecStatus
    (h + 4) (h + 2)
    [{ id := h + 5, Name := "", DebugLoc := 0,
       I := Inst.GEP true (Ty.Int 8) (Value.Argument 1)
        [Value.ConstantInt 32 Entry.EncKey.length] }]
    { Regs := fun _ => 0, Args := Args, Mem := Mem } _ (by omega) rfl (by simp [Inst.isTerminator])
  simp only [State.setReg, hst, if_true] at h1
  have hg := runBlocks_goto T (buildDecryptFunction h Entry).Blocks (fuel + 1) (h + 1) (h + 1)
    { Regs := fun _ => 0, Args := Args, Mem := Mem } S1
    { id := h + 1, Name := "Enter", Insts := _ } (h + 4) (by simp [buildDecryptFunction]) h1
  have hr := runBlocks_return T (buildDecryptFunction h Entry).Blocks fuel (h + 4) (h + 1) S1 S1
    _ h4 rfl
  simp only [Target.call, buildDecryptFunction] at *
  rw [hg, hr]
  simp only [Option.map_some', Option.some.injEq]
  exact hm

/-- The decrypt routine of an entry with at least one and fewer than `2 ^ 31` bytes of
data and a non-empty key always returns, with `DecStatus` at 1. -/
theorem decryptFunction_runs (T : Target) (h : Nat) (Entry : CSPEntry)
    (Args : List Nat) (Mem : Nat → Nat)
    (hpos : 1 ≤ Entry.Data.length) (hlen : Entry.Data.length < 2 ^ 31)
    (hkey : Entry.EncKey.length % 2 ^ 32 ≠ 0) :
    ∃ M1, T.call (buildDecryptFunction h Entry) (Entry.Data.length + 3) Args Mem = some M1
      ∧ loadBytes M1 (T.GlobalAddr Entry.DecStatus % 2 ^ T.PtrBits) 4 = 1 := by
  by_cases hst : loadBytes Mem (T.GlobalAddr Entry.DecStatus % 2 ^ T.PtrBits) 4 = 1
  · exact ⟨Mem, decryptFunction_noop T h Entry (Entry.Data.length + 1) Args Mem hst, hst⟩
  · obtain ⟨S1, h1, -⟩ := enter_exec T (h + 1) (h + 6) (h + 7) (h + 8) Entry.DecStatus
      (h + 4) (h + 2)
      [{ id := h + 5, Name := "", DebugLoc := 0,
         I := Inst.GEP true (Ty.Int 8) (Value.Argument 1)
          [Value.ConstantInt 32 Entry.EncKey.length] }]
      { Regs := fun _ => 0, Args := Args, Mem := Mem } _ (by omega) rfl
      (by simp [Inst.isTerminator])
    simp only [State.setReg, hst, if_false] at h1
    obtain ⟨S2, h2, h3⟩ := decrypt_loop T h Entry hlen hkey (Entry.Data.length - 1) 0 (h + 1) S1
      (Or.inl ⟨rfl, rfl⟩) (by omega)
    have hg := runBlocks_goto T (buildDecryptFunction h Entry).Blocks (Entry.Data.length + 2)
      (h + 1) (h + 1) { Regs := fun _ => 0, Args := Args, Mem := Mem } S1
      { id := h + 1, Name := "Enter", Insts := _ } (h + 2)
      (by simp [buildDecryptFunction]) h1
    have he : Entry.Data.length - 1 + 3 = Entry.Data.length + 2 := by omega
    rw [he] at h2
    refine ⟨S2.Mem, ?_, h3⟩
    simp only [Target.call, buildDecryptFunction] at *
    rw [hg, h2]
    rfl

/-- C4 (CSE idempotence). For the decrypt routine generated for an entry (with at least one
and fewer than `2 ^ 31` data bytes, the range of the routine's `nsw` counter, and a
non-empty key: what `run` generates) and for the generated user-init routine, from every
starting memory: the routine returns, and running it a second time on the same arguments
leaves memory exactly as the first run left it; and once `DecStatus` is 1 a call returns
with memory untouched. -/
theorem cse_idempotence (T : Target) (h : Nat) (Entry : CSPEntry) (sel : Nat) (User : CSUser)
    (Args : List Nat) (Mem : Nat → Nat)
    (hpos : 1 ≤ Entry.Data.length) (hlen : Entry.Data.length < 2 ^ 31)
    (hkey1 : 1 ≤ Entry.EncKey.length) (hkey2 : Entry.EncKey.length < 2 ^ 32) :
    (∃ M1, T.call (buildDecryptFunction h Entry) (Entry.Data.length + 3) Args Mem = some M1
        ∧ T.call (buildDecryptFunction h Entry) (Entry.Data.length + 3) Args M1 = some M1)
    ∧ (loadBytes Mem (T.GlobalAddr Entry.DecStatus % 2 ^ T.PtrBits) 4 = 1 →
        T.call (buildDecryptFunction h Entry) (Entry.Data.length + 3) Args Mem = some Mem)
    ∧ (∃ M1, T.call (buildInitFunction h sel User) 3 Args Mem = some M1
        ∧ T.call (buildInitFunction h sel User) 3 Args M1 = some M1)
    ∧ (loadBytes Mem (T.GlobalAddr User.DecStatus % 2 ^ T.PtrBits) 4 = 1 →
        T.call (buildInitFunction h sel User) 3 Args Mem = some Mem) := by
  have hkey : Entry.EncKey.length % 2 ^ 32 ≠ 0 := by
    rw [Nat.mod_eq_of_lt hkey2]
    omega
  refine ⟨?_, ?_, ?_, ?_⟩
  · obtain ⟨M1, h1, h2⟩ := decryptFunction_runs T h Entry Args Mem hpos hlen hkey
    exact ⟨M1, h1, decryptFunction_noop T h Entry (Entry.Data.length + 1) Args M1 h2⟩
  · intro hst
    exact decryptFunction_noop T h Entry (Entry.Data.length + 1) Args Mem hst
  · obtain ⟨M1, h1, h2⟩ := initFunction_runs T h sel User Args Mem
    exact ⟨M1, h1, initFunction_noop T h sel User Args M1 h2⟩
  · intro hst
    exact initFunction_noop T h sel User Args Mem hst

theorem cse_idempotence_witness :
    (1 ≤ sampleEntry.Data.length ∧ sampleEntry.Data.length < 2 ^ 31
      ∧ 1 ≤ sampleEntry.EncKey.length ∧ sampleEntry.EncKey.length < 2 ^ 32)
    ∧ (∃ M1, sampleTarget.call (buildDecryptFunction 2000 sampleEntry)
            (sampleEntry.Data.length + 3) [40000, 50000] (fun _ => 0) = some M1
        ∧ sampleTarget.call (buildDecryptFunction 2000 sampleEntry)
            (sampleEntry.Data.length + 3) [40000, 50000] M1 = some M1)
    ∧ (∃ M1, sampleTarget.call (buildInitFunction 2000 5 sampleUser) 3 [40000, 50000]
            (fun _ => 0) = some M1
        ∧ sampleTarget.call (buildInitFunction 2000 5 sampleUser) 3 [40000, 50000] M1
            = some M1) :=
  ⟨by decide,
   (cse_idempotence sampleTarget 2000 sampleEntry 5 sampleUser [40000, 50000] (fun _ => 0)
      (by decide) (by decide) (by decide) (by decide)).1,
   (cse_idempotence sampleTarget 2000 sampleEntry 5 sampleUser [40000, 50000] (fun _ => 0)
      (by decide) (by decide) (by decide) (by decide)).2.2.1⟩

/-! ### The call-site loop against the spec -/

theorem pushFixedArgs_eq (PAL : AttributeList) (n i : Nat) (rest : List Value)
    (acc : List Value × List AttributeSet) (h : n ≤ rest.length) :
    pushFixedArgs PAL n i rest acc
      = some (rest.drop n, i + n,
          (acc.1 ++ rest.take n,
           acc.2 ++ (List.range n).map (fun j => PAL.getParamAttrs (i + j)))) := by
  induction n generalizing i rest acc with
  | zero => simp [pushFixedArgs]
  | succ n ih =>
    cases rest with
    | nil => simp at h
    | cons v rest =>
      rw [pushFixedArgs, ih _ _ _ (by simpa using h)]
      simp only [List.drop_succ_cons, List.take_succ_cons, List.append_assoc,
        List.singleton_append, Option.some.injEq, Prod.mk.injEq, true_and]
      refine ⟨by omega, ?_⟩
      rw [List.range_succ_eq_map]
      simp only [List.map_cons, List.map_map, Nat.add_zero, List.cons.injEq, true_and]
      congr 2
      apply List.map_congr_left
      intro j _
      simp only [Function.comp]
      congr 1
      omega

theorem pushVarArgs_eq (PAL : AttributeList) (i : Nat) (rest : List Value)
    (acc : List Value × List AttributeSet) :
    pushVarArgs PAL i rest acc
      = (acc.1 ++ rest,
         acc.2 ++ (List.range rest.length).map (fun j => PAL.getParamAttrs (i + j))) := by
  induction rest generalizing i acc with
  | nil => simp [pushVarArgs]
  | cons v rest ih =>
    rw [pushVarArgs, ih]
    simp only [List.append_assoc, List.singleton_append, List.length_cons, Prod.mk.injEq,
      true_and]
    rw [List.range_succ_eq_map]
    simp only [List.map_cons, List.map_map, Nat.add_zero, List.cons.injEq, true_and]
    congr 2
    apply List.map_congr_left
    intro j _
    simp only [Function.comp]
    congr 1
    omega

/-- The two argument loops build exactly the call base of the spec. -/
theorem newCallBase_eq (NF CalleeSlot n : Nat) (cb : CallBase) (h : n ≤ cb.Args.length) :
    newCallBase NF CalleeSlot n cb = some (specCallBase NF CalleeSlot cb) := by
  unfold newCallBase
  rw [pushFixedArgs_eq _ _ _ _ _ h]
  have hlen : cb.Args.length = n + (cb.Args.length - n) := by omega
  have hr : (List.range cb.Args.length).map cb.Attrs.getParamAttrs
      = (List.range n).map (fun j => cb.Attrs.getParamAttrs (0 + j))
        ++ (List.range (cb.Args.length - n)).map (fun j => cb.Attrs.getParamAttrs (0 + n + j)) := by
    conv_lhs => rw [hlen, List.range_add]
    simp [List.map_append, List.map_map, Function.comp]
  simp only [pushVarArgs_eq, specCallBase, hr, List.length_drop, List.singleton_append,
    List.cons_append, List.append_assoc, List.take_append_drop, List.nil_append]

theorem newCall_eq (f NF CalleeSlot n : Nat) (used : Bool) (Call : Instruction)
    (hcall : Call.isCallTo f = true)
    (hargs : ∀ cb, (∃ t, Call.I = Inst.Call cb t) ∨ (∃ a b, Call.I = Inst.Invoke cb a b) →
      n ≤ cb.Args.length) :
    newCall NF CalleeSlot n used Call = some (specCall NF CalleeSlot used Call) := by
  unfold newCall specCall
  split
  · rename_i cb a b heq
    simp only [newCallBase_eq _ _ _ _ (hargs cb (Or.inr ⟨a, b, heq⟩)), heq]
  · rename_i cb t heq
    simp only [newCallBase_eq _ _ _ _ (hargs cb (Or.inl ⟨t, heq⟩)), heq]
  · rename_i h1 h2
    unfold Instruction.isCallTo at hcall
    split at hcall
    · rename_i cb t heq
      exact absurd heq (h2 cb t)
    · rename_i cb a b heq
      exact absurd heq (h1 cb a b)
    · cases hcall

theorem mentionsFunc_shift (f : Nat) (v : Value) :
    (shiftArgument v).mentionsFunc f = v.mentionsFunc f := by
  cases v <;> rfl

theorem operands_mapOperands (g : Value → Value) (k : Inst) :
    (k.mapOperands g).operands = k.operands.map g := by
  cases k <;> simp [Inst.mapOperands, Inst.operands, List.map_map, Function.comp]

/-- An instruction none of whose operands mentions `f` makes no use of `f`. -/
theorem usesOfFunc_nil (f c : Nat) (I : Instruction)
    (h : ∀ v ∈ I.I.operands, v.mentionsFunc f = false) : I.usesOfFunc f c = [] := by
  have hop : ∀ l : List Value, (∀ v ∈ l, v.mentionsFunc f = false) →
      l.filterMap (operandUse f c I) = [] := by
    intro l hl
    rw [List.filterMap_eq_nil_iff]
    intro v hv
    have h1 := hl v hv
    have h2 : v ≠ Value.Func f := by
      intro e
      rw [e] at h1
      simp [Value.mentionsFunc] at h1
    simp [operandUse, h1, h2]
  unfold Instruction.usesOfFunc
  split
  · rename_i cb t heq
    have hops : I.I.operands = cb.Args ++ [cb.Callee] := by rw [heq]; rfl
    rw [hops] at h
    have h1 := h cb.Callee (by simp)
    have h2 : cb.Callee ≠ Value.Func f := by
      intro e
      rw [e] at h1
      simp [Value.mentionsFunc] at h1
    simp [h1, h2, hop cb.Args (fun v hv => h v (by simp [hv]))]
  · rename_i cb a b heq
    have hops : I.I.operands = cb.Args ++ [cb.Callee] := by rw [heq]; rfl
    rw [hops] at h
    have h1 := h cb.Callee (by simp)
    have h2 : cb.Callee ≠ Value.Func f := by
      intro e
      rw [e] at h1
      simp [Value.mentionsFunc] at h1
    simp [h1, h2, hop cb.Args (fun v hv => h v (by simp [hv]))]
  · exact hop _ h

theorem newCall_eq2 (f NF CalleeSlot n : Nat) (used : Bool) (Call : Instruction)
    (hcall : Call.isCallTo f = true) (hargs : n ≤ Call.callArgs.length) :
    newCall NF CalleeSlot n used Call = some (specCall NF CalleeSlot used Call) := by
  apply newCall_eq f _ _ _ _ _ hcall
  intro cb hcb
  rcases hcb with ⟨t, h⟩ | ⟨a, b, h⟩
  · simpa [Instruction.callArgs, h] using hargs
  · simpa [Instruction.callArgs, h] using hargs

theorem isCallTo_operands (f : Nat) (I : Instruction) (h : I.isCallTo f = true) :
    I.I.operands = I.callArgs ++ [Value.Func f] := by
  unfold Instruction.isCallTo at h
  unfold Instruction.callArgs
  split at h
  · rename_i cb t heq
    simp only [beq_iff_eq] at h
    simp [heq, Inst.operands, h]
  · rename_i cb a b heq
    simp only [beq_iff_eq] at h
    simp [heq, Inst.operands, h]
  · cases h

theorem filterMap_operandUse_nil (f c : Nat) (I : Instruction) (l : List Value)
    (hl : ∀ v ∈ l, v.mentionsFunc f = false) : l.filterMap (operandUse f c I) = [] := by
  rw [List.filterMap_eq_nil_iff]
  intro v hv
  have h1 := hl v hv
  have h2 : v ≠ Value.Func f := by
    intro e
    rw [e] at h1
    simp [Value.mentionsFunc] at h1
  simp [operandUse, h1, h2]

/-- The uses that a clean instruction makes of `f`. -/
theorem usesOfFunc_clean (f c : Nat) (I : Instruction) (h : I.siteClean f = true) :
    I.usesOfFunc f c = if I.isCallTo f then [Use.Callee c I] else [] := by
  unfold Instruction.siteClean at h
  by_cases hc : I.isCallTo f = true
  · simp only [hc, if_true, List.all_eq_true, Bool.not_eq_true', ] at h ⊢
    have hnil := filterMap_operandUse_nil f c I I.callArgs h
    unfold Instruction.isCallTo at hc
    unfold Instruction.usesOfFunc
    unfold Instruction.callArgs at hnil
    split at hc
    · rename_i cb t heq
      simp only [beq_iff_eq] at hc
      simp only [heq] at hnil ⊢
      simp [hc, hnil]
    · rename_i cb a b heq
      simp only [beq_iff_eq] at hc
      simp only [heq] at hnil ⊢
      simp [hc, hnil]
    · cases hc
  · simp only [hc, Bool.false_eq_true, if_false, List.all_eq_true, Bool.not_eq_true'] at h ⊢
    exact usesOfFunc_nil f c I h

theorem Function.usesOfFunc_insts (f : Nat) (G : Function) :
    G.usesOfFunc f = G.insts.flatMap (Instruction.usesOfFunc f G.id) := by
  simp [Function.usesOfFunc, Function.insts, List.flatMap_assoc]

theorem length_flatMap_ite (c : Nat) (p : Instruction → Bool) (l : List Instruction) :
    (l.flatMap (fun I => if p I then [Use.Callee c I] else [])).length = l.countP p := by
  induction l with
  | nil => rfl
  | cons a l ih =>
    by_cases h : p a = true
    · simp [List.flatMap_cons, h, ih, List.countP_cons]
    · simp [List.flatMap_cons, h, ih, List.countP_cons]

/-- Under the invariant the use-list of `f` lists its direct call sites, in module order. -/
theorem usesOf_form (C : IPObfuscationContext) (f n : Nat) (M : Module) (h : LoopInv C f n M) :
    usesOf M f = M.Functions.flatMap (fun G =>
      G.insts.flatMap (fun I => if I.isCallTo f then [Use.Callee G.id I] else [])) := by
  have hg : M.Globals.flatMap (GlobalVariable.usesOfFunc f) = [] := by
    rw [List.flatMap_eq_nil_iff]
    intro GV hGV
    unfold GlobalVariable.usesOfFunc
    rw [List.filterMap_eq_nil_iff]
    intro v hv
    simp [h.globals GV hGV v hv]
  unfold usesOf
  rw [hg, List.append_nil]
  apply List.flatMap_congr
  intro G hG
  rw [Function.usesOfFunc_insts]
  apply List.flatMap_congr
  intro I hI
  exact usesOfFunc_clean f G.id I (h.clean G hG I hI)

theorem usesOf_length (C : IPObfuscationContext) (f n : Nat) (M : Module) (h : LoopInv C f n M) :
    (usesOf M f).length = pendingCalls f M := by
  rw [usesOf_form C f n M h, List.length_flatMap, pendingCalls]
  congr 1
  apply List.map_congr_left
  intro G _
  exact length_flatMap_ite G.id _ G.insts

theorem usesOf_mem (C : IPObfuscationContext) (f n : Nat) (M : Module) (h : LoopInv C f n M)
    (U : Use) (hU : U ∈ usesOf M f) :
    ∃ G ∈ M.Functions, ∃ I ∈ G.insts, I.isCallTo f = true ∧ U = Use.Callee G.id I := by
  rw [usesOf_form C f n M h] at hU
  simp only [List.mem_flatMap] at hU
  obtain ⟨G, hG, I, hI, hm⟩ := hU
  by_cases hc : I.isCallTo f = true
  · simp only [hc, if_true, List.mem_singleton] at hm
    exact ⟨G, hG, I, hI, hc, hm⟩
  · simp [hc] at hm

theorem pendingCalls_zero (f : Nat) (M : Module) (h : pendingCalls f M = 0) :
    ∀ G ∈ M.Functions, ∀ I ∈ G.insts, I.isCallTo f = false := by
  intro G hG I hI
  unfold pendingCalls at h
  have h1 : G.insts.countP (fun I => I.isCallTo f) = 0 := by
    have := List.sum_eq_zero_iff.mp h (G.insts.countP (fun I => I.isCallTo f))
      (List.mem_map_of_mem _ hG)
    exact this
  by_contra hc
  have : 0 < G.insts.countP (fun I => I.isCallTo f) :=
    List.countP_pos_iff.mpr ⟨I, hI, by simpa using hc⟩
  omega

theorem replaceInst_insts (G : Function) (id : Nat) (New : Instruction) :
    (G.replaceInst id New).insts = G.insts.map (replaceAt id New) := by
  simp only [Function.replaceInst, Function.insts, List.flatMap_map, List.map_flatMap]
  rfl

theorem instUsed_insts (G : Function) (j : Nat) :
    G.instUsed j = G.insts.any (fun I => I.I.operands.contains (Value.Inst j)) := by
  simp only [Function.instUsed, Function.insts]
  induction G.Blocks with
  | nil => rfl
  | cons BB rest ih => simp [List.flatMap_cons, List.any_append, ih]

theorem specCall_id (NF slot : Nat) (used : Bool) (Call : Instruction) :
    (specCall NF slot used Call).id = Call.id := by
  unfold specCall
  split <;> rfl

theorem specCall_operands (f NF slot : Nat) (used : Bool) (Call : Instruction)
    (h : Call.isCallTo f = true) :
    (specCall NF slot used Call).I.operands
      = Value.Inst slot :: Call.callArgs ++ [Value.Func NF] := by
  unfold Instruction.isCallTo at h
  unfold specCall Instruction.callArgs
  split at h
  · rename_i cb t heq
    simp [heq, Inst.operands, specCallBase]
  · rename_i cb a b heq
    simp [heq, Inst.operands, specCallBase]
  · cases h

theorem specCall_isCallTo (f NF slot : Nat) (used : Bool) (Call : Instruction)
    (hne : NF ≠ f) (h : Call.isCallTo f = true) :
    (specCall NF slot used Call).isCallTo f = false := by
  unfold Instruction.isCallTo at h
  unfold specCall
  split at h
  · rename_i cb t heq
    simp [heq, Instruction.isCallTo, specCallBase, hne]
  · rename_i cb a b heq
    simp [heq, Instruction.isCallTo, specCallBase, hne]
  · cases h

theorem specCall_clean (f NF slot : Nat) (used : Bool) (Call : Instruction)
    (hne : NF ≠ f) (h : Call.isCallTo f = true) (hc : Call.siteClean f = true) :
    (specCall NF slot used Call).siteClean f = true := by
  unfold Instruction.siteClean at hc ⊢
  rw [specCall_isCallTo f NF slot used Call hne h]
  simp only [h, if_true, List.all_eq_true, Bool.not_eq_true'] at hc
  simp only [Bool.false_eq_true, if_false, List.all_eq_true, Bool.not_eq_true',
    specCall_operands f NF slot used Call h]
  intro v hv
  simp only [List.cons_append, List.mem_cons, List.mem_append, List.mem_singleton,
    List.not_mem_nil, or_false] at hv
  rcases hv with e | e | e
  · rw [e]; rfl
  · exact hc v e
  · rw [e]; simp [Value.mentionsFunc, hne]

theorem mem_insts_eq (G : Function) (h : (G.insts.map Instruction.id).Nodup)
    (I J : Instruction) (hI : I ∈ G.insts) (hJ : J ∈ G.insts) (hid : I.id = J.id) : I = J :=
  List.inj_on_of_nodup_map h hI hJ hid

theorem any_congr_mem {α : Type} (l : List α) (p q : α → Bool)
    (h : ∀ x ∈ l, p x = q x) : l.any p = l.any q := by
  induction l with
  | nil => rfl
  | cons a l ih =>
    simp only [List.any_cons, h a (List.mem_cons_self a l)]
    rw [ih (fun x hx => h x (List.mem_cons_of_mem a hx))]

/-- Replacing a call of `f` by the call of the spec does not change whether the value of
another call is used. -/
theorem instUsed_replace (f NF : Nat) (G : Function) (hn : (G.insts.map Instruction.id).Nodup)
    (Call : Instruction) (hC : Call ∈ G.insts) (hcall : Call.isCallTo f = true)
    (slot : Nat) (used : Bool) (j : Nat) (hj : j ≠ slot) :
    (G.replaceInst Call.id (specCall NF slot used Call)).instUsed j = G.instUsed j := by
  rw [instUsed_insts, instUsed_insts, replaceInst_insts, List.any_map]
  apply any_congr_mem
  intro J hJ
  simp only [Function.comp, replaceAt]
  split
  · rename_i hid
    have hJC : J = Call := mem_insts_eq G hn J Call hJ hC hid
    rw [hJC, specCall_operands f NF slot used Call hcall, isCallTo_operands f Call hcall]
    simp [List.contains_cons, hj]
  · rfl

theorem replaceAt_id (id : Nat) (New I : Instruction) (h : New.id = id) :
    (replaceAt id New I).id = I.id := by
  unfold replaceAt
  split
  · rename_i e; rw [h, e]
  · rfl

theorem replaceAt_cases (id : Nat) (New I : Instruction) :
    (replaceAt id New I = New ∧ I.id = id) ∨ (replaceAt id New I = I ∧ I.id ≠ id) := by
  unfold replaceAt
  split
  · rename_i e; exact Or.inl ⟨rfl, e⟩
  · rename_i e; exact Or.inr ⟨rfl, e⟩

theorem replaceInst_header (G : Function) (id : Nat) (New : Instruction) :
    (G.replaceInst id New).header = G.header := rfl

theorem header_id (G H : Function) (h : G.header = H.header) : G.id = H.id := by
  have := congrArg Function.id h
  exact this

theorem updateFunction_functions (M : Module) (id : Nat) (g : Function → Function) :
    (M.updateFunction id g).Functions
      = M.Functions.map (fun G => if G.id = id then g G else G) := rfl

theorem updateFunction_globals (M : Module) (id : Nat) (g : Function → Function) :
    (M.updateFunction id g).Globals = M.Globals := rfl

theorem updateFunction_next (M : Module) (id : Nat) (g : Function → Function) :
    (M.updateFunction id g).NextHandle = M.NextHandle := rfl

theorem find_of_mem (l : List Function) (h : (l.map Function.id).Nodup)
    (G : Function) (hG : G ∈ l) : l.find? (fun H => H.id = G.id) = some G := by
  induction l with
  | nil => cases hG
  | cons a l ih =>
    rw [List.map_cons, List.nodup_cons] at h
    rw [List.find?_cons]
    rcases List.mem_cons.mp hG with e | e
    · subst e; simp
    · have hne : a.id ≠ G.id := by
        intro he
        exact h.1 (he ▸ List.mem_map_of_mem Function.id e)
      simp only [hne, decide_False]
      exact ih h.2 e

theorem getFunction_of_mem (M : Module) (h : (M.Functions.map Function.id).Nodup)
    (G : Function) (hG : G ∈ M.Functions) : M.getFunction G.id = some G :=
  find_of_mem M.Functions h G hG

theorem mem_functions_eq (M : Module) (h : (M.Functions.map Function.id).Nodup)
    (G H : Function) (hG : G ∈ M.Functions) (hH : H ∈ M.Functions) (hid : G.id = H.id) :
    G = H :=
  List.inj_on_of_nodup_map h hG hH hid

theorem countP_map_lt {α : Type} (p : α → Bool) (r : α → α) (l : List α) (x : α)
    (hx : x ∈ l) (hp : p x = true) (hr : p (r x) = false)
    (hmono : ∀ y, p (r y) = true → p y = true) :
    (l.map r).countP p < l.countP p := by
  have hle : ∀ l : List α, (l.map r).countP p ≤ l.countP p := by
    intro l
    induction l with
    | nil => simp
    | cons a l ih =>
      rw [List.map_cons, List.countP_cons, List.countP_cons]
      have : (if p (r a) = true then 1 else 0) ≤ (if p a = true then 1 else 0) := by
        by_cases h : p (r a) = true
        · simp [h, hmono a h]
        · simp [h]
      omega
  induction l with
  | nil => cases hx
  | cons a l ih =>
    rw [List.map_cons, List.countP_cons, List.countP_cons]
    rcases List.mem_cons.mp hx with e | e
    · subst e
      have := hle l
      simp only [hr, hp, if_true, Bool.false_eq_true, if_false]
      omega
    · have := ih e
      have : (if p (r a) = true then 1 else 0) ≤ (if p a = true then 1 else 0) := by
        by_cases h : p (r a) = true
        · simp [h, hmono a h]
        · simp [h]
      omega

theorem sum_map_lt {α : Type} (w : α → Nat) (g : α → α) (l : List α) (x : α)
    (hx : x ∈ l) (hlt : w (g x) < w x) (hle : ∀ y ∈ l, w (g y) ≤ w y) :
    ((l.map g).map w).sum < (l.map w).sum := by
  have hall : ∀ l : List α, (∀ y ∈ l, w (g y) ≤ w y) →
      ((l.map g).map w).sum ≤ (l.map w).sum := by
    intro l
    induction l with
    | nil => intro _; simp
    | cons a l ih =>
      intro h
      simp only [List.map_cons, List.sum_cons]
      have := ih (fun y hy => h y (List.mem_cons_of_mem a hy))
      have := h a (List.mem_cons_self a l)
      omega
  induction l with
  | nil => cases hx
  | cons a l ih =>
    simp only [List.map_cons, List.sum_cons]
    rcases List.mem_cons.mp hx with e | e
    · subst e
      have := hall l (fun y hy => hle y (List.mem_cons_of_mem x hy))
      omega
    · have := ih e (fun y hy => hle y (List.mem_cons_of_mem a hy))
      have := hle a (List.mem_cons_self a l)
      omega

theorem specRewriteInst_replace (C : IPObfuscationContext) (f nf : Nat) (G : Function)
    (hn : (G.insts.map Instruction.id).Nodup)
    (Call : Instruction) (hC : Call ∈ G.insts) (hcall : Call.isCallTo f = true)
    (Info : IPOInfo) (hInfo : C.IPOInfoMap G.id = some Info)
    (hslot : ∀ J ∈ G.insts, J.isCallTo f = true → J.id ≠ Info.CalleeSlot) (hne : nf ≠ f)
    (I : Instruction) (hI : I ∈ G.insts) :
    specRewriteInst C f nf
        (G.replaceInst Call.id (specCall nf Info.CalleeSlot (G.instUsed Call.id) Call))
        (replaceAt Call.id (specCall nf Info.CalleeSlot (G.instUsed Call.id) Call) I)
      = specRewriteInst C f nf G I := by
  rcases replaceAt_cases Call.id (specCall nf Info.CalleeSlot (G.instUsed Call.id) Call) I
    with ⟨e, hid⟩ | ⟨e, hid⟩
  · have hIC : I = Call := mem_insts_eq G hn I Call hI hC hid
    rw [e, hIC]
    unfold specRewriteInst
    rw [specCall_isCallTo f nf _ _ Call hne hcall]
    simp only [hcall, if_true, hInfo, Bool.false_eq_true, if_false]
  · rw [e]
    unfold specRewriteInst
    by_cases hc : I.isCallTo f = true
    · have hid2 : (G.replaceInst Call.id
          (specCall nf Info.CalleeSlot (G.instUsed Call.id) Call)).id = G.id := rfl
      simp only [hc, if_true, hid2, hInfo]
      rw [instUsed_replace f nf G hn Call hC hcall _ _ _ (hslot I hI hc)]
    · simp only [hc, Bool.false_eq_true, if_false]

theorem mem_insts_of_block (G : Function) (BB : BasicBlock) (hBB : BB ∈ G.Blocks)
    (I : Instruction) (hI : I ∈ BB.Insts) : I ∈ G.insts := by
  unfold Function.insts
  exact List.mem_flatMap.mpr ⟨BB, hBB, hI⟩

theorem specRewriteFunction_replace (C : IPObfuscationContext) (f nf : Nat) (G : Function)
    (hn : (G.insts.map Instruction.id).Nodup)
    (Call : Instruction) (hC : Call ∈ G.insts) (hcall : Call.isCallTo f = true)
    (Info : IPOInfo) (hInfo : C.IPOInfoMap G.id = some Info)
    (hslot : ∀ J ∈ G.insts, J.isCallTo f = true → J.id ≠ Info.CalleeSlot) (hne : nf ≠ f) :
    specRewriteFunction C f nf
        (G.replaceInst Call.id (specCall nf Info.CalleeSlot (G.instUsed Call.id) Call))
      = specRewriteFunction C f nf G := by
  have key := specRewriteInst_replace C f nf G hn Call hC hcall Info hInfo hslot hne
  generalize specCall nf Info.CalleeSlot (G.instUsed Call.id) Call = New at key ⊢
  have hb : (G.replaceInst Call.id New).Blocks.map (fun BB =>
        { BB with Insts := BB.Insts.map (specRewriteInst C f nf (G.replaceInst Call.id New)) })
      = G.Blocks.map (fun BB =>
        { BB with Insts := BB.Insts.map (specRewriteInst C f nf G) }) := by
    simp only [Function.replaceInst, List.map_map]
    apply List.map_congr_left
    intro BB hBB
    simp only [Function.comp, List.map_map]
    congr 1
    apply List.map_congr_left
    intro I hI
    exact key I (mem_insts_of_block G BB hBB I hI)
  unfold specRewriteFunction
  rw [hb]
  rfl

theorem countP_replace_lt (f : Nat) (G : Function)
    (Call : Instruction) (hC : Call ∈ G.insts) (hcall : Call.isCallTo f = true)
    (New : Instruction) (hNew : New.isCallTo f = false) :
    (G.replaceInst Call.id New).insts.countP (fun I => I.isCallTo f)
      < G.insts.countP (fun I => I.isCallTo f) := by
  rw [replaceInst_insts]
  apply countP_map_lt (fun I => I.isCallTo f) (replaceAt Call.id New) G.insts Call hC hcall
  · simp [replaceAt, hNew]
  · intro y hy
    rcases replaceAt_cases Call.id New y with ⟨e, -⟩ | ⟨e, -⟩
    · rw [e, hNew] at hy; cases hy
    · rw [e] at hy; exact hy

theorem rewrite_step (C : IPObfuscationContext) (f nf n : Nat) (M : Module)
    (h : LoopInv C f n M) (hne : nf ≠ f) (G : Function) (hG : G ∈ M.Functions)
    (Call : Instruction) (hC : Call ∈ G.insts) (hcall : Call.isCallTo f = true) :
    ∃ M2, rewriteFirstUse C nf n M (Use.Callee G.id Call) = some M2
      ∧ LoopInv C f n M2 ∧ pendingCalls f M2 < pendingCalls f M
      ∧ M2.Functions.map (specRewriteFunction C f nf)
          = M.Functions.map (specRewriteFunction C f nf)
      ∧ M2.Globals = M.Globals ∧ M2.NextHandle = M.NextHandle := by
  obtain ⟨hargs, Info, hInfo, hslot⟩ := h.sites G hG Call hC hcall
  have hNewId : (specCall nf Info.CalleeSlot (G.instUsed Call.id) Call).id = Call.id :=
    specCall_id _ _ _ _
  have hNewCall : (specCall nf Info.CalleeSlot (G.instUsed Call.id) Call).isCallTo f = false :=
    specCall_isCallTo f nf _ _ Call hne hcall
  have hNewClean : (specCall nf Info.CalleeSlot (G.instUsed Call.id) Call).siteClean f = true :=
    specCall_clean f nf _ _ Call hne hcall (h.clean G hG Call hC)
  have hS := specRewriteFunction_replace C f nf G (h.nodupI G hG) Call hC hcall Info hInfo
    hslot hne
  generalize hNew : specCall nf Info.CalleeSlot (G.instUsed Call.id) Call = New
    at hNewId hNewCall hNewClean hS
  have hfirst : rewriteFirstUse C nf n M (Use.Callee G.id Call)
      = some (M.updateFunction G.id (fun H => H.replaceInst Call.id New)) := by
    unfold rewriteFirstUse
    simp only [AbstractCallSite.getInstruction, Use.Caller?, hInfo,
      getFunction_of_mem M h.nodupF G hG, newCall_eq2 f nf _ n _ Call hcall hargs, hNew]
  -- the functions of the new module, one by one
  have hφ : ∀ H ∈ M.Functions,
      (if H.id = G.id then H.replaceInst Call.id New else H) = H
        ∨ (H = G ∧ (if H.id = G.id then H.replaceInst Call.id New else H)
            = G.replaceInst Call.id New) := by
    intro H hH
    by_cases e : H.id = G.id
    · have hHG : H = G := mem_functions_eq M h.nodupF H G hH hG e
      right
      rw [hHG]
      simp
    · left
      simp [e]
  have hmem : ∀ H2 ∈ (M.updateFunction G.id (fun H => H.replaceInst Call.id New)).Functions,
      ∃ H ∈ M.Functions, H2.id = H.id
        ∧ (H2 = H ∨ (H = G ∧ H2 = G.replaceInst Call.id New)) := by
    intro H2 hH2
    rw [updateFunction_functions, List.mem_map] at hH2
    obtain ⟨H, hH, e⟩ := hH2
    refine ⟨H, hH, ?_, ?_⟩
    · rw [← e]; split <;> rfl
    · rcases hφ H hH with e2 | ⟨e2, e3⟩
      · left; rw [← e, e2]
      · right; exact ⟨e2, by rw [← e, e3]⟩
  have hinsts : ∀ I2 ∈ (G.replaceInst Call.id New).insts,
      I2 = New ∨ (I2 ∈ G.insts ∧ I2.id ≠ Call.id) := by
    intro I2 hI2
    rw [replaceInst_insts, List.mem_map] at hI2
    obtain ⟨I, hI, e⟩ := hI2
    rcases replaceAt_cases Call.id New I with ⟨e2, -⟩ | ⟨e2, hid⟩
    · left; rw [← e, e2]
    · right; rw [← e, e2]; exact ⟨hI, hid⟩
  refine ⟨_, hfirst, ?_, ?_, ?_, rfl, rfl⟩
  · constructor
    · have : (M.updateFunction G.id (fun H => H.replaceInst Call.id New)).Functions.map
          Function.id = M.Functions.map Function.id := by
        rw [updateFunction_functions, List.map_map]
        apply List.map_congr_left
        intro H _
        simp only [Function.comp]
        split <;> rfl
      rw [this]
      exact h.nodupF
    · intro H2 hH2
      obtain ⟨H, hH, -, e | ⟨e1, e2⟩⟩ := hmem H2 hH2
      · rw [e]; exact h.nodupI H hH
      · rw [e2, replaceInst_insts, List.map_map]
        have : (Instruction.id ∘ replaceAt Call.id New) = Instruction.id := by
          funext I
          exact replaceAt_id Call.id New I hNewId
        rw [this]
        exact h.nodupI G hG
    · intro H2 hH2 I2 hI2
      obtain ⟨H, hH, -, e | ⟨e1, e2⟩⟩ := hmem H2 hH2
      · rw [e] at hI2; exact h.clean H hH I2 hI2
      · rw [e2] at hI2
        rcases hinsts I2 hI2 with e3 | ⟨e3, -⟩
        · rw [e3]; exact hNewClean
        · exact h.clean G hG I2 e3
    · exact h.globals
    · intro H2 hH2 I2 hI2 hc2
      obtain ⟨H, hH, hid, e | ⟨e1, e2⟩⟩ := hmem H2 hH2
      · rw [e] at hI2 ⊢
        exact h.sites H hH I2 hI2 hc2
      · rw [e2] at hI2
        have hI2G : I2 ∈ G.insts := by
          rcases hinsts I2 hI2 with e3 | ⟨e3, -⟩
          · rw [e3, hNewCall] at hc2; cases hc2
          · exact e3
        obtain ⟨ha, Info2, hInfo2, hs2⟩ := h.sites G hG I2 hI2G hc2
        refine ⟨ha, Info2, ?_, ?_⟩
        · rw [hid, e1]; exact hInfo2
        · intro J hJ hcJ
          rw [e2] at hJ
          rcases hinsts J hJ with e3 | ⟨e3, -⟩
          · rw [e3, hNewCall] at hcJ; cases hcJ
          · exact hs2 J e3 hcJ
  · unfold pendingCalls
    rw [updateFunction_functions]
    apply sum_map_lt (fun G => G.insts.countP (fun I => I.isCallTo f)) _ M.Functions G hG
    · simp only [if_true]
      exact countP_replace_lt f G Call hC hcall New hNewCall
    · intro H hH
      rcases hφ H hH with e | ⟨e1, e2⟩
      · rw [e]
      · rw [e2, e1]
        exact Nat.le_of_lt (countP_replace_lt f G Call hC hcall New hNewCall)
  · rw [updateFunction_functions, List.map_map]
    apply List.map_congr_left
    intro H hH
    simp only [Function.comp]
    rcases hφ H hH with e | ⟨e1, e2⟩
    · rw [e]
    · rw [e2, e1]; exact hS

theorem specRewriteFunction_done (C : IPObfuscationContext) (f nf : Nat) (G : Function)
    (h : ∀ I ∈ G.insts, I.isCallTo f = false) : specRewriteFunction C f nf G = G := by
  have hb : G.Blocks.map (fun BB =>
      { BB with Insts := BB.Insts.map (specRewriteInst C f nf G) }) = G.Blocks := by
    conv_rhs => rw [← List.map_id G.Blocks]
    apply List.map_congr_left
    intro BB hBB
    have : BB.Insts.map (specRewriteInst C f nf G) = BB.Insts := by
      conv_rhs => rw [← List.map_id BB.Insts]
      apply List.map_congr_left
      intro I hI
      unfold specRewriteInst
      rw [h I (mem_insts_of_block G BB hBB I hI)]
      rfl
    rw [this]
    rfl
  unfold specRewriteFunction
  rw [hb]

theorem rewriteUses_done (C : IPObfuscationContext) (f nf n : Nat) (M : Module)
    (h : LoopInv C f n M) (h0 : usesOf M f = []) :
    M.Functions = M.Functions.map (specRewriteFunction C f nf) := by
  have hp : pendingCalls f M = 0 := by
    rw [← usesOf_length C f n M h, h0]
    rfl
  conv_lhs => rw [← List.map_id M.Functions]
  apply List.map_congr_left
  intro G hG
  exact (specRewriteFunction_done C f nf G (pendingCalls_zero f M hp G hG)).symm

/-- With as many rounds as there are calls of `f`, the loop ends, and it leaves the module
that the spec describes. -/
theorem rewriteUses_spec (C : IPObfuscationContext) (f nf n : Nat) (hne : nf ≠ f) :
    ∀ (fuel : Nat) (M : Module), LoopInv C f n M → pendingCalls f M ≤ fuel →
      ∃ M2, rewriteUses C f nf n fuel M = some M2
        ∧ M2.Functions = M.Functions.map (specRewriteFunction C f nf)
        ∧ M2.Globals = M.Globals ∧ M2.NextHandle = M.NextHandle ∧ usesOf M2 f = []
        ∧ LoopInv C f n M2 := by
  intro fuel
  induction fuel with
  | zero =>
    intro M h hp
    have h0 : usesOf M f = [] := by
      apply List.eq_nil_of_length_eq_zero
      rw [usesOf_length C f n M h]
      omega
    refine ⟨M, ?_, rewriteUses_done C f nf n M h h0, rfl, rfl, h0, h⟩
    simp [rewriteUses, h0]
  | succ fuel ih =>
    intro M h hp
    cases hU : usesOf M f with
    | nil =>
      refine ⟨M, ?_, rewriteUses_done C f nf n M h hU, rfl, rfl, hU, h⟩
      simp [rewriteUses, hU]
    | cons U rest =>
      obtain ⟨G, hG, I, hI, hc, e⟩ :=
        usesOf_mem C f n M h U (by rw [hU]; exact List.mem_cons_self U rest)
      obtain ⟨M1, h1, hinv, hlt, hfun, hgl, hnx⟩ := rewrite_step C f nf n M h hne G hG I hI hc
      obtain ⟨M2, h2, hf2, hg2, hn2, hu2, hi2⟩ := ih M1 hinv (by omega)
      refine ⟨M2, ?_, ?_, ?_, ?_, hu2, hi2⟩
      · rw [rewriteUses, hU]
        simp only [e, h1]
        exact h2
      · rw [hf2, hfun]
      · rw [hg2, hgl]
      · rw [hn2, hnx]

/-! ### From the survey to the loop -/

theorem operandUse_not_callee (f c : Nat) (I : Instruction) (l : List Value)
    (h : ∀ U ∈ l.filterMap (operandUse f c I), ∃ a b, U = Use.Callee a b) :
    ∀ v ∈ l, v.mentionsFunc f = false := by
  intro v hv
  by_contra hm
  have hm2 : v.mentionsFunc f = true := by simpa using hm
  by_cases e : v = Value.Func f
  · have : Use.Operand c I ∈ l.filterMap (operandUse f c I) :=
      List.mem_filterMap.mpr ⟨v, hv, by simp [operandUse, e]⟩
    obtain ⟨a, b, hab⟩ := h _ this
    cases hab
  · have : Use.ConstantExpr ∈ l.filterMap (operandUse f c I) :=
      List.mem_filterMap.mpr ⟨v, hv, by simp [operandUse, e, hm2]⟩
    obtain ⟨a, b, hab⟩ := h _ this
    cases hab

/-- An instruction all of whose uses of `f` are callee uses touches `f` only as the called
operand of a direct call. -/
theorem siteClean_of_callee_uses (f c : Nat) (I : Instruction)
    (h : ∀ U ∈ I.usesOfFunc f c, ∃ a b, U = Use.Callee a b) : I.siteClean f = true := by
  unfold Instruction.usesOfFunc at h
  unfold Instruction.siteClean Instruction.isCallTo Instruction.callArgs
  split at h
  · rename_i cb t heq
    have hargs := operandUse_not_callee f c I cb.Args
      (fun U hU => h U (List.mem_append_right _ hU))
    simp only [heq]
    by_cases e : cb.Callee = Value.Func f
    · simpa [e] using hargs
    · have hcal : cb.Callee.mentionsFunc f = false := by
        by_contra hm
        have hm2 : cb.Callee.mentionsFunc f = true := by simpa using hm
        have := h Use.ConstantExpr (List.mem_append_left _ (by simp [e, hm2]))
        obtain ⟨a, b, hab⟩ := this
        cases hab
      simp [e, Inst.operands, hcal]
      exact hargs
  · rename_i cb n u heq
    have hargs := operandUse_not_callee f c I cb.Args
      (fun U hU => h U (List.mem_append_right _ hU))
    simp only [heq]
    by_cases e : cb.Callee = Value.Func f
    · simpa [e] using hargs
    · have hcal : cb.Callee.mentionsFunc f = false := by
        by_contra hm
        have hm2 : cb.Callee.mentionsFunc f = true := by simpa using hm
        have := h Use.ConstantExpr (List.mem_append_left _ (by simp [e, hm2]))
        obtain ⟨a, b, hab⟩ := this
        cases hab
      simp [e, Inst.operands, hcal]
      exact hargs
  · rename_i k h1 h2
    have hops := operandUse_not_callee f c I _ h
    cases hk : I.I <;> simp_all

theorem survey_clean (M : Module) (f : Nat) (h : surveyUses (usesOf M f) = true) :
    (∀ G ∈ M.Functions, ∀ I ∈ G.insts, I.siteClean f = true)
      ∧ (∀ GV ∈ M.Globals, ∀ v ∈ GV.Init, v.mentionsFunc f = false) := by
  rw [surveyUses_iff] at h
  constructor
  · intro G hG I hI
    apply siteClean_of_callee_uses f G.id I
    intro U hU
    apply h U
    unfold usesOf
    apply List.mem_append_left
    rw [List.mem_flatMap]
    refine ⟨G, hG, ?_⟩
    rw [Function.usesOfFunc_insts, List.mem_flatMap]
    exact ⟨I, hI, hU⟩
  · intro GV hGV v hv
    by_contra hm
    have hm2 : v.mentionsFunc f = true := by simpa using hm
    have : Use.Initializer GV.id ∈ usesOf M f := by
      unfold usesOf
      apply List.mem_append_right
      rw [List.mem_flatMap]
      refine ⟨GV, hGV, ?_⟩
      unfold GlobalVariable.usesOfFunc
      exact List.mem_filterMap.mpr ⟨v, hv, by simp [hm2]⟩
    obtain ⟨a, b, hab⟩ := h _ this
    cases hab

theorem isAlloca_not_call (f : Nat) (A : Instruction) (h : A.isAlloca = true) :
    A.isCallTo f = false := by
  unfold Instruction.isAlloca at h
  unfold Instruction.isCallTo
  split at h
  · rename_i heq; simp [heq]
  · cases h

theorem flatMap_singleton_of {α : Type} (l : List α) (g : α → List α)
    (h : ∀ x ∈ l, g x = [x]) : l.flatMap g = l := by
  induction l with
  | nil => rfl
  | cons a l ih =>
    rw [List.flatMap_cons, h a (List.mem_cons_self a l),
      ih (fun x hx => h x (List.mem_cons_of_mem a hx))]
    rfl

theorem flatMap_map_of {α : Type} (l : List α) (g : α → List α) (k : α → α)
    (h : ∀ x ∈ l, g x = [k x]) : l.flatMap g = l.map k := by
  induction l with
  | nil => rfl
  | cons a l ih =>
    rw [List.flatMap_cons, h a (List.mem_cons_self a l),
      ih (fun x hx => h x (List.mem_cons_of_mem a hx))]
    rfl

/-- The module in which the call-site loop starts: `NF` stands before `F`, which has lost
its name to `NF`. -/
theorem split_at_function (M : Module) (f : Nat) (F : Function)
    (hF : M.getFunction f = some F) (hn : (M.Functions.map Function.id).Nodup) :
    ∃ pre post, M.Functions = pre ++ F :: post
      ∧ (∀ G ∈ pre, G.id ≠ f) ∧ (∀ G ∈ post, G.id ≠ f) := by
  obtain ⟨hmem, hid⟩ := getFunction_mem M f F hF
  obtain ⟨pre, post, e⟩ := List.append_of_mem hmem
  refine ⟨pre, post, e, ?_, ?_⟩
  · intro G hG hGf
    rw [e] at hn
    have hGM : G ∈ pre ++ F :: post := List.mem_append_left _ hG
    have hFM : F ∈ pre ++ F :: post := by simp
    have hGF : G = F := List.inj_on_of_nodup_map hn hGM hFM (by rw [hGf, hid])
    rw [List.map_append, List.map_cons] at hn
    have hd := (List.nodup_append.mp hn).2.2
    exact hd (List.mem_map_of_mem Function.id hG)
      (by rw [hGF]; exact List.mem_cons_self _ _)
  · intro G hG hGf
    rw [e] at hn
    have hGM : G ∈ pre ++ F :: post := by simp [hG]
    have hFM : F ∈ pre ++ F :: post := by simp
    have hGF : G = F := List.inj_on_of_nodup_map hn hGM hFM (by rw [hGf, hid])
    rw [List.map_append, List.map_cons] at hn
    have hd := (List.nodup_cons.mp (List.nodup_append.mp hn).2.1).1
    exact hd (by rw [← hGF]; exact List.mem_map_of_mem Function.id hG)

theorem usesOf_nil_of (M : Module) (f : Nat)
    (hf : ∀ G ∈ M.Functions, ∀ I ∈ G.insts, ∀ v ∈ I.I.operands, v.mentionsFunc f = false)
    (hg : ∀ GV ∈ M.Globals, ∀ v ∈ GV.Init, v.mentionsFunc f = false) : usesOf M f = [] := by
  unfold usesOf
  rw [List.append_eq_nil]
  constructor
  · rw [List.flatMap_eq_nil_iff]
    intro G hG
    rw [Function.usesOfFunc_insts, List.flatMap_eq_nil_iff]
    intro I hI
    exact usesOfFunc_nil f G.id I (hf G hG I hI)
  · rw [List.flatMap_eq_nil_iff]
    intro GV hGV
    unfold GlobalVariable.usesOfFunc
    rw [List.filterMap_eq_nil_iff]
    intro v hv
    simp [hg GV hGV v hv]

theorem eraseInst_mem (G : Function) (id : Nat) (I : Instruction)
    (h : I ∈ (G.eraseInst id).insts) : I ∈ G.insts := by
  simp only [Function.eraseInst, Function.insts, List.mem_flatMap, List.mem_map] at h ⊢
  obtain ⟨BB, ⟨B0, hB0, e⟩, hI⟩ := h
  refine ⟨B0, hB0, ?_⟩
  rw [← e] at hI
  exact (List.mem_filter.mp hI).1

theorem insertAtEntry_mem (G : Function) (News : List Instruction) (I : Instruction)
    (h : I ∈ (G.insertAtEntry News).insts) : I ∈ News ∨ I ∈ G.insts := by
  unfold Function.insertAtEntry at h
  split at h
  · exact Or.inr h
  · rename_i BB rest heq
    simp only [Function.insts, List.flatMap_cons, List.mem_append, heq] at h ⊢
    tauto

theorem shiftArguments_mem (Bs : List BasicBlock) (I : Instruction)
    (h : I ∈ (shiftArguments Bs).flatMap BasicBlock.Insts) :
    ∃ J ∈ Bs.flatMap BasicBlock.Insts, I = { J with I := J.I.mapOperands shiftArgument } := by
  simp only [shiftArguments, List.mem_flatMap, List.mem_map] at h ⊢
  obtain ⟨BB, ⟨B0, hB0, e⟩, hI⟩ := h
  rw [← e] at hI
  simp only [List.mem_map] at hI
  obtain ⟨J, hJ, e2⟩ := hI
  exact ⟨J, ⟨B0, hB0, hJ⟩, e2.symm⟩

theorem specRewriteFunction_id (C : IPObfuscationContext) (f nf : Nat) (G : Function) :
    (specRewriteFunction C f nf G).id = G.id := rfl

theorem nodup_insert_fresh (pre post : List Nat) (f h : Nat)
    (hn : (pre ++ f :: post).Nodup) (hh : h ∉ pre ++ f :: post) :
    (pre ++ h :: f :: post).Nodup := by
  rw [List.nodup_middle, List.nodup_cons]
  exact ⟨hh, hn⟩

/-- The invariant of the call-site loop holds when the loop starts. -/
theorem loopInv_start (M : Module) (C : IPObfuscationContext) (f : Nat) (F : Function)
    (pre post : List Function) (hsplit : M.Functions = pre ++ F :: post)
    (hfresh : ∀ G ∈ M.Functions, G.id < M.NextHandle)
    (hnodupF : (M.Functions.map Function.id).Nodup)
    (hnodupI : ∀ G ∈ M.Functions, (G.insts.map Instruction.id).Nodup)
    (hsurvey : surveyUses (usesOf M f) = true)
    (hargs : ∀ G ∈ M.Functions, ∀ I ∈ G.insts, I.isCallTo f = true →
      F.Params.length ≤ I.callArgs.length)
    (hslots : ∀ G ∈ M.Functions, ∀ I ∈ G.insts, I.isCallTo f = true →
      ∃ A ∈ G.insts, A.isAlloca = true
        ∧ (C.IPOInfoMap G.id).map IPOInfo.CalleeSlot = some A.id) :
    LoopInv C f F.Params.length
      { M with Functions := pre ++ createNF M.NextHandle F :: { F with Name := "" } :: post,
               NextHandle := M.NextHandle + 1 } := by
  obtain ⟨hclean, hglob⟩ := survey_clean M f hsurvey
  have hmem : ∀ G1 ∈ pre ++ createNF M.NextHandle F :: { F with Name := "" } :: post,
      G1.insts = [] ∨ ∃ G ∈ M.Functions, G1.id = G.id ∧ G1.insts = G.insts := by
    intro G1 hG1
    simp only [List.mem_append, List.mem_cons] at hG1
    rcases hG1 with e | e | e | e
    · exact Or.inr ⟨G1, by rw [hsplit]; simp [e], rfl, rfl⟩
    · left; rw [e]; rfl
    · exact Or.inr ⟨F, by rw [hsplit]; simp, by rw [e], by rw [e]; rfl⟩
    · exact Or.inr ⟨G1, by rw [hsplit]; simp [e], rfl, rfl⟩
  constructor
  · show ((pre ++ createNF M.NextHandle F :: { F with Name := "" } :: post).map
      Function.id).Nodup
    rw [hsplit] at hnodupF hfresh
    simp only [List.map_append, List.map_cons] at hnodupF ⊢
    apply nodup_insert_fresh _ _ _ _ hnodupF
    intro hin
    have : (createNF M.NextHandle F).id ∈ (pre ++ F :: post).map Function.id := by
      simpa using hin
    obtain ⟨G, hG, e⟩ := List.mem_map.mp this
    have := hfresh G hG
    have e2 : (createNF M.NextHandle F).id = M.NextHandle := rfl
    omega
  · intro G1 hG1
    rcases hmem G1 hG1 with e | ⟨G, hG, -, e⟩
    · rw [e]; exact List.nodup_nil
    · rw [e]; exact hnodupI G hG
  · intro G1 hG1 I hI
    rcases hmem G1 hG1 with e | ⟨G, hG, -, e⟩
    · rw [e] at hI; cases hI
    · rw [e] at hI; exact hclean G hG I hI
  · exact hglob
  · intro G1 hG1 I hI hc
    rcases hmem G1 hG1 with e | ⟨G, hG, eid, e⟩
    · rw [e] at hI; cases hI
    · rw [e] at hI
      refine ⟨hargs G hG I hI hc, ?_⟩
      obtain ⟨A, hA, hAl, hmap⟩ := hslots G hG I hI hc
      cases hinfo : C.IPOInfoMap G.id with
      | none => rw [hinfo] at hmap; cases hmap
      | some Info =>
        rw [hinfo] at hmap
        have hs : Info.CalleeSlot = A.id := by simpa using hmap
        refine ⟨Info, by rw [eid]; exact hinfo, ?_⟩
        intro J hJ hcJ hJs
        rw [e] at hJ
        have hJA : J = A := mem_insts_eq G (hnodupI G hG) J A hJ hA (by rw [hJs, hs])
        rw [hJA, isAlloca_not_call f A hAl] at hcJ
        cases hcJ

theorem final_functions (pre post : List Function) (F NFa NF2 F2 : Function) (f nf : Nat)
    (spec : Function → Function) (hspec : ∀ G, (spec G).id = G.id)
    (hpre : ∀ G ∈ pre, G.id ≠ f ∧ G.id ≠ nf) (hpost : ∀ G ∈ post, G.id ≠ f ∧ G.id ≠ nf)
    (hF : F.id = f) (hNF : NFa.id = nf) (hne : nf ≠ f) (hF2 : F2.id = f) :
    ((pre ++ NFa :: F2 :: post).map spec).flatMap
        (fun G => if G.id = f then [] else if G.id = nf then [NF2] else [G])
      = (pre ++ F :: post).map (fun G => if G.id = f then NF2 else spec G) := by
  have hside : ∀ l : List Function, (∀ G ∈ l, G.id ≠ f ∧ G.id ≠ nf) →
      (l.map spec).flatMap (fun G => if G.id = f then [] else if G.id = nf then [NF2] else [G])
        = l.map (fun G => if G.id = f then NF2 else spec G) := by
    intro l hl
    rw [List.flatMap_map]
    apply flatMap_map_of
    intro G hG
    simp [hspec, (hl G hG).1, (hl G hG).2]
  rw [List.map_append, List.map_cons, List.map_cons, List.flatMap_append, List.flatMap_cons,
    List.flatMap_cons, hside pre hpre, hside post hpost, List.map_append, List.map_cons]
  simp [hspec, hF, hNF, hne, hF2]

/-- When the loop has ended no operand of any instruction mentions `f`. -/
theorem loop_end_clean (C : IPObfuscationContext) (f n : Nat) (M : Module)
    (h : LoopInv C f n M) (h0 : usesOf M f = []) :
    ∀ G ∈ M.Functions, ∀ I ∈ G.insts, ∀ v ∈ I.I.operands, v.mentionsFunc f = false := by
  have hp : pendingCalls f M = 0 := by
    rw [← usesOf_length C f n M h, h0]
    rfl
  intro G hG I hI v hv
  have hc := h.clean G hG I hI
  unfold Instruction.siteClean at hc
  rw [pendingCalls_zero f M hp G hG I hI] at hc
  simp only [Bool.false_eq_true, if_false, List.all_eq_true, Bool.not_eq_true'] at hc
  exact hc v hv

/-- C6 (call-site rewrite). Let `F`, with handle `f`, be a function all of whose uses are
the called operand of a call or invoke (the survey loop accepts it), in a module with
distinct function handles below `NextHandle` and distinct instruction handles inside each
function, where every call of `F` passes at least as many arguments as `F` has fixed
parameters and stands in a function whose `IPOInfo` names an `alloca` of that function as
`CalleeSlot`, and let `F` itself have an `IPOInfo`. Given at least as many rounds as there
are calls of `F`, `InsertSecretArgument` returns, with `NF` under the handle
`M.NextHandle`, and in the module it returns: no use of `f` remains; every function other
than `F` is its `specRewriteFunction`, that is, each direct call or invoke of `F` stands
replaced in place by `specCall`: callee `NF`, arguments the `CalleeSlot` of the enclosing
caller followed by the original fixed and variadic arguments in order, the calling
convention, the tail-call flag of a call, the destinations of an invoke and the debug
location kept, the parameter attributes moved up by one with none on the secret argument;
and `NF` stands where `F` stood, its body being that same rewrite of the body of `F` (a
recursive call takes the `CalleeSlot` of `F`) after the argument transfer, the insertion
of the secret load `L` and the erasure of the old secret load. -/
theorem callsite_rewrite (fuel : Nat) (M : Module) (C : IPObfuscationContext) (f : Nat)
    (F : Function) (Info : IPOInfo)
    (hF : M.getFunction f = some F) (hInfo : C.IPOInfoMap f = some Info)
    (hfresh : ∀ G ∈ M.Functions, G.id < M.NextHandle)
    (hnodupF : (M.Functions.map Function.id).Nodup)
    (hnodupI : ∀ G ∈ M.Functions, (G.insts.map Instruction.id).Nodup)
    (hsurvey : surveyUses (usesOf M f) = true)
    (hargs : ∀ G ∈ M.Functions, ∀ I ∈ G.insts, I.isCallTo f = true →
      F.Params.length ≤ I.callArgs.length)
    (hslots : ∀ G ∈ M.Functions, ∀ I ∈ G.insts, I.isCallTo f = true →
      ∃ A ∈ G.insts, A.isAlloca = true
        ∧ (C.IPOInfoMap G.id).map IPOInfo.CalleeSlot = some A.id)
    (hfuel : pendingCalls f M ≤ fuel) :
    ∃ M3 C1 NF2 L, InsertSecretArgument fuel M C f = some (M3, C1, M.NextHandle)
      ∧ usesOf M3 f = []
      ∧ M3.Functions = M.Functions.map (fun G =>
          if G.id = f then NF2 else specRewriteFunction C f M.NextHandle G)
      ∧ NF2 = (({ createNF M.NextHandle F with
                  Blocks := shiftArguments (specRewriteFunction C f M.NextHandle F).Blocks,
                  Args := nameArguments (createNF M.NextHandle F).Args F.Args } :
                Function).insertAtEntry [L]).eraseInst Info.SecretLI
      ∧ L.id = M.NextHandle + 1
      ∧ L.I = Inst.Load (Ty.Pointer (Ty.Int 32)) (Value.Argument 0) := by
  obtain ⟨hFmem, hid⟩ := getFunction_mem M f F hF
  obtain ⟨pre, post, hsplit, hpre, hpost⟩ := split_at_function M f F hF hnodupF
  have hnf : M.NextHandle ≠ f := by
    have := hfresh F hFmem
    omega
  have hM1 : M.Functions.flatMap (fun G =>
        if G.id = f then [createNF M.NextHandle F, { G with Name := "" }] else [G])
      = pre ++ createNF M.NextHandle F :: { F with Name := "" } :: post := by
    rw [hsplit, List.flatMap_append, List.flatMap_cons,
      flatMap_singleton_of pre _ (fun G hG => by simp [hpre G hG]),
      flatMap_singleton_of post _ (fun G hG => by simp [hpost G hG])]
    simp [hid]
  have hinv := loopInv_start M C f F pre post hsplit hfresh hnodupF hnodupI hsurvey hargs hslots
  have hpend : pendingCalls f
      { M with Functions := pre ++ createNF M.NextHandle F :: { F with Name := "" } :: post,
               NextHandle := M.NextHandle + 1 } ≤ fuel := by
    have : pendingCalls f
        { M with Functions := pre ++ createNF M.NextHandle F :: { F with Name := "" } :: post,
                 NextHandle := M.NextHandle + 1 } = pendingCalls f M := by
      unfold pendingCalls
      rw [hsplit]
      simp [Function.insts, createNF]
    omega
  obtain ⟨M2, hrew, hf2, hg2, hn2, hu2, hi2⟩ :=
    rewriteUses_spec C f M.NextHandle F.Params.length hnf fuel _ hinv hpend
  have hF2mem : specRewriteFunction C f M.NextHandle { F with Name := "" } ∈ M2.Functions := by
    rw [hf2]
    apply List.mem_map_of_mem
    simp
  have hget2 : M2.getFunction f
      = some (specRewriteFunction C f M.NextHandle { F with Name := "" }) := by
    have := getFunction_of_mem M2 hi2.nodupF _ hF2mem
    have e : (specRewriteFunction C f M.NextHandle { F with Name := "" }).id = f := hid
    rw [e] at this
    exact this
  have hcid : ∀ (h : Nat) (X : Function), (createNF h X).id = h := fun _ _ => rfl
  have hclean2 := loop_end_clean C f F.Params.length M2 hi2 hu2
  unfold InsertSecretArgument
  simp only [hF, hM1, hcid, hrew, hget2, hInfo]
  refine ⟨_, _, _,
    Instruction.mk M2.NextHandle ""
      (Function.entryDebugLoc { createNF M.NextHandle F with
        Blocks := shiftArguments (specRewriteFunction C f M.NextHandle F).Blocks,
        Args := nameArguments (createNF M.NextHandle F).Args F.Args })
      (Inst.Load (Ty.Pointer (Ty.Int 32)) (Value.Argument 0)),
    rfl, ?_, ?_, rfl, hn2, rfl⟩
  · apply usesOf_nil_of
    · intro G hG I hI v hv
      simp only [List.mem_flatMap] at hG
      obtain ⟨G0, hG0, hGin⟩ := hG
      by_cases e1 : G0.id = f
      · rw [if_pos e1] at hGin
        cases hGin
      · by_cases e2 : G0.id = M.NextHandle
        · rw [if_neg e1, if_pos e2, List.mem_singleton] at hGin
          rw [hGin] at hI
          rcases insertAtEntry_mem _ _ _ (eraseInst_mem _ _ _ hI) with hL | hB
          · rw [List.mem_singleton] at hL
            rw [hL] at hv
            simp only [Inst.operands, List.mem_singleton] at hv
            rw [hv]
            rfl
          · obtain ⟨J, hJ, eJ⟩ := shiftArguments_mem _ _ hB
            rw [eJ] at hv
            simp only [operands_mapOperands, List.mem_map] at hv
            obtain ⟨v0, hv0, ev⟩ := hv
            rw [← ev, mentionsFunc_shift]
            exact hclean2 _ hF2mem J hJ v0 hv0
        · rw [if_neg e1, if_neg e2, List.mem_singleton] at hGin
          rw [hGin] at hI
          exact hclean2 G0 hG0 I hI v hv
    · intro GV hGV v hv
      exact hi2.globals GV hGV v hv
  · show M2.Functions.flatMap _ = _
    rw [hf2, hsplit]
    refine final_functions pre post F _ _ _ f M.NextHandle _ (fun _ => rfl) ?_ ?_ hid rfl hnf hid
    · intro G hG
      refine ⟨hpre G hG, ?_⟩
      have := hfresh G (by rw [hsplit]; exact List.mem_append_left _ hG)
      omega
    · intro G hG
      refine ⟨hpost G hG, ?_⟩
      have := hfresh G (by rw [hsplit]; simp [hG])
      omega

theorem callsite_rewrite_witness :
    ∃ F Info, sampleAllocated.1.getFunction 1 = some F
      ∧ sampleAllocated.2.IPOInfoMap 1 = some Info
      ∧ (∀ G ∈ sampleAllocated.1.Functions, G.id < sampleAllocated.1.NextHandle)
      ∧ (sampleAllocated.1.Functions.map Function.id).Nodup
      ∧ (∀ G ∈ sampleAllocated.1.Functions, (G.insts.map Instruction.id).Nodup)
      ∧ surveyUses (usesOf sampleAllocated.1 1) = true
      ∧ pendingCalls 1 sampleAllocated.1 ≤ 1
      ∧ ∃ M3 C1 NF2 L,
          InsertSecretArgument 1 sampleAllocated.1 sampleAllocated.2 1
            = some (M3, C1, sampleAllocated.1.NextHandle)
          ∧ usesOf M3 1 = []
          ∧ M3.Functions = sampleAllocated.1.Functions.map (fun G =>
              if G.id = 1 then NF2
              else specRewriteFunction sampleAllocated.2 1 sampleAllocated.1.NextHandle G)
          ∧ NF2 = (({ createNF sampleAllocated.1.NextHandle F with
                      Blocks := shiftArguments
                        (specRewriteFunction sampleAllocated.2 1
                          sampleAllocated.1.NextHandle F).Blocks,
                      Args := nameArguments (createNF sampleAllocated.1.NextHandle F).Args
                        F.Args } : Function).insertAtEntry [L]).eraseInst Info.SecretLI
          ∧ L.id = sampleAllocated.1.NextHandle + 1
          ∧ L.I = Inst.Load (Ty.Pointer (Ty.Int 32)) (Value.Argument 0) :=
  ⟨_, _, rfl, rfl, by decide, by decide, by decide, by decide, by decide,
    callsite_rewrite 1 sampleAllocated.1 sampleAllocated.2 1 _ _ rfl rfl (by decide)
      (by decide) (by decide) (by decide) (by decide) (by decide) (by decide)⟩

/-! ### C-string recognition -/

/-- The loop of `isCString` answers true exactly when the first zero from `i` on is element
`e - 1`. -/
theorem isCStringLoop_iff (CDS : ConstantDataSequential) (e : Nat) (he : e < W32) :
    ∀ n i, i + n = e →
      (isCStringLoop CDS e n i = true ↔
        1 ≤ n ∧ CDS.Elts.getD (e - 1) 0 = 0 ∧ ∀ j, i ≤ j → j < e - 1 → CDS.Elts.getD j 0 ≠ 0) := by
  intro n
  induction n with
  | zero =>
    intro i _
    simp [isCStringLoop]
  | succ n ih =>
    intro i hin
    have hs : sub32 e 1 = e - 1 := by
      simp only [sub32, W32] at he ⊢
      omega
    rw [isCStringLoop]
    by_cases hz : CDS.Elts.getD i 0 = 0
    · rw [if_pos hz, hs]
      simp only [beq_iff_eq]
      constructor
      · intro hi
        refine ⟨by omega, by rw [← hi]; exact hz, ?_⟩
        intro j h1 h2
        omega
      · rintro ⟨-, -, hall⟩
        by_contra hne
        exact hall i (le_refl i) (by omega) hz
    · rw [if_neg hz, ih (i + 1) (by omega)]
      constructor
      · rintro ⟨h1, h2, h3⟩
        refine ⟨by omega, h2, ?_⟩
        intro j hj1 hj2
        by_cases e1 : j = i
        · rw [e1]; exact hz
        · exact h3 j (by omega) hj2
      · rintro ⟨-, h2, h3⟩
        refine ⟨?_, h2, fun j hj1 hj2 => h3 j (by omega) hj2⟩
        by_contra hn
        have : i = e - 1 := by omega
        rw [← this] at h2
        exact hz h2

/-- C11 (C-string recognition). For a constant data array (its type is an array type) with
`n` elements, `n` below `2 ^ 32` (the range of the `unsigned` element count), `isCString`
answers true if and only if the element type is `i8`, `i16` or `i32`, `n ≥ 1`, element
`n - 1` is zero and the elements `0 .. n - 2` are all non-zero. So it answers false for
`n = 0`, for a sequence with an embedded zero, for one with no zero, and for any other
element type. -/
theorem isCString_iff (CDS : ConstantDataSequential) (harr : CDS.isArrayTy = true)
    (hlen : CDS.Elts.length < 2 ^ 32) :
    isCString CDS = true ↔
      (CDS.EltTy = Ty.Int 8 ∨ CDS.EltTy = Ty.Int 16 ∨ CDS.EltTy = Ty.Int 32)
        ∧ 1 ≤ CDS.Elts.length
        ∧ CDS.Elts.getD (CDS.Elts.length - 1) 0 = 0
        ∧ ∀ j, j < CDS.Elts.length - 1 → CDS.Elts.getD j 0 ≠ 0 := by
  have hu : toUnsigned CDS.Elts.length = CDS.Elts.length := by
    simp only [toUnsigned, W32]
    omega
  unfold isCString
  rw [harr]
  simp only [Bool.not_true, Bool.false_eq_true, if_false, hu]
  by_cases hty : CDS.EltTy = Ty.Int 8 ∨ CDS.EltTy = Ty.Int 16 ∨ CDS.EltTy = Ty.Int 32
  · have h1 : (!CDS.EltTy.isIntegerTy 8 && !CDS.EltTy.isIntegerTy 16
        && !CDS.EltTy.isIntegerTy 32) = false := by
      rcases hty with e | e | e <;> simp [Ty.isIntegerTy, e]
    rw [h1]
    simp only [Bool.false_eq_true, if_false]
    rw [isCStringLoop_iff CDS _ (by simpa [W32] using hlen) _ 0 (by omega)]
    constructor
    · rintro ⟨a, b, c⟩
      exact ⟨hty, a, b, fun j hj => c j (Nat.zero_le j) hj⟩
    · rintro ⟨-, a, b, c⟩
      exact ⟨a, b, fun j _ hj => c j hj⟩
  · have h1 : (!CDS.EltTy.isIntegerTy 8 && !CDS.EltTy.isIntegerTy 16
        && !CDS.EltTy.isIntegerTy 32) = true := by
      simp only [not_or] at hty
      simp [Ty.isIntegerTy, hty.1, hty.2.1, hty.2.2]
    rw [h1]
    simp only [if_true, Bool.false_eq_true, false_iff]
    rintro ⟨h, -⟩
    exact hty h

theorem isCString_iff_witness :
    isCString ⟨true, Ty.Int 8, [104, 105, 0]⟩ = true ↔
      ((Ty.Int 8 = Ty.Int 8 ∨ Ty.Int 8 = Ty.Int 16 ∨ Ty.Int 8 = Ty.Int 32)
        ∧ 1 ≤ [104, 105, 0].length
        ∧ [104, 105, 0].getD ([104, 105, 0].length - 1) 0 = 0
        ∧ ∀ j, j < [104, 105, 0].length - 1 → [104, 105, 0].getD j 0 ≠ 0) :=
  isCString_iff ⟨true, Ty.Int 8, [104, 105, 0]⟩ rfl (by decide)

/-! ### Indirect branches: the decryption key -/

theorem sub32_sub32_cancel (c e : Nat) : sub32 (sub32 c e) c = sub32 0 e := by
  simp only [sub32, W32]
  omega

/-- C15 (DecKey derivation). In the instructions that `run` puts in place of a conditional
branch, for every `EncKey` and every `FuncSecretCI`: with an `IPOInfo`, the last three
instructions are the subtraction `DecKey = X - FuncSecretSSA` with the folded constant
`X = FuncSecretCI - EncKey` (modulo `2 ^ 32`), the byte GEP that adds `DecKey` to the loaded
address, and the indirect branch; executing the subtraction in a state where the secret
load holds `FuncSecretCI` gives `-EncKey` modulo `2 ^ 32`. Without an `IPOInfo` the GEP adds
a constant, and that constant is `-EncKey` modulo `2 ^ 32` as well. -/
theorem deckey_derivation (P : IndirectBranch) (Info : IPOInfo) (EncKey : Nat)
    (DestBBs : GlobalVariable) (h : Nat) (BI : Instruction) (Cond : Value) (T F : Nat)
    (Tg : Target) (prev : Nat) (S : State)
    (hrun : S.Regs Info.SecretLI = Info.SecretCI) :
    (∃ pre DecKey,
      rewriteBranch P (some Info) EncKey DestBBs h BI Cond T F
        = pre ++ [DecKey,
            { id := h + 4, Name := "", DebugLoc := BI.DebugLoc,
              I := Inst.GEP false (Ty.Int 8) (Value.Inst (h + 2)) [Value.Inst DecKey.id] },
            { id := h + 5, Name := "", DebugLoc := BI.DebugLoc,
              I := Inst.IndirectBr (Value.Inst (h + 4)) [T, F] }]
      ∧ DecKey.I = Inst.Sub (Ty.Int 32) (Value.ConstantInt 32 (sub32 Info.SecretCI EncKey))
          (Value.Inst Info.SecretLI)
      ∧ (Tg.execInst prev S DecKey).map (fun S1 => S1.Regs DecKey.id)
          = some (sub32 0 EncKey))
    ∧ (∃ pre K,
      rewriteBranch P none EncKey DestBBs h BI Cond T F
        = pre ++ [
            { id := h + 4, Name := "", DebugLoc := BI.DebugLoc,
              I := Inst.GEP false (Ty.Int 8) (Value.Inst (h + 2)) [Value.ConstantInt 32 K] },
            { id := h + 5, Name := "", DebugLoc := BI.DebugLoc,
              I := Inst.IndirectBr (Value.Inst (h + 4)) [T, F] }]
      ∧ Tg.eval S (Value.ConstantInt 32 K) = sub32 0 EncKey) := by
  constructor
  · refine ⟨_, Instruction.mk (h + 3) "" BI.DebugLoc
        (Inst.Sub (Ty.Int 32) (Value.ConstantInt 32 (sub32 Info.SecretCI EncKey))
          (Value.Inst Info.SecretLI)), List.append_assoc _ [_] [_, _], rfl, ?_⟩
    · have hX : sub32 Info.SecretCI EncKey % 2 ^ 32 = sub32 Info.SecretCI EncKey :=
        Nat.mod_eq_of_lt (sub32_lt _ _)
      have := sub32_sub32_cancel Info.SecretCI EncKey
      simp only [Target.execInst, Target.eval, Target.bitsOf, State.setReg, Option.map_some',
        if_true, hX, hrun, Option.some.injEq]
      rw [← this]
      simp only [sub32, W32]
      omega
  · refine ⟨_, sub32 (sub32 0 EncKey) 0,
      congrArg (fun l => l ++ [_, _]) (List.append_nil _), ?_⟩
    · simp only [Target.eval, sub32, W32]
      omega

theorem deckey_derivation_witness :
    sampleCallerState.Regs 1007 = 10
    ∧ (∃ pre DecKey,
      rewriteBranch ⟨[(301, 0), (302, 1)], [301, 302]⟩ (some ⟨1004, 1005, 1007, 10⟩) 8
          { id := 50, Name := "t", isConstant := false, Init := [] } 2000 ⟨311, "", 0, Inst.CondBr (Value.Argument 1) 301 302⟩
          (Value.Argument 1) 301 302
        = pre ++ [DecKey,
            { id := 2000 + 4, Name := "", DebugLoc := 0,
              I := Inst.GEP false (Ty.Int 8) (Value.Inst (2000 + 2)) [Value.Inst DecKey.id] },
            { id := 2000 + 5, Name := "", DebugLoc := 0,
              I := Inst.IndirectBr (Value.Inst (2000 + 4)) [301, 302] }]
      ∧ DecKey.I = Inst.Sub (Ty.Int 32) (Value.ConstantInt 32 (sub32 10 8)) (Value.Inst 1007)
      ∧ (sampleTarget.execInst 0 sampleCallerState DecKey).map (fun S1 => S1.Regs DecKey.id)
          = some (sub32 0 8)) :=
  ⟨rfl, (deckey_derivation ⟨[(301, 0), (302, 1)], [301, 302]⟩ ⟨1004, 1005, 1007, 10⟩ 8
      { id := 50, Name := "t", isConstant := false, Init := [] } 2000 ⟨311, "", 0, Inst.CondBr (Value.Argument 1) 301 302⟩
      (Value.Argument 1) 301 302 sampleTarget 0 sampleCallerState rfl).1⟩

/-! ### The secret load of a resignatured function -/

/-- C17 at a failing input. In scenario S1, `AllocaSecretSlot` gives `add` the secret load
`load i32, CallerSlot`; after `InsertSecretArgument(add)` the `SecretLI` of the new function
is a load through argument 0 whose loaded type is pointer-to-`i32`, not `i32`. On the
64-bit sample target that load reads eight bytes: with the secret 3 in the four bytes at
`SecretArg` and 1 in the next four, its value is `3 + 2 ^ 32`, where a load of `i32` gives
3. -/
theorem secret_reload_loads_pointer :
    secretLoadKinds sampleAllocated.1 sampleAllocated.2 1
        = some [Inst.Load (Ty.Int 32) (Value.Inst 1000)]
      ∧ sampleInserted.map (fun r => (r.2.2, secretLoadKinds r.1 r.2.1 r.2.2))
        = some (1008, some [Inst.Load (Ty.Pointer (Ty.Int 32)) (Value.Argument 0)])
      ∧ (sampleTarget.execInst 0 sampleReloadState
            ⟨1009, "", 5, Inst.Load (Ty.Pointer (Ty.Int 32)) (Value.Argument 0)⟩).map
          (fun S => S.Regs 1009) = some 4294967299
      ∧ (sampleTarget.execInst 0 sampleReloadState
            ⟨1009, "", 5, Inst.Load (Ty.Int 32) (Value.Argument 0)⟩).map
          (fun S => S.Regs 1009) = some 3 := by
  refine ⟨by decide, by decide, ?_, ?_⟩
  · rfl
  · rfl

/-! ### Indirect branches: numbering the targets -/

theorem lookup_map_set (N : List (Nat × Nat)) (BB n x : Nat) :
    (N.map (fun e => if e.1 = BB then (BB, n) else e)).lookup x
      = if x = BB then (N.lookup BB).map (fun _ => n) else N.lookup x := by
  induction N with
  | nil => simp
  | cons a N ih =>
    obtain ⟨k, v⟩ := a
    by_cases hk : k = BB
    · subst hk
      by_cases hx : x = k
      · subst hx
        simp [List.lookup_cons]
      · have : (x == k) = false := by simpa using hx
        simp only [List.map_cons, if_true, List.lookup_cons, this, ih, hx, if_false]
    · by_cases hx : x = BB
      · subst hx
        have h1 : (x == k) = false := by
          simp only [beq_eq_false_iff_ne, ne_eq]
          exact fun e => hk e.symm
        simp only [List.map_cons, hk, if_false, List.lookup_cons, h1, ih, if_true]
      · simp only [List.map_cons, hk, if_false, List.lookup_cons, ih, hx]

theorem lookup_setNumber (N : List (Nat × Nat)) (BB n x : Nat) :
    (setNumber N BB n).lookup x = if x = BB then some n else N.lookup x := by
  unfold setNumber
  by_cases h : (N.lookup BB).isSome = true
  · rw [if_pos h, lookup_map_set]
    by_cases hx : x = BB
    · obtain ⟨v, hv⟩ := Option.isSome_iff_exists.mp h
      simp [hx, hv]
    · simp [hx]
  · rw [if_neg h, List.lookup_append]
    have hn : N.lookup BB = none := by
      cases hl : N.lookup BB with
      | none => rfl
      | some v => rw [hl] at h; simp at h
    by_cases hx : x = BB
    · subst hx
      simp [hn, List.lookup_cons]
    · have : (x == BB) = false := by simpa using hx
      simp [hx, List.lookup_cons, this]

theorem addSuccessors_inv (l : List Nat) :
    ∀ P, TargetsInv P →
      TargetsInv (addSuccessors P l)
        ∧ ∀ BB, BB ∈ (addSuccessors P l).BBTargets ↔ BB ∈ P.BBTargets ∨ BB ∈ l := by
  induction l with
  | nil =>
    intro P hP
    exact ⟨hP, fun BB => by simp [addSuccessors]⟩
  | cons Succ rest ih =>
    intro P hP
    rw [addSuccessors]
    by_cases hc : P.count Succ = 0
    · rw [if_pos hc]
      have hno : ¬ (P.BBNumbering.lookup Succ).isSome = true := by
        intro h
        simp [IndirectBranch.count, h] at hc
      have hnot : Succ ∉ P.BBTargets := fun h => hno ((hP.keys Succ).mpr h)
      have hP1 : TargetsInv
          { BBNumbering := setNumber P.BBNumbering Succ 0, BBTargets := P.BBTargets ++ [Succ] } := by
        constructor
        · exact List.Nodup.append hP.nodup (List.nodup_singleton Succ)
            (by
              intro a ha hs
              rw [List.mem_singleton] at hs
              exact hnot (hs ▸ ha))
        · intro BB
          simp only [lookup_setNumber, List.mem_append, List.mem_singleton]
          by_cases e : BB = Succ
          · simp [e]
          · simp [e, hP.keys BB]
      obtain ⟨h1, h2⟩ := ih _ hP1
      refine ⟨h1, fun BB => ?_⟩
      rw [h2 BB]
      simp only [List.mem_append, List.mem_singleton, List.mem_cons]
      tauto
    · rw [if_neg hc]
      have hyes : (P.BBNumbering.lookup Succ).isSome = true := by
        by_contra h
        simp [IndirectBranch.count, h] at hc
      have hin : Succ ∈ P.BBTargets := (hP.keys Succ).mp hyes
      obtain ⟨h1, h2⟩ := ih P hP
      refine ⟨h1, fun BB => ?_⟩
      rw [h2 BB]
      simp only [List.mem_cons]
      constructor
      · tauto
      · rintro (h | h | h)
        · exact Or.inl h
        · exact Or.inl (h ▸ hin)
        · exact Or.inr h

theorem collectTargets_inv (Blocks : List BasicBlock) :
    ∀ P, TargetsInv P →
      TargetsInv (collectTargets P Blocks)
        ∧ ∀ BB, BB ∈ (collectTargets P Blocks).BBTargets ↔
            BB ∈ P.BBTargets ∨ ∃ B ∈ Blocks, ∃ c t f,
              B.condSuccessors = some (c, t, f) ∧ (BB = t ∨ BB = f) := by
  induction Blocks with
  | nil =>
    intro P hP
    exact ⟨hP, fun BB => by simp [collectTargets]⟩
  | cons B rest ih =>
    intro P hP
    rw [collectTargets]
    cases hs : B.condSuccessors with
    | none =>
      simp only []
      obtain ⟨h1, h2⟩ := ih P hP
      refine ⟨h1, fun BB => ?_⟩
      rw [h2 BB]
      constructor
      · rintro (h | ⟨B2, hB2, h⟩)
        · exact Or.inl h
        · exact Or.inr ⟨B2, List.mem_cons_of_mem _ hB2, h⟩
      · rintro (h | ⟨B2, hB2, c, t, f, h, h3⟩)
        · exact Or.inl h
        · rcases List.mem_cons.mp hB2 with e | e
          · rw [e, hs] at h; cases h
          · exact Or.inr ⟨B2, e, c, t, f, h, h3⟩
    | some x =>
      obtain ⟨c, t, f⟩ := x
      simp only []
      obtain ⟨ha, hb⟩ := addSuccessors_inv [t, f] P hP
      obtain ⟨h1, h2⟩ := ih _ ha
      refine ⟨h1, fun BB => ?_⟩
      rw [h2 BB, hb BB]
      simp only [List.mem_cons, List.mem_singleton, List.not_mem_nil, or_false]
      constructor
      · rintro ((h | h) | ⟨B2, hB2, h⟩)
        · exact Or.inl h
        · exact Or.inr ⟨B, Or.inl rfl, c, t, f, hs, h⟩
        · exact Or.inr ⟨B2, Or.inr hB2, h⟩
      · rintro (h | ⟨B2, hB2, c2, t2, f2, h, h3⟩)
        · exact Or.inl (Or.inl h)
        · rcases hB2 with e | e
          · rw [e, hs] at h
            simp only [Option.some.injEq, Prod.mk.injEq] at h
            obtain ⟨-, e1, e2⟩ := h
            rw [← e1, ← e2] at h3
            exact Or.inl (Or.inr h3)
          · exact Or.inr ⟨B2, e, c2, t2, f2, h, h3⟩

theorem assignNumbers_not_mem (l : List Nat) :
    ∀ (N : List (Nat × Nat)) (k x : Nat), x ∉ l →
      (assignNumbers N k l).lookup x = N.lookup x := by
  induction l with
  | nil => intro N k x _; rfl
  | cons a rest ih =>
    intro N k x hx
    rw [assignNumbers, ih _ _ _ (fun h => hx (List.mem_cons_of_mem a h)), lookup_setNumber,
      if_neg (fun (e : x = a) => hx (e ▸ List.mem_cons_self a rest))]

theorem assignNumbers_index (l : List Nat) :
    ∀ (N : List (Nat × Nat)) (k j : Nat), l.Nodup → j < l.length →
      (assignNumbers N k l).lookup (l.getD j 0) = some (k + j) := by
  induction l with
  | nil => intro N k j _ hj; simp at hj
  | cons a rest ih =>
    intro N k j hn hj
    rw [List.nodup_cons] at hn
    rw [assignNumbers]
    cases j with
    | zero =>
      rw [List.getD_cons_zero, assignNumbers_not_mem rest _ _ _ hn.1, lookup_setNumber]
      simp
    | succ j =>
      rw [List.getD_cons_succ, ih _ _ j hn.2 (by simpa using hj)]
      congr 1
      omega

theorem assignNumbers_keys (l : List Nat) :
    ∀ (N : List (Nat × Nat)) (k x : Nat),
      ((assignNumbers N k l).lookup x).isSome = true ↔
        x ∈ l ∨ (N.lookup x).isSome = true := by
  induction l with
  | nil => intro N k x; simp [assignNumbers]
  | cons a rest ih =>
    intro N k x
    rw [assignNumbers, ih, lookup_setNumber, List.mem_cons]
    by_cases e : x = a
    · simp [e]
    · simp [e]

theorem mem_getD_index (l : List Nat) (x : Nat) (h : x ∈ l) :
    ∃ j, j < l.length ∧ l.getD j 0 = x := by
  obtain ⟨j, hj, e⟩ := List.getElem_of_mem h
  exact ⟨j, hj, by rw [List.getD_eq_getElem _ _ hj]; exact e⟩

/-- The fields that `NumberBasicBlock` leaves when it starts from cleared fields, as `run`
calls it, with a shuffle that permutes. -/
theorem numberBasicBlock_fields (shuffle : Nat → List Nat → List Nat)
    (hperm : ∀ s l, (shuffle s l).Perm l) (R : CryptoUtils) (F : Function) :
    (∀ BB, BB ∈ (NumberBasicBlock shuffle R ⟨[], []⟩ F).1.BBTargets ↔
        ∃ B ∈ F.Blocks, ∃ c t f, B.condSuccessors = some (c, t, f) ∧ (BB = t ∨ BB = f))
      ∧ (NumberBasicBlock shuffle R ⟨[], []⟩ F).1.BBTargets.Nodup
      ∧ (∀ BB, ((NumberBasicBlock shuffle R ⟨[], []⟩ F).1.BBNumbering.lookup BB).isSome = true
          ↔ BB ∈ (NumberBasicBlock shuffle R ⟨[], []⟩ F).1.BBTargets)
      ∧ (∀ j, j < (NumberBasicBlock shuffle R ⟨[], []⟩ F).1.BBTargets.length →
          (NumberBasicBlock shuffle R ⟨[], []⟩ F).1.BBNumbering.lookup
            ((NumberBasicBlock shuffle R ⟨[], []⟩ F).1.BBTargets.getD j 0) = some j) := by
  have h0 : TargetsInv ⟨[], []⟩ := ⟨List.nodup_nil, fun BB => by simp⟩
  obtain ⟨hinv, hmem⟩ := collectTargets_inv F.Blocks _ h0
  have hp := hperm R.get_uint32_t.1 (collectTargets ⟨[], []⟩ F.Blocks).BBTargets
  simp only [NumberBasicBlock]
  refine ⟨?_, ?_, ?_, ?_⟩
  · intro BB
    rw [hp.mem_iff, hmem BB]
    simp
  · exact hp.nodup_iff.mpr hinv.nodup
  · intro BB
    rw [assignNumbers_keys, hinv.keys BB, hp.mem_iff]
    simp
  · intro j hj
    have := assignNumbers_index _ (collectTargets ⟨[], []⟩ F.Blocks).BBNumbering 0 j
      (hp.nodup_iff.mpr hinv.nodup) hj
    rw [this]
    simp

/-- After `NumberBasicBlock` the number of a target is its position in `BBTargets`. -/
theorem numberBasicBlock_number (shuffle : Nat → List Nat → List Nat)
    (hperm : ∀ s l, (shuffle s l).Perm l) (R : CryptoUtils) (F : Function) :
    ∀ BB ∈ (NumberBasicBlock shuffle R ⟨[], []⟩ F).1.BBTargets,
      (NumberBasicBlock shuffle R ⟨[], []⟩ F).1.number BB
          < (NumberBasicBlock shuffle R ⟨[], []⟩ F).1.BBTargets.length
        ∧ (NumberBasicBlock shuffle R ⟨[], []⟩ F).1.BBTargets[
            (NumberBasicBlock shuffle R ⟨[], []⟩ F).1.number BB]? = some BB := by
  obtain ⟨-, -, -, hidx⟩ := numberBasicBlock_fields shuffle hperm R F
  generalize (NumberBasicBlock shuffle R ⟨[], []⟩ F).1 = P at hidx ⊢
  intro BB hBB
  obtain ⟨j, hj, e⟩ := mem_getD_index P.BBTargets BB hBB
  have h1 := hidx j hj
  rw [e] at h1
  have h2 : P.number BB = j := by simp [IndirectBranch.number, h1]
  rw [h2]
  refine ⟨hj, ?_⟩
  rw [List.getElem?_eq_getElem hj, ← e, List.getD_eq_getElem _ _ hj]

/-- C16 (target numbering). When `NumberBasicBlock` starts from cleared fields, as `run`
calls it, and the shuffle permutes its input: afterwards `BBTargets` holds exactly the
blocks that are a successor of some conditional branch of `F`, each once; the keys of
`BBNumbering` are those blocks; `BBNumbering[BB]` is a position of `BBTargets` and
`BBTargets[BBNumbering[BB]] = BB`; every position is the number of some target; and two
targets with the same number are the same block. -/
theorem target_numbering (shuffle : Nat → List Nat → List Nat)
    (hperm : ∀ s l, (shuffle s l).Perm l) (R : CryptoUtils) (F : Function) :
    (∀ BB, BB ∈ (NumberBasicBlock shuffle R ⟨[], []⟩ F).1.BBTargets ↔
        ∃ B ∈ F.Blocks, ∃ c t f, B.condSuccessors = some (c, t, f) ∧ (BB = t ∨ BB = f))
      ∧ (NumberBasicBlock shuffle R ⟨[], []⟩ F).1.BBTargets.Nodup
      ∧ (∀ BB, (NumberBasicBlock shuffle R ⟨[], []⟩ F).1.count BB = 1
          ↔ BB ∈ (NumberBasicBlock shuffle R ⟨[], []⟩ F).1.BBTargets)
      ∧ (∀ BB ∈ (NumberBasicBlock shuffle R ⟨[], []⟩ F).1.BBTargets,
          (NumberBasicBlock shuffle R ⟨[], []⟩ F).1.number BB
              < (NumberBasicBlock shuffle R ⟨[], []⟩ F).1.BBTargets.length
            ∧ (NumberBasicBlock shuffle R ⟨[], []⟩ F).1.BBTargets[
                (NumberBasicBlock shuffle R ⟨[], []⟩ F).1.number BB]? = some BB)
      ∧ (∀ k, k < (NumberBasicBlock shuffle R ⟨[], []⟩ F).1.BBTargets.length →
          ∃ BB ∈ (NumberBasicBlock shuffle R ⟨[], []⟩ F).1.BBTargets,
            (NumberBasicBlock shuffle R ⟨[], []⟩ F).1.number BB = k)
      ∧ (∀ B1 ∈ (NumberBasicBlock shuffle R ⟨[], []⟩ F).1.BBTargets,
          ∀ B2 ∈ (NumberBasicBlock shuffle R ⟨[], []⟩ F).1.BBTargets,
            (NumberBasicBlock shuffle R ⟨[], []⟩ F).1.number B1
              = (NumberBasicBlock shuffle R ⟨[], []⟩ F).1.number B2 → B1 = B2) := by
  obtain ⟨hmem, hnodup, hkeys, hidx⟩ := numberBasicBlock_fields shuffle hperm R F
  have hnum := numberBasicBlock_number shuffle hperm R F
  generalize (NumberBasicBlock shuffle R ⟨[], []⟩ F).1 = P at hmem hnodup hkeys hidx hnum ⊢
  refine ⟨hmem, hnodup, ?_, hnum, ?_, ?_⟩
  · intro BB
    rw [← hkeys BB]
    unfold IndirectBranch.count
    by_cases h : (P.BBNumbering.lookup BB).isSome = true
    · simp [h]
    · simp [h]
  · intro k hk
    refine ⟨P.BBTargets.getD k 0, ?_, ?_⟩
    · rw [List.getD_eq_getElem _ _ hk]
      exact List.getElem_mem hk
    · unfold IndirectBranch.number
      rw [hidx k hk]
      rfl
  · intro B1 h1 B2 h2 e
    have a := (hnum B1 h1).2
    have b := (hnum B2 h2).2
    rw [e, b] at a
    exact (Option.some.inj a).symm

theorem target_numbering_witness :
    (∀ BB, BB ∈ (NumberBasicBlock (fun _ l => l.reverse) sampleEngine ⟨[], []⟩
          sampleBranchy).1.BBTargets ↔
        ∃ B ∈ sampleBranchy.Blocks, ∃ c t f,
          B.condSuccessors = some (c, t, f) ∧ (BB = t ∨ BB = f))
      ∧ (NumberBasicBlock (fun _ l => l.reverse) sampleEngine ⟨[], []⟩
          sampleBranchy).1.BBTargets.Nodup :=
  ⟨(target_numbering (fun _ l => l.reverse) (fun _ l => List.reverse_perm l) sampleEngine
      sampleBranchy).1,
   (target_numbering (fun _ l => l.reverse) (fun _ l => List.reverse_perm l) sampleEngine
      sampleBranchy).2.1⟩

/-! ### Indirect branches: the table index -/

/-- C19 (table index in bounds). Let `run` reach the rewriting of `F` (the pass is enabled
for `F`, `F` has a body, is not linkonce and not in `.text.startup`, and some conditional
branch was numbered), let the shuffle permute, and let the module hold no global named
`<F>_IndirectBrTargets` yet, so that the table is created. Then `run` appends the table
`DestBBs` to the globals, the table has as many elements as `BBTargets`, the blocks of `F`
are rewritten by `rewriteBlocks` against that table, and for every conditional branch
`br c, T, E` of the (edge-split) function both indices `BBNumbering[T]` and
`BBNumbering[E]`, the two constants of the emitted select, are below the number of
elements of the table. -/
theorem table_index_in_bounds (shuffle : Nat → List Nat → List Nat)
    (hperm : ∀ s l, (shuffle s l).Perm l) (split : Function → Function)
    (IPO : IPObfuscationContext) (M : Module) (F : Function)
    (hbody : (F.Blocks.isEmpty || F.Linkage == Linkage.LinkOnceAny
      || F.Linkage == Linkage.LinkOnceODR || F.Section == ".text.startup") = false)
    (hsome : (NumberBasicBlock shuffle IPO.RandomEngine ⟨[], []⟩
      (split F)).1.BBNumbering.isEmpty = false)
    (hfresh : M.Globals.find? (fun G => G.Name = (split F).Name ++ "_IndirectBrTargets")
      = none) :
    ∃ DestBBs V,
      (IndirectBranch.run shuffle split true false IPO M F).1.Globals = M.Globals ++ [DestBBs]
      ∧ DestBBs.Init
          = encryptTargets (IndirectBranch.run shuffle split true false IPO M F).2.2.1.BBTargets V
      ∧ DestBBs.Init.length
          = (IndirectBranch.run shuffle split true false IPO M F).2.2.1.BBTargets.length
      ∧ (IndirectBranch.run shuffle split true false IPO M F).1.Functions
          = M.Functions.map (fun G => if G.id = F.id then
              { split F with Blocks :=
                  (rewriteBlocks (IndirectBranch.run shuffle split true false IPO M F).2.2.1
                    (IPO.getIPOInfo F.id) V DestBBs (M.NextHandle + 1) (split F).Blocks).1 }
              else G)
      ∧ ∀ B ∈ (split F).Blocks, ∀ c T E, B.condSuccessors = some (c, T, E) →
          (IndirectBranch.run shuffle split true false IPO M F).2.2.1.number T
              < DestBBs.Init.length
            ∧ (IndirectBranch.run shuffle split true false IPO M F).2.2.1.number E
              < DestBBs.Init.length := by
  obtain ⟨hmem, -, -, -⟩ := numberBasicBlock_fields shuffle hperm IPO.RandomEngine (split F)
  have hnum := numberBasicBlock_number shuffle hperm IPO.RandomEngine (split F)
  unfold IndirectBranch.run
  simp only [Bool.not_true, Bool.false_eq_true, if_false, hbody, hsome]
  generalize (NumberBasicBlock shuffle IPO.RandomEngine ⟨[], []⟩ (split F)).2.get_uint32_t.1
    / 4 * 4 = V
  generalize (NumberBasicBlock shuffle IPO.RandomEngine ⟨[], []⟩ (split F)).1 = P
    at hmem hnum ⊢
  unfold getIndirectTargets
  simp only [hfresh]
  refine ⟨_, V, rfl, rfl, by simp [encryptTargets], rfl, ?_⟩
  intro B hB c T E hs
  have hl : (encryptTargets P.BBTargets V).length = P.BBTargets.length := by
    simp [encryptTargets]
  simp only [hl]
  exact ⟨(hnum T ((hmem T).mpr ⟨B, hB, c, T, E, hs, Or.inl rfl⟩)).1,
    (hnum E ((hmem E).mpr ⟨B, hB, c, T, E, hs, Or.inr rfl⟩)).1⟩

theorem table_index_in_bounds_witness :
    (sampleBranchy.Blocks.isEmpty || sampleBranchy.Linkage == Linkage.LinkOnceAny
        || sampleBranchy.Linkage == Linkage.LinkOnceODR
        || sampleBranchy.Section == ".text.startup") = false
      ∧ ∃ DestBBs, minKeyRun.1.Globals = sampleBranchyModule.Globals ++ [DestBBs]
          ∧ ∀ B ∈ sampleBranchy.Blocks, ∀ c T E, B.condSuccessors = some (c, T, E) →
              minKeyRun.2.2.1.number T < DestBBs.Init.length
                ∧ minKeyRun.2.2.1.number E < DestBBs.Init.length :=
  ⟨by decide,
    match table_index_in_bounds (fun _ l => l.reverse) (fun _ l => List.reverse_perm l) id
      minKeyContext sampleBranchyModule sampleBranchy (by decide) (by decide) (by decide) with
    | ⟨D, _, h1, _, _, _, h5⟩ => ⟨D, h1, h5⟩⟩

/-! ### The decrypt routine: its result -/

theorem storeBytes_above (Mem : Nat → Nat) (a v n x : Nat) (h : a + n ≤ x) :
    storeBytes Mem a v n x = Mem x := by
  induction n generalizing Mem a v with
  | zero => rfl
  | succ n ih =>
    rw [storeBytes, ih _ _ _ (by omega)]
    have : x ≠ a := by omega
    simp [this]

theorem storeBytes_one (Mem : Nat → Nat) (a v : Nat) :
    storeBytes Mem a v 1 = fun x => if x = a then v % 256 else Mem x := rfl

theorem loadBytes_one (Mem : Nat → Nat) (a : Nat) : loadBytes Mem a 1 = Mem a % 256 := by
  simp [loadBytes]

theorem xor_byte_lt (a b : Nat) : (a % 256 ^^^ b % 256) < 256 :=
  Nat.xor_lt_two_pow (n := 8) (Nat.mod_lt _ (by decide)) (Nat.mod_lt _ (by decide))

/-- A byte GEP with an index below `2 ^ 31` adds the index, as long as the address stays
inside the address space. -/
theorem ptrAdd_byte (T : Target) (base i : Nat) (hi : i < 2 ^ 31)
    (hfit : base + i < 2 ^ T.PtrBits) :
    T.ptrAdd base (T.gepOffset (Ty.Int 8) [signed 32 i]) = base + i := by
  have hs : signed 32 i = (i : Int) := by
    unfold signed
    have h1 : i % 2 ^ 32 = i := Nat.mod_eq_of_lt (by omega)
    rw [h1, if_pos (by norm_num; omega)]
  have hg : T.gepOffset (Ty.Int 8) [signed 32 i] = (i : Int) := by
    simp [Target.gepOffset, Target.descend, Target.sizeOf, hs]
  rw [hg]
  unfold Target.ptrAdd
  generalize 2 ^ T.PtrBits = W at hfit
  have h0 : (0 : Int) ≤ (base : Int) + (i : Int) := by omega
  have h1 : (base : Int) + (i : Int) < (W : Int) := by omega
  rw [Int.emod_eq_of_lt h0 h1]
  omega

/-- One more round of the loop extends the decrypted prefix of `out` by one byte. -/
theorem decryptedMem_step (Mem : Nat → Nat) (out data keySize i : Nat)
    (hdis : ∀ j, j < keySize + (i + 1) → ¬ (out ≤ data + j ∧ data + j < out + (i + 1)))
    (hk : 0 < keySize) :
    storeBytes (decryptedMem Mem out data keySize i) (out + i)
        ((decryptedMem Mem out data keySize i (data + keySize + i) % 256
          ^^^ decryptedMem Mem out data keySize i (data + i % keySize) % 256) % 256) 1
      = decryptedMem Mem out data keySize (i + 1) := by
  have hm : i % keySize < keySize := Nat.mod_lt _ hk
  have h1 : decryptedMem Mem out data keySize i (data + keySize + i) = Mem (data + keySize + i) := by
    unfold decryptedMem
    rw [if_neg]
    intro hc
    exact hdis (keySize + i) (by omega) ⟨by omega, by omega⟩
  have h2 : decryptedMem Mem out data keySize i (data + i % keySize) = Mem (data + i % keySize) := by
    unfold decryptedMem
    rw [if_neg]
    intro hc
    exact hdis (i % keySize) (by omega) ⟨by omega, by omega⟩
  rw [h1, h2, storeBytes_one]
  funext x
  unfold decryptedMem
  by_cases hx : x = out + i
  · subst hx
    have e : out + i - out = i := by omega
    rw [if_pos rfl, if_pos ⟨by omega, by omega⟩, e, Nat.mod_mod, Nat.xor_comm,
      Nat.mod_eq_of_lt (xor_byte_lt _ _)]
  · rw [if_neg hx]
    by_cases hr : out ≤ x ∧ x < out + i
    · rw [if_pos hr, if_pos ⟨hr.1, by omega⟩]
    · rw [if_neg hr, if_neg (by omega)]

theorem traceBlocks_goto (T : Target) (Blocks : List BasicBlock) (w fuel cur prev : Nat)
    (S S1 : State) (BB : BasicBlock) (next : Nat)
    (hfind : Blocks.find? (fun B => B.id = cur) = some BB)
    (hexec : T.execInsts prev BB.Insts S = some (S1, Step.Goto next)) :
    T.traceBlocks Blocks w (fuel + 1) cur prev S
      = (T.traceBlocks Blocks w fuel next cur S1).map (fun l => (cur, S1.Regs w) :: l) := by
  rw [Target.traceBlocks, hfind]
  simp only [hexec]

theorem traceBlocks_return (T : Target) (Blocks : List BasicBlock) (w fuel cur prev : Nat)
    (S S1 : State) (BB : BasicBlock)
    (hfind : Blocks.find? (fun B => B.id = cur) = some BB)
    (hexec : T.execInsts prev BB.Insts S = some (S1, Step.Return)) :
    T.traceBlocks Blocks w (fuel + 1) cur prev S = some [(cur, S1.Regs w)] := by
  rw [Target.traceBlocks, hfind]
  simp only [hexec]

/-- From `UpdateDecStatus` the routine stores 1 to `DecStatus`, goes to `Exit` and
returns. -/
theorem decrypt_update_mem (T : Target) (h : Nat) (Entry : CSPEntry) (fuel prev w : Nat)
    (S : State) :
    T.runBlocks (buildDecryptFunction h Entry).Blocks (fuel + 2) (h + 3) prev S
        = some ⟨S.Regs, S.Args,
            storeBytes S.Mem (T.GlobalAddr Entry.DecStatus % 2 ^ T.PtrBits) (1 % 2 ^ 32) 4⟩
      ∧ T.traceBlocks (buildDecryptFunction h Entry).Blocks w (fuel + 2) (h + 3) prev S
        = some [(h + 3, S.Regs w), (h + 4, S.Regs w)] := by
  obtain ⟨-, h3, h4⟩ := decrypt_find h Entry
  constructor
  · rw [runBlocks_goto T _ (fuel + 1) (h + 3) prev S _ _ (h + 4) h3 rfl,
      runBlocks_return T _ fuel (h + 4) (h + 3) _ _ _ h4 rfl]
    rfl
  · rw [traceBlocks_goto T _ w (fuel + 1) (h + 3) prev S _ _ (h + 4) h3 rfl,
      traceBlocks_return T _ w fuel (h + 4) (h + 3) _ _ _ h4 rfl]
    rfl

/-- The loop of the decrypt routine, entered with counter `i`, the first `i` bytes of `out`
decrypted and `n + 1` rounds to go: it runs the body `n + 1` times with the counter values
`i, i + 1, ...`, leaves through `UpdateDecStatus`, and the memory at the return is the memory
with all of `out` decrypted and `DecStatus` set. -/
theorem decrypt_loop_mem (T : Target) (h : Nat) (Entry : CSPEntry) (out data : Nat)
    (Mem : Nat → Nat)
    (hlen : Entry.Data.length < 2 ^ 31)
    (hkey1 : 1 ≤ Entry.EncKey.length) (hkey2 : Entry.EncKey.length < 2 ^ 31)
    (hout : out + Entry.Data.length ≤ 2 ^ T.PtrBits)
    (hdata : data + Entry.EncKey.length + Entry.Data.length ≤ 2 ^ T.PtrBits)
    (hdis : ∀ j, j < Entry.EncKey.length + Entry.Data.length →
      ¬ (out ≤ data + j ∧ data + j < out + Entry.Data.length))
    (n i prev : Nat) (S : State)
    (hargs : S.Args = [out, data]) (hptr : S.Regs (h + 5) = data + Entry.EncKey.length)
    (hmem : S.Mem = decryptedMem Mem out data Entry.EncKey.length i)
    (hphi : (prev = h + 1 ∧ i = 0) ∨ (prev = h + 2 ∧ S.Regs (h + 18) = i))
    (hin : i + (n + 1) = Entry.Data.length) :
    ∃ S1, T.runBlocks (buildDecryptFunction h Entry).Blocks (n + 3) (h + 2) prev S = some S1
      ∧ S1.Mem = storeBytes
          (decryptedMem Mem out data Entry.EncKey.length Entry.Data.length)
          (T.GlobalAddr Entry.DecStatus % 2 ^ T.PtrBits) (1 % 2 ^ 32) 4
      ∧ T.traceBlocks (buildDecryptFunction h Entry).Blocks (h + 9) (n + 3) (h + 2) prev S
        = some ((List.range (n + 1)).map (fun k => (h + 2, i + k))
            ++ [(h + 3, Entry.Data.length - 1), (h + 4, Entry.Data.length - 1)]) := by
  obtain ⟨⟨BB, hBB⟩, -, -⟩ := decrypt_find h Entry
  have hun : toUnsigned Entry.Data.length = Entry.Data.length := by
    simp only [toUnsigned, W32]
    omega
  have hkey : Entry.EncKey.length % 2 ^ 32 ≠ 0 := by
    rw [Nat.mod_eq_of_lt (by omega)]
    omega
  have hkm : Entry.EncKey.length % 2 ^ 32 = Entry.EncKey.length := Nat.mod_eq_of_lt (by omega)
  -- the memory after one round
  have hround : ∀ (i : Nat) (S S1 : State), i + 1 ≤ Entry.Data.length →
      S.Args = [out, data] → S.Regs (h + 5) = data + Entry.EncKey.length →
      S.Mem = decryptedMem Mem out data Entry.EncKey.length i →
      S1.Mem = storeBytes S.Mem
          (T.ptrAdd (S.Args.getD 0 0) (T.gepOffset (Ty.Int 8) [signed 32 i]))
          ((loadBytes S.Mem
                (T.ptrAdd (S.Regs (h + 5)) (T.gepOffset (Ty.Int 8) [signed 32 i])) 1 % 256
              ^^^ loadBytes S.Mem
                (T.ptrAdd (S.Args.getD 1 0)
                  (T.gepOffset (Ty.Int 8) [signed 32 (i % (Entry.EncKey.length % 2 ^ 32))])) 1
                % 256) % 256) 1 →
      S1.Mem = decryptedMem Mem out data Entry.EncKey.length (i + 1) := by
    intro i S S1 hi ha hp hm hs
    have hmod : i % Entry.EncKey.length < Entry.EncKey.length := Nat.mod_lt _ (by omega)
    rw [ha, hp, hm, hkm] at hs
    simp only [List.getD_cons_zero, List.getD_cons_succ] at hs
    rw [ptrAdd_byte T out i (by omega) (by omega),
      ptrAdd_byte T (data + Entry.EncKey.length) i (by omega) (by omega),
      ptrAdd_byte T data (i % Entry.EncKey.length) (by omega) (by omega),
      loadBytes_one, loadBytes_one, Nat.mod_mod, Nat.mod_mod] at hs
    rw [hs]
    exact decryptedMem_step Mem out data Entry.EncKey.length i
      (fun j hj => by
        have := hdis j (by omega)
        omega) (by omega)
  induction n generalizing i prev S with
  | zero =>
    obtain ⟨S1, h1, -, -, -, hm1, hc1⟩ :=
      loopBody_exec T h Entry prev i S BB hBB hphi (by omega) hkey
    rw [hun, if_pos (by omega)] at h1
    have hS1 := hround i S S1 (by omega) hargs hptr hmem hm1
    have hfull : i + 1 = Entry.Data.length := by omega
    rw [hfull] at hS1
    obtain ⟨h2, h3⟩ := decrypt_update_mem T h Entry 0 (h + 2) (h + 9) S1
    refine ⟨⟨S1.Regs, S1.Args,
      storeBytes S1.Mem (T.GlobalAddr Entry.DecStatus % 2 ^ T.PtrBits) (1 % 2 ^ 32) 4⟩,
      ?_, ?_, ?_⟩
    · rw [runBlocks_goto T _ 2 (h + 2) prev S S1 BB (h + 3) hBB h1]
      exact h2
    · simp only [hS1]
    · rw [traceBlocks_goto T _ (h + 9) 2 (h + 2) prev S S1 BB (h + 3) hBB h1, h3, hc1]
      have : Entry.Data.length - 1 = i := by omega
      simp [this, List.range_succ]
  | succ n ih =>
    obtain ⟨S1, h1, hr, ha1, hp1, hm1, hc1⟩ :=
      loopBody_exec T h Entry prev i S BB hBB hphi (by omega) hkey
    rw [hun, if_neg (by omega)] at h1
    have hS1 := hround i S S1 (by omega) hargs hptr hmem hm1
    obtain ⟨S2, h2, h3, h4⟩ := ih (i + 1) (h + 2) S1 (by rw [ha1, hargs]) (by rw [hp1, hptr])
      hS1 (Or.inr ⟨rfl, hr⟩) (by omega)
    refine ⟨S2, ?_, h3, ?_⟩
    · rw [runBlocks_goto T _ (n + 3) (h + 2) prev S S1 BB (h + 2) hBB h1]
      exact h2
    · rw [traceBlocks_goto T _ (h + 9) (n + 3) (h + 2) prev S S1 BB (h + 2) hBB h1, h4, hc1]
      simp only [Option.map_some', Option.some.injEq]
      rw [List.range_succ_eq_map (n + 1), List.map_cons, List.map_map, List.cons_append]
      congr 2
      apply List.map_congr_left
      intro k _
      simp only [Function.comp]
      congr 1
      omega

theorem xor_mod_byte (a b : Nat) : (a ^^^ b) % 256 = a % 256 ^^^ b % 256 := by
  apply Nat.eq_of_testBit_eq
  intro i
  have e : (256 : Nat) = 2 ^ 8 := rfl
  rw [e]
  simp only [Nat.testBit_mod_two_pow, Nat.testBit_xor]
  by_cases h : i < 8 <;> simp [h]

/-- The decrypt routine on `(out, data)`, entered with `DecStatus` not 1: the memory at the
return and the blocks executed. -/
theorem decryptFunction_result (T : Target) (h : Nat) (Entry : CSPEntry) (out data : Nat)
    (Mem : Nat → Nat)
    (hpos : 1 ≤ Entry.Data.length) (hlen : Entry.Data.length < 2 ^ 31)
    (hkey1 : 1 ≤ Entry.EncKey.length) (hkey2 : Entry.EncKey.length < 2 ^ 31)
    (hout : out + Entry.Data.length ≤ 2 ^ T.PtrBits)
    (hdata : data + Entry.EncKey.length + Entry.Data.length ≤ 2 ^ T.PtrBits)
    (hdis : ∀ j, j < Entry.EncKey.length + Entry.Data.length →
      ¬ (out ≤ data + j ∧ data + j < out + Entry.Data.length))
    (hst : loadBytes Mem (T.GlobalAddr Entry.DecStatus % 2 ^ T.PtrBits) 4 ≠ 1) :
    T.call (buildDecryptFunction h Entry) (Entry.Data.length + 3) [out, data] Mem
        = some (storeBytes (decryptedMem Mem out data Entry.EncKey.length Entry.Data.length)
            (T.GlobalAddr Entry.DecStatus % 2 ^ T.PtrBits) (1 % 2 ^ 32) 4)
      ∧ T.callTrace (buildDecryptFunction h Entry) (h + 9) (Entry.Data.length + 3) [out, data] Mem
        = some ((h + 1, 0) :: ((List.range Entry.Data.length).map (fun k => (h + 2, k))
            ++ [(h + 3, Entry.Data.length - 1), (h + 4, Entry.Data.length - 1)])) := by
  have hkm : Entry.EncKey.length % 2 ^ 32 = Entry.EncKey.length := Nat.mod_eq_of_lt (by omega)
  obtain ⟨S1, h1, hm1, ha1, hr1⟩ := enter_exec T (h + 1) (h + 6) (h + 7) (h + 8) Entry.DecStatus
    (h + 4) (h + 2)
    [{ id := h + 5, Name := "", DebugLoc := 0,
       I := Inst.GEP true (Ty.Int 8) (Value.Argument 1)
        [Value.ConstantInt 32 Entry.EncKey.length] }]
    { Regs := fun _ => 0, Args := [out, data], Mem := Mem }
    (State.setReg { Regs := fun _ => 0, Args := [out, data], Mem := Mem } (h + 5)
      (T.ptrAdd data (T.gepOffset (Ty.Int 8) [signed 32 (Entry.EncKey.length % 2 ^ 32)])))
    (by omega) rfl (by simp [Inst.isTerminator])
  simp only [State.setReg, hst, if_false] at h1 hm1 ha1 hr1
  have hp1 : S1.Regs (h + 5) = data + Entry.EncKey.length := by
    rw [hr1 (h + 5) (by omega) (by omega), if_pos rfl, hkm,
      ptrAdd_byte T data Entry.EncKey.length hkey2 (by omega)]
  have hc1 : S1.Regs (h + 9) = 0 := by
    rw [hr1 (h + 9) (by omega) (by omega), if_neg (by omega)]
  obtain ⟨S2, h2, h3, h4⟩ := decrypt_loop_mem T h Entry out data Mem hlen hkey1 hkey2 hout hdata
    hdis (Entry.Data.length - 1) 0 (h + 1) S1 ha1 hp1
    (by
      rw [hm1]
      funext a
      unfold decryptedMem
      rw [if_neg (by omega)])
    (Or.inl ⟨rfl, rfl⟩) (by omega)
  have he : Entry.Data.length - 1 + 3 = Entry.Data.length + 2 := by omega
  have he1 : Entry.Data.length - 1 + 1 = Entry.Data.length := by omega
  rw [he] at h2 h4
  rw [he1] at h4
  have hg := runBlocks_goto T (buildDecryptFunction h Entry).Blocks (Entry.Data.length + 2)
    (h + 1) (h + 1) { Regs := fun _ => 0, Args := [out, data], Mem := Mem } S1
    { id := h + 1, Name := "Enter", Insts := _ } (h + 2)
    (by simp [buildDecryptFunction]) h1
  have hgt := traceBlocks_goto T (buildDecryptFunction h Entry).Blocks (h + 9)
    (Entry.Data.length + 2)
    (h + 1) (h + 1) { Regs := fun _ => 0, Args := [out, data], Mem := Mem } S1
    { id := h + 1, Name := "Enter", Insts := _ } (h + 2)
    (by simp [buildDecryptFunction]) h1
  constructor
  · simp only [Target.call, buildDecryptFunction] at *
    rw [hg, h2]
    simp only [Option.map_some', h3]
  · simp only [Target.callTrace, buildDecryptFunction] at *
    rw [hgt, h4, hc1]
    simp

/-- When `data` points at the entry's key inside the emitted pool, the decrypted bytes are
the plaintext bytes. -/
theorem decryptedMem_plain (R : CryptoUtils) (Pool : List CSPEntry) (k : Nat)
    (plain Entry : CSPEntry) (Mem : Nat → Nat) (data tbl : Nat)
    (hk : Pool[k]? = some plain) (hE : (runPool R Pool).Entries[k]? = some Entry)
    (hfit : (runPool R Pool).Data.length < W32)
    (hbytes : ∀ x ∈ plain.Data, x < 256)
    (hdata : data = tbl + Entry.Offset)
    (hmem : ∀ j, j < (runPool R Pool).Data.length →
      Mem (tbl + j) = (runPool R Pool).Data.getD j 0)
    (i : Nat) (hi : i < Entry.Data.length) :
    Mem (data + i % Entry.EncKey.length) % 256
        ^^^ Mem (data + Entry.EncKey.length + i) % 256 = plain.Data.getD i 0 := by
  obtain ⟨e1, he1, hk16, hd, -⟩ := runPool_entry R Pool k plain hk
  have hee : e1 = Entry := by
    rw [hE] at he1
    exact (Option.some.inj he1).symm
  subst hee
  obtain ⟨-, pre, post, hs, hp⟩ := runPool_offset R Pool hfit k e1 hE
  have hN : e1.Data.length = plain.Data.length := by rw [hd, encryptData_length]
  have hm : i % e1.EncKey.length < e1.EncKey.length := Nat.mod_lt _ (by omega)
  have hlenp : (runPool R Pool).Data.length
      = pre.length + (e1.EncKey.length + (e1.Data.length + post.length)) := by
    rw [hs]
    simp only [List.length_append]
  have hread : ∀ j, j < e1.EncKey.length + e1.Data.length →
      Mem (data + j) = (e1.EncKey ++ (e1.Data ++ post)).getD j 0 := by
    intro j hj
    have e : data + j = tbl + (pre.length + j) := by omega
    rw [e, hmem _ (by omega), hs, List.getD_append_right _ _ _ _ (by omega)]
    congr 1
    omega
  have h1 : Mem (data + i % e1.EncKey.length) = e1.EncKey.getD (i % e1.EncKey.length) 0 := by
    rw [hread _ (by omega), List.getD_append _ _ _ _ hm]
  have h2 : Mem (data + e1.EncKey.length + i)
      = plain.Data.getD i 0 ^^^ e1.EncKey.getD (i % e1.EncKey.length) 0 := by
    have e : data + e1.EncKey.length + i = data + (e1.EncKey.length + i) := by omega
    rw [e, hread _ (by omega), List.getD_append_right _ _ _ _ (by omega),
      List.getD_append _ _ _ _ (by omega)]
    have e2 : e1.EncKey.length + i - e1.EncKey.length = i := by omega
    rw [e2, hd, encryptData_getD _ _ i (by omega)]
  have hb : plain.Data.getD i 0 < 256 := by
    rw [List.getD_eq_getElem _ _ (by omega)]
    exact hbytes _ (List.getElem_mem _)
  rw [h1, h2, xor_mod_byte, Nat.xor_comm (plain.Data.getD i 0 % 256), Nat.xor_cancel_left,
    Nat.mod_eq_of_lt hb]

/-- C14 (decrypt routine result). For an entry with `keySize = |EncKey|` and
`dataLen = |Data|`, both at least 1 and below `2 ^ 31`, the generated decrypt routine called
on `(out, data)` from a memory in which `DecStatus` is not 1 returns (the two buffers lie
inside the address space, `out` overlaps neither the `keySize + dataLen` bytes at `data` nor
the four bytes of `DecStatus`); at the return `out[i] = data[i mod keySize] XOR
data[keySize + i]` for every `i < dataLen`, every byte outside `out[0 .. dataLen)` and
outside `DecStatus` is as before, and `DecStatus` is 1. When moreover `data` is the address
of the emitted pool plus the entry's `Offset`, `out` holds the original plaintext bytes. -/
theorem decrypt_routine_result (T : Target) (h : Nat) (Entry : CSPEntry) (out data : Nat)
    (Mem : Nat → Nat)
    (hpos : 1 ≤ Entry.Data.length) (hlen : Entry.Data.length < 2 ^ 31)
    (hkey1 : 1 ≤ Entry.EncKey.length) (hkey2 : Entry.EncKey.length < 2 ^ 31)
    (hout : out + Entry.Data.length ≤ 2 ^ T.PtrBits)
    (hdata : data + Entry.EncKey.length + Entry.Data.length ≤ 2 ^ T.PtrBits)
    (hdis : ∀ j, j < Entry.EncKey.length + Entry.Data.length →
      ¬ (out ≤ data + j ∧ data + j < out + Entry.Data.length))
    (hds : T.GlobalAddr Entry.DecStatus % 2 ^ T.PtrBits + 4 ≤ out
      ∨ out + Entry.Data.length ≤ T.GlobalAddr Entry.DecStatus % 2 ^ T.PtrBits)
    (hst : loadBytes Mem (T.GlobalAddr Entry.DecStatus % 2 ^ T.PtrBits) 4 ≠ 1) :
    ∃ M1, T.call (buildDecryptFunction h Entry) (Entry.Data.length + 3) [out, data] Mem = some M1
      ∧ (∀ i, i < Entry.Data.length →
          M1 (out + i) = Mem (data + i % Entry.EncKey.length) % 256
            ^^^ Mem (data + Entry.EncKey.length + i) % 256)
      ∧ (∀ a, ¬ (out ≤ a ∧ a < out + Entry.Data.length) →
          ¬ (T.GlobalAddr Entry.DecStatus % 2 ^ T.PtrBits ≤ a
              ∧ a < T.GlobalAddr Entry.DecStatus % 2 ^ T.PtrBits + 4) → M1 a = Mem a)
      ∧ loadBytes M1 (T.GlobalAddr Entry.DecStatus % 2 ^ T.PtrBits) 4 = 1
      ∧ (∀ (R : CryptoUtils) (Pool : List CSPEntry) (k : Nat) (plain : CSPEntry) (tbl : Nat),
          Pool[k]? = some plain → (runPool R Pool).Entries[k]? = some Entry →
          (runPool R Pool).Data.length < W32 → (∀ x ∈ plain.Data, x < 256) →
          data = tbl + Entry.Offset →
          (∀ j, j < (runPool R Pool).Data.length →
            Mem (tbl + j) = (runPool R Pool).Data.getD j 0) →
          ∀ i, i < Entry.Data.length → M1 (out + i) = plain.Data.getD i 0) := by
  obtain ⟨hcall, -⟩ := decryptFunction_result T h Entry out data Mem hpos hlen hkey1 hkey2 hout
    hdata hdis hst
  have hbyte : ∀ i, i < Entry.Data.length →
      storeBytes (decryptedMem Mem out data Entry.EncKey.length Entry.Data.length)
          (T.GlobalAddr Entry.DecStatus % 2 ^ T.PtrBits) (1 % 2 ^ 32) 4 (out + i)
        = Mem (data + i % Entry.EncKey.length) % 256
            ^^^ Mem (data + Entry.EncKey.length + i) % 256 := by
    intro i hi
    have hx : storeBytes (decryptedMem Mem out data Entry.EncKey.length Entry.Data.length)
          (T.GlobalAddr Entry.DecStatus % 2 ^ T.PtrBits) (1 % 2 ^ 32) 4 (out + i)
        = decryptedMem Mem out data Entry.EncKey.length Entry.Data.length (out + i) := by
      rcases hds with hd | hd
      · exact storeBytes_above _ _ _ _ _ (by omega)
      · exact storeBytes_below _ _ _ _ _ (by omega)
    rw [hx]
    unfold decryptedMem
    have e : out + i - out = i := by omega
    rw [if_pos ⟨by omega, by omega⟩, e]
  refine ⟨_, hcall, hbyte, ?_, ?_, ?_⟩
  · intro a ha hb
    have hx : storeBytes (decryptedMem Mem out data Entry.EncKey.length Entry.Data.length)
          (T.GlobalAddr Entry.DecStatus % 2 ^ T.PtrBits) (1 % 2 ^ 32) 4 a
        = decryptedMem Mem out data Entry.EncKey.length Entry.Data.length a := by
      by_cases hlt : a < T.GlobalAddr Entry.DecStatus % 2 ^ T.PtrBits
      · exact storeBytes_below _ _ _ _ _ hlt
      · exact storeBytes_above _ _ _ _ _ (by omega)
    rw [hx]
    unfold decryptedMem
    rw [if_neg ha]
  · rw [loadBytes_storeBytes_four]
    rfl
  · intro R Pool k plain tbl hk hE hfit hbytes hd hmem i hi
    rw [hbyte i hi]
    exact decryptedMem_plain R Pool k plain Entry Mem data tbl hk hE hfit hbytes hd hmem i hi

theorem decrypt_routine_result_witness :
    (1 ≤ sampleEntry.Data.length ∧ sampleEntry.Data.length < 2 ^ 31
      ∧ 1 ≤ sampleEntry.EncKey.length ∧ sampleEntry.EncKey.length < 2 ^ 31)
    ∧ (∀ j, j < sampleEntry.EncKey.length + sampleEntry.Data.length →
        ¬ (40000 ≤ 50000 + j ∧ 50000 + j < 40000 + sampleEntry.Data.length))
    ∧ loadBytes (poolMem [7, 9, 6, 11, 7] 50000)
        (sampleTarget.GlobalAddr sampleEntry.DecStatus % 2 ^ sampleTarget.PtrBits) 4 ≠ 1
    ∧ ∃ M1, sampleTarget.call (buildDecryptFunction 2000 sampleEntry)
          (sampleEntry.Data.length + 3) [40000, 50000] (poolMem [7, 9, 6, 11, 7] 50000) = some M1
        ∧ (∀ i, i < sampleEntry.Data.length →
            M1 (40000 + i)
              = poolMem [7, 9, 6, 11, 7] 50000 (50000 + i % sampleEntry.EncKey.length) % 256
                ^^^ poolMem [7, 9, 6, 11, 7] 50000 (50000 + sampleEntry.EncKey.length + i) % 256)
        ∧ loadBytes M1
            (sampleTarget.GlobalAddr sampleEntry.DecStatus % 2 ^ sampleTarget.PtrBits) 4 = 1 :=
  ⟨by decide, by decide, by decide,
    match decrypt_routine_result sampleTarget 2000 sampleEntry 40000 50000
      (poolMem [7, 9, 6, 11, 7] 50000) (by decide) (by decide) (by decide) (by decide)
      (by decide) (by decide) (by decide) (by decide) (by decide) with
    | ⟨M1, h1, h2, _, h4, _⟩ => ⟨M1, h1, h2, h4⟩⟩

/-! ### String encryption: what `run` reports -/

/-- C12 (preserved analyses), evaluated on scenario S1, a module with two functions and no
global at all: `run` appends the global `EncryptedStringTable` (an empty table) to the
module, leaves the functions as they were, and reports that all analyses are preserved. -/
theorem run_reports_all_after_adding_table :
    ∃ r, StringEncryption.run (fun _ => true) none (fun h F => (F, h)) 16 sampleContext
          sampleS1 = some r
      ∧ r.2.2.2 = PreservedAnalyses.all
      ∧ sampleS1.Globals = []
      ∧ r.1.Globals = [encryptedStringTable 1000 []]
      ∧ r.1.Functions = sampleS1.Functions :=
  ⟨_, rfl, rfl, rfl, rfl, rfl⟩

/-! ### String encryption: PHI nodes -/

/-- C13 (PHI insertion), evaluated on a PHI node that receives the string `s` from both
predecessors `left` (101) and `right` (102): both incoming values are rewritten to `DecGV`
(31), but the only call to the decrypt routine (33) stands in `left`; `right` keeps its
lone branch. -/
theorem phi_same_string_one_call :
    (processConstantStringUse (fun _ => true) none (fun h F => (F, h)) 16 samplePass 1000
        samplePhiTwice).map
      (fun r => r.1.Blocks.map (fun BB => (BB.id, BB.Insts.map Instruction.I)))
    = some
      [ (100, [Inst.CondBr (Value.Argument 0) 101 102]),
        (101, [Inst.Call
                { Callee := Value.Func 33,
                  Args := [Value.ConstBitCast (Value.Global 31),
                           Value.ConstGEP (Ty.Array 21 (Ty.Int 8)) (Value.Global 60) [0, 16]],
                  Attrs := ⟨[], [], []⟩, CallingConv := 0 } false,
               Inst.Br 103]),
        (102, [Inst.Br 103]),
        (103, [Inst.PHI [(Value.Global 31, 101), (Value.Global 31, 102)],
               Inst.Other 0 [Value.Inst 113], Inst.Ret]) ] := by
  rfl

/-- C18 (per-block decrypted set), evaluated on a block whose PHI node receives the string
`s` from `left` (101) and which then loads from `s`: the load is rewritten to `DecGV` (31)
although its block `join` (103) holds no call to the decrypt routine (33); the only call
stands in `left`, which the path through `right` does not execute. -/
theorem use_after_phi_without_call :
    (processConstantStringUse (fun _ => true) none (fun h F => (F, h)) 16 samplePass 1000
        samplePhiThenUse).map
      (fun r => r.1.Blocks.map (fun BB => (BB.id, BB.Insts.map Instruction.I)))
    = some
      [ (100, [Inst.CondBr (Value.Argument 0) 101 102]),
        (101, [Inst.Call
                { Callee := Value.Func 33,
                  Args := [Value.ConstBitCast (Value.Global 31),
                           Value.ConstGEP (Ty.Array 21 (Ty.Int 8)) (Value.Global 60) [0, 16]],
                  Attrs := ⟨[], [], []⟩, CallingConv := 0 } false,
               Inst.Br 103]),
        (102, [Inst.Br 103]),
        (103, [Inst.PHI [(Value.Global 31, 101), (Value.Argument 1, 102)],
               Inst.Other 0 [Value.Inst 113],
               Inst.Load (Ty.Int 8) (Value.Global 31), Inst.Ret]) ] := by
  rfl

/-! ### The decrypt loop ends -/

/-- An accepted C string has at least one raw byte. -/
theorem rawDataValues_pos (CDS : ConstantDataSequential) (h : isCString CDS = true) :
    1 ≤ (rawDataValues CDS).length := by
  obtain ⟨arr, ty, elts⟩ := CDS
  cases elts with
  | nil => simp [isCString, isCStringLoop, toUnsigned] at h
  | cons x xs =>
    have hty : ty = Ty.Int 8 ∨ ty = Ty.Int 16 ∨ ty = Ty.Int 32 := by
      by_contra hn
      push_neg at hn
      simp [isCString, Ty.isIntegerTy, hn.1, hn.2.1, hn.2.2] at h
    rcases hty with e | e | e <;> subst e <;>
      simp [rawDataValues, List.flatMap_cons, List.range_succ]

/-- Every entry that the collecting loop records has at least one byte of data and no key
yet. -/
theorem collectStrings_pool (l : List GlobalVariable) (c : Collected)
    (h : ∀ e ∈ c.ConstantStringPool, 1 ≤ e.Data.length ∧ e.EncKey = []) :
    ∀ e ∈ (collectStrings l c).ConstantStringPool, 1 ≤ e.Data.length ∧ e.EncKey = [] := by
  induction l generalizing c with
  | nil => simpa [collectStrings] using h
  | cons GV rest ih =>
    unfold collectStrings
    split
    · exact ih c h
    · split
      · exact ih c h
      · rename_i CDS hCDS
        split
        · rename_i hstr
          apply ih
          intro e he
          simp only [List.mem_append, List.mem_singleton] at he
          rcases he with he | he
          · exact h e he
          · subst he
            exact ⟨rawDataValues_pos CDS hstr, rfl⟩
        · exact ih c h

/-- The encryption loop keeps the data lengths and gives each entry a key of 16 to 31
bytes. -/
theorem encryptPool_good (R : CryptoUtils) (es : List CSPEntry)
    (h : ∀ e ∈ es, 1 ≤ e.Data.length ∧ e.EncKey = []) :
    ∀ e ∈ (encryptPool R es).1,
      1 ≤ e.Data.length ∧ 16 ≤ e.EncKey.length ∧ e.EncKey.length < 32 := by
  induction es generalizing R with
  | nil => simp [encryptPool]
  | cons a es ih =>
    intro e he
    simp only [encryptPool, List.mem_cons] at he
    rcases he with he | he
    · subst he
      have ha := h a (List.mem_cons_self _ _)
      have hm : (R.get_uint32_t).1 % 16 < 16 := Nat.mod_lt _ (by decide)
      simp only [encryptData_length, getRandomBytes_16_32_length, ha.2, List.length_nil]
      omega
    · exact ih _ (fun x hx => h x (List.mem_cons_of_mem _ hx)) e he

theorem buildDecryptFunctions_mem (es : List CSPEntry) (h : Nat) :
    ∀ e ∈ (buildDecryptFunctions es h).1, ∃ e0 ∈ es, e.Data = e0.Data ∧ e.EncKey = e0.EncKey := by
  induction es generalizing h with
  | nil => simp [buildDecryptFunctions]
  | cons a es ih =>
    intro e he
    simp only [buildDecryptFunctions, List.mem_cons] at he
    rcases he with he | he
    · subst he
      exact ⟨a, List.mem_cons_self _ _, rfl, rfl⟩
    · obtain ⟨e0, h0, h1⟩ := ih _ e he
      exact ⟨e0, List.mem_cons_of_mem _ h0, h1⟩

theorem emitPool_mem (R : CryptoUtils) (D : List Nat) (es : List CSPEntry) :
    ∀ e ∈ (emitPool R D es).Entries, ∃ e0 ∈ es, e.Data = e0.Data ∧ e.EncKey = e0.EncKey := by
  induction es generalizing R D with
  | nil => simp [emitPool]
  | cons a es ih =>
    intro e he
    simp only [emitPool, List.mem_cons] at he
    rcases he with he | he
    · subst he
      exact ⟨a, List.mem_cons_self _ _, rfl, rfl⟩
    · obtain ⟨e0, h0, h1⟩ := ih _ _ e he
      exact ⟨e0, List.mem_cons_of_mem _ h0, h1⟩

/-- `processConstantStringUse` leaves the pool alone. -/
theorem processConstantStringUse_pool (toObfuscate : Function → Bool)
    (Options : Option (String → Bool)) (LowerConstantExpr : Nat → Function → Function × Nat)
    (fuel : Nat) (P : StringEncryption) (h : Nat) (F : Function)
    (r : Function × StringEncryption × Nat × Bool)
    (hr : processConstantStringUse toObfuscate Options LowerConstantExpr fuel P h F = some r) :
    r.2.1.ConstantStringPool = P.ConstantStringPool := by
  unfold processConstantStringUse at hr
  split at hr
  · cases hr
    rfl
  · split at hr
    · cases hr
      rfl
    · simp only at hr
      split at hr
      · cases hr
      · cases hr
        rfl

theorem processFunctions_pool (toObfuscate : Function → Bool)
    (Options : Option (String → Bool)) (LowerConstantExpr : Nat → Function → Function × Nat)
    (fuel : Nat) (l : List Nat) (M : Module) (P : StringEncryption) (c : Bool)
    (r : Module × StringEncryption × Bool)
    (hr : processFunctions toObfuscate Options LowerConstantExpr fuel l M P c = some r) :
    r.2.1.ConstantStringPool = P.ConstantStringPool := by
  induction l generalizing M P c with
  | nil =>
    simp only [processFunctions, Option.some.injEq] at hr
    subst hr
    rfl
  | cons f rest ih =>
    unfold processFunctions at hr
    split at hr
    · cases hr
    · split at hr
      · cases hr
      · rename_i F1 P1 h1 c1 hp
        rw [ih _ _ _ hr]
        exact processConstantStringUse_pool _ _ _ _ _ _ _ _ hp

/-- Every entry in the pool after `run` has at least one byte of data and a key of 16 to
31 bytes. -/
theorem run_pool (toObfuscate : Function → Bool) (Options : Option (String → Bool))
    (LowerConstantExpr : Nat → Function → Function × Nat) (fuel : Nat)
    (IPO : IPObfuscationContext) (M : Module)
    (r : Module × CryptoUtils × StringEncryption × PreservedAnalyses)
    (hr : StringEncryption.run toObfuscate Options LowerConstantExpr fuel IPO M = some r) :
    ∀ e ∈ r.2.2.1.ConstantStringPool,
      1 ≤ e.Data.length ∧ 16 ≤ e.EncKey.length ∧ e.EncKey.length < 32 := by
  unfold StringEncryption.run at hr
  simp only at hr
  split at hr
  · cases hr
  · rename_i M3 P3 C3 h3
    split at hr
    · cases hr
    · rename_i M4 P4 C4 h4
      simp only [Option.some.injEq] at hr
      subst hr
      have e4 := processFunctions_pool _ _ _ _ _ _ _ _ _ h4
      have e3 := processFunctions_pool _ _ _ _ _ _ _ _ _ h3
      simp only at e3 e4
      intro e he
      simp only at he
      rw [e4, e3] at he
      obtain ⟨e1, h1, hd1, hk1⟩ := emitPool_mem _ _ _ e he
      obtain ⟨e2, h2, hd2, hk2⟩ := buildDecryptFunctions_mem _ _ e1 h1
      have hg := encryptPool_good _ _
        (collectStrings_pool M.Globals
          { M := M, ConstantStringPool := [], CSPEntryMap := [], ConstantStringUsers := [] }
          (by simp)) e2 h2
      rw [hd1, hd2, hk1, hk2]
      exact hg

/-- The loop of the decrypt routine, entered with counter `i` and `n + 1` rounds to go:
it runs the body `n + 1` times with the counter values `i, i + 1, ...` and leaves through
`UpdateDecStatus` and `Exit`. -/
theorem decrypt_loop_trace (T : Target) (h : Nat) (Entry : CSPEntry)
    (hlen : Entry.Data.length < 2 ^ 31) (hkey : Entry.EncKey.length % 2 ^ 32 ≠ 0)
    (n i prev : Nat) (S : State)
    (hphi : (prev = h + 1 ∧ i = 0) ∨ (prev = h + 2 ∧ S.Regs (h + 18) = i))
    (hin : i + (n + 1) = Entry.Data.length) :
    T.traceBlocks (buildDecryptFunction h Entry).Blocks (h + 9) (n + 3) (h + 2) prev S
      = some ((List.range (n + 1)).map (fun k => (h + 2, i + k))
          ++ [(h + 3, Entry.Data.length - 1), (h + 4, Entry.Data.length - 1)]) := by
  obtain ⟨⟨BB, hBB⟩, -, -⟩ := decrypt_find h Entry
  have hun : toUnsigned Entry.Data.length = Entry.Data.length := by
    simp only [toUnsigned, W32]
    omega
  induction n generalizing i prev S with
  | zero =>
    obtain ⟨S1, h1, -, -, -, -, hc1⟩ :=
      loopBody_exec T h Entry prev i S BB hBB hphi (by omega) hkey
    rw [hun, if_pos (by omega)] at h1
    obtain ⟨-, h3⟩ := decrypt_update_mem T h Entry 0 (h + 2) (h + 9) S1
    rw [traceBlocks_goto T _ (h + 9) 2 (h + 2) prev S S1 BB (h + 3) hBB h1, h3, hc1]
    have : Entry.Data.length - 1 = i := by omega
    simp [this, List.range_succ]
  | succ n ih =>
    obtain ⟨S1, h1, hr, -, -, -, hc1⟩ :=
      loopBody_exec T h Entry prev i S BB hBB hphi (by omega) hkey
    rw [hun, if_neg (by omega)] at h1
    have h4 := ih (i + 1) (h + 2) S1 (Or.inr ⟨rfl, hr⟩) (by omega)
    rw [traceBlocks_goto T _ (h + 9) (n + 3) (h + 2) prev S S1 BB (h + 2) hBB h1, h4, hc1]
    simp only [Option.map_some', Option.some.injEq]
    rw [List.range_succ_eq_map (n + 1), List.map_cons, List.map_map, List.cons_append]
    congr 2
    apply List.map_congr_left
    intro k _
    simp only [Function.comp]
    congr 1
    omega

/-- The blocks that the decrypt routine executes when entered with `DecStatus` not 1, with
the value of the loop counter at the end of each. -/
theorem decryptFunction_trace (T : Target) (h : Nat) (Entry : CSPEntry)
    (Args : List Nat) (Mem : Nat → Nat)
    (hpos : 1 ≤ Entry.Data.length) (hlen : Entry.Data.length < 2 ^ 31)
    (hkey : Entry.EncKey.length % 2 ^ 32 ≠ 0)
    (hst : loadBytes Mem (T.GlobalAddr Entry.DecStatus % 2 ^ T.PtrBits) 4 ≠ 1) :
    T.callTrace (buildDecryptFunction h Entry) (h + 9) (Entry.Data.length + 3) Args Mem
      = some ((h + 1, 0) :: ((List.range Entry.Data.length).map (fun k => (h + 2, k))
          ++ [(h + 3, Entry.Data.length - 1), (h + 4, Entry.Data.length - 1)])) := by
  obtain ⟨S1, h1, -, -, hr1⟩ := enter_exec T (h + 1) (h + 6) (h + 7) (h + 8) Entry.DecStatus
    (h + 4) (h + 2)
    [{ id := h + 5, Name := "", DebugLoc := 0,
       I := Inst.GEP true (Ty.Int 8) (Value.Argument 1)
        [Value.ConstantInt 32 Entry.EncKey.length] }]
    { Regs := fun _ => 0, Args := Args, Mem := Mem } _ (by omega) rfl
    (by simp [Inst.isTerminator])
  simp only [State.setReg, hst, if_false] at h1 hr1
  have hc1 : S1.Regs (h + 9) = 0 := by
    rw [hr1 (h + 9) (by omega) (by omega), if_neg (by omega)]
  have h4 := decrypt_loop_trace T h Entry hlen hkey (Entry.Data.length - 1) 0 (h + 1) S1
    (Or.inl ⟨rfl, rfl⟩) (by omega)
  have he : Entry.Data.length - 1 + 3 = Entry.Data.length + 2 := by omega
  have he1 : Entry.Data.length - 1 + 1 = Entry.Data.length := by omega
  rw [he, he1] at h4
  have hgt := traceBlocks_goto T (buildDecryptFunction h Entry).Blocks (h + 9)
    (Entry.Data.length + 2)
    (h + 1) (h + 1) { Regs := fun _ => 0, Args := Args, Mem := Mem } S1
    { id := h + 1, Name := "Enter", Insts := _ } (h + 2)
    (by simp [buildDecryptFunction]) h1
  simp only [Target.callTrace, buildDecryptFunction] at *
  rw [hgt, h4, hc1]
  simp

/-- With a data length of 0 the first round of the body would not leave the loop. -/
theorem loopBody_empty_data (T : Target) (h : Nat) (Entry : CSPEntry) (S : State)
    (BB : BasicBlock)
    (hBB : (buildDecryptFunction h Entry).Blocks.find? (fun B => B.id = h + 2) = some BB)
    (hkey : Entry.EncKey.length % 2 ^ 32 ≠ 0) (hnil : Entry.Data = []) :
    ∃ S1, T.execInsts (h + 1) BB.Insts S = some (S1, Step.Goto (h + 2)) := by
  obtain ⟨S1, h1, -⟩ := loopBody_exec T h Entry (h + 1) 0 S BB hBB (Or.inl ⟨rfl, rfl⟩)
    (by norm_num) hkey
  rw [hnil] at h1
  exact ⟨S1, by simpa [toUnsigned] using h1⟩

/-- C20 (decrypt loop termination). Every entry that `StringEncryption::run` leaves in
`ConstantStringPool` has at least one byte of data (and a key of 16 to 31 bytes). For every
such entry with fewer than `2 ^ 31` bytes (the range of the `nuw nsw` counter), on every
target, with any arguments and from every memory in which `DecStatus` is not 1, the
generated decrypt routine executes `Enter`, then `LoopBody` exactly `Data.size()` times
with the counter values `0 .. Data.size() - 1`, then `UpdateDecStatus` and `Exit`, where
it returns. The data length 0, with which the first round of the body would go back to
`LoopBody` instead of leaving, never occurs. -/
theorem decrypt_loop_termination (toObfuscate : Function → Bool)
    (Options : Option (String → Bool)) (LowerConstantExpr : Nat → Function → Function × Nat)
    (fuel : Nat) (IPO : IPObfuscationContext) (M : Module) (Entry : CSPEntry)
    (hrun : ∃ r, StringEncryption.run toObfuscate Options LowerConstantExpr fuel IPO M = some r
      ∧ Entry ∈ r.2.2.1.ConstantStringPool) :
    1 ≤ Entry.Data.length
      ∧ (∀ (T : Target) (h : Nat) (Args : List Nat) (Mem : Nat → Nat),
          Entry.Data.length < 2 ^ 31 →
          loadBytes Mem (T.GlobalAddr Entry.DecStatus % 2 ^ T.PtrBits) 4 ≠ 1 →
          T.callTrace (buildDecryptFunction h Entry) (h + 9) (Entry.Data.length + 3) Args Mem
            = some ((h + 1, 0) :: ((List.range Entry.Data.length).map (fun k => (h + 2, k))
                ++ [(h + 3, Entry.Data.length - 1), (h + 4, Entry.Data.length - 1)])))
      ∧ (∀ (T : Target) (h : Nat) (S : State) (BB : BasicBlock),
          (buildDecryptFunction h { Entry with Data := [] }).Blocks.find?
              (fun B => B.id = h + 2) = some BB →
          ∃ S1, T.execInsts (h + 1) BB.Insts S = some (S1, Step.Goto (h + 2))) := by
  obtain ⟨r, hr, hE⟩ := hrun
  obtain ⟨hd, hk1, hk2⟩ := run_pool _ _ _ _ _ _ r hr Entry hE
  have hkey : Entry.EncKey.length % 2 ^ 32 ≠ 0 := by
    rw [Nat.mod_eq_of_lt (by omega)]
    omega
  refine ⟨hd, ?_, ?_⟩
  · intro T h Args Mem hlen hst
    exact decryptFunction_trace T h Entry Args Mem hd hlen hkey hst
  · intro T h S BB hBB
    exact loopBody_empty_data T h { Entry with Data := [] } S BB hBB hkey rfl

theorem decrypt_loop_termination_witness :
    (∃ r, StringEncryption.run (fun _ => true) none (fun h F => (F, h)) 16 sampleContext
          sampleStringModule = some r
        ∧ sampleStringEntry ∈ r.2.2.1.ConstantStringPool)
    ∧ 1 ≤ sampleStringEntry.Data.length
    ∧ sampleTarget.callTrace (buildDecryptFunction 1002 sampleStringEntry) 1011 6
          [40000, 50000] (fun _ => 0)
        = some [(1003, 0), (1004, 0), (1004, 1), (1004, 2), (1005, 2), (1006, 2)] :=
  ⟨⟨_, rfl, by decide⟩,
    (decrypt_loop_termination (fun _ => true) none (fun h F => (F, h)) 16 sampleContext
      sampleStringModule sampleStringEntry ⟨_, rfl, by decide⟩).1,
    (decrypt_loop_termination (fun _ => true) none (fun h F => (F, h)) 16 sampleContext
      sampleStringModule sampleStringEntry ⟨_, rfl, by decide⟩).2.1 sampleTarget 1002
      [40000, 50000] (fun _ => 0) (by decide) (by decide)⟩

/-! ### The caller lookups of `run` -/

theorem not_declaration_of_inst (G : Function) (I : Instruction) (h : I ∈ G.insts) :
    G.isDeclaration = false := by
  unfold Function.insts at h
  unfold Function.isDeclaration
  cases hB : G.Blocks with
  | nil => rw [hB] at h; simp at h
  | cons B Bs => rfl

theorem ids_of_headers (l1 l2 : List Function)
    (h : l1.map Function.header = l2.map Function.header) :
    l1.map Function.id = l2.map Function.id := by
  have := congrArg (List.map Function.id) h
  simpa [List.map_map, Function.comp, Function.header] using this

theorem use_callee_of (U : Use) (Call : Instruction) (Caller : Nat)
    (h1 : AbstractCallSite.getInstruction U = some Call) (h2 : U.Caller? = some Caller) :
    U = Use.Callee Caller Call := by
  cases U <;> simp [AbstractCallSite.getInstruction, Use.Caller?] at h1 h2
  rw [h1, h2]

/-- A call that is a callee use stands in the function that its use names. -/
theorem callee_use_site (M : Module) (f c : Nat) (I : Instruction)
    (h : Use.Callee c I ∈ usesOf M f) :
    (∃ G ∈ M.Functions, G.id = c ∧ I ∈ G.insts) ∧ I.isAlloca = false := by
  obtain ⟨G, hG, hid, ⟨BB, hBB, hI⟩, cb, -, hk⟩ := usesOf_callee M f c I h
  refine ⟨⟨G, hG, hid, mem_insts_of_block G BB hBB I hI⟩, ?_⟩
  unfold Instruction.isAlloca
  rcases hk with ⟨t, e⟩ | ⟨n, u, e⟩ <;> rw [e]

/-- Under the invariant, a read for a call that stands in a function of the module finds
the info of that function, with its `CalleeSlot` among the function's `alloca`s. -/
theorem SlotInv.lookup (M : Module) (C : IPObfuscationContext) (h : SlotInv M C)
    (Caller : Nat) (Call : Instruction)
    (hsite : ∃ G ∈ M.Functions, G.id = Caller ∧ Call ∈ G.insts) :
    CallerLookup.present { M := M, C := C, Caller := Caller, Call := Call } = true := by
  obtain ⟨G, hG, hid, hI⟩ := hsite
  have hget : M.getFunction Caller = some G := by
    rw [← hid]
    exact getFunction_of_mem M h.nodupF G hG
  obtain ⟨Info, hInfo, -, -, ⟨A, hA, hAid⟩, hall⟩ :=
    h.slots G hG (not_declaration_of_inst G Call hI)
  rw [hid] at hInfo
  unfold CallerLookup.present
  simp only [hInfo, hget, Bool.and_eq_true, List.any_eq_true]
  exact ⟨by simpa using hI, A, hA, by simp [hAid, hall A hA hAid]⟩

theorem newCall_id (NF slot n : Nat) (used : Bool) (Call New : Instruction)
    (h : newCall NF slot n used Call = some New) : New.id = Call.id := by
  unfold newCall at h
  split at h
  · split at h
    · cases h
    · simp only [Option.some.injEq] at h
      rw [← h]
  · split at h
    · cases h
    · simp only [Option.some.injEq] at h
      rw [← h]
  · cases h

theorem replaceInst_isDeclaration (G : Function) (id : Nat) (New : Instruction) :
    (G.replaceInst id New).isDeclaration = G.isDeclaration := by
  unfold Function.replaceInst Function.isDeclaration
  cases G.Blocks <;> rfl

/-- One round of the call-site loop keeps the invariant. -/
theorem rewriteFirstUse_slotInv (C : IPObfuscationContext) (f NF n : Nat) (M M1 : Module)
    (U : Use) (h : SlotInv M C) (hU : U ∈ usesOf M f)
    (hr : rewriteFirstUse C NF n M U = some M1) : SlotInv M1 C := by
  obtain ⟨hh, hnext, -⟩ := rewriteFirstUse_header C NF n M M1 U hr
  have hids := ids_of_headers _ _ hh
  unfold rewriteFirstUse at hr
  split at hr
  · rename_i Call Caller hCall hCaller
    have hUe := use_callee_of U Call Caller hCall hCaller
    subst hUe
    obtain ⟨⟨G0, hG0, hG0id, hCallG0⟩, hCallA⟩ := callee_use_site M f Caller Call hU
    split at hr
    · rename_i SecretInfo G hInfo hG
      split at hr
      · cases hr
      · rename_i New hNew
        simp only [Option.some.injEq] at hr
        subst hr
        have hNewId := newCall_id _ _ _ _ _ _ hNew
        refine ⟨by rw [hids]; exact h.nodupF, ?_, ?_⟩
        · intro G1 hG1
          have : G1.id ∈ (M.Functions.map Function.id) := by
            rw [← hids]
            exact List.mem_map_of_mem _ hG1
          obtain ⟨G2, hG2, e⟩ := List.mem_map.mp this
          rw [hnext, ← e]
          exact h.freshF G2 hG2
        · intro G1 hG1 hdecl
          rw [updateFunction_functions] at hG1
          obtain ⟨G2, hG2, e⟩ := List.mem_map.mp hG1
          by_cases hc : G2.id = Caller
          · rw [if_pos hc] at e
            subst e
            have hG2G0 : G2 = G0 := mem_functions_eq M h.nodupF G2 G0 hG2 hG0 (by rw [hc, hG0id])
            subst hG2G0
            rw [replaceInst_isDeclaration] at hdecl
            obtain ⟨Info, hI1, hI2, hI3, ⟨A, hA, hAid⟩, hall⟩ := h.slots G2 hG2 hdecl
            have hne : Call.id ≠ Info.CalleeSlot := by
              intro e
              have := hall Call hCallG0 e
              rw [hCallA] at this
              cases this
            refine ⟨Info, hI1, hI2, hI3, ?_, ?_⟩
            · refine ⟨A, ?_, hAid⟩
              rw [replaceInst_insts]
              refine List.mem_map.mpr ⟨A, hA, ?_⟩
              unfold replaceAt
              rw [if_neg (by rw [hAid]; exact fun e => hne e.symm)]
            · intro J hJ hJid
              rw [replaceInst_insts] at hJ
              obtain ⟨J0, hJ0, e⟩ := List.mem_map.mp hJ
              unfold replaceAt at e
              split at e
              · subst e
                exact absurd (hNewId ▸ hJid) hne
              · subst e
                exact hall J0 hJ0 hJid
          · rw [if_neg hc] at e
            subst e
            exact h.slots G2 hG2 hdecl
    · cases hr
  · cases hr

/-- Every read of the call-site loop finds the info of the caller, and the loop keeps the
invariant. -/
theorem rewriteUses_slotInv (C : IPObfuscationContext) (f NF n : Nat) :
    ∀ (fuel : Nat) (M : Module), SlotInv M C →
      (∀ L ∈ rewriteUsesLookups C f NF n fuel M, L.present = true)
      ∧ ∀ M2, rewriteUses C f NF n fuel M = some M2 → SlotInv M2 C := by
  intro fuel
  induction fuel with
  | zero =>
    intro M h
    refine ⟨by simp [rewriteUsesLookups], ?_⟩
    intro M2 h2
    unfold rewriteUses at h2
    split at h2
    · cases h2
      exact h
    · cases h2
  | succ fuel ih =>
    intro M h
    constructor
    · intro L hL
      unfold rewriteUsesLookups at hL
      split at hL
      · cases hL
      · rename_i U rest hu
        have hU : U ∈ usesOf M f := by rw [hu]; exact List.mem_cons_self _ _
        split at hL
        · rename_i Call Caller hCall hCaller
          have hUe := use_callee_of U Call Caller hCall hCaller
          rcases List.mem_cons.mp hL with e | e
          · subst e
            rw [hUe] at hU
            exact SlotInv.lookup M C h Caller Call (callee_use_site M f Caller Call hU).1
          · split at e
            · cases e
            · rename_i M1 hM1
              exact (ih M1 (rewriteFirstUse_slotInv C f NF n M M1 U h hU hM1)).1 L e
        · cases hL
    · intro M2 h2
      unfold rewriteUses at h2
      split at h2
      · cases h2
        exact h
      · rename_i U rest hu
        have hU : U ∈ usesOf M f := by rw [hu]; exact List.mem_cons_self _ _
        split at h2
        · cases h2
        · rename_i M1 hM1
          exact (ih M1 (rewriteFirstUse_slotInv C f NF n M M1 U h hU hM1)).2 M2 h2

theorem mem_insertNF_cases (L : List Function) (X : Function) (f : Nat) (G : Function)
    (h : G ∈ L.flatMap (fun H => if H.id = f then [X, { H with Name := "" }] else [H])) :
    G = X ∨ (∃ H ∈ L, G = { H with Name := "" }) ∨ G ∈ L := by
  obtain ⟨H, hH, hG⟩ := List.mem_flatMap.mp h
  split at hG
  · simp only [List.mem_cons, List.mem_singleton, List.not_mem_nil, or_false] at hG
    rcases hG with e | e
    · exact Or.inl e
    · exact Or.inr (Or.inl ⟨H, hH, e⟩)
  · simp only [List.mem_singleton] at hG
    subst hG
    exact Or.inr (Or.inr hH)

/-- The invariant holds in the module in which the call-site loop starts. -/
theorem slotInv_createNF (M : Module) (C : IPObfuscationContext) (h : SlotInv M C)
    (f : Nat) (F : Function) (hF : M.getFunction f = some F) :
    SlotInv
      { M with
        Functions := M.Functions.flatMap (fun G =>
          if G.id = f then [createNF M.NextHandle F, { G with Name := "" }] else [G]),
        NextHandle := M.NextHandle + 1 } C := by
  obtain ⟨hFmem, hid⟩ := getFunction_mem M f F hF
  obtain ⟨pre, post, hsplit, hpre, hpost⟩ := split_at_function M f F hF h.nodupF
  have hM1 : M.Functions.flatMap (fun G =>
        if G.id = f then [createNF M.NextHandle F, { G with Name := "" }] else [G])
      = pre ++ createNF M.NextHandle F :: { F with Name := "" } :: post := by
    rw [hsplit, List.flatMap_append, List.flatMap_cons,
      flatMap_singleton_of pre _ (fun G hG => by simp [hpre G hG]),
      flatMap_singleton_of post _ (fun G hG => by simp [hpost G hG])]
    simp [hid]
  refine ⟨?_, ?_, ?_⟩
  · show (List.map Function.id (M.Functions.flatMap _)).Nodup
    rw [hM1]
    have hn := h.nodupF
    rw [hsplit] at hn
    simp only [List.map_append, List.map_cons] at hn ⊢
    apply nodup_insert_fresh _ _ _ _ hn
    intro hmem
    have : (createNF M.NextHandle F).id ∈ M.Functions.map Function.id := by
      rw [hsplit]
      simpa using hmem
    obtain ⟨G, hG, e⟩ := List.mem_map.mp this
    have := h.freshF G hG
    rw [e] at this
    simp [createNF] at this
  · intro G hG
    show G.id < M.NextHandle + 1
    rcases mem_insertNF_cases _ _ _ _ hG with e | ⟨H, hH, e⟩ | e
    · subst e
      simp [createNF]
    · subst e
      exact Nat.lt_succ_of_lt (h.freshF H hH)
    · exact Nat.lt_succ_of_lt (h.freshF G e)
  · intro G hG hdecl
    rcases mem_insertNF_cases _ _ _ _ hG with e | ⟨H, hH, e⟩ | e
    · subst e
      simp [createNF, Function.isDeclaration] at hdecl
    · subst e
      obtain ⟨Info, h1, h2, h3⟩ := h.slots H hH hdecl
      exact ⟨Info, h1, Nat.lt_succ_of_lt h2, h3⟩
    · obtain ⟨Info, h1, h2, h3⟩ := h.slots G e hdecl
      exact ⟨Info, h1, Nat.lt_succ_of_lt h2, h3⟩

theorem ids_replaceNF (L : List Function) (X : Function) (f n : Nat) (hX : X.id = n) :
    (L.flatMap (fun G => if G.id = f then [] else if G.id = n then [X] else [G])).map
        Function.id
      = (L.map Function.id).filter (fun g => g != f) := by
  induction L with
  | nil => rfl
  | cons a L ih =>
    rw [List.flatMap_cons, List.map_append, ih, List.map_cons, List.filter_cons]
    by_cases haf : a.id = f
    · simp [haf]
    · by_cases han : a.id = n
      · have hnf : ¬ n = f := han ▸ haf
        simp [han, hnf, hX]
      · simp [haf, han]

theorem isAlloca_shift (J : Instruction) :
    Instruction.isAlloca { J with I := J.I.mapOperands shiftArgument } = J.isAlloca := by
  unfold Instruction.isAlloca
  cases J.I <;> rfl

theorem mem_shiftArguments (Bs : List BasicBlock) (J : Instruction)
    (h : J ∈ Bs.flatMap BasicBlock.Insts) :
    ({ J with I := J.I.mapOperands shiftArgument } : Instruction)
      ∈ (shiftArguments Bs).flatMap BasicBlock.Insts := by
  simp only [shiftArguments, List.mem_flatMap, List.mem_map] at h ⊢
  obtain ⟨BB, hBB, hJ⟩ := h
  exact ⟨_, ⟨BB, hBB, rfl⟩, List.mem_map.mpr ⟨J, hJ, rfl⟩⟩

theorem mem_insertAtEntry (G : Function) (News : List Instruction) (I : Instruction)
    (h : I ∈ G.insts) : I ∈ (G.insertAtEntry News).insts := by
  unfold Function.insertAtEntry
  split
  · exact h
  · rename_i BB rest heq
    simp only [Function.insts, List.flatMap_cons, List.mem_append, heq] at h ⊢
    tauto

theorem mem_eraseInst (G : Function) (id : Nat) (I : Instruction) (h : I ∈ G.insts)
    (hne : I.id ≠ id) : I ∈ (G.eraseInst id).insts := by
  simp only [Function.eraseInst, Function.insts, List.mem_flatMap, List.mem_map] at h ⊢
  obtain ⟨BB, hBB, hI⟩ := h
  exact ⟨_, ⟨BB, hBB, rfl⟩, List.mem_filter.mpr ⟨hI, by simpa using hne⟩⟩

theorem spliced_isDeclaration (X : Function) (Bs : List BasicBlock)
    (News : List Instruction) (id : Nat) (hX : X.Blocks = shiftArguments Bs) :
    ((X.insertAtEntry News).eraseInst id).isDeclaration = Bs.isEmpty := by
  cases Bs with
  | nil =>
    have : X.Blocks = [] := by rw [hX]; rfl
    simp [Function.insertAtEntry, Function.eraseInst, Function.isDeclaration, this]
  | cons B Bs =>
    simp [Function.insertAtEntry, Function.eraseInst, Function.isDeclaration, hX,
      shiftArguments]

/-- Every read of `InsertSecretArgument` finds the info of the caller, and
`InsertSecretArgument` keeps the invariant: the info of `F` passes to `NF` together with
the body that holds its `CalleeSlot`. -/
theorem InsertSecretArgument_slotInv (fuel : Nat) (M : Module) (C : IPObfuscationContext)
    (f : Nat) (h : SlotInv M C) :
    (∀ L ∈ InsertSecretArgumentLookups fuel M C f, L.present = true)
      ∧ ∀ M3 C1 nf, InsertSecretArgument fuel M C f = some (M3, C1, nf) → SlotInv M3 C1 := by
  constructor
  · intro L hL
    unfold InsertSecretArgumentLookups at hL
    split at hL
    · cases hL
    · rename_i F hF
      exact (rewriteUses_slotInv C f _ _ fuel _ (slotInv_createNF M C h f F hF)).1 L hL
  · intro M3 C1 nf hr
    obtain ⟨F, hF⟩ := InsertSecretArgument_getFunction fuel M C f _ hr
    obtain ⟨hFm, hFid⟩ := getFunction_mem M f F hF
    have hf : f < M.NextHandle := by rw [← hFid]; exact h.freshF F hFm
    have hnf : M.NextHandle ≠ f := by omega
    obtain ⟨M2, F2, Info, NF2, -, hM2, hF2, -, hInfo, hNF2, -, hfun, hmap, -, -, hnext, -⟩ :=
      InsertSecretArgument_some fuel M C f F M3 C1 nf hF hf hr
    have h2 : SlotInv M2 C :=
      (rewriteUses_slotInv C f _ _ fuel _ (slotInv_createNF M C h f F hF)).2 M2 hM2
    obtain ⟨-, hnext2, -⟩ := rewriteUses_header _ _ _ _ _ _ _ hM2
    simp only at hnext2
    obtain ⟨hF2m, hF2id⟩ := getFunction_mem M2 f F2 hF2
    have hNFid : NF2.id = M.NextHandle := by
      rw [hNF2]
      exact congrArg Function.id (insertAtEntry_header _ _)
    have hids := ids_replaceNF M2.Functions NF2 f M.NextHandle hNFid
    rw [← hfun] at hids
    refine ⟨?_, ?_, ?_⟩
    · rw [hids]
      exact h2.nodupF.filter _
    · intro G hG
      have : G.id ∈ M3.Functions.map Function.id := List.mem_map_of_mem _ hG
      rw [hids] at this
      obtain ⟨G0, hG0, e⟩ := List.mem_map.mp (List.mem_filter.mp this).1
      have := h2.freshF G0 hG0
      omega
    · intro G hG hdecl
      rw [hfun] at hG
      obtain ⟨G2, hG2, hGin⟩ := List.mem_flatMap.mp hG
      by_cases hc1 : G2.id = f
      · simp [hc1] at hGin
      · by_cases hc2 : G2.id = M.NextHandle
        · rw [if_neg hc1, if_pos hc2, List.mem_singleton] at hGin
          subst hGin
          have hd2 : F2.isDeclaration = false := by
            rw [hNF2, spliced_isDeclaration _ F2.Blocks _ _ rfl] at hdecl
            exact hdecl
          obtain ⟨Info2, hI1, hI2, hI3, ⟨A, hA, hAid⟩, hall⟩ := h2.slots F2 hF2m hd2
          rw [hF2id, hInfo] at hI1
          simp only [Option.some.injEq] at hI1
          subst hI1
          refine ⟨{ Info with SecretLI := M2.NextHandle }, ?_, ?_, ?_, ?_, ?_⟩
          · rw [hmap, hNFid]
            simp [hnf]
          · show Info.CalleeSlot < M3.NextHandle
            omega
          · show M2.NextHandle ≠ Info.CalleeSlot
            omega
          · refine ⟨{ A with I := A.I.mapOperands shiftArgument }, ?_, hAid⟩
            rw [hNF2]
            apply mem_eraseInst _ _ _ _ (by rw [show ({ A with I := A.I.mapOperands shiftArgument } : Instruction).id = A.id from rfl, hAid]; exact fun e => hI3 e.symm)
            apply mem_insertAtEntry
            exact mem_shiftArguments F2.Blocks A hA
          · intro J hJ hJid
            rw [hNF2] at hJ
            rcases insertAtEntry_mem _ _ _ (eraseInst_mem _ _ _ hJ) with e | e
            · simp only [List.mem_singleton] at e
              subst e
              simp only at hJid
              omega
            · obtain ⟨J0, hJ0, e0⟩ := shiftArguments_mem F2.Blocks J e
              subst e0
              rw [isAlloca_shift]
              exact hall J0 hJ0 hJid
        · rw [if_neg hc1, if_neg hc2, List.mem_singleton] at hGin
          subst hGin
          obtain ⟨Info2, hI1, hI2, hI3⟩ := h2.slots G hG2 hdecl
          refine ⟨Info2, ?_, by omega, hI3⟩
          rw [hmap]
          simp [hc1, hc2, hI1]

/-- The third loop of `run`, in any order: every read finds the info of the caller, and the
invariant holds afterwards. -/
theorem insertAll_slotInv (fuel : Nat) (l : List Nat) :
    ∀ (M : Module) (C : IPObfuscationContext), SlotInv M C →
      (∀ L ∈ insertAllLookups fuel l M C, L.present = true)
      ∧ ∀ M2 C2 NewFuncs, insertAll fuel l M C = some (M2, C2, NewFuncs) → SlotInv M2 C2 := by
  induction l with
  | nil =>
    intro M C h
    refine ⟨by simp [insertAllLookups], ?_⟩
    intro M2 C2 N hr
    simp only [insertAll, Option.some.injEq, Prod.mk.injEq] at hr
    obtain ⟨e1, e2, -⟩ := hr
    subst e1 e2
    exact h
  | cons f rest ih =>
    intro M C h
    obtain ⟨hl, hinv⟩ := InsertSecretArgument_slotInv fuel M C f h
    constructor
    · intro L hL
      unfold insertAllLookups at hL
      rcases List.mem_append.mp hL with e | e
      · exact hl L e
      · split at e
        · cases e
        · rename_i M1 C1 nf hr
          exact (ih M1 C1 (hinv M1 C1 nf hr)).1 L e
    · intro M2 C2 N hr
      unfold insertAll at hr
      split at hr
      · cases hr
      · rename_i M1 C1 nf h1
        split at hr
        · cases hr
        · rename_i M2a C2a N2 h2
          simp only [Option.some.injEq, Prod.mk.injEq] at hr
          obtain ⟨e1, e2, -⟩ := hr
          subst e1 e2
          exact (ih M1 C1 (hinv M1 C1 nf h1)).2 _ _ _ h2

theorem insertBefore_isDeclaration (G : Function) (id : Nat) (News : List Instruction) :
    (G.insertBefore id News).isDeclaration = G.isDeclaration := by
  unfold Function.insertBefore Function.isDeclaration
  cases G.Blocks <;> rfl

theorem mem_insertBefore (G : Function) (id : Nat) (News : List Instruction)
    (I : Instruction) (h : I ∈ G.insts) : I ∈ (G.insertBefore id News).insts := by
  simp only [Function.insertBefore, Function.insts, List.mem_flatMap, List.mem_map] at h ⊢
  obtain ⟨BB, hBB, hI⟩ := h
  refine ⟨_, ⟨BB, hBB, rfl⟩, ?_⟩
  simp only [List.mem_flatMap]
  refine ⟨I, hI, ?_⟩
  split <;> simp

theorem insertBefore_mem (G : Function) (id : Nat) (News : List Instruction)
    (I : Instruction) (h : I ∈ (G.insertBefore id News).insts) : I ∈ News ∨ I ∈ G.insts := by
  simp only [Function.insertBefore, Function.insts, List.mem_flatMap, List.mem_map] at h ⊢
  obtain ⟨BB, ⟨B0, hB0, e⟩, hI⟩ := h
  rw [← e] at hI
  simp only [List.mem_flatMap] at hI
  obtain ⟨J, hJ, hIJ⟩ := hI
  split at hIJ
  · simp only [List.mem_append, List.mem_singleton] at hIJ
    rcases hIJ with e1 | e1
    · exact Or.inl e1
    · subst e1
      exact Or.inr ⟨B0, hB0, hJ⟩
  · simp only [List.mem_singleton] at hIJ
    subst hIJ
    exact Or.inr ⟨B0, hB0, hJ⟩

/-- One round of the loop of `computeCallSiteSecretArgument` keeps the invariant, and the
calls of the module stay where they are. -/
theorem callSiteSecret_slotInv (M : Module) (C : IPObfuscationContext) (h : SlotInv M C)
    (Caller id d : Nat) (ty : Ty) (A B : IPOInfo) :
    SlotInv
        { (M.updateFunction Caller (fun G => G.insertBefore id
            (callSiteSecret M.NextHandle d ty A B))) with NextHandle := M.NextHandle + 2 } C
      ∧ ∀ c I, (∃ G ∈ M.Functions, G.id = c ∧ I ∈ G.insts) →
          ∃ G ∈ (M.updateFunction Caller (fun G => G.insertBefore id
            (callSiteSecret M.NextHandle d ty A B))).Functions, G.id = c ∧ I ∈ G.insts := by
  have hids : (M.updateFunction Caller (fun G => G.insertBefore id
      (callSiteSecret M.NextHandle d ty A B))).Functions.map Function.id
        = M.Functions.map Function.id :=
    ids_of_headers _ _ (updateFunction_header _ _ _ (fun G => rfl))
  refine ⟨⟨?_, ?_, ?_⟩, ?_⟩
  · show (List.map Function.id (M.updateFunction Caller _).Functions).Nodup
    rw [hids]
    exact h.nodupF
  · intro G1 hG1
    show G1.id < M.NextHandle + 2
    have : G1.id ∈ M.Functions.map Function.id := by
      rw [← hids]
      exact List.mem_map_of_mem _ hG1
    obtain ⟨G2, hG2, e⟩ := List.mem_map.mp this
    have := h.freshF G2 hG2
    omega
  · intro G1 hG1 hdecl
    have hG1' : G1 ∈ (M.updateFunction Caller (fun G => G.insertBefore id
        (callSiteSecret M.NextHandle d ty A B))).Functions := hG1
    rw [updateFunction_functions] at hG1'
    obtain ⟨G2, hG2, e⟩ := List.mem_map.mp hG1'
    by_cases hc : G2.id = Caller
    · rw [if_pos hc] at e
      subst e
      rw [insertBefore_isDeclaration] at hdecl
      obtain ⟨Info, hI1, hI2, hI3, ⟨X, hX, hXid⟩, hall⟩ := h.slots G2 hG2 hdecl
      refine ⟨Info, hI1, Nat.lt_add_right 2 hI2, hI3, ⟨X, mem_insertBefore _ _ _ _ hX, hXid⟩, ?_⟩
      intro J hJ hJid
      rcases insertBefore_mem _ _ _ _ hJ with e | e
      · simp only [callSiteSecret, List.mem_cons, List.mem_singleton, List.not_mem_nil,
          or_false] at e
        rcases e with e | e <;> subst e <;> simp only at hJid <;> omega
      · exact hall J e hJid
    · rw [if_neg hc] at e
      subst e
      obtain ⟨Info, hI1, hI2, hI3⟩ := h.slots G2 hG2 hdecl
      exact ⟨Info, hI1, Nat.lt_add_right 2 hI2, hI3⟩
  · rintro c I ⟨G, hG, hid, hI⟩
    rw [updateFunction_functions]
    by_cases hc : G.id = Caller
    · exact ⟨G.insertBefore id (callSiteSecret M.NextHandle d ty A B),
        List.mem_map.mpr ⟨G, hG, by rw [if_pos hc]⟩, hid, mem_insertBefore _ _ _ _ hI⟩
    · exact ⟨G, List.mem_map.mpr ⟨G, hG, by rw [if_neg hc]⟩, hid, hI⟩

/-- Every read of the loop of `computeCallSiteSecretArgument` finds the info of the caller;
`l` is what is left of the use-list taken when the loop started. -/
theorem computeCallSiteLoop_slotInv (C : IPObfuscationContext) (F : Nat) (l : List Use) :
    ∀ (M : Module), SlotInv M C →
      (∀ c I, Use.Callee c I ∈ l → ∃ G ∈ M.Functions, G.id = c ∧ I ∈ G.insts) →
      (∀ L ∈ computeCallSiteLookups C F l M, L.present = true)
      ∧ ∀ M1, computeCallSiteLoop C F l M = some M1 → SlotInv M1 C := by
  induction l with
  | nil =>
    intro M h _
    refine ⟨by simp [computeCallSiteLookups], ?_⟩
    intro M1 hr
    simp only [computeCallSiteLoop, Option.some.injEq] at hr
    subst hr
    exact h
  | cons U rest ih =>
    intro M h huses
    constructor
    · intro L hL
      unfold computeCallSiteLookups at hL
      split at hL
      · rename_i Call Caller hCall hCaller
        have hUe := use_callee_of U Call Caller hCall hCaller
        subst hUe
        rcases List.mem_cons.mp hL with e | e
        · subst e
          exact SlotInv.lookup M C h Caller Call (huses Caller Call (List.mem_cons_self _ _))
        · split at e
          · rename_i A B hA hB
            obtain ⟨hinv, hkeep⟩ := callSiteSecret_slotInv M C h Caller Call.id Call.DebugLoc
              (secretTy M Caller A) A B
            exact (ih _ hinv
              (fun c I hcI => hkeep c I (huses c I (List.mem_cons_of_mem _ hcI)))).1 L e
          · cases e
      · cases hL
    · intro M1 hr
      unfold computeCallSiteLoop at hr
      split at hr
      · rename_i Call Caller hCall hCaller
        split at hr
        · rename_i A B hA hB
          obtain ⟨hinv, hkeep⟩ := callSiteSecret_slotInv M C h Caller Call.id Call.DebugLoc
              (secretTy M Caller A) A B
          exact (ih _ hinv
            (fun c I hcI => hkeep c I (huses c I (List.mem_cons_of_mem _ hcI)))).2 M1 hr
        · cases hr
      · cases hr

/-- The fourth loop of `run`: every read finds the info of the caller. -/
theorem computeAll_slotInv (C : IPObfuscationContext) (l : List Nat) :
    ∀ (M : Module), SlotInv M C → ∀ L ∈ computeAllLookups C l M, L.present = true := by
  induction l with
  | nil =>
    intro M _ L hL
    simp [computeAllLookups] at hL
  | cons F rest ih =>
    intro M h L hL
    obtain ⟨h1, h2⟩ := computeCallSiteLoop_slotInv C F (usesOf M F) M h
      (fun c I hcI => (callee_use_site M F c I hcI).1)
    unfold computeAllLookups at hL
    rcases List.mem_append.mp hL with e | e
    · exact h1 L e
    · split at e
      · cases e
      · rename_i M1 hM1
        exact ih M1 (h2 M1 hM1) L e

/-- The slot allocation gives every function with a body an info whose `CalleeSlot` is a
fresh `alloca` of that function. -/
theorem allocAll_slots (Fs : List Function) :
    ∀ (h : Nat) (C : IPObfuscationContext), (Fs.map Function.id).Nodup →
      (∀ G ∈ Fs, ∀ I ∈ G.insts, I.id < h) →
      ∀ G ∈ (allocAll Fs h C).1, G.isDeclaration = false →
        ∃ Info, (allocAll Fs h C).2.2.IPOInfoMap G.id = some Info
          ∧ Info.CalleeSlot < (allocAll Fs h C).2.1
          ∧ Info.SecretLI ≠ Info.CalleeSlot
          ∧ (∃ A ∈ G.insts, A.id = Info.CalleeSlot)
          ∧ ∀ J ∈ G.insts, J.id = Info.CalleeSlot → J.isAlloca = true := by
  induction Fs with
  | nil =>
    intro h C _ _ G hG
    simp [allocAll] at hG
  | cons F Fs ih =>
    intro h C hn hI G hG hdecl
    rw [List.map_cons, List.nodup_cons] at hn
    have hIrest : ∀ k, h ≤ k → ∀ G ∈ Fs, ∀ I ∈ G.insts, I.id < k := by
      intro k hk G hG I hIG
      have := hI G (List.mem_cons_of_mem _ hG) I hIG
      omega
    by_cases hd : F.isDeclaration = true
    · rw [allocAll, if_pos hd] at hG ⊢
      simp only [List.mem_cons] at hG
      rcases hG with e | e
      · subst e
        rw [hd] at hdecl
        cases hdecl
      · exact ih h C hn.2 (hIrest h (Nat.le_refl _)) G e hdecl
    · rw [allocAll, if_neg hd] at hG ⊢
      simp only [List.mem_cons] at hG
      rcases hG with e | e
      · subst e
        have hun : ∀ F1 ∈ Fs, F1.id = F.id → F1.isDeclaration = true := by
          intro F1 h1 h2
          exact absurd (h2 ▸ List.mem_map_of_mem Function.id h1) hn.1
        obtain ⟨-, hle, -⟩ := allocAll_header Fs (h + 4)
          { C with RandomEngine := (AllocaSecretSlot h C.RandomEngine F).2.2,
                   IPOInfoMap := fun g =>
                    if g = F.id then some (AllocaSecretSlot h C.RandomEngine F).2.1
                    else C.IPOInfoMap g }
        have hid : (AllocaSecretSlot h C.RandomEngine F).1.id = F.id := by
          have := congrArg Function.id (AllocaSecretSlot_header h C.RandomEngine F)
          exact this
        have hB : ∃ BB rest, F.Blocks = BB :: rest := by
          cases hF : F.Blocks with
          | nil => simp [Function.isDeclaration, hF] at hd
          | cons BB rest => exact ⟨BB, rest, rfl⟩
        obtain ⟨BB, rest, hB⟩ := hB
        refine ⟨(AllocaSecretSlot h C.RandomEngine F).2.1, ?_, ?_, ?_, ?_, ?_⟩
        · dsimp only
          rw [allocAll_map_unchanged _ _ _ _ (by rw [hid]; exact hun), hid]
          simp
        · exact Nat.lt_of_lt_of_le (show h + 1 < h + 4 by omega) hle
        · simp [AllocaSecretSlot]
        · refine ⟨{ id := h + 1, Name := "CalleeSlot", DebugLoc := F.entryDebugLoc,
                    I := Inst.Alloca (Ty.Int 32) 4 }, ?_, rfl⟩
          simp [AllocaSecretSlot, Function.insertAtEntry, hB, Function.insts]
        · intro J hJ hJid
          simp only [AllocaSecretSlot] at hJ hJid
          rcases insertAtEntry_mem _ _ _ hJ with e | e
          · simp only [List.mem_cons, List.mem_singleton, List.not_mem_nil, or_false] at e
            rcases e with e | e | e | e <;> subst e
            · simp at hJid
            · rfl
            · simp at hJid
            · simp at hJid
          · have := hI F (List.mem_cons_self _ _) J e
            omega
      · exact ih (h + 4) _ hn.2 (hIrest (h + 4) (by omega)) G e hdecl

/-- The invariant holds when the slot allocation of `run` is done. -/
theorem slotInv_allocated (M : Module) (C : IPObfuscationContext)
    (hids : (M.Functions.map Function.id).Nodup)
    (hfreshF : ∀ G ∈ M.Functions, G.id < M.NextHandle)
    (hfreshI : ∀ G ∈ M.Functions, ∀ I ∈ G.insts, I.id < M.NextHandle) :
    SlotInv
      { M with Functions := (allocAll M.Functions M.NextHandle (surveyAll M C)).1,
               NextHandle := (allocAll M.Functions M.NextHandle (surveyAll M C)).2.1 }
      (allocAll M.Functions M.NextHandle (surveyAll M C)).2.2 := by
  obtain ⟨hh, hle, -⟩ := allocAll_header M.Functions M.NextHandle (surveyAll M C)
  have hidl := ids_of_headers _ _ hh
  refine ⟨?_, ?_, ?_⟩
  · show (List.map Function.id (allocAll M.Functions M.NextHandle (surveyAll M C)).1).Nodup
    rw [hidl]
    exact hids
  · intro G hG
    have : G.id ∈ M.Functions.map Function.id := by
      rw [← hidl]
      exact List.mem_map_of_mem _ hG
    obtain ⟨G2, hG2, e⟩ := List.mem_map.mp this
    have := hfreshF G2 hG2
    show G.id < (allocAll M.Functions M.NextHandle (surveyAll M C)).2.1
    omega
  · exact allocAll_slots M.Functions M.NextHandle (surveyAll M C) hids hfreshI

/-- C21 (caller info is always present). Let the handles of the module be distinct
(functions) and below the next unused handle (functions and instructions), and let
`LocalFunctions` be processed in any order. Then every read `IPOInfoMap[Caller]` that
`run` makes, for a call site that `InsertSecretArgument` rewrites or for a use that
`computeCallSiteSecretArgument` visits, yields a non-null `IPOInfo`, the function with
handle `Caller` holds the call at that time, and the `CalleeSlot` of the info is an
`alloca` of that function. The caller may be a function resignatured earlier (then the
read is made under the handle of the new function, to which the info and the body have
passed), a function resignatured later, or the function being resignatured. -/
theorem caller_info_present (fuel : Nat) (order : List Nat → List Nat) (M : Module)
    (C : IPObfuscationContext)
    (hids : (M.Functions.map Function.id).Nodup)
    (hfreshF : ∀ G ∈ M.Functions, G.id < M.NextHandle)
    (hfreshI : ∀ G ∈ M.Functions, ∀ I ∈ G.insts, I.id < M.NextHandle) :
    ∀ L ∈ IPObfuscationContext.runLookups fuel order M C, L.present = true := by
  intro L hL
  have h0 := slotInv_allocated M C hids hfreshF hfreshI
  obtain ⟨h1, h2⟩ := insertAll_slotInv fuel
    (order (allocAll M.Functions M.NextHandle (surveyAll M C)).2.2.LocalFunctions) _ _ h0
  unfold IPObfuscationContext.runLookups at hL
  simp only at hL
  rcases List.mem_append.mp hL with e | e
  · exact h1 L e
  · split at e
    · cases e
    · rename_i M2 C2 NewFuncs hins
      exact computeAll_slotInv C2 NewFuncs M2 (h2 M2 C2 NewFuncs hins) L e

theorem caller_info_present_witness :
    ((sampleRecursive.Functions.map Function.id).Nodup
      ∧ (∀ G ∈ sampleRecursive.Functions, G.id < sampleRecursive.NextHandle)
      ∧ (∀ G ∈ sampleRecursive.Functions, ∀ I ∈ G.insts, I.id < sampleRecursive.NextHandle))
    ∧ (IPObfuscationContext.runLookups 10 id sampleRecursive sampleContext).map
          (fun L => (L.Caller, L.Call.id))
        = [(1, 101), (3, 301), (1012, 102), (1012, 101), (3, 301), (1012, 102)]
    ∧ (∀ L ∈ IPObfuscationContext.runLookups 10 id sampleRecursive sampleContext,
        L.present = true)
    ∧ (IPObfuscationContext.runLookups 10 List.reverse sampleRecursive sampleContext).map
          (fun L => (L.Caller, L.Call.id))
        = [(1, 102), (1, 101), (3, 301), (1014, 102), (1014, 101), (3, 301)]
    ∧ (∀ L ∈ IPObfuscationContext.runLookups 10 List.reverse sampleRecursive sampleContext,
        L.present = true) :=
  ⟨⟨by decide, by decide, by decide⟩, rfl,
    caller_info_present 10 id sampleRecursive sampleContext (by decide) (by decide)
      (by decide),
    rfl,
    caller_info_present 10 List.reverse sampleRecursive sampleContext (by decide) (by decide)
      (by decide)⟩

/-! ### The emitted table -/

/-- The initializer of the table holds exactly the bytes it was built from. -/
theorem encryptedStringTable_bytes (h : Nat) (Data : List Nat) :
    (encryptedStringTable h Data).bytes = Data := by
  unfold encryptedStringTable
  split
  · rename_i hz
    simp only [GlobalVariable.bytes]
    symm
    rw [List.eq_replicate_iff]
    refine ⟨rfl, ?_⟩
    intro b hb
    have := List.all_eq_true.mp hz b hb
    simpa using this
  · simp [GlobalVariable.bytes]

theorem encryptedStringTable_header (h : Nat) (Data : List Nat) :
    (encryptedStringTable h Data).id = h
      ∧ (encryptedStringTable h Data).Name = "EncryptedStringTable"
      ∧ (encryptedStringTable h Data).isConstant = true
      ∧ (encryptedStringTable h Data).Linkage = Linkage.Private
      ∧ (encryptedStringTable h Data).ValueTy = Ty.Array Data.length (Ty.Int 8) := by
  unfold encryptedStringTable
  split <;> exact ⟨rfl, rfl, rfl, rfl, rfl⟩

/-- Below `2 ^ 32` bytes of pool the `Offset` that the emitting loop stores is the true
start of the key. -/
theorem emitPool_offset (R : CryptoUtils) (es : List CSPEntry)
    (hfit : (emitPool R [] es).Data.length < W32) (k : Nat) (e1 : CSPEntry)
    (h : (emitPool R [] es).Entries[k]? = some e1) :
    e1.Offset = keyStart (emitPool R [] es).Junk (emitPool R [] es).Entries k := by
  have hl := emitPool_lengths R [] es
  have hk : k < es.length := by
    have := (List.getElem?_eq_some_iff.mp h).1
    omega
  have h2 := emitPool_entry R [] es k es[k] (List.getElem?_eq_getElem hk)
  rw [h] at h2
  have he := Option.some.inj h2
  obtain ⟨pre, post, hs, hp⟩ :=
    layout_split (emitPool R [] es).Junk (emitPool R [] es).Entries (by omega) k e1 h
  have hd := emitPool_data R [] es
  simp only [List.nil_append] at hd
  have hlen : keyStart (emitPool R [] es).Junk (emitPool R [] es).Entries k < W32 := by
    have : (emitPool R [] es).Data.length = (pre ++ (e1.EncKey ++ (e1.Data ++ post))).length := by
      rw [hd, hs]
    simp only [List.length_append] at this
    omega
  rw [he]
  simp only [List.length_nil, Nat.zero_add]
  rw [toUnsigned, Nat.mod_eq_of_lt hlen]

/-- A byte vector that is the spec layout of records whose `Offset` is the start of their
key: each record is read back at its `Offset`, lies inside the vector, and ends before the
next one starts. -/
theorem layout_records (Data : List Nat) (Junk : List (List Nat)) (Entries : List CSPEntry)
    (hJE : Junk.length = Entries.length) (hD : Data = layout Junk Entries)
    (hoff : ∀ (k : Nat) (e : CSPEntry), Entries[k]? = some e → e.Offset = keyStart Junk Entries k) :
    (∀ (k : Nat) (Entry : CSPEntry), Entries[k]? = some Entry →
        Entry.Offset = keyStart Junk Entries k
        ∧ (Data.drop Entry.Offset).take Entry.EncKey.length = Entry.EncKey
        ∧ (Data.drop (Entry.Offset + Entry.EncKey.length)).take Entry.Data.length = Entry.Data
        ∧ Entry.Offset + Entry.EncKey.length + Entry.Data.length ≤ Data.length)
    ∧ (∀ (k l : Nat) (e f : CSPEntry), k < l → Entries[k]? = some e → Entries[l]? = some f →
        e.Offset + e.EncKey.length + e.Data.length ≤ f.Offset)
    ∧ (∀ (k l : Nat) (e f : CSPEntry) (x : Nat), k ≠ l →
        Entries[k]? = some e → Entries[l]? = some f →
          ¬ ((e.Offset ≤ x ∧ x < e.Offset + e.EncKey.length + e.Data.length)
              ∧ (f.Offset ≤ x ∧ x < f.Offset + f.EncKey.length + f.Data.length))) := by
  have hord : ∀ (k l : Nat) (e f : CSPEntry), k < l → Entries[k]? = some e →
      Entries[l]? = some f → e.Offset + e.EncKey.length + e.Data.length ≤ f.Offset := by
    intro k l e f hkl he hf
    have h1 := hoff k e he
    have h2 := hoff l f hf
    have hlt := (List.getElem?_eq_some_iff.mp hf).1
    have := keyStart_ordered Junk Entries hJE k l e he hkl hlt
    omega
  refine ⟨?_, hord, ?_⟩
  · intro k Entry h
    obtain ⟨pre, post, hs, hp⟩ := layout_split Junk Entries hJE k Entry h
    have ho := hoff k Entry h
    rw [← ho] at hp
    refine ⟨ho, ?_, ?_, ?_⟩
    · rw [hD, hs, ← hp]
      simp
    · rw [hD, hs, ← hp, ← List.append_assoc pre, List.drop_left']
      · simp
      · simp
    · rw [hD, hs, ← hp]
      simp only [List.length_append]
      omega
  · intro k l e f x hne he hf
    rcases Nat.lt_or_gt_of_ne hne with h | h
    · have := hord k l e f h he hf
      omega
    · have := hord l k f e h hf he
      omega

/-! ### Handles of the globals that string encryption creates -/

theorem encryptPool_companions (R : CryptoUtils) (es : List CSPEntry) :
    ∀ e ∈ (encryptPool R es).1, ∃ e0 ∈ es, e.DecGV = e0.DecGV ∧ e.DecStatus = e0.DecStatus := by
  induction es generalizing R with
  | nil => simp [encryptPool]
  | cons a es ih =>
    intro e he
    simp only [encryptPool, List.mem_cons] at he
    rcases he with he | he
    · subst he
      exact ⟨a, List.mem_cons_self _ _, rfl, rfl⟩
    · obtain ⟨e0, h0, h1⟩ := ih _ e he
      exact ⟨e0, List.mem_cons_of_mem _ h0, h1⟩

theorem buildDecryptFunctions_companions (es : List CSPEntry) (h : Nat) :
    ∀ e ∈ (buildDecryptFunctions es h).1,
      ∃ e0 ∈ es, e.DecGV = e0.DecGV ∧ e.DecStatus = e0.DecStatus := by
  induction es generalizing h with
  | nil => simp [buildDecryptFunctions]
  | cons a es ih =>
    intro e he
    simp only [buildDecryptFunctions, List.mem_cons] at he
    rcases he with he | he
    · subst he
      exact ⟨a, List.mem_cons_self _ _, rfl, rfl⟩
    · obtain ⟨e0, h0, h1⟩ := ih _ e he
      exact ⟨e0, List.mem_cons_of_mem _ h0, h1⟩

theorem emitPool_companions (R : CryptoUtils) (D : List Nat) (es : List CSPEntry) :
    ∀ e ∈ (emitPool R D es).Entries,
      ∃ e0 ∈ es, e.DecGV = e0.DecGV ∧ e.DecStatus = e0.DecStatus := by
  induction es generalizing R D with
  | nil => simp [emitPool]
  | cons a es ih =>
    intro e he
    simp only [emitPool, List.mem_cons] at he
    rcases he with he | he
    · subst he
      exact ⟨a, List.mem_cons_self _ _, rfl, rfl⟩
    · obtain ⟨e0, h0, h1⟩ := ih _ _ e he
      exact ⟨e0, List.mem_cons_of_mem _ h0, h1⟩

theorem buildDecryptFunctions_next (es : List CSPEntry) (h : Nat) :
    h ≤ (buildDecryptFunctions es h).2.2 := by
  induction es generalizing h with
  | nil => simp [buildDecryptFunctions]
  | cons a es ih =>
    simp only [buildDecryptFunctions]
    have := ih (h + 24)
    omega

mutual
theorem lowerGlobalConstant_next (CV : Constant) (Ptr : Value) (h : Nat) :
    h ≤ (lowerGlobalConstant CV Ptr h).2 := by
  cases CV with
  | AggregateZero ty => simp [lowerGlobalConstant]
  | Array elt ops =>
    rw [lowerGlobalConstant]
    exact lowerOperands_next ops _ Ptr 0 h
  | Struct name ops =>
    rw [lowerGlobalConstant]
    exact lowerOperands_next ops _ Ptr 0 h
  | Scalar ty v => simp [lowerGlobalConstant]
theorem lowerOperands_next (ops : ConstantList) (aggTy : Ty) (Ptr : Value) (i h : Nat) :
    h ≤ (lowerOperands ops aggTy Ptr i h).2 := by
  cases ops with
  | nil => simp [lowerOperands]
  | cons CV rest =>
    simp only [lowerOperands]
    exact Nat.le_trans (lowerGlobalConstant_next CV _ h)
      (lowerOperands_next rest aggTy Ptr (i + 1) _)
end

/-- The collecting loop hands out fresh handles: every global of the module, every key of
`CSPEntryMap` and every companion of an entry lies below the next unused handle. -/
theorem collectStrings_handles (l : List GlobalVariable) (c : Collected)
    (hl : ∀ GV ∈ l, GV.id < c.M.NextHandle)
    (hG : ∀ G ∈ c.M.Globals, G.id < c.M.NextHandle)
    (hK : ∀ p ∈ c.CSPEntryMap, p.1 < c.M.NextHandle)
    (hP : ∀ e ∈ c.ConstantStringPool, e.DecGV < c.M.NextHandle ∧ e.DecStatus < c.M.NextHandle) :
    (∀ G ∈ (collectStrings l c).M.Globals, G.id < (collectStrings l c).M.NextHandle)
    ∧ (∀ p ∈ (collectStrings l c).CSPEntryMap, p.1 < (collectStrings l c).M.NextHandle)
    ∧ (∀ e ∈ (collectStrings l c).ConstantStringPool,
        e.DecGV < (collectStrings l c).M.NextHandle
        ∧ e.DecStatus < (collectStrings l c).M.NextHandle) := by
  induction l generalizing c with
  | nil => exact ⟨hG, hK, hP⟩
  | cons GV rest ih =>
    have hGV := hl GV (List.mem_cons_self _ _)
    have hrest : ∀ G ∈ rest, G.id < c.M.NextHandle :=
      fun G h => hl G (List.mem_cons_of_mem _ h)
    unfold collectStrings
    split
    · exact ih c hrest hG hK hP
    · split
      · exact ih c hrest hG hK hP
      · split
        · apply ih
          · intro G h
            have := hrest G h
            simp only
            omega
          · intro G h
            simp only [List.mem_append, List.mem_cons, List.mem_singleton,
              List.not_mem_nil, or_false] at h
            simp only
            rcases h with h | h | h
            · have := hG G h
              omega
            · rw [h]
              simp only
              omega
            · rw [h]
              simp only
              omega
          · intro p h
            simp only [List.mem_append, List.mem_singleton] at h
            simp only
            rcases h with h | h
            · have := hK p h
              omega
            · rw [h]
              simp only
              omega
          · intro e h
            simp only [List.mem_append, List.mem_singleton] at h
            simp only
            rcases h with h | h
            · have := hP e h
              omega
            · rw [h]
              simp only
              omega
        · exact ih c hrest hG hK hP

/-- The loop over the string users hands out fresh handles. -/
theorem buildUsers_handles (l : List Nat) (M : Module) (Map : List (Nat × CSUser))
    (hG : ∀ G ∈ M.Globals, G.id < M.NextHandle) (hK : ∀ p ∈ Map, p.1 < M.NextHandle) :
    (∀ G ∈ (buildUsers l M Map).1.Globals, G.id < (buildUsers l M Map).1.NextHandle)
    ∧ (∀ p ∈ (buildUsers l M Map).2, p.1 < (buildUsers l M Map).1.NextHandle)
    ∧ M.NextHandle ≤ (buildUsers l M Map).1.NextHandle := by
  induction l generalizing M Map with
  | nil => exact ⟨hG, hK, Nat.le_refl _⟩
  | cons g rest ih =>
    unfold buildUsers
    split
    · exact ih M Map hG hK
    · rename_i GV hGV
      have hmem : GV ∈ M.Globals := List.mem_of_find?_eq_some hGV
      have hid := hG GV hmem
      split
      · simp only
        have hlast := lowerGlobalConstant_next GV.getInitializer (Value.Global M.NextHandle)
          (M.NextHandle + 13)
        generalize (lowerGlobalConstant GV.getInitializer (Value.Global M.NextHandle)
          (M.NextHandle + 13)).2 = last at hlast ⊢
        generalize (if isObjCSelectorPtr GV = true then getOrInsertSelRegisterName M (last + 1)
          else (0, [])) = s
        have key := ih
          { Functions := M.Functions ++ [buildInitFunction (M.NextHandle + 2) s.1
                { GV := GV.id, GVName := GV.Name, Initializer := GV.getInitializer,
                  isObjCSelectorPtr := isObjCSelectorPtr GV, DecGV := M.NextHandle,
                  DecStatus := M.NextHandle + 1, InitFunc := M.NextHandle + 2 }] ++ s.2,
            Globals := M.Globals ++
              [{ id := M.NextHandle, Name := "dec_" ++ GV.Name, isConstant := false,
                 Init := [Value.AggregateZero GV.ValueTy], Linkage := Linkage.Private,
                 Alignment := GV.Alignment, ValueTy := GV.ValueTy },
               { id := M.NextHandle + 1, Name := "dec_status_" ++ GV.Name, isConstant := false,
                 Init := [Value.ConstantInt 32 0], Linkage := Linkage.Private,
                 ValueTy := Ty.Int 32 }],
            NextHandle := last + 1 + s.2.length }
          (Map ++ [(GV.id,
                { GV := GV.id, GVName := GV.Name, Initializer := GV.getInitializer,
                  isObjCSelectorPtr := isObjCSelectorPtr GV, DecGV := M.NextHandle,
                  DecStatus := M.NextHandle + 1, InitFunc := M.NextHandle + 2 })])
          (by
            intro G h
            simp only [List.mem_append, List.mem_cons, List.mem_singleton,
              List.not_mem_nil, or_false] at h
            simp only
            rcases h with h | h | h
            · have := hG G h
              omega
            · rw [h]
              simp only
              omega
            · rw [h]
              simp only
              omega)
          (by
            intro p h
            simp only [List.mem_append, List.mem_singleton] at h
            simp only
            rcases h with h | h
            · have := hK p h
              omega
            · rw [h]
              simp only
              omega)
        refine ⟨key.1, key.2.1, ?_⟩
        have := key.2.2
        simp only at this
        omega
      · exact ih M Map hG hK
/-! ### What the use walk enters in `MaybeDeadGlobalVars` -/

theorem mem_of_lookup {β : Type} (l : List (Nat × β)) (a : Nat) (b : β)
    (h : l.lookup a = some b) : (a, b) ∈ l := by
  induction l with
  | nil => simp at h
  | cons p l ih =>
    obtain ⟨k, v⟩ := p
    rw [List.lookup_cons] at h
    split at h
    · rename_i hk
      simp only [Option.some.injEq] at h
      have : a = k := by simpa using hk
      rw [this, h]
      exact List.mem_cons_self _ _
    · exact List.mem_cons_of_mem _ (ih h)

/-- A global for which the walk has a call to insert is a key of one of the two maps. -/
theorem useCall_keys (P : StringEncryption) (g : Nat) (h : (useCall P g).isSome = true) :
    (∃ U, (g, U) ∈ P.CSUserMap) ∨ (∃ k, (g, k) ∈ P.CSPEntryMap) := by
  unfold useCall at h
  split at h
  · rename_i U hU
    exact Or.inl ⟨U, mem_of_lookup _ _ _ hU⟩
  · split at h
    · rename_i E hE
      unfold StringEncryption.entryOf at hE
      split at hE
      · rename_i k hk
        exact Or.inr ⟨k, mem_of_lookup _ _ _ hk⟩
      · cases hE
    · cases h

theorem setInsert_mem (s : List Nat) (x g : Nat) (h : g ∈ setInsert s x) : g ∈ s ∨ g = x := by
  unfold setInsert at h
  split at h
  · exact Or.inl h
  · simpa using h

theorem visitOperand_dead (P : StringEncryption) (bb p g : Nat) (W : UseWalk)
    (r : UseWalk × Nat) (Q : Nat → Prop)
    (hQ : ∀ x, (useCall P x).isSome = true → Q x)
    (hW : ∀ x ∈ W.MaybeDeadGlobalVars, Q x) (h : visitOperand P bb p g W = some r) :
    ∀ x ∈ r.1.MaybeDeadGlobalVars, Q x := by
  unfold visitOperand at h
  split at h
  · cases h
    exact hW
  · rename_i mk DecGV hu
    have hg : Q g := hQ g (by rw [hu]; rfl)
    split at h
    · split at h
      · cases h
      · cases h
        exact hW
    · split at h
      · cases h
      · split at h
        · cases h
        · simp only at h
          split at h
          · cases h
          · cases h
            intro x hx
            rcases setInsert_mem _ _ _ hx with hx | hx
            · exact hW x hx
            · rw [hx]
              exact hg

theorem visitIncoming_dead (P : StringEncryption) (bb p g pred : Nat) (W r : UseWalk)
    (Q : Nat → Prop) (hQ : ∀ x, (useCall P x).isSome = true → Q x)
    (hW : ∀ x ∈ W.MaybeDeadGlobalVars, Q x) (h : visitIncoming P bb p g pred W = some r) :
    ∀ x ∈ r.MaybeDeadGlobalVars, Q x := by
  unfold visitIncoming at h
  split at h
  · cases h
    exact hW
  · rename_i mk DecGV hu
    have hg : Q g := hQ g (by rw [hu]; rfl)
    split at h
    · split at h
      · cases h
      · cases h
        exact hW
    · split at h
      · cases h
      · split at h
        · cases h
        · split at h
          · simp only at h
            split at h
            · cases h
            · cases h
              intro x hx
              rcases setInsert_mem _ _ _ hx with hx | hx
              · exact hW x hx
              · rw [hx]
                exact hg
          · cases h

theorem phiLoop_dead (P : StringEncryption) (bb p : Nat) (Q : Nat → Prop)
    (hQ : ∀ x, (useCall P x).isSome = true → Q x) :
    ∀ (n i : Nat) (W r : UseWalk), (∀ x ∈ W.MaybeDeadGlobalVars, Q x) →
      phiLoop P bb p n i W = some r → ∀ x ∈ r.MaybeDeadGlobalVars, Q x := by
  intro n
  induction n with
  | zero =>
    intro i W r hW h
    simp only [phiLoop, Option.some.injEq] at h
    rw [← h]
    exact hW
  | succ n ih =>
    intro i W r hW h
    unfold phiLoop at h
    split at h
    · cases h
    · split at h
      · cases h
      · split at h
        · split at h
          · split at h
            · cases h
            · rename_i W1 h1
              exact ih _ W1 r (visitIncoming_dead P bb p _ _ W W1 Q hQ hW h1) h
          · exact ih _ W r hW h
        · cases h

theorem operandLoop_dead (P : StringEncryption) (bb : Nat) (Q : Nat → Prop)
    (hQ : ∀ x, (useCall P x).isSome = true → Q x) :
    ∀ (n k p : Nat) (W : UseWalk) (r : UseWalk × Nat), (∀ x ∈ W.MaybeDeadGlobalVars, Q x) →
      operandLoop P bb n k p W = some r → ∀ x ∈ r.1.MaybeDeadGlobalVars, Q x := by
  intro n
  induction n with
  | zero =>
    intro k p W r hW h
    simp only [operandLoop, Option.some.injEq] at h
    rw [← h]
    exact hW
  | succ n ih =>
    intro k p W r hW h
    unfold operandLoop at h
    split at h
    · cases h
    · split at h
      · cases h
      · split at h
        · split at h
          · cases h
          · rename_i W1 p1 h1
            exact ih _ p1 W1 r (visitOperand_dead P bb _ _ W (W1, p1) Q hQ hW h1) h
        · exact ih _ _ W r hW h

theorem instLoop_dead (P : StringEncryption) (bb : Nat) (Q : Nat → Prop)
    (hQ : ∀ x, (useCall P x).isSome = true → Q x) :
    ∀ (fuel p : Nat) (W r : UseWalk), (∀ x ∈ W.MaybeDeadGlobalVars, Q x) →
      instLoop P bb fuel p W = some r → ∀ x ∈ r.MaybeDeadGlobalVars, Q x := by
  intro fuel
  induction fuel with
  | zero =>
    intro p W r hW h
    simp [instLoop] at h
  | succ fuel ih =>
    intro p W r hW h
    unfold instLoop at h
    split at h
    · cases h
    · split at h
      · cases h
        exact hW
      · split at h
        · split at h
          · cases h
          · rename_i W1 h1
            exact ih _ W1 r (phiLoop_dead P bb p Q hQ _ _ W W1 hW h1) h
        · split at h
          · cases h
          · rename_i W1 p1 h1
            exact ih _ W1 r (operandLoop_dead P bb Q hQ _ _ _ W (W1, p1) hW h1) h

theorem blockLoop_dead (P : StringEncryption) (fuel : Nat) (Q : Nat → Prop)
    (hQ : ∀ x, (useCall P x).isSome = true → Q x) :
    ∀ (l : List Nat) (W r : UseWalk), (∀ x ∈ W.MaybeDeadGlobalVars, Q x) →
      blockLoop P fuel l W = some r → ∀ x ∈ r.MaybeDeadGlobalVars, Q x := by
  intro l
  induction l with
  | nil =>
    intro W r hW h
    simp only [blockLoop, Option.some.injEq] at h
    rw [← h]
    exact hW
  | cons bb rest ih =>
    intro W r hW h
    unfold blockLoop at h
    split at h
    · cases h
    · rename_i W1 h1
      exact ih W1 r (instLoop_dead P bb Q hQ _ _ { W with DecryptedGV := [] } W1 hW h1) h

/-- `processConstantStringUse` changes no field of the pass but `MaybeDeadGlobalVars`, and
enters there only globals for which it has a call to insert. -/
theorem processConstantStringUse_fields (toObfuscate : Function → Bool)
    (Options : Option (String → Bool)) (LowerConstantExpr : Nat → Function → Function × Nat)
    (fuel : Nat) (P : StringEncryption) (h : Nat) (F : Function)
    (r : Function × StringEncryption × Nat × Bool) (Q : Nat → Prop)
    (hQ : ∀ x, (useCall P x).isSome = true → Q x)
    (hD : ∀ x ∈ P.MaybeDeadGlobalVars, Q x)
    (hr : processConstantStringUse toObfuscate Options LowerConstantExpr fuel P h F = some r) :
    r.2.1 = { P with MaybeDeadGlobalVars := r.2.1.MaybeDeadGlobalVars }
      ∧ ∀ x ∈ r.2.1.MaybeDeadGlobalVars, Q x := by
  unfold processConstantStringUse at hr
  split at hr
  · cases hr
    exact ⟨rfl, hD⟩
  · split at hr
    · cases hr
      exact ⟨rfl, hD⟩
    · simp only at hr
      split at hr
      · cases hr
      · rename_i W hW
        cases hr
        exact ⟨rfl, blockLoop_dead P fuel Q hQ _ _ W hD hW⟩

theorem processFunctions_fields (toObfuscate : Function → Bool)
    (Options : Option (String → Bool)) (LowerConstantExpr : Nat → Function → Function × Nat)
    (fuel : Nat) (Q : Nat → Prop) (l : List Nat) (M : Module) (P : StringEncryption) (c : Bool)
    (r : Module × StringEncryption × Bool)
    (hQ : ∀ x, (useCall P x).isSome = true → Q x)
    (hD : ∀ x ∈ P.MaybeDeadGlobalVars, Q x)
    (hr : processFunctions toObfuscate Options LowerConstantExpr fuel l M P c = some r) :
    r.1.Globals = M.Globals
      ∧ r.2.1 = { P with MaybeDeadGlobalVars := r.2.1.MaybeDeadGlobalVars }
      ∧ ∀ x ∈ r.2.1.MaybeDeadGlobalVars, Q x := by
  induction l generalizing M P c with
  | nil =>
    simp only [processFunctions, Option.some.injEq] at hr
    subst hr
    exact ⟨rfl, rfl, hD⟩
  | cons f rest ih =>
    unfold processFunctions at hr
    split at hr
    · cases hr
    · split at hr
      · cases hr
      · rename_i F1 P1 h1 c1 hp
        obtain ⟨e1, d1⟩ := processConstantStringUse_fields _ _ _ _ _ _ _ _ Q hQ hD hp
        simp only at e1 d1
        have hQ1 : ∀ x, (useCall P1 x).isSome = true → Q x := by
          intro x hx
          apply hQ x
          rw [e1] at hx
          exact hx
        obtain ⟨g2, e2, d2⟩ := ih _ _ _ hQ1 d1 hr
        refine ⟨?_, ?_, d2⟩
        · rw [g2]
          rfl
        · refine Eq.trans e2 ?_
          rw [e1]

/-! ### What the clean-up keeps -/

theorem deleteSweep_keeps (T : GlobalVariable) (l : List Nat) (M : Module) (kept : List Nat)
    (c : Bool) (hT : T ∈ M.Globals) (hl : T.id ∉ l) (hk : T.id ∉ kept) :
    T ∈ (deleteSweep l M kept c).1.Globals ∧ T.id ∉ (deleteSweep l M kept c).2.1 := by
  induction l generalizing M kept c with
  | nil => exact ⟨hT, hk⟩
  | cons g rest ih =>
    have hg : T.id ≠ g := fun e => hl (e ▸ List.mem_cons_self _ _)
    have hrest : T.id ∉ rest := fun e => hl (List.mem_cons_of_mem _ e)
    have hk2 : T.id ∉ kept ++ [g] := by
      simp only [List.mem_append, List.mem_singleton, not_or]
      exact ⟨hk, hg⟩
    unfold deleteSweep
    split
    · exact ih M _ c hT hrest hk2
    · split
      · exact ih M _ c hT hrest hk2
      · split
        · refine ih _ kept true ?_ hrest hk
          simp only [List.mem_filter]
          exact ⟨hT, by simpa using hg⟩
        · exact ih M _ c hT hrest hk2

theorem deleteSweep_sub (l : List Nat) (M : Module) (kept : List Nat) (c : Bool) :
    ∀ G ∈ (deleteSweep l M kept c).1.Globals, G ∈ M.Globals := by
  induction l generalizing M kept c with
  | nil => exact fun G h => h
  | cons g rest ih =>
    unfold deleteSweep
    split
    · exact ih M _ c
    · split
      · exact ih M _ c
      · split
        · intro G h
          exact (List.mem_filter.mp (ih _ kept true G h)).1
        · exact ih M _ c

theorem deleteLoop_keeps (T : GlobalVariable) (n : Nat) (M : Module) (D : List Nat)
    (hT : T ∈ M.Globals) (hD : T.id ∉ D) : T ∈ (deleteLoop n M D).1.Globals := by
  induction n generalizing M D with
  | zero => exact hT
  | succ n ih =>
    obtain ⟨h1, h2⟩ := deleteSweep_keeps T D M [] false hT hD (by simp)
    unfold deleteLoop
    simp only
    split
    · exact ih _ _ h1 h2
    · exact h1

theorem deleteLoop_sub (n : Nat) (M : Module) (D : List Nat) :
    ∀ G ∈ (deleteLoop n M D).1.Globals, G ∈ M.Globals := by
  induction n generalizing M D with
  | zero => exact fun G h => h
  | succ n ih =>
    unfold deleteLoop
    simp only
    split
    · intro G h
      exact deleteSweep_sub D M [] false G (ih _ _ G h)
    · exact deleteSweep_sub D M [] false

theorem eraseUnusedEntries_keeps (T : GlobalVariable) (es : List CSPEntry) (M : Module)
    (hT : T ∈ M.Globals) (hes : ∀ e ∈ es, T.id ≠ e.DecGV ∧ T.id ≠ e.DecStatus) :
    T ∈ (eraseUnusedEntries es M).Globals := by
  induction es generalizing M with
  | nil => exact hT
  | cons e rest ih =>
    have he := hes e (List.mem_cons_self _ _)
    have hrest : ∀ x ∈ rest, T.id ≠ x.DecGV ∧ T.id ≠ x.DecStatus :=
      fun x hx => hes x (List.mem_cons_of_mem _ hx)
    unfold eraseUnusedEntries
    split
    · refine ih _ ?_ hrest
      simp only [List.mem_filter]
      exact ⟨hT, by simpa using he⟩
    · exact ih M hT hrest

theorem eraseUnusedEntries_sub (es : List CSPEntry) (M : Module) :
    ∀ G ∈ (eraseUnusedEntries es M).Globals, G ∈ M.Globals := by
  induction es generalizing M with
  | nil => exact fun G h => h
  | cons e rest ih =>
    unfold eraseUnusedEntries
    split
    · intro G h
      exact (List.mem_filter.mp (ih _ G h)).1
    · exact ih M
/-! ### The pool that `run` emits -/

theorem buildDecryptFunctions_length (es : List CSPEntry) (h : Nat) :
    (buildDecryptFunctions es h).1.length = es.length := by
  induction es generalizing h with
  | nil => rfl
  | cons a es ih => simp [buildDecryptFunctions, ih]

theorem buildDecryptFunctions_entry (es : List CSPEntry) (h k : Nat) (e : CSPEntry)
    (hk : es[k]? = some e) :
    ∃ f, (buildDecryptFunctions es h).1[k]? = some { e with DecFunc := f } := by
  induction es generalizing h k with
  | nil => simp at hk
  | cons a es ih =>
    cases k with
    | zero =>
      simp only [List.getElem?_cons_zero, Option.some.injEq] at hk
      subst hk
      exact ⟨h, by simp [buildDecryptFunctions]⟩
    | succ k =>
      simp only [List.getElem?_cons_succ] at hk
      obtain ⟨f, hf⟩ := ih (h + 24) k hk
      exact ⟨f, by simpa [buildDecryptFunctions] using hf⟩

/-- C9 (pool layout). Whenever `StringEncryption::run` returns (on a module whose globals
have handles below the next unused one), the module it leaves holds the global
`EncryptedStringTable` that `run` created: a private constant of type `[n x i8]`, the only
global with the handle that the pass keeps for it, whose initializer holds exactly the
concatenation, in `ConstantStringPool` order, of `junk_k ++ EncKey_k ++ ciphertext_k`, where
entry `k` of the pool stems from the `k`-th collected string (same `ID`, its `Data` the
encryption of the collected bytes under its `EncKey`) and each junk run has 16 to 31 bytes.
When the table has fewer than `2 ^ 32` bytes (the range of the `unsigned` field `Offset`),
each entry's `Offset` is the total length of everything emitted before its key, so the key
starts at `pool[Offset]` with the ciphertext right behind it; each record range
`[Offset, Offset + keySize + dataLen)` lies inside the table; and the ranges of distinct
entries are disjoint (an earlier record ends before a later one starts). -/
theorem pool_layout (toObfuscate : Function → Bool) (Options : Option (String → Bool))
    (LowerConstantExpr : Nat → Function → Function × Nat) (fuel : Nat)
    (IPO : IPObfuscationContext) (M : Module)
    (r : Module × CryptoUtils × StringEncryption × PreservedAnalyses)
    (hfresh : ∀ G ∈ M.Globals, G.id < M.NextHandle)
    (hrun : StringEncryption.run toObfuscate Options LowerConstantExpr fuel IPO M = some r) :
    ∃ (Table : GlobalVariable) (Junk : List (List Nat)),
      Table ∈ r.1.Globals
      ∧ (∀ G ∈ r.1.Globals, G.id = Table.id → G = Table)
      ∧ Table.id = r.2.2.1.EncryptedStringTable
      ∧ Table.Name = "EncryptedStringTable"
      ∧ Table.isConstant = true
      ∧ Table.Linkage = Linkage.Private
      ∧ Table.ValueTy = Ty.Array Table.bytes.length (Ty.Int 8)
      ∧ r.2.2.1.TableTy = Table.ValueTy
      ∧ Junk.length = r.2.2.1.ConstantStringPool.length
      ∧ Table.bytes = layout Junk r.2.2.1.ConstantStringPool
      ∧ (∀ j ∈ Junk, 16 ≤ j.length ∧ j.length ≤ 31)
      ∧ r.2.2.1.ConstantStringPool.length
          = (collectStrings M.Globals
              { M := M, ConstantStringPool := [], CSPEntryMap := [],
                ConstantStringUsers := [] }).ConstantStringPool.length
      ∧ (∀ (k : Nat) (plain : CSPEntry),
          (collectStrings M.Globals
              { M := M, ConstantStringPool := [], CSPEntryMap := [],
                ConstantStringUsers := [] }).ConstantStringPool[k]? = some plain →
          ∃ Entry, r.2.2.1.ConstantStringPool[k]? = some Entry ∧ Entry.ID = plain.ID
            ∧ Entry.Data = encryptData Entry.EncKey plain.Data)
      ∧ (Table.bytes.length < W32 →
          (∀ (k : Nat) (Entry : CSPEntry), r.2.2.1.ConstantStringPool[k]? = some Entry →
            Entry.Offset = keyStart Junk r.2.2.1.ConstantStringPool k
            ∧ (Table.bytes.drop Entry.Offset).take Entry.EncKey.length = Entry.EncKey
            ∧ (Table.bytes.drop (Entry.Offset + Entry.EncKey.length)).take Entry.Data.length
                = Entry.Data
            ∧ Entry.Offset + Entry.EncKey.length + Entry.Data.length ≤ Table.bytes.length)
          ∧ (∀ (k l : Nat) (e f : CSPEntry), k < l →
              r.2.2.1.ConstantStringPool[k]? = some e →
              r.2.2.1.ConstantStringPool[l]? = some f →
                e.Offset + e.EncKey.length + e.Data.length ≤ f.Offset)
          ∧ (∀ (k l : Nat) (e f : CSPEntry) (x : Nat), k ≠ l →
              r.2.2.1.ConstantStringPool[k]? = some e →
              r.2.2.1.ConstantStringPool[l]? = some f →
                ¬ ((e.Offset ≤ x ∧ x < e.Offset + e.EncKey.length + e.Data.length)
                    ∧ (f.Offset ≤ x ∧ x < f.Offset + f.EncKey.length + f.Data.length)))) := by
  unfold StringEncryption.run at hrun
  simp only at hrun
  have hc := collectStrings_handles M.Globals
    { M := M, ConstantStringPool := [], CSPEntryMap := [], ConstantStringUsers := [] }
    hfresh hfresh (by simp) (by simp)
  generalize collectStrings M.Globals
    { M := M, ConstantStringPool := [], CSPEntryMap := [], ConstantStringUsers := [] } = c
    at hrun hc ⊢
  obtain ⟨hcG, hcK, hcP⟩ := hc
  have hen := encryptPool_companions IPO.RandomEngine c.ConstantStringPool
  have hei := encryptPool_entry IPO.RandomEngine c.ConstantStringPool
  have hel := encryptPool_length IPO.RandomEngine c.ConstantStringPool
  generalize encryptPool IPO.RandomEngine c.ConstantStringPool = e at hrun hen hei hel
  have hdn := buildDecryptFunctions_companions e.1 c.M.NextHandle
  have hdx := buildDecryptFunctions_next e.1 c.M.NextHandle
  have hdi := buildDecryptFunctions_entry e.1 c.M.NextHandle
  have hdl := buildDecryptFunctions_length e.1 c.M.NextHandle
  generalize buildDecryptFunctions e.1 c.M.NextHandle = d at hrun hdn hdx hdi hdl
  have hu := buildUsers_handles c.ConstantStringUsers
    { Functions := c.M.Functions ++ d.2.1, Globals := c.M.Globals, NextHandle := d.2.2 } []
    (by
      intro G h
      have := hcG G h
      simp only
      omega)
    (by simp)
  generalize buildUsers c.ConstantStringUsers
    { Functions := c.M.Functions ++ d.2.1, Globals := c.M.Globals, NextHandle := d.2.2 } [] = u
    at hrun hu
  obtain ⟨huG, huK, huN⟩ := hu
  simp only at huN
  have hsl := emitPool_lengths e.2 [] d.1
  have hsd := emitPool_data e.2 [] d.1
  have hsj := emitPool_junk e.2 [] d.1
  have hsc := emitPool_companions e.2 [] d.1
  have hso := emitPool_offset e.2 d.1
  have hsi := emitPool_entry e.2 [] d.1
  generalize emitPool e.2 [] d.1 = s at hrun hsl hsd hsj hsc hso hsi
  simp only [List.nil_append] at hsd
  obtain ⟨hTid, hTname, hTconst, hTlink, hTty⟩ := encryptedStringTable_header u.1.NextHandle s.Data
  have hTbytes := encryptedStringTable_bytes u.1.NextHandle s.Data
  generalize encryptedStringTable u.1.NextHandle s.Data = Table
    at hrun hTid hTname hTconst hTlink hTty hTbytes
  have hbound : c.M.NextHandle ≤ Table.id := by omega
  have hQ : ∀ x, (useCall
      { ConstantStringPool := s.Entries, CSPEntryMap := c.CSPEntryMap, CSUserMap := u.2,
        MaybeDeadGlobalVars := [], EncryptedStringTable := Table.id,
        TableTy := Table.ValueTy } x).isSome = true → x < Table.id := by
    intro x hx
    rcases useCall_keys _ x hx with ⟨U, hU⟩ | ⟨k, hk⟩
    · have := huK _ hU
      simp only at this
      omega
    · have := hcK _ hk
      simp only at this
      omega
  split at hrun
  · cases hrun
  · rename_i M3 P3 C3 h3
    split at hrun
    · cases hrun
    · rename_i M4 P4 C4 h4
      simp only [Option.some.injEq] at hrun
      subst hrun
      obtain ⟨g3, e3, d3⟩ := processFunctions_fields _ _ _ _ (fun x => x < Table.id) _ _ _ _ _
        hQ (by simp) h3
      simp only at g3 e3 d3
      have hQ3 : ∀ x, (useCall P3 x).isSome = true → x < Table.id := by
        intro x hx
        apply hQ x
        rw [e3] at hx
        exact hx
      obtain ⟨g4, e4, d4⟩ := processFunctions_fields _ _ _ _ (fun x => x < Table.id) _ _ _ _ _
        hQ3 d3 h4
      simp only at g4 e4 d4
      have hpool : P4.ConstantStringPool = s.Entries := by
        have h1 := congrArg StringEncryption.ConstantStringPool e4
        have h2 := congrArg StringEncryption.ConstantStringPool e3
        simp only at h1 h2
        rw [h1, h2]
      have htab : P4.EncryptedStringTable = Table.id := by
        have h1 := congrArg StringEncryption.EncryptedStringTable e4
        have h2 := congrArg StringEncryption.EncryptedStringTable e3
        simp only at h1 h2
        rw [h1, h2]
      have htty : P4.TableTy = Table.ValueTy := by
        have h1 := congrArg StringEncryption.TableTy e4
        have h2 := congrArg StringEncryption.TableTy e3
        simp only at h1 h2
        rw [h1, h2]
      have hglob : M4.Globals = u.1.Globals ++ [Table] := by rw [g4, g3]
      have hT4 : Table ∈ M4.Globals := by
        rw [hglob]
        simp
      have hdead : Table.id ∉ P4.MaybeDeadGlobalVars := by
        intro hin
        have := d4 _ hin
        omega
      have hcomp : ∀ x ∈ P4.ConstantStringPool, Table.id ≠ x.DecGV ∧ Table.id ≠ x.DecStatus := by
        intro x hx
        rw [hpool] at hx
        obtain ⟨x1, hx1, a1, b1⟩ := hsc x hx
        obtain ⟨x2, hx2, a2, b2⟩ := hdn x1 hx1
        obtain ⟨x3, hx3, a3, b3⟩ := hen x2 hx2
        have := hcP x3 hx3
        omega
      have huniq : ∀ G ∈ M4.Globals, G.id = Table.id → G = Table := by
        intro G hG hid
        rw [hglob] at hG
        simp only [List.mem_append, List.mem_singleton] at hG
        rcases hG with hG | hG
        · have := huG G hG
          omega
        · exact hG
      simp only
      rw [hpool, htab, htty]
      refine ⟨Table, s.Junk, ?_, ?_, rfl, hTname, hTconst, hTlink, ?_, rfl, by omega, ?_,
        fun j hj => hsj j hj, by omega, ?_, ?_⟩
      · apply eraseUnusedEntries_keeps _ _ _ _ (by rw [hpool] at hcomp; exact hcomp)
        exact deleteLoop_keeps Table _ M4 _ hT4 hdead
      · intro G hG hid
        apply huniq G _ hid
        exact deleteLoop_sub _ M4 _ G (eraseUnusedEntries_sub _ _ G hG)
      · rw [hTty, hTbytes]
      · rw [hTbytes, hsd]
      · intro k plain hk
        obtain ⟨e1, h1, -, hdat, hid, -⟩ := hei k plain hk
        obtain ⟨f, hf⟩ := hdi k e1 h1
        have h2 := hsi k _ hf
        exact ⟨_, h2, hid, hdat⟩
      · intro hfit
        rw [hTbytes] at hfit ⊢
        exact layout_records s.Data s.Junk s.Entries (by omega) hsd
          (fun k e1 h1 => hso hfit k e1 h1)

theorem pool_layout_witness :
    (∀ G ∈ sampleStringModule.Globals, G.id < sampleStringModule.NextHandle)
    ∧ ∃ r, StringEncryption.run (fun _ => true) none (fun h F => (F, h)) 16 sampleContext
          sampleStringModule = some r
      ∧ ∃ (Table : GlobalVariable) (Junk : List (List Nat)),
          Table ∈ r.1.Globals
          ∧ Table.Name = "EncryptedStringTable"
          ∧ Table.bytes = layout Junk r.2.2.1.ConstantStringPool
          ∧ (∀ j ∈ Junk, 16 ≤ j.length ∧ j.length ≤ 31) :=
  ⟨by decide, _, rfl,
    (pool_layout (fun _ => true) none (fun h F => (F, h)) 16 sampleContext sampleStringModule _
      (by decide) rfl).imp
      (fun _ h => h.imp (fun _ h => ⟨h.1, h.2.2.2.1, h.2.2.2.2.2.2.2.2.2.1,
        h.2.2.2.2.2.2.2.2.2.2.1⟩))⟩

end Obfuscator
